import Mathlib

/-!
# megadepth: coverage, alternate bases and junctions

A shallow embedding of functions of `megadepth.cpp` (`print_array`, `calculate_coverage`,
`sum_annotations`, `process_bigwig`, `parse_mdz`, `polya_check`, `output_from_cigar_mdz`,
`output_from_cigar`, `process_cigar`, `extract_junction`, `read_annotation`,
`output_all_coverage_ordered_by_BED`, `get_file_format_extension`, `main`, the options and
the loop body of `go_bam`, `read_bam_records`, `process_bigwig_worker`) and theorems about
them.

Conventions of the embedding.

* A `uint32_t` coverage array handed to `print_array` or `sum_annotations`
  is a `List Nat`; inside `calculate_coverage`, which writes cells by index,
  it is a map `Nat → Nat` from the index to the cell (the size of the
  allocation is not part of the embedding).
* A coverage cell is incremented and decremented in 32-bit arithmetic
  (`inc32`, `dec32`).
* Reference positions and CIGAR lengths are natural numbers: the `int32_t`
  sums `pos + len` of the source are taken without overflow, as they are for
  positions on a BAM contig.
* A CIGAR is the list of its 32-bit words (`len << 4 | op`).
* The cursor `mspans_idx` into the array `mspans` is held as the list of the
  spans from that index on.  The one read of `mspans[mspans_idx]` that the
  source does not guard (line 751, and 803 in the second branch) falls
  behind the array when the spans are exhausted, and the source dies on it:
  the embedding raises the flag `oob`, and a result with `oob` set stands
  for a call that does not return.  What the arrays hold is stated for calls
  without `oob`, or for every value `junk` of the word read.  Each span is a
  pair; the allocation `new int32_t(2)` behind it is not part of the
  embedding.
* In `sum_annotations` and `process_bigwig` a failed assertion or a read
  outside an array ends the computation: these functions return an `Option`.
* The values of type `float` and `double` of `process_bigwig` are rational
  numbers.  An operation of type `double` is the exact operation followed by
  the rounding to 53 significant bits, ties to even (`double_of_frac`); the
  range of the exponent is not part of the embedding (sums of fewer than 2^63
  values of type `float`, and their means, do not leave it), and neither are
  infinities and values that are not numbers.  Region coordinates are integers.
* A run of `print_array` is a triple `(start, stop, value)`.
  `float running_value` holds the value of a cell converted to single
  precision: `float_of_uint32`.  The 64-bit accumulator `auc` is a natural
  number.
* An MD:Z string is the list of its characters up to the terminator.  The
  field `str` of an `MdzOp` is the string held in the buffer `char str[1024]`.
  `parse_mdz` computes `int run` on 32 bits in two's complement, and a write
  outside `str` ends its call as `overrun`.
* The bases and the qualities of a read are maps from the query offset to the
  4-bit code and to the quality byte.
* `parse_mdz` and the two functions that write the alts file return an
  `Outcome`: the result, or the fact that a `std::runtime_error` was thrown,
  that an `assert` failed (assertions are taken as compiled in), or that a
  write fell outside a buffer.  The lines written before a failure are not
  kept.
* The counters of `polya_check` have the type `char`, taken as signed 8-bit
  integers.
* The counter `*base` of `extract_junction` is a `uint32_t`: sums are taken
  modulo `2 ^ 32`.
* The command line is the list of its arguments.  The null pointer that ends
  the arguments, and what lies behind it, is `none`.  The names of the output
  files are not part of the embedding.
* A file name handed to the format detection is the list of its characters;
  a read in front of a name shorter than the suffix it is compared with
  falls into the bytes `before` the name.
* A map keyed by a name (`annotation_map_t`, `frag_mates`, `jx_pairs`,
  `jx_counts`) is the list of its keys with their values, each key once: a
  lookup is `List.lookup`, an assignment erases the key and puts the new
  entry, `erase` filters the key out.  The region index keeps its keys in the
  order of their insertion; `output_missing_annotations`, which the source
  runs over the hash map, takes them in that order, and no other function of
  the embedding depends on it.
* The BED file is the list of the columns of its lines as `strtok` and
  `atol` deliver them.
* The map `frag_dist` is a function from the length to its 32-bit count.
* Text written to a file or held in a string buffer is a list of characters.
  The buffer `cigar_str` of `go_bam` has 10000 bytes: `process_cigar_cap` is
  `process_cigar` on a buffer of a given size.
* The reader thread and the loop of `go_bam` are a transition system: a state
  holds the file, the pool, the queue and the place of each thread, a step
  of either thread is atomic, a schedule is the list of the threads that
  step (`true` for the reader), and `size_approx` is the length of the queue.
* One iteration of the loop of `go_bam` is a function of the variables the
  loop changes (`LoopState`) and of the record, with an `Outcome` for the
  exceptions and assertions of the blocks it calls.  A file is the list of
  what was written to it; what goes to standard output is kept by kind (the
  runs of `print_array`, the lines of `--ends`, the echoed records).  The
  arrays of `go_bam` are maps from the index to the cell, and `reset_array`
  zeroes the cells below its size argument; the 64-bit totals are natural
  numbers.
* A BigWig file is the list of its contigs, each with its intervals.  The map
  `store_local` of a worker is the list of its keys with their arrays; the
  null pointer found under a missing key is `none`.
-/

namespace Megadepth

/-! ## Single precision values of 32-bit counters -/

/-- Number of low bits dropped when a value below `2 ^ 32` is stored in the 24-bit
significand of a `float`: the least `s` with `x / 2 ^ s < 2 ^ 24`. -/
def float_shift : Nat → Nat → Nat
  | 0, _ => 0
  | fuel + 1, x => if x < 2 ^ 24 then 0 else float_shift fuel (x / 2) + 1

/-- The value of `(float) x` for an unsigned 32-bit `x`: `x` rounded to 24 significant
bits, ties to even (the conversion is exact up to `2 ^ 24`). -/
def float_of_uint32 (x : Nat) : Nat :=
  let s := float_shift 8 x
  let q := x / 2 ^ s
  let r := x % 2 ^ s
  let q1 := if 2 * r > 2 ^ s ∨ (2 * r = 2 ^ s ∧ q % 2 = 1) then q + 1 else q
  q1 * 2 ^ s

/-! ## Double precision -/

/-- The number of binary digits of `n`, for `n` below `2 ^ fuel`. -/
def bit_length : Nat → Nat → Nat
  | 0, _ => 0
  | fuel + 1, n => if n = 0 then 0 else bit_length fuel (n / 2) + 1

/-- The `double` nearest to the fraction `n / d`, ties to even: the exponent `k` is the one
for which the integer part of `|n / d| / 2 ^ k` has 53 binary digits, and that quotient is
rounded to an integer.  The exponent is not bounded; 0 for `d = 0`. -/
def double_of_frac (n : Int) (d : Nat) : ℚ :=
  if n = 0 ∨ d = 0 then 0
  else
    let a := n.natAbs
    let k0 : Int := (bit_length a a : Int) - (bit_length d d : Int) - 52
    let k : Int := if a * 2 ^ (-k0).toNat < 2 ^ 52 * (d * 2 ^ k0.toNat) then k0 - 1 else k0
    let num := a * 2 ^ (-k).toNat
    let den := d * 2 ^ k.toNat
    let q := num / den
    let r := num % den
    let m := if 2 * r > den ∨ (2 * r = den ∧ q % 2 = 1) then q + 1 else q
    mkRat (n.sign * ((m * 2 ^ k.toNat : Nat) : Int)) (2 ^ (-k).toNat)

/-- The sum `x + y` of two values of type `double`: the exact sum, rounded. -/
def double_add (x y : ℚ) : ℚ :=
  double_of_frac (x.num * y.den + y.num * x.den) (x.den * y.den)

/-- The quotient `x / y` of two values of type `double`: the exact quotient, rounded; 0 here
for `y = 0`, where the quotient of the source is not a number. -/
def double_div (x y : ℚ) : ℚ :=
  if y.num = 0 then 0
  else double_of_frac (x.num * y.den * y.num.sign) (x.den * y.num.natAbs)

/-! ## print_array -/

/-- A run-length interval `(start, stop, value)`. -/
abbrev Run := Nat × Nat × Nat

/-- Local variables and output of `print_array`.  `bw` is the sequence of calls made to the
BigWig writer (`true` for `bwAddIntervals`, `false` for `bwAppendIntervals`), `buf` the lines
held in the text buffer, `out` the lines written to standard output, and `runs` every run handed
to either sink, in order. -/
structure PAState where
  first : Bool
  first_print : Bool
  running_value : Nat
  last_pos : Nat
  auc : Nat
  buf : List Run
  buf_written : Nat
  out : List Run
  bw : List (Bool × Run)
  runs : List Run
deriving DecidableEq, Repr

/-- State at entry of `print_array`. -/
def PAState.init : PAState :=
  { first := true, first_print := true, running_value := 0, last_pos := 0, auc := 0,
    buf := [], buf_written := 0, out := [], bw := [], runs := [] }

/-- The block executed for a run that ends at `i` inside the loop (lines 546-566). -/
def emit_run (skip_zeros just_auc bwfp : Bool) (num_lines_per_buf : Int) (st : PAState)
    (i : Nat) : PAState :=
  if st.running_value > 0 ∨ ¬ skip_zeros then
    let st := { st with auc := st.auc + (i - st.last_pos) * st.running_value }
    if ¬ just_auc then
      let r : Run := (st.last_pos, i, st.running_value)
      let st := { st with runs := st.runs ++ [r] }
      let st :=
        if bwfp ∧ st.first_print then { st with bw := st.bw ++ [(true, r)] }
        else if bwfp then { st with bw := st.bw ++ [(false, r)] }
        else
          let st :=
            if (st.buf_written : Int) ≥ num_lines_per_buf then
              { st with out := st.out ++ st.buf, buf := [], buf_written := 0 }
            else st
          { st with buf := st.buf ++ [r], buf_written := st.buf_written + 1 }
      { st with first_print := false }
    else st
  else st

/-- One iteration of the loop over the array (lines 543-572), at index `i` holding `x`. -/
def print_array_step (skip_zeros just_auc bwfp : Bool) (num_lines_per_buf : Int)
    (st : PAState) (i x : Nat) : PAState :=
  if st.first ∨ st.running_value ≠ float_of_uint32 x then
    let st := if ¬ st.first then emit_run skip_zeros just_auc bwfp num_lines_per_buf st i else st
    { st with first := false, running_value := float_of_uint32 x, last_pos := i }
  else st

/-- The loop of `print_array` over the cells from index `i` on. -/
def print_array_loop (skip_zeros just_auc bwfp : Bool) (num_lines_per_buf : Int) :
    List Nat → Nat → PAState → PAState
  | [], _, st => st
  | x :: xs, i, st =>
    print_array_loop skip_zeros just_auc bwfp num_lines_per_buf xs (i + 1)
      (print_array_step skip_zeros just_auc bwfp num_lines_per_buf st i x)

/-- The block after the loop (lines 573-590), for the last run, which ends at `arr_sz`. -/
def emit_last (skip_zeros just_auc bwfp : Bool) (st : PAState) (arr_sz : Nat) : PAState :=
  if ¬ st.first then
    if st.running_value > 0 ∨ ¬ skip_zeros then
      let st := { st with auc := st.auc + (arr_sz - st.last_pos) * st.running_value }
      if ¬ just_auc then
        let r : Run := (st.last_pos, arr_sz, st.running_value)
        let st := { st with runs := st.runs ++ [r] }
        if bwfp ∧ st.first_print then { st with bw := st.bw ++ [(true, r)] }
        else if bwfp then { st with bw := st.bw ++ [(false, r)] }
        else
          let st := if st.buf_written > 0 then { st with out := st.out ++ st.buf } else st
          { st with out := st.out ++ [r] }
      else st
    else st
  else st

/-- The function `print_array` on the array `arr` (`arr_sz` is its length): the returned state
holds the AUC (the return value) and everything that was emitted. -/
def print_array (arr : List Nat) (skip_zeros bwfp just_auc : Bool) (num_lines_per_buf : Int) :
    PAState :=
  emit_last skip_zeros just_auc bwfp
    (print_array_loop skip_zeros just_auc bwfp num_lines_per_buf arr 0 PAState.init) arr.length

/-- Sum of `(stop - start) * value` over a list of runs. -/
def runs_area : List Run → Nat
  | [] => 0
  | (s, e, v) :: rs => (e - s) * v + runs_area rs

/-- The cells described by a list of runs: each run repeated over its length. -/
def expand_runs : List Run → List Nat
  | [] => []
  | (s, e, v) :: rs => List.replicate (e - s) v ++ expand_runs rs

/-- The runs follow one another from `lo` to `hi` without gap, each one non-empty. -/
def Tiles : List Run → Nat → Nat → Prop
  | [], lo, hi => lo = hi
  | (s, e, _) :: rs, lo, hi => s = lo ∧ s < e ∧ Tiles rs e hi

/-! ## Annotation regions -/

/-- An entry of the region index: the array `(start, end, sum, uniq_sum)` built by
`process_region_line`; the two slots exist when the BED order is kept. -/
structure Region (α : Type) where
  start : Int
  stop : Int
  sum : α
  uniq_sum : α
deriving DecidableEq, Repr

/-- The assignment `(*annotations)[z][keep_order_idx] = v`: index 2 is the slot `sum`, index 3
the slot `uniq_sum`. -/
def Region.store {α : Type} (r : Region α) (keep_order_idx : Int) (v : α) : Region α :=
  if keep_order_idx = 2 then { r with sum := v }
  else if keep_order_idx = 3 then { r with uniq_sum := v }
  else r

/-! ## sum_annotations -/

/-- The cell `arr[j]` of an array, `none` when `j` is outside the array. -/
def read_at {α : Type} (arr : List α) (j : Int) : Option α :=
  if 0 ≤ j then arr[j.toNat]? else none

/-- The inner loop of `sum_annotations` (lines 943-946): `n` iterations from index `j`, each
checking `assert(j < chr_size)` and adding `coverages[j]`; `none` when the assertion fails or the
index is outside the array. -/
def sum_window (coverages : List Nat) (chr_size : Int) : Nat → Int → Int → Option Int
  | 0, _, sum => some sum
  | n + 1, j, sum =>
    if j < chr_size then
      match read_at coverages j with
      | some c => sum_window coverages chr_size n (j + 1) (sum + c)
      | none => none
    else none

/-- What `sum_annotations` leaves behind: the entries (with their slots), the lines printed as
`(start, end, sum)`, and the accumulated `annotated_auc`. -/
structure SAState where
  annotations : List (Region Int)
  printed : List (Int × Int × Int)
  annotated_auc : Int
deriving DecidableEq, Repr

/-- The loop of `sum_annotations` over the entries not yet visited; `st.annotations` holds the
entries already visited. -/
def sum_annotations_loop (coverages : List Nat) (chr_size : Int) (just_auc : Bool)
    (keep_order_idx : Int) : List (Region Int) → SAState → Option SAState
  | [], st => some st
  | r :: rs, st =>
    match sum_window coverages chr_size (r.stop - r.start).toNat r.start 0 with
    | none => none
    | some sum =>
      let st := { st with annotated_auc := st.annotated_auc + sum }
      let st :=
        if ¬ just_auc then
          if keep_order_idx = -1 then
            { st with printed := st.printed ++ [(r.start, r.stop, sum)],
                      annotations := st.annotations ++ [r] }
          else { st with annotations := st.annotations ++ [r.store keep_order_idx sum] }
        else { st with annotations := st.annotations ++ [r] }
      sum_annotations_loop coverages chr_size just_auc keep_order_idx rs st

/-- The function `sum_annotations` on the entries of one contig. -/
def sum_annotations (coverages : List Nat) (annotations : List (Region Int)) (chr_size : Int)
    (annotated_auc : Int) (just_auc : Bool) (keep_order_idx : Int) : Option SAState :=
  sum_annotations_loop coverages chr_size just_auc keep_order_idx annotations
    { annotations := [], printed := [], annotated_auc := annotated_auc }

/-- Sum of `coverages[j]` over `start ≤ j < stop`. -/
def window_sum (coverages : List Nat) (start stop : Int) : Int :=
  (((coverages.drop start.toNat).take (stop - start).toNat).sum : Nat)

/-! ## process_bigwig -/

/-- A BigWig interval `(start, end, value)` as returned by the interval iterator; the value is
a `float`. -/
structure Interval where
  start : Nat
  stop : Nat
  value : ℚ
deriving DecidableEq, Repr

/-- The reducer `enum Op { csum, cmean, cmin, cmax }`. -/
inductive Op where
  | csum | cmean | cmin | cmax
deriving DecidableEq, Repr

/-- The global `uint64_t MAX_INT = (2^63);`, where `^` is exclusive or. -/
def MAX_INT : Int := ((2 ^^^ 63 : Nat) : Int)

/-- The accumulators `double sum`, `double min`, `double max` of one region. -/
structure BWAcc where
  sum : ℚ
  min : ℚ
  max : ℚ
deriving DecidableEq, Repr

/-- The `switch(op)` of lines 1170-1184: `n` iterations of the inner loop over `k` for an
interval of value `v`; each `sum += value` is an addition of type `double`. -/
def accumulate (op : Op) (v : ℚ) (n : Nat) (acc : BWAcc) : BWAcc :=
  match op with
  | Op.csum | Op.cmean => { acc with sum := (fun s => double_add s v)^[n] acc.sum }
  | Op.cmin => { acc with min := (fun m => if v < m then v else m)^[n] acc.min }
  | Op.cmax => { acc with max := (fun m => if v > m then v else m)^[n] acc.max }

/-- The back-up loop `while(start < intervals->start[last_j]) last_j--;` (lines 1158-1159);
`none` when `intervals->start` is read outside `[0, num_intervals)`, which for index `-1` is
the case `last_j = 0` with `start` before the interval. -/
def back_up (intervals : List Interval) (start : Int) : Nat → Option Nat
  | 0 =>
    match intervals[0]? with
    | none => none
    | some iv => if start < iv.start then none else some 0
  | last_j + 1 =>
    match intervals[last_j + 1]? with
    | none => none
    | some iv => if start < iv.start then back_up intervals start last_j else some (last_j + 1)

/-- The loop `for(j = last_j; j < num_intervals; j++)` (lines 1160-1193) over the intervals
from index `j` on (`rest`); returns the value of `j` on exit and the accumulators. -/
def scan_intervals (op : Op) (stop : Int) : List Interval → Nat → Int → BWAcc → Nat × BWAcc
  | [], j, _, acc => (j, acc)
  | iv :: rest, j, start, acc =>
    if start ≥ iv.start ∧ start < iv.stop then
      let last_k : Int := if stop > iv.stop then iv.stop else stop
      let acc := accumulate op iv.value (last_k - start).toNat acc
      let k : Int := if start < last_k then last_k else start
      if k ≥ stop then (j, acc)
      else scan_intervals op stop rest (j + 1) k acc
    else scan_intervals op stop rest (j + 1) start acc

/-- The value reported for a region (lines 1198-1210).  The mean is the quotient of type
`double` of `sum` by `annot_length`; for an empty region (`stop = ostart`) it is 0 here, where
the source divides by zero. -/
def region_value (op : Op) (acc : BWAcc) (ostart stop : Int) : ℚ :=
  match op with
  | Op.csum => acc.sum
  | Op.cmean => double_div acc.sum ((stop - ostart : Int) : ℚ)
  | Op.cmin => acc.min
  | Op.cmax => acc.max

/-- State of the loop of `process_bigwig` over the regions of one contig: the cursor `last_j`,
the entries already visited, the printed lines, the thread-local values and the accumulated
`annotated_auc`.  A printed line holds the value handed to `print_shared`, which writes it
with three decimals. -/
structure BWState where
  last_j : Nat
  annotations : List (Region ℚ)
  printed : List (Int × Int × ℚ)
  local_vals : List ℚ
  annotated_auc : ℚ
deriving DecidableEq, Repr

/-- The loop of `process_bigwig` over the regions of one contig (lines 1149-1219); `z` is the
index of the next region. -/
def process_regions (intervals : List Interval) (op : Op) (keep_order_idx : Int)
    (store_local : Bool) : List (Region ℚ) → Nat → BWState → Option BWState
  | [], _, st => some st
  | r :: rs, z, st =>
    match back_up intervals r.start st.last_j with
    | none => none
    | some last_j =>
      let (j, acc) := scan_intervals op r.stop (intervals.drop last_j) last_j r.start
        { sum := 0, min := MAX_INT, max := 0 }
      let st := { st with last_j := j }
      let st :=
        if op = Op.csum then { st with annotated_auc := double_add st.annotated_auc acc.sum }
        else st
      let value := region_value op acc r.start r.stop
      let st :=
        if keep_order_idx = -1 then
          { st with printed := st.printed ++ [(r.start, r.stop, value)],
                    annotations := st.annotations ++ [r] }
        else if store_local then
          { st with local_vals := st.local_vals.set z value,
                    annotations := st.annotations ++ [r] }
        else { st with annotations := st.annotations ++ [r.store keep_order_idx value] }
      process_regions intervals op keep_order_idx store_local rs (z + 1) st

/-- The body of `process_bigwig` for one contig that has intervals (lines 1130-1222):
`local_vals` is reset to zero when values are stored locally, then the regions are visited with
the cursor starting at 0. -/
def process_bigwig_contig (intervals : List Interval) (annotations : List (Region ℚ)) (op : Op)
    (keep_order_idx : Int) (store_local : Bool) (annotated_auc : ℚ) : Option BWState :=
  process_regions intervals op keep_order_idx store_local annotations 0
    { last_j := 0, annotations := [], printed := [],
      local_vals := if store_local then List.replicate annotations.length 0 else [],
      annotated_auc := annotated_auc }

/-! ## CIGAR operations (htslib) -/

/-- The accessor `bam_cigar_op` of htslib: the operation code, the low 4 bits of a
CIGAR word. -/
def bam_cigar_op (c : Nat) : Nat := c % 16

/-- The accessor `bam_cigar_oplen` of htslib: the length, the high 28 bits of a CIGAR
word. -/
def bam_cigar_oplen (c : Nat) : Nat := c / 16

/-- The constructor `bam_cigar_gen` of htslib: the CIGAR word of length `l` and operation
`o`. -/
def bam_cigar_gen (l o : Nat) : Nat := l * 16 + o

/-- The table `bam_cigar_type` of htslib, `(0x3C1A7 >> (op << 1)) & 3`: bit 1 is set when
the operation consumes the query, bit 2 when it consumes the reference (M, =, X: 3;
I, S: 1; D, N: 2; H, P: 0). -/
def bam_cigar_type (op : Nat) : Nat := (0x3C1A7 / 4 ^ op) % 4

def BAM_CMATCH : Nat := 0
def BAM_CINS : Nat := 1
def BAM_CDEL : Nat := 2
def BAM_CREF_SKIP : Nat := 3
def BAM_CSOFT_CLIP : Nat := 4
def BAM_CHARD_CLIP : Nat := 5
def BAM_CPAD : Nat := 6
def BAM_CEQUAL : Nat := 7
def BAM_CDIFF : Nat := 8
def BAM_FPROPER_PAIR : Nat := 2
def BAM_FUNMAP : Nat := 4

/-- The test `bam_cigar_type(cigar_op) & 2`: the operation consumes the reference. -/
def consumes_ref (c : Nat) : Bool := bam_cigar_type (bam_cigar_op c) / 2 % 2 = 1

/-- The test `bam_cigar_type(cigar_op) & 1`: the operation consumes the query. -/
def consumes_query (c : Nat) : Bool := bam_cigar_type (bam_cigar_op c) % 2 = 1

/-! ## Alignment records and the mate store -/

/-- The fields of a `bam1_t` record read by the coverage code. -/
structure Bam1 where
  tid : Int
  pos : Nat
  mtid : Int
  mpos : Int
  flag : Nat
  qual : Nat
  qname : String
  cigar : List Nat
deriving DecidableEq, Repr

/-- The function `bam_cigar2rlen` of htslib: the number of reference bases a CIGAR
spans. -/
def bam_cigar2rlen : List Nat → Nat
  | [] => 0
  | c :: cs => (if consumes_ref c then bam_cigar_oplen c else 0) + bam_cigar2rlen cs

/-- The function `bam_endpos` of htslib: the position after the last reference base of the
alignment, `pos + 1` for an unmapped record or an empty reference span. -/
def bam_endpos (rec : Bam1) : Nat :=
  let rlen := if rec.flag / BAM_FUNMAP % 2 = 1 then 0 else bam_cigar2rlen rec.cigar
  rec.pos + (if rlen = 0 then 1 else rlen)

/-- The array `mate_info` stored for a first mate: `mate_info[1]` (its start),
`mate_info[2]` (1 when it was counted in the unique track) and the copy of its CIGAR
(`mate_info[0]` is the length of that copy). -/
structure MateInfo where
  refpos : Nat
  passes : Nat
  cigar : List Nat
deriving DecidableEq, Repr

/-- The map `read2len` from read name to `mate_info`. -/
abbrev Read2Len := List (String × MateInfo)

/-- A half-open span `[lo, hi)` of reference positions (an element of `mspans`). -/
abbrev Span := Nat × Nat

/-! ## calculate_coverage -/

/-- The statement `arr[z]++` on a 32-bit cell. -/
def inc32 (x : Nat) : Nat := (x + 1) % 2 ^ 32

/-- The statement `arr[z]--` on a 32-bit cell. -/
def dec32 (x : Nat) : Nat := (x + (2 ^ 32 - 1)) % 2 ^ 32

/-- The loop `for(z = lo; z < lo + n; z++) arr[z]++;`. -/
def inc_range (arr : Nat → Nat) : Nat → Nat → Nat → Nat
  | _, 0 => arr
  | z, n + 1 => inc_range (Function.update arr z (inc32 (arr z))) (z + 1) n

/-- The loop `for(z = lo; z < lo + n; z++) arr[z]--;`. -/
def dec_range (arr : Nat → Nat) : Nat → Nat → Nat → Nat
  | _, 0 => arr
  | z, n + 1 => dec_range (Function.update arr z (dec32 (arr z))) (z + 1) n

/-- The loop of lines 707-719 over the stored CIGAR: the spans `mspans` of the operations
that consume both reference and query, from the position `malgn_end_pos`. -/
def mate_spans : List Nat → Nat → List Span
  | [], _ => []
  | c :: cs, malgn_end_pos =>
    if consumes_ref c then
      let len := bam_cigar_oplen c
      if consumes_query c then
        (malgn_end_pos, malgn_end_pos + len) :: mate_spans cs (malgn_end_pos + len)
      else mate_spans cs (malgn_end_pos + len)
    else mate_spans cs malgn_end_pos

/-- The value of `malgn_end_pos` after the loop of lines 707-719 (`mendpos`). -/
def mate_end : List Nat → Nat → Nat
  | [], malgn_end_pos => malgn_end_pos
  | c :: cs, malgn_end_pos =>
    if consumes_ref c then mate_end cs (malgn_end_pos + bam_cigar_oplen c)
    else mate_end cs malgn_end_pos

/-- The loop `while(mspans_idx < n_mspans && algn_end_pos >= mspans[mspans_idx][1])
mspans_idx++;`.  The cursor `mspans_idx` is held as the list of the spans from that index on:
`mspans_idx < n_mspans` says that the list is not empty and `mspans[mspans_idx]` is its
head. -/
def skip_spans (algn_end_pos : Nat) : List Span → List Span
  | [] => []
  | sp :: rest => if algn_end_pos ≥ sp.2 then skip_spans algn_end_pos rest else sp :: rest

/-- The read `mspans[mspans_idx][0]`: the start of the first span from `mspans_idx` on, and
`dflt` when there is none. -/
def head_lo (mspans : List Span) (dflt : Nat) : Nat :=
  match mspans with
  | sp :: _ => sp.1
  | [] => dflt

/-- Variables of the fix-up loop: the two arrays, the spans from `mspans_idx` on, and
`left_end`. -/
structure FixState where
  coverages : Nat → Nat
  unique_coverages : Nat → Nat
  mspans : List Span
  left_end : Nat

/-- The loop of lines 754-776 (lines 806-827 in the branch that leaves the unique track alone),
run for at most `fuel` iterations.  `uq` tells the branch: in the unique branch the cell of
`unique_coverages` is decremented when `mate_passes_quality` is not 0. -/
def fix_loop (uq : Bool) (mate_passes_quality cur_end : Nat) : Nat → FixState → FixState
  | 0, st => st
  | fuel + 1, st =>
    match st.mspans with
    | [] => st
    | sp :: rest =>
      if st.left_end < sp.2 ∧ cur_end > sp.1 then
        let right_end := if cur_end ≥ sp.2 then sp.2 else cur_end
        let mspans := if cur_end ≥ sp.2 then rest else sp :: rest
        let next_left_end := if cur_end ≥ sp.2 then head_lo rest st.left_end else sp.2
        fix_loop uq mate_passes_quality cur_end fuel
          { coverages := dec_range st.coverages st.left_end (right_end - st.left_end),
            unique_coverages :=
              if uq ∧ mate_passes_quality ≠ 0 then
                dec_range st.unique_coverages st.left_end (right_end - st.left_end)
              else st.unique_coverages,
            mspans := mspans,
            left_end := next_left_end }
      else st

/-- Variables of `calculate_coverage` while it walks the CIGAR of the record.  `oob` records
that `mspans[mspans_idx]` was read with `mspans_idx = n_mspans`: the source dereferences a
pointer behind the array there and the call does not return, so that a state with `oob` set
describes no state of the source. -/
structure CovState where
  coverages : Nat → Nat
  unique_coverages : Nat → Nat
  total_intron_length : Nat
  algn_end_pos : Nat
  mspans : List Span
  oob : Bool

/-- The block "now fixup overlapping segment" (lines 744-777 and 796-828) for an operation of
length `len` that starts at `algn_end_pos`.  When the spans are exhausted the read
`mspans[mspans_idx][0]` of line 751 (803) is outside the spans and the source dies on it: the
embedding sets `oob`, which marks the call as one that does not return, and goes on with a value
`junk` for the word read, which only sets `left_end` for a loop that has no span left to
visit. -/
def fix_overlap (uq : Bool) (mate_passes_quality n_mspans mendpos junk len : Nat)
    (s : CovState) : CovState :=
  if n_mspans > 0 ∧ s.algn_end_pos < mendpos then
    let mspans := skip_spans s.algn_end_pos s.mspans
    let cur_end := s.algn_end_pos + len
    let first_lo := head_lo mspans junk
    let oob := s.oob || mspans.isEmpty
    let left_end := if s.algn_end_pos < first_lo then first_lo else s.algn_end_pos
    let st := fix_loop uq mate_passes_quality cur_end (mspans.length + 1)
      { coverages := s.coverages, unique_coverages := s.unique_coverages, mspans := mspans,
        left_end := left_end }
    { s with coverages := st.coverages, unique_coverages := st.unique_coverages,
             mspans := st.mspans, oob := oob }
  else s

/-- One iteration of the loop over the CIGAR of the record (lines 730-781 when `uq`, lines
783-832 otherwise), for the CIGAR word `c`.  `has_cov` says that `coverages` is not null. -/
def cigar_step (uq has_cov : Bool) (mate_passes_quality n_mspans mendpos junk : Nat)
    (s : CovState) (c : Nat) : CovState :=
  if consumes_ref c then
    let len := bam_cigar_oplen c
    let s := if bam_cigar_op c = BAM_CREF_SKIP then
        { s with total_intron_length := s.total_intron_length + len }
      else s
    let s := if has_cov ∧ consumes_query c then
        let s := { s with
          coverages := inc_range s.coverages s.algn_end_pos len,
          unique_coverages :=
            if uq then inc_range s.unique_coverages s.algn_end_pos len
            else s.unique_coverages }
        fix_overlap uq mate_passes_quality n_mspans mendpos junk len s
      else s
    { s with algn_end_pos := s.algn_end_pos + len }
  else s

/-- What `calculate_coverage` returns and leaves behind. -/
structure CovResult where
  ret : Nat
  coverages : Nat → Nat
  unique_coverages : Nat → Nat
  overlapping_mates : Read2Len
  total_intron_length : Nat
  oob : Bool

/-- The "First Mate Check" of lines 683-687: the record is a proper pair on one contig that
reaches its mate's start, and no entry is stored under its name. -/
def first_mate_check (rec : Bam1) (has_cov double_count : Bool) (overlapping_mates : Read2Len) :
    Bool :=
  has_cov ∧ ¬ double_count ∧ rec.flag / BAM_FPROPER_PAIR % 2 = 1
    ∧ rec.tid = rec.mtid ∧ (bam_endpos rec : Int) > rec.mpos ∧ (rec.pos : Int) ≤ rec.mpos
    ∧ overlapping_mates.lookup rec.qname = none

/-- The "Second Mate Check" of line 698: the entry stored under the name of the record, when the
block of line 683 is entered and the first mate check fails. -/
def second_mate_check (rec : Bam1) (has_cov double_count : Bool)
    (overlapping_mates : Read2Len) : Option MateInfo :=
  if has_cov ∧ ¬ double_count ∧ rec.flag / BAM_FPROPER_PAIR % 2 = 1
      ∧ ¬ first_mate_check rec has_cov double_count overlapping_mates then
    overlapping_mates.lookup rec.qname
  else none

/-- The spans `mspans` built from the stored mate (empty without one). -/
def stored_spans : Option MateInfo → List Span
  | some mate_info => mate_spans mate_info.cigar mate_info.refpos
  | none => []

/-- The value of `mendpos` (0 without a stored mate). -/
def stored_end : Option MateInfo → Nat
  | some mate_info => mate_end mate_info.cigar mate_info.refpos
  | none => 0

/-- The value of `mate_passes_quality` (0 without a stored mate). -/
def stored_passes : Option MateInfo → Nat
  | some mate_info => mate_info.passes
  | none => 0

/-- The walk over the CIGAR of the record (lines 727-833), given the stored mate found by the
second mate check. -/
def walk_cigar (rec : Bam1) (coverages unique_coverages : Nat → Nat) (has_cov : Bool)
    (min_qual : Int) (second_mate : Option MateInfo) (total_intron_length junk : Nat) :
    CovState :=
  rec.cigar.foldl
    (cigar_step (decide (min_qual > 0) && decide ((rec.qual : Int) ≥ min_qual)) has_cov
      (stored_passes second_mate) (stored_spans second_mate).length (stored_end second_mate)
      junk)
    { coverages := coverages, unique_coverages := unique_coverages,
      total_intron_length := total_intron_length, algn_end_pos := rec.pos,
      mspans := stored_spans second_mate, oob := false }

/-- The map `overlapping_mates` after the call: the first mate is inserted, the entry used by
the second mate is erased. -/
def update_mates (rec : Bam1) (has_cov double_count : Bool) (min_qual : Int)
    (overlapping_mates : Read2Len) : Read2Len :=
  if first_mate_check rec has_cov double_count overlapping_mates then
    (rec.qname,
      { refpos := rec.pos,
        passes := if min_qual > 0 ∧ (rec.qual : Int) ≥ min_qual then 1 else 0,
        cigar := rec.cigar }) :: overlapping_mates
  else
    match second_mate_check rec has_cov double_count overlapping_mates with
    | some _ => overlapping_mates.filter (fun e => e.1 ≠ rec.qname)
    | none => overlapping_mates

/-- The function `calculate_coverage` (lines 654-840).  `has_cov` says that `coverages` is not
null; `junk` is the content of the memory after the spans (see `fix_overlap`).  A result with
`oob` set stands for a call that dies at line 751 or 803: the source returns the other fields
only when `oob` is not set. -/
def calculate_coverage (rec : Bam1) (coverages unique_coverages : Nat → Nat) (has_cov : Bool)
    (double_count : Bool) (min_qual : Int) (overlapping_mates : Read2Len)
    (total_intron_length : Nat) (junk : Nat) : CovResult :=
  let s := walk_cigar rec coverages unique_coverages has_cov min_qual
    (second_mate_check rec has_cov double_count overlapping_mates) total_intron_length junk
  { ret := s.algn_end_pos, coverages := s.coverages, unique_coverages := s.unique_coverages,
    overlapping_mates := update_mates rec has_cov double_count min_qual overlapping_mates,
    total_intron_length := s.total_intron_length, oob := s.oob }

/-- The positions covered by an operation that consumes both reference and query (M, = or X)
of an alignment at `pos` with the given CIGAR. -/
def covers (cigar : List Nat) (pos z : Nat) : Bool :=
  (mate_spans cigar pos).any (fun sp => decide (sp.1 ≤ z ∧ z < sp.2))

/-! ## Predicates on spans and on the effect of a call -/

/-- Weakly ordered spans above `lo`: each span has `lo ≤ hi` and starts at or after the end of the one before. -/
def SpansOK : Nat → List Span → Prop
  | _, [] => True
  | lo, sp :: rest => lo ≤ sp.1 ∧ sp.1 ≤ sp.2 ∧ SpansOK sp.2 rest

/-- No span is empty. -/
def SpansPos (l : List Span) : Prop := ∀ sp ∈ l, sp.1 < sp.2

/-- The position `z` lies in one of the spans. -/
def in_spans (l : List Span) (z : Nat) : Prop := ∃ sp ∈ l, sp.1 ≤ z ∧ z < sp.2

/-- What the fix-up loop does at a position `z`: nothing, or one decrement of `coverages[z]`
(and of `unique_coverages[z]` in the unique branch when the stored mate passed). -/
def FixEffect (uq : Bool) (mpq : Nat) (cov ucov cov1 ucov1 : Nat → Nat) (z : Nat) (P : Prop) :
    Prop :=
  (cov1 z = cov z ∧ ucov1 z = ucov z)
    ∨ (P ∧ cov1 z = dec32 (cov z)
        ∧ ucov1 z = if uq = true ∧ mpq ≠ 0 then dec32 (ucov z) else ucov z)

/-- The effect of the walk over a CIGAR at a position `z` covered by one of its M, = or X
operations: one increment of `coverages[z]` (and of `unique_coverages[z]` in the unique branch),
followed or not by the decrement of the fix-up. -/
def CovEffect (uq : Bool) (mpq : Nat) (cov ucov cov1 ucov1 : Nat → Nat) (z : Nat) (P : Prop) :
    Prop :=
  FixEffect uq mpq (fun y => inc32 (cov y)) (fun y => if uq = true then inc32 (ucov y) else ucov y)
    cov1 ucov1 z P

/-! ## Reference functions for the claims about calculate_coverage -/

instance in_spans_decidable (l : List Span) (z : Nat) : Decidable (in_spans l z) := by
  unfold in_spans
  infer_instance

/-- The operation of a CIGAR word is M, = or X. -/
def is_match (c : Nat) : Bool :=
  bam_cigar_op c = BAM_CMATCH ∨ bam_cigar_op c = BAM_CEQUAL ∨ bam_cigar_op c = BAM_CDIFF

/-- Sum of the lengths of the reference-consuming operations M, =, X, D, N of a CIGAR. -/
def ref_length : List Nat → Nat
  | [] => 0
  | c :: cs =>
    (if is_match c ∨ bam_cigar_op c = BAM_CDEL ∨ bam_cigar_op c = BAM_CREF_SKIP
      then bam_cigar_oplen c else 0) + ref_length cs

/-- Sum of the lengths of the N operations of a CIGAR. -/
def intron_length : List Nat → Nat
  | [] => 0
  | c :: cs => (if bam_cigar_op c = BAM_CREF_SKIP then bam_cigar_oplen c else 0) + intron_length cs

/-- The spans of the M, = and X operations of an alignment at `pos`, written with the
operation codes. -/
def match_spans : List Nat → Nat → List Span
  | [], _ => []
  | c :: cs, pos =>
    if is_match c then (pos, pos + bam_cigar_oplen c) :: match_spans cs (pos + bam_cigar_oplen c)
    else if bam_cigar_op c = BAM_CDEL ∨ bam_cigar_op c = BAM_CREF_SKIP then
      match_spans cs (pos + bam_cigar_oplen c)
    else match_spans cs pos

/-- The entry stored for a first mate (lines 690-695). -/
def mate_info_of (rec : Bam1) (min_qual : Int) : MateInfo :=
  { refpos := rec.pos,
    passes := if min_qual > 0 ∧ (rec.qual : Int) ≥ min_qual then 1 else 0,
    cigar := rec.cigar }

/-- The call of `calculate_coverage` on the mate `B` after the call on the mate `A`, both with
double-count off, on the arrays, the store and the intron total left by the first call. -/
def coverage_of_pair (A B : Bam1) (cov ucov : Nat → Nat) (min_qual : Int) (store : Read2Len)
    (til junk : Nat) : CovResult :=
  calculate_coverage B
    (calculate_coverage A cov ucov true false min_qual store til junk).coverages
    (calculate_coverage A cov ucov true false min_qual store til junk).unique_coverages
    true false min_qual
    (calculate_coverage A cov ucov true false min_qual store til junk).overlapping_mates
    (calculate_coverage A cov ucov true false min_qual store til junk).total_intron_length junk

/-- The first mate of scenario S2: `50M` at 100, mate at 130, proper pair, mapping
quality 30. -/
def mate_a : Bam1 := ⟨0, 100, 0, 130, 3, 30, "r1", [bam_cigar_gen 50 BAM_CMATCH]⟩

/-- The second mate of scenario S2: `50M` at 130, mate at 100, proper pair, mapping
quality 30. -/
def mate_b : Bam1 := ⟨0, 130, 0, 100, 3, 30, "r1", [bam_cigar_gen 50 BAM_CMATCH]⟩

/-- The first mate of scenario S2 with mapping quality 5. -/
def mate_a_low : Bam1 := ⟨0, 100, 0, 130, 3, 5, "r1", [bam_cigar_gen 50 BAM_CMATCH]⟩

/-- The second mate of scenario S2 with mapping quality 5. -/
def mate_b_low : Bam1 := ⟨0, 130, 0, 100, 3, 5, "r1", [bam_cigar_gen 50 BAM_CMATCH]⟩

/-- The record of scenario S1: `100M` at 1000, no mate. -/
def single_read : Bam1 := ⟨0, 1000, -1, -1, 0, 30, "r", [bam_cigar_gen 100 BAM_CMATCH]⟩

/-- The array of zeros. -/
def zeros : Nat → Nat := fun _ => 0

/-- One call of `calculate_coverage` in a run: the record and the options of the call. -/
structure Call where
  record : Bam1
  double_count : Bool
  min_qual : Int
  junk : Nat

/-- The state before the first record of a contig: zeroed arrays and an empty mate store. -/
def CovResult.start : CovResult :=
  { ret := 0, coverages := fun _ => 0, unique_coverages := fun _ => 0, overlapping_mates := [],
    total_intron_length := 0, oob := false }

/-- A sequence of calls of `calculate_coverage`, each on the arrays, the store and the intron
total left by the one before. -/
def run_calls : List Call → CovResult → CovResult
  | [], r => r
  | c :: cs, r =>
    run_calls cs
      (calculate_coverage c.record r.coverages r.unique_coverages true c.double_count c.min_qual
        r.overlapping_mates r.total_intron_length c.junk)

/-- Number of stored first mates that cover `z` and were not counted in the unique track. -/
def slack : Read2Len → Nat → Nat
  | [], _ => 0
  | e :: es, z => (if e.2.passes = 0 ∧ covers e.2.cigar e.2.refpos z = true then 1 else 0)
      + slack es z

/-- The record of scenario S3: `30M100N30M` at 500. -/
def junction_read : Bam1 :=
  ⟨0, 500, -1, -1, 0, 30, "r",
    [bam_cigar_gen 30 BAM_CMATCH, bam_cigar_gen 100 BAM_CREF_SKIP, bam_cigar_gen 30 BAM_CMATCH]⟩

/-- A first mate whose CIGAR `5M0M5M` has an operation of length 0, at 100. -/
def mate_zero_op : Bam1 :=
  ⟨0, 100, 0, 100, 3, 30, "r1",
    [bam_cigar_gen 5 BAM_CMATCH, bam_cigar_gen 0 BAM_CMATCH, bam_cigar_gen 5 BAM_CMATCH]⟩

/-- The mate `10M` at 100 of `mate_zero_op`. -/
def mate_ten : Bam1 := ⟨0, 100, 0, 100, 3, 30, "r1", [bam_cigar_gen 10 BAM_CMATCH]⟩

/-- Run-length encoding of the cells `xs` that start at index `i`, when the current run began at
`l` with value `v`: the reference against which the loop of `print_array` is compared. -/
def rle_from : Nat → Nat → Nat → List Nat → List Run
  | v, l, i, [] => [(l, i, v)]
  | v, l, i, x :: xs =>
    if v ≠ float_of_uint32 x then (l, i, v) :: rle_from (float_of_uint32 x) i (i + 1) xs
    else rle_from v l (i + 1) xs

/-- The test that lets a run through: `running_value > 0 || !skip_zeros`. -/
def keep_run (skip_zeros : Bool) (r : Run) : Bool :=
  decide (r.2.2 > 0) || !skip_zeros

/-- Loop from index `i` followed by the block for the last run. -/
def print_array_from (skip_zeros just_auc bwfp : Bool) (num_lines_per_buf : Int)
    (xs : List Nat) (i : Nat) (st : PAState) : PAState :=
  emit_last skip_zeros just_auc bwfp
    (print_array_loop skip_zeros just_auc bwfp num_lines_per_buf xs i st) (i + xs.length)

/-! ## MD:Z operations -/

/-- How a call of the MD:Z parser or of an alt emitter ends: it returns (`done`), throws a
`std::runtime_error` (`thrown`), fails an `assert` (`aborted`), or writes outside a buffer
(`overrun`), after which the source fixes no behaviour. -/
inductive Outcome (α : Type) where
  | done (a : α)
  | thrown
  | aborted
  | overrun
deriving DecidableEq, Repr

/-- The struct `MdzOp`: the operation character, the run length, and the string held in the
buffer `char str[1024]`.  An operation that `parse_mdz` appends has a run above 0 and below
2^31 and a string of at most 1023 characters (`parse_mdz_ops_fit`). -/
structure MdzOp where
  op : Char
  run : Nat
  str : List Char
deriving DecidableEq, Repr

/-- The function `isdigit` of the C library (in the C locale) on a byte of the string. -/
def isdigit (c : Char) : Bool := decide (48 ≤ c.toNat ∧ c.toNat ≤ 57)

/-- The function `isalpha` of the C library (in the C locale) on a byte of the string. -/
def isalpha (c : Char) : Bool :=
  decide ((65 ≤ c.toNat ∧ c.toNat ≤ 90) ∨ (97 ≤ c.toNat ∧ c.toNat ≤ 122))

/-- The size of the buffer `str` of an `MdzOp` (line 199). -/
def mdz_str_size : Nat := 1024

/-- The value an `int` takes when the result of an operation is `x`: the 32 bits of `x` in
two's complement. -/
def wrap_int32 (x : Int) : Int := (x + 2 ^ 31) % 2 ^ 32 - 2 ^ 31

/-- The loop `while(i < mdz_len && isdigit(mdz[i]))` of `parse_mdz` (lines 281-285) on the
characters from index `i` on: the value of `int run` on exit and the characters left.  Both
`run *= 10` and `run += ...` are operations on `int`. -/
def digit_run : List Char → Int → Int × List Char
  | [], run => (run, [])
  | c :: cs, run =>
    if isdigit c then
      digit_run cs (wrap_int32 (wrap_int32 (run * 10) + ((c.toNat - '0'.toNat : Nat) : Int)))
    else (run, c :: cs)

/-- The loop `while(i < mdz_len && isalpha(mdz[i])) i++` of `parse_mdz` (lines 292 and 303) on
the characters from index `st` on: the letters passed over and the characters left. -/
def alpha_run : List Char → List Char × List Char
  | [] => ([], [])
  | c :: cs => if isalpha c then (c :: (alpha_run cs).1, (alpha_run cs).2) else ([], c :: cs)

/-- The loop `while(i < mdz_len)` of `parse_mdz` (lines 278-313) at the index `i`, on the
characters from that index on, with the operations appended so far.  Each turn passes over at
least one character: `fuel` bounds the number of turns.

In the branch of a run of letters from `st` to the new `i`, the source first writes `str[j]`
for every `j < i` (lines 295-297: `i` bytes, not `i - st`), then copies the `i - st` letters,
then writes the terminator at `str[i - st]`: when `i` is at most the size of `str` and the run
is shorter than it, the string held by `str` is the run of letters, and otherwise a write
falls outside `str`.  In the branch of `^` the letters are copied and the terminator is
written at `str[i - st]`.  The bytes that the loop of lines 295-297 reads behind the run are
written behind the terminator of `str`; that these reads may pass the end of the MD:Z string
is not part of the embedding, and neither is the range of `int i` (the MD:Z field of a record
is shorter than 2^31 bytes). -/
def parse_mdz_loop : Nat → Nat → List Char → List MdzOp → Outcome (List MdzOp)
  | _, _, [], ops => .done ops
  | 0, _, _ :: _, ops => .done ops
  | fuel + 1, i, c :: cs, ops =>
    if isdigit c then
      let r := digit_run (c :: cs) 0
      parse_mdz_loop fuel (i + ((c :: cs).length - r.2.length)) r.2
        (if r.1 > 0 then ops ++ [⟨'=', r.1.toNat, []⟩] else ops)
    else if isalpha c then
      let r := alpha_run (c :: cs)
      if r.1.length > 0 then
        if i + r.1.length ≤ mdz_str_size ∧ r.1.length < mdz_str_size then
          parse_mdz_loop fuel (i + r.1.length) r.2 (ops ++ [⟨'X', r.1.length, r.1⟩])
        else .overrun
      else .aborted
    else if c = '^' then
      let r := alpha_run cs
      if r.1.length > 0 then
        if r.1.length < mdz_str_size then
          parse_mdz_loop fuel (i + 1 + r.1.length) r.2 (ops ++ [⟨'^', r.1.length, r.1⟩])
        else .overrun
      else .aborted
    else .thrown

/-- The function `parse_mdz` on the characters of the MD:Z string (up to its terminator), with
the vector `ops` empty on entry and `i = 0`. -/
def parse_mdz (mdz : List Char) : Outcome (List MdzOp) :=
  parse_mdz_loop mdz.length 0 mdz []

/-! ## Alternate bases and soft clips -/

/-- The table `seq_nt16_str` of htslib. -/
def seq_nt16_str : List Char :=
  ['=', 'A', 'C', 'M', 'G', 'R', 'S', 'V', 'T', 'W', 'Y', 'H', 'K', 'D', 'B', 'N']

/-- The accessor `bam_seqi` of htslib: the 4-bit code of the base `i` of a read; `seq` gives the
code stored for each base. -/
def bam_seqi (seq : Nat → Nat) (i : Nat) : Nat := seq i % 16

/-- The function `seq_substring` (not reversed) of lines 224-237: the letters of the bases
`off ≤ i < off + run`. -/
def seq_substring (seq : Nat → Nat) (off run : Nat) : List Char :=
  (List.range run).map (fun i => seq_nt16_str.getD (bam_seqi seq (off + i)) '=')

/-- The function `cstr_substring` of lines 246-251: the bytes `off ≤ i < off + run` of the
quality array. -/
def cstr_substring (qual : Nat → Nat) (off run : Nat) : List Nat :=
  (List.range run).map (fun i => qual (off + i))

/-- The global `A_idx`: the code of the base `A`. -/
def A_idx : Nat := 1

/-- The global `T_idx`: the code of the base `T`. -/
def T_idx : Nat := 8

/-- The default of `SOFTCLIP_POLYA_TOTAL_COUNT_MIN` (line 77). -/
def SOFTCLIP_POLYA_TOTAL_COUNT_MIN : Nat := 3

/-- The test `count / (double) run >= SOFTCLIP_POLYA_RATIO_MIN` of `polya_check` with the
default `0.8` of line 78.  The source divides two `double` values and compares the rounded
quotient with the `double` nearest to `4/5`; for an 8-bit count and a run below `2 ^ 28` this
holds exactly when `count / run ≥ 4/5`.  For `run = 0` the quotient of zero by zero is not a
number and the test is false. -/
def polya_ratio_ok (count : Int) (run : Nat) : Bool :=
  decide (run ≠ 0 ∧ 4 * (run : Int) ≤ 5 * count)

/-- The increment `++` of a counter of type `char`, taken as a signed 8-bit integer: 127 is
followed by -128. -/
def inc_char (x : Int) : Int := if x = 127 then -128 else x + 1

/-- The loop of `polya_check` (lines 208-209): `n` iterations from the base `i` on the
counters `seq_nt16_str_counts`. -/
def polya_loop (seq : Nat → Nat) : Nat → Nat → (Nat → Int) → (Nat → Int)
  | 0, _, counts => counts
  | n + 1, i, counts =>
    polya_loop seq n (i + 1)
      (Function.update counts (bam_seqi seq i) (inc_char (counts (bam_seqi seq i))))

/-- The function `polya_check`: the character written to `*c` and the count returned; `none`
stands for the return value `-1` with `*c` left unwritten. -/
def polya_check (seq : Nat → Nat) (off run : Nat) : Option (Char × Int) :=
  let counts := polya_loop seq run off (fun _ => 0)
  if polya_ratio_ok (counts A_idx) run then some ('A', counts A_idx)
  else if polya_ratio_ok (counts T_idx) run then some ('T', counts T_idx)
  else none

/-- A line written to the alts file: a mismatch `tid,pos,X,bases[,quals]`, an insertion
`tid,pos,I,bases`, a soft clip with its bases `tid,pos,S,bases`, a soft clip that passed the
poly-A filter `tid,pos,S,run,direction,c,count`, or a deletion `tid,pos,D,run`. -/
inductive AltLine where
  | X (tid : Int) (pos : Nat) (bases : List Char) (quals : Option (List Nat))
  | I (tid : Int) (pos : Nat) (bases : List Char)
  | S (tid : Int) (pos : Nat) (bases : List Char)
  | SA (tid : Int) (pos : Nat) (run : Nat) (direction : Char) (c : Char) (count : Int)
  | D (tid : Int) (pos : Nat) (run : Nat)
deriving DecidableEq, Repr

/-- The lines written for a soft clip when `include_sc` is set (lines 381-396 and 439-454):
the clip of `run` bases at the query offset `seq_off`, at the reference position `ref_off`. -/
def soft_clip_lines (tid : Int) (seq : Nat → Nat) (only_polya_sc : Bool)
    (seq_off ref_off run : Nat) : List AltLine :=
  let direction : Char := if seq_off = 0 then '-' else '+'
  if only_polya_sc then
    match polya_check seq seq_off run with
    | some (c, count_polya) =>
      if count_polya ≠ -1 ∧ run ≥ SOFTCLIP_POLYA_TOTAL_COUNT_MIN then
        [AltLine.SA tid ref_off run direction c count_polya]
      else []
    | none => []
  else [AltLine.S tid ref_off (seq_substring seq seq_off run)]

/-- The variables of `output_from_cigar_mdz` and of `output_from_cigar`: the MD:Z operations
from the index `mdzi` on (the first with its run as decremented so far), the query offset, the
reference position, the lines written and the soft-clip total. -/
structure AltState where
  mdz : List MdzOp
  seq_off : Nat
  ref_off : Nat
  out : List AltLine
  total_softclip_count : Nat
deriving DecidableEq, Repr

/-- The loop `while(runleft > 0 && mdzi < mdz.size())` of `output_from_cigar_mdz`
(lines 344-374).  Each turn either passes to the next MD:Z operation or brings `runleft` to 0:
`fuel` bounds the number of turns.  The three tests that end in `aborted` are the assertions of
lines 347, 352 (with 351) and 369; a line written before a failed assertion is not kept. -/
def mdz_match_loop (tid : Int) (seq qual : Nat → Nat) (print_qual include_n_mms : Bool) :
    Nat → Nat → AltState → Outcome AltState
  | 0, _, st => .done st
  | fuel + 1, runleft, st =>
    match st.mdz with
    | [] => .done st
    | m :: rest =>
      if runleft > 0 then
        let run_comb := min runleft m.run
        if m.op = 'X' ∨ m.op = '=' then
          if m.op = '=' ∨ m.str.length = run_comb then
            let lines : List AltLine :=
              if m.op = '=' then []
              else if include_n_mms = false ∧ run_comb = 1
                  ∧ seq_nt16_str.getD (bam_seqi seq st.seq_off) '=' = 'N' then []
              else [AltLine.X tid st.ref_off (seq_substring seq st.seq_off run_comb)
                (if print_qual then some (cstr_substring qual st.seq_off run_comb) else none)]
            if run_comb < m.run then
              if m.op = '=' then
                mdz_match_loop tid seq qual print_qual include_n_mms fuel (runleft - run_comb)
                  { st with mdz := { m with run := m.run - run_comb } :: rest,
                            seq_off := st.seq_off + run_comb, ref_off := st.ref_off + run_comb,
                            out := st.out ++ lines }
              else .aborted
            else
              mdz_match_loop tid seq qual print_qual include_n_mms fuel (runleft - run_comb)
                { st with mdz := rest,
                          seq_off := st.seq_off + run_comb, ref_off := st.ref_off + run_comb,
                          out := st.out ++ lines }
          else .aborted
        else .aborted
      else .done st

/-- One turn of the loop of `output_from_cigar_mdz` over the CIGAR (lines 334-414), for the
CIGAR word `c`.  The first test throws when the operation is one of D, N, M, X, = and the MD:Z
operations are exhausted; an operation code above 8 ends in a throw, by this test or by the last
branch.  In the branch of D the MD:Z operations are not exhausted (the first test), and the test
that ends in `aborted` stands for the assertions of lines 400-402. -/
def cigar_mdz_step (tid : Int) (seq qual : Nat → Nat)
    (print_qual include_sc only_polya_sc include_n_mms : Bool) (st : AltState) (c : Nat) :
    Outcome AltState :=
  let op := bam_cigar_op c
  let run := bam_cigar_oplen c
  if (op = BAM_CDEL ∨ op = BAM_CREF_SKIP ∨ op = BAM_CMATCH ∨ op = BAM_CDIFF ∨ op = BAM_CEQUAL)
      ∧ st.mdz = [] then .thrown
  else if op = BAM_CMATCH ∨ op = BAM_CDIFF ∨ op = BAM_CEQUAL then
    mdz_match_loop tid seq qual print_qual include_n_mms (st.mdz.length + 1) run st
  else if op = BAM_CINS then
    .done { st with
      out := st.out ++ [AltLine.I tid st.ref_off (seq_substring seq st.seq_off run)],
      seq_off := st.seq_off + run }
  else if op = BAM_CSOFT_CLIP then
    if include_sc then
      .done { st with
        total_softclip_count := st.total_softclip_count + run,
        out := st.out ++ soft_clip_lines tid seq only_polya_sc st.seq_off st.ref_off run,
        seq_off := st.seq_off + run }
    else .done { st with seq_off := st.seq_off + run }
  else if op = BAM_CDEL then
    match st.mdz with
    | [] => .thrown
    | m :: rest =>
      if m.op = '^' ∧ run = m.run ∧ m.str.length = run then
        .done { st with mdz := rest, out := st.out ++ [AltLine.D tid st.ref_off run],
                        ref_off := st.ref_off + run }
      else .aborted
  else if op = BAM_CREF_SKIP then .done { st with ref_off := st.ref_off + run }
  else if op = BAM_CHARD_CLIP then .done st
  else if op = BAM_CPAD then .done st
  else .thrown

/-- The loop of `output_from_cigar_mdz` over the CIGAR words. -/
def cigar_mdz_loop (tid : Int) (seq qual : Nat → Nat)
    (print_qual include_sc only_polya_sc include_n_mms : Bool) :
    List Nat → AltState → Outcome AltState
  | [], st => .done st
  | c :: cs, st =>
    match cigar_mdz_step tid seq qual print_qual include_sc only_polya_sc include_n_mms st c with
    | .done st1 =>
      cigar_mdz_loop tid seq qual print_qual include_sc only_polya_sc include_n_mms cs st1
    | .thrown => .thrown
    | .aborted => .aborted
    | .overrun => .overrun

/-- The function `output_from_cigar_mdz` for a record with the base codes `seq`, the quality
bytes `qual` and the parsed MD:Z operations `mdz`: the loop over the CIGAR, then
`assert(mdzi == mdz.size())`. -/
def output_from_cigar_mdz (rec : Bam1) (seq qual : Nat → Nat) (mdz : List MdzOp)
    (total_softclip_count : Nat) (print_qual include_sc only_polya_sc include_n_mms : Bool) :
    Outcome AltState :=
  match cigar_mdz_loop rec.tid seq qual print_qual include_sc only_polya_sc include_n_mms
      rec.cigar
      { mdz := mdz, seq_off := 0, ref_off := rec.pos, out := [],
        total_softclip_count := total_softclip_count } with
  | .done st => if st.mdz = [] then .done st else .aborted
  | .thrown => .thrown
  | .aborted => .aborted
  | .overrun => .overrun

/-- One turn of the loop of `output_from_cigar` (lines 429-483): the `switch` on the operation
code of the CIGAR word `c`.  The labels `case 'H'` and `case 'P'` are the character codes 72
and 80.  The state holds `seqpos` in `seq_off` and `refpos` in `ref_off`. -/
def cigar_alt_step (tid : Int) (seq : Nat → Nat) (include_sc only_polya_sc : Bool)
    (st : AltState) (c : Nat) : Outcome AltState :=
  let op := bam_cigar_op c
  let run := bam_cigar_oplen c
  if op = BAM_CDEL then
    .done { st with out := st.out ++ [AltLine.D tid st.ref_off run], ref_off := st.ref_off + run }
  else if op = BAM_CSOFT_CLIP then
    if include_sc then
      .done { st with
        total_softclip_count := st.total_softclip_count + run,
        out := st.out ++ soft_clip_lines tid seq only_polya_sc st.seq_off st.ref_off run,
        seq_off := st.seq_off + run }
    else .done { st with seq_off := st.seq_off + run }
  else if op = BAM_CINS then
    .done { st with
      out := st.out ++ [AltLine.I tid st.ref_off (seq_substring seq st.seq_off run)],
      seq_off := st.seq_off + run }
  else if op = BAM_CREF_SKIP then .done { st with ref_off := st.ref_off + run }
  else if op = BAM_CMATCH ∨ op = BAM_CDIFF ∨ op = BAM_CEQUAL then
    .done { st with seq_off := st.seq_off + run, ref_off := st.ref_off + run }
  else if op = 'H'.toNat ∨ op = 'P'.toNat then .done st
  else .thrown

/-- The loop of `output_from_cigar` over the CIGAR words. -/
def cigar_alt_loop (tid : Int) (seq : Nat → Nat) (include_sc only_polya_sc : Bool) :
    List Nat → AltState → Outcome AltState
  | [], st => .done st
  | c :: cs, st =>
    match cigar_alt_step tid seq include_sc only_polya_sc st c with
    | .done st1 => cigar_alt_loop tid seq include_sc only_polya_sc cs st1
    | .thrown => .thrown
    | .aborted => .aborted
    | .overrun => .overrun

/-- The function `output_from_cigar`: nothing is done for a CIGAR of one operation
(`if(n_cigar == 1) return;`). -/
def output_from_cigar (rec : Bam1) (seq : Nat → Nat) (total_softclip_count : Nat)
    (include_sc only_polya_sc : Bool) : Outcome AltState :=
  if rec.cigar.length = 1 then
    .done { mdz := [], seq_off := 0, ref_off := rec.pos, out := [],
            total_softclip_count := total_softclip_count }
  else
    cigar_alt_loop rec.tid seq include_sc only_polya_sc rec.cigar
      { mdz := [], seq_off := 0, ref_off := rec.pos, out := [],
        total_softclip_count := total_softclip_count }

/-! ## process_cigar and the junction callback -/

/-- The arguments of the callback `extract_junction`: the counter `*base` (a `uint32_t`) and
the coordinate list. -/
structure JxState where
  base : Nat
  jxs : List Nat
deriving DecidableEq, Repr

/-- The callback `extract_junction` (lines 637-650). -/
def extract_junction (op len : Nat) (st : JxState) : JxState :=
  if op ≠ BAM_CREF_SKIP then
    if bam_cigar_type op / 2 % 2 = 1 then { st with base := (st.base + len) % 2 ^ 32 }
    else st
  else
    { base := (st.base + len) % 2 ^ 32,
      jxs := st.jxs ++ [st.base, (st.base + len) % 2 ^ 32] }

/-- The accessor `bam_cigar_opchr` of htslib: the character of the operation of a CIGAR word in
the table `BAM_CIGAR_STR`, padded with question marks. -/
def bam_cigar_opchr (c : Nat) : Char :=
  ['M', 'I', 'D', 'N', 'S', 'H', 'P', '=', 'X', 'B', '?', '?', '?', '?', '?', '?'].getD
    (bam_cigar_op c) '?'

/-- The loop of `process_cigar` (lines 601-614) over the CIGAR words: `sprintf` writes the
length and the character of the operation at the offset `cx` of `cigar_str`, then every
callback is called on the operation, the length and its own arguments (here each callback is a
function on the state `σ` that holds the arguments of all of them). -/
def process_cigar_loop {σ : Type} (callbacks : List (Nat → Nat → σ → σ)) :
    List Nat → Nat → List Char → σ → List Char × σ
  | [], _, cigar_str, out => (cigar_str, out)
  | c :: cs, cx, cigar_str, out =>
    let text := Nat.toDigits 10 (bam_cigar_oplen c) ++ [bam_cigar_opchr c]
    process_cigar_loop callbacks cs (cx + text.length) (cigar_str.take cx ++ text)
      (callbacks.foldl (fun o func => func (bam_cigar_op c) (bam_cigar_oplen c) o) out)

/-- The function `process_cigar`: the string left in `cigar_str` and the state of the
callbacks. -/
def process_cigar {σ : Type} (cigar : List Nat) (cigar_str : List Char)
    (callbacks : List (Nat → Nat → σ → σ)) (out : σ) : List Char × σ :=
  process_cigar_loop callbacks cigar 0 cigar_str out

/-- The text `printf` writes for `%d` given a 32-bit value: the decimal digits of the value
read as a signed integer. -/
def fmt_d (x : Nat) : List Char :=
  if x % 2 ^ 32 < 2 ^ 31 then Nat.toDigits 10 (x % 2 ^ 32)
  else '-' :: Nat.toDigits 10 (2 ^ 32 - x % 2 ^ 32)

/-- The loop of lines 1885-1894 of `go_bam` over the coordinate list from the index `jx` on:
the text appended to the junction line after its five leading columns. -/
def jx_coords_loop (refpos : Nat) : List Nat → Nat → List Char → List Char
  | [], _, s => s
  | x :: xs, jx, s =>
    let coord := (refpos + x) % 2 ^ 32
    jx_coords_loop refpos xs (jx + 1)
      (if jx % 2 = 0 then (if jx ≥ 2 then s ++ [','] else s) ++ fmt_d (coord + 1) ++ ['-']
       else s ++ fmt_d coord)

/-- The coordinates of the junction line of a record at `refpos` with the coordinate list
`cl`. -/
def jx_coords (refpos : Nat) (cl : List Nat) : List Char := jx_coords_loop refpos cl 0 []

/-! ## Reference functions for the claims about MD:Z, alternate bases and junctions -/

/-- A token of an MD:Z string: a run of digits, a run of letters, or `^` followed by a run of
letters. -/
inductive MdzToken where
  | digits (ds : List Char)
  | letters (ls : List Char)
  | deletion (ls : List Char)
deriving DecidableEq, Repr

/-- The characters of a token. -/
def MdzToken.text : MdzToken → List Char
  | .digits ds => ds
  | .letters ls => ls
  | .deletion ls => '^' :: ls

/-- The value of a run of decimal digits. -/
def decimal_value (ds : List Char) : Nat :=
  ds.foldl (fun n c => n * 10 + (c.toNat - '0'.toNat)) 0

/-- The operations a token stands for: `(=, n)` for digits of value `n > 0` and nothing for
digits of value 0, `(X, letters)` for letters, `(^, letters)` for `^` followed by letters. -/
def MdzToken.ops : MdzToken → List MdzOp
  | .digits ds => if decimal_value ds > 0 then [⟨'=', decimal_value ds, []⟩] else []
  | .letters ls => [⟨'X', ls.length, ls⟩]
  | .deletion ls => [⟨'^', ls.length, ls⟩]

/-- A token is well formed: its run is not empty and holds digits, respectively letters. -/
def MdzToken.wf : MdzToken → Bool
  | .digits ds => ds ≠ [] ∧ ds.all isdigit
  | .letters ls => ls ≠ [] ∧ ls.all isalpha
  | .deletion ls => ls ≠ [] ∧ ls.all isalpha

/-- The token `u` cannot follow the token `t` when the runs are maximal: digits after digits,
or letters after letters or after `^` and its letters. -/
def MdzToken.merges : MdzToken → MdzToken → Bool
  | .digits _, .digits _ => true
  | .letters _, .letters _ => true
  | .deletion _, .letters _ => true
  | _, _ => false

/-- The tokens are well formed and their runs are maximal. -/
def tokens_maximal : List MdzToken → Bool
  | [] => true
  | [t] => t.wf
  | t :: u :: rest => t.wf && !(t.merges u) && tokens_maximal (u :: rest)

/-- Sum of the lengths of the query-consuming operations M, =, X, I, S of a CIGAR. -/
def query_length : List Nat → Nat
  | [] => 0
  | c :: cs =>
    (if is_match c ∨ bam_cigar_op c = BAM_CINS ∨ bam_cigar_op c = BAM_CSOFT_CLIP
      then bam_cigar_oplen c else 0) + query_length cs

/-- The line is a deletion or an insertion. -/
def AltLine.is_indel : AltLine → Bool
  | .D _ _ _ => true
  | .I _ _ _ => true
  | _ => false

/-- The lines claimed for the D and I operations of `rest`, where `rest` follows the operations
`pre` in the CIGAR of a record at `pos`: a deletion at the reference position reached by `pre`
with its length, an insertion at that position with the bases from the query offset reached by
`pre`. -/
def indel_lines (tid : Int) (seq : Nat → Nat) (pos : Nat) (pre : List Nat) :
    List Nat → List AltLine
  | [] => []
  | c :: cs =>
    (if bam_cigar_op c = BAM_CDEL then
        [AltLine.D tid (pos + ref_length pre) (bam_cigar_oplen c)]
      else if bam_cigar_op c = BAM_CINS then
        [AltLine.I tid (pos + ref_length pre)
          (seq_substring seq (query_length pre) (bam_cigar_oplen c))]
      else [])
      ++ indel_lines tid seq pos (pre ++ [c]) cs

/-- A record with the CIGAR `5D`, at 0. -/
def lone_deletion : Bam1 := ⟨0, 0, -1, -1, 0, 30, "r", [bam_cigar_gen 5 BAM_CDEL]⟩

/-- A record with the CIGAR `5S5M5D5M2I5M`, at 7. -/
def indel_read : Bam1 :=
  ⟨0, 7, -1, -1, 0, 30, "r",
    [bam_cigar_gen 5 BAM_CSOFT_CLIP, bam_cigar_gen 5 BAM_CMATCH, bam_cigar_gen 5 BAM_CDEL,
     bam_cigar_gen 5 BAM_CMATCH, bam_cigar_gen 2 BAM_CINS, bam_cigar_gen 5 BAM_CMATCH]⟩

/-- A record with the CIGAR `5H16M`, at 0. -/
def hard_clipped : Bam1 :=
  ⟨0, 0, -1, -1, 0, 30, "r", [bam_cigar_gen 5 BAM_CHARD_CLIP, bam_cigar_gen 16 BAM_CMATCH]⟩

/-- A record with the CIGAR `8M2P8M`, at 0. -/
def padded : Bam1 :=
  ⟨0, 0, -1, -1, 0, 30, "r",
    [bam_cigar_gen 8 BAM_CMATCH, bam_cigar_gen 2 BAM_CPAD, bam_cigar_gen 8 BAM_CMATCH]⟩

/-- A record with the CIGAR `16M`, at 0. -/
def sixteen_match : Bam1 := ⟨0, 0, -1, -1, 0, 30, "r", [bam_cigar_gen 16 BAM_CMATCH]⟩

/-- The record of scenario S4: `16M2D3M` at 0. -/
def s4_read : Bam1 :=
  ⟨0, 0, -1, -1, 0, 30, "r",
    [bam_cigar_gen 16 BAM_CMATCH, bam_cigar_gen 2 BAM_CDEL, bam_cigar_gen 3 BAM_CMATCH]⟩

/-- The bases of scenario S4: `A` everywhere but `T` at the offset 10. -/
def s4_seq : Nat → Nat := fun i => if i = 10 then 8 else 1

/-- The bases of scenario S4 with `N` at the offset 10. -/
def s4_seq_n : Nat → Nat := fun i => if i = 10 then 15 else 1

/-- The parsed MD:Z string `10A5^AC3` of scenario S4. -/
def s4_mdz : List MdzOp :=
  [⟨'=', 10, []⟩, ⟨'X', 1, ['A']⟩, ⟨'=', 5, []⟩, ⟨'^', 2, ['A', 'C']⟩, ⟨'=', 3, []⟩]

/-- A read of bases `A` only. -/
def all_a : Nat → Nat := fun _ => 1

/-- Total length of the M, =, X and D operations of a CIGAR. -/
def cigar_md_length : List Nat → Nat
  | [] => 0
  | c :: cs =>
    (if is_match c ∨ bam_cigar_op c = BAM_CDEL then bam_cigar_oplen c else 0)
      + cigar_md_length cs

/-- Total run length of MD:Z operations. -/
def mdz_total (ops : List MdzOp) : Nat := (ops.map MdzOp.run).sum

/-- The line is a mismatch or a deletion. -/
def AltLine.is_mismatch_or_deletion : AltLine → Bool
  | .X _ _ _ _ => true
  | .D _ _ _ => true
  | _ => false

/-- The reference bases that an MD:Z string describes, in order, for a CIGAR walked from the
reference position `r` and the query offset `q`: one entry for each base of an M, =, X or D
operation, holding the reference position of the base and the query offset reached there. -/
def md_columns : List Nat → Nat → Nat → List (Nat × Nat)
  | [], _, _ => []
  | c :: cs, r, q =>
    if is_match c then
      (List.range (bam_cigar_oplen c)).map (fun i => (r + i, q + i))
        ++ md_columns cs (r + bam_cigar_oplen c) (q + bam_cigar_oplen c)
    else if bam_cigar_op c = BAM_CDEL then
      (List.range (bam_cigar_oplen c)).map (fun i => (r + i, q))
        ++ md_columns cs (r + bam_cigar_oplen c) q
    else if bam_cigar_op c = BAM_CREF_SKIP then md_columns cs (r + bam_cigar_oplen c) q
    else if bam_cigar_op c = BAM_CINS ∨ bam_cigar_op c = BAM_CSOFT_CLIP then
      md_columns cs r (q + bam_cigar_oplen c)
    else md_columns cs r q

/-- The X and D lines claimed for MD:Z operations of which the first describes the bases from
the `k`-th entry of `cols` on: for a mismatch segment, a line at the reference position of its
first base with the bases of the read from the query offset of that base (no line for a segment
of one base read as `N` unless `include_n_mms` is set); for a deletion, a line at the reference
position of its first base with its length. -/
def mdz_lines (tid : Int) (seq qual : Nat → Nat) (print_qual include_n_mms : Bool)
    (cols : List (Nat × Nat)) : List MdzOp → Nat → List AltLine
  | [], _ => []
  | m :: rest, k =>
    (if m.op = 'X' then
        if include_n_mms = false ∧ m.run = 1
            ∧ seq_nt16_str.getD (bam_seqi seq (cols.getD k (0, 0)).2) '=' = 'N' then []
        else [AltLine.X tid (cols.getD k (0, 0)).1
          (seq_substring seq (cols.getD k (0, 0)).2 m.run)
          (if print_qual then some (cstr_substring qual (cols.getD k (0, 0)).2 m.run) else none)]
      else if m.op = '^' then [AltLine.D tid (cols.getD k (0, 0)).1 m.run]
      else [])
      ++ mdz_lines tid seq qual print_qual include_n_mms cols rest (k + m.run)

/-- The `n` bases of an M, = or X operation laid over MD:Z operations: they take whole mismatch
segments and runs of matches, the last run possibly in part; the result is the operations left,
the first with what is left of its run, and `none` when the operations do not fit. -/
def lay_match : List MdzOp → Nat → Option (List MdzOp)
  | [], n => if n = 0 then some [] else none
  | m :: rest, n =>
    if n = 0 then some (m :: rest)
    else if m.run = 0 then none
    else if m.op = '=' then
      if m.run ≤ n then lay_match rest (n - m.run)
      else some ({ m with run := m.run - n } :: rest)
    else if m.op = 'X' ∧ m.str.length = m.run ∧ m.run ≤ n then lay_match rest (n - m.run)
    else none

/-- The CIGAR and the MD:Z operations are consistent: the operations are among M, I, D, N, S,
H, P, = and X; the M, =, X and D operations have a positive length; the bases of each M, = or X
operation are described by runs of matches and whole mismatch segments; each D operation meets
a deletion of its length; an N operation is followed by bases that MD:Z describes; and no MD:Z
operation is left at the end. -/
def mdz_consistent : List Nat → List MdzOp → Bool
  | [], ops => decide (ops = [])
  | c :: cs, ops =>
    if is_match c then
      decide (bam_cigar_oplen c > 0) &&
        (match lay_match ops (bam_cigar_oplen c) with
         | some rest => mdz_consistent cs rest
         | none => false)
    else if bam_cigar_op c = BAM_CDEL then
      match ops with
      | m :: rest =>
        decide (m.op = '^' ∧ m.run = bam_cigar_oplen c ∧ m.str.length = bam_cigar_oplen c
          ∧ bam_cigar_oplen c > 0) && mdz_consistent cs rest
      | [] => false
    else if bam_cigar_op c = BAM_CREF_SKIP then decide (ops ≠ []) && mdz_consistent cs ops
    else if bam_cigar_op c = BAM_CINS ∨ bam_cigar_op c = BAM_CSOFT_CLIP
        ∨ bam_cigar_op c = BAM_CHARD_CLIP ∨ bam_cigar_op c = BAM_CPAD then
      mdz_consistent cs ops
    else false

/-- The number of bases with the code `b` among the `run` bases from the query offset `off`. -/
def base_count (seq : Nat → Nat) (off run b : Nat) : Nat :=
  ((List.range run).filter (fun i => bam_seqi seq (off + i) = b)).length

/-! ## The command line -/

/-- The function `has_option`: `std::find` meets the option among the arguments. -/
def has_option (argv : List String) (option : String) : Bool := argv.contains option

/-- The function `get_option`: the argument `shift + 1` places after the first occurrence of
the option; `none` stands for the null pointer that ends the arguments and for what lies
behind it. -/
def get_option (argv : List String) (option : String) (shift : Nat) : Option String :=
  argv[argv.indexOf option + shift + 1]?

/-- The loop of `get_positional_n` from the counter `i` on: an argument is positional when its
first character is not `-` or when it has one character. -/
def get_positional_loop (n : Nat) : List String → Nat → Option String
  | [], _ => none
  | a :: rest, i =>
    if a.data.head? ≠ some '-' ∨ a.length = 1 then
      if i = n then some a else get_positional_loop n rest (i + 1)
    else get_positional_loop n rest i

/-- The function `get_positional_n`: the positional argument number `n`, if any. -/
def get_positional_n (argv : List String) (n : Nat) : Option String :=
  get_positional_loop n argv 0

/-- The test `isspace` of the C locale. -/
def isspace (c : Char) : Bool := c.toNat = 32 ∨ (9 ≤ c.toNat ∧ c.toNat ≤ 13)

/-- The function `atoi` of the C library on a string: white space, an optional sign, and the
value of the decimal digits that follow (values outside of `int` are not part of the
embedding). -/
def atoi (s : String) : Int :=
  match s.data.dropWhile isspace with
  | '-' :: ds => - (decimal_value (ds.takeWhile isdigit) : Int)
  | '+' :: ds => (decimal_value (ds.takeWhile isdigit) : Int)
  | ds => (decimal_value (ds.takeWhile isdigit) : Int)

/-- The function `get_operation`. -/
def get_operation (opstr : String) : Op :=
  if opstr = "mean" then Op.cmean
  else if opstr = "min" then Op.cmin
  else if opstr = "max" then Op.cmax
  else Op.csum

/-- The global `UNKNOWN_FORMAT`. -/
def UNKNOWN_FORMAT : Int := -1

/-- The global `BAM_FORMAT`. -/
def BAM_FORMAT : Int := 1

/-- The global `BW_FORMAT`. -/
def BW_FORMAT : Int := 2

/-- The C string at `&fname[slen - k]`, where `slen` is the length of `fname`: the last `k`
characters of the name.  For a name shorter than `k` the pointer lies before the name and the
string starts in the bytes `before` that precede the name in memory (the last of them next to
the name), ending at the first NUL. -/
def suffix_at (before fname : List Char) (k : Nat) : List Char :=
  if k ≤ fname.length then fname.drop (fname.length - k)
  else ((before.reverse.take (k - fname.length)).reverse ++ fname).takeWhile
    (fun c => c.toNat ≠ 0)

/-- The function `get_file_format_extension` (lines 2098-2109); `strcmp(s, p) == 0` says that
the string at `p` is `s`. -/
def get_file_format_extension (before fname : List Char) : Int :=
  if suffix_at before fname 3 = "bam".data ∨ suffix_at before fname 3 = "sam".data then
    BAM_FORMAT
  else if suffix_at before fname 2 = "bw".data
      ∨ suffix_at before fname 2 = "BW".data
      ∨ suffix_at before fname 6 = "bigwig".data
      ∨ suffix_at before fname 6 = "bigWig".data
      ∨ suffix_at before fname 6 = "BigWig".data then
    BW_FORMAT
  else UNKNOWN_FORMAT

/-- The test `is_bw_list_file` of `go_bw` (lines 1383-1384): the name ends in `txt`. -/
def is_bw_list_file (before bam_arg : List Char) : Bool :=
  suffix_at before bam_arg 3 = "txt".data

/-- How `main` ends: it returns a code before any file is processed, or it calls `go` on the
positional argument (`go<double>` when `as_double`), or it hands a null pointer to a string
function. -/
inductive MainResult where
  | returned (code : Int)
  | go (fname_arg : String) (is_bam : Bool) (op : Op) (as_double : Bool)
  | null_read
deriving DecidableEq, Repr

/-- The function `main` (lines 2111-2159) on the command line `args`, whose first entry is the
name of the binary; `sam_open_ok` says whether `sam_open` succeeds on the positional
argument. -/
def main (before : List Char) (sam_open_ok : Bool) (args : List String) : MainResult :=
  let argv := args.drop 1
  if argv.length = 0 ∨ has_option argv "--help" ∨ has_option argv "--usage" then .returned 0
  else if has_option argv "--version" then .returned 0
  else if has_option argv "--bwbuffer" ∧ get_option argv "--bwbuffer" 0 = none then .null_read
  else
    match get_positional_n argv 0 with
    | none => .returned (-1)
    | some fname_arg =>
      let format_code := get_file_format_extension before fname_arg.data
      if format_code = UNKNOWN_FORMAT then .returned (-1)
      else
        let is_bam : Bool := format_code = BAM_FORMAT
        if is_bam ∧ ¬ sam_open_ok then .returned (-1)
        else if has_option argv "--op" then
          match get_option argv "--op" 0 with
          | none => .null_read
          | some opstr =>
            .go fname_arg is_bam (get_operation opstr)
              (!is_bam || decide (get_operation opstr = Op.cmean))
        else .go fname_arg is_bam Op.csum (!is_bam)

/-- The variable `keep_order` of `go` (line 2057). -/
def go_keep_order (argv : List String) : Bool := !has_option argv "--keep-order"

/-- The index `keep_order_idx` of the slot of the sums over all reads (lines 1401, 1744 and
1964). -/
def keep_order_idx (keep_order : Bool) : Int := if keep_order then 2 else -1

/-- The index `keep_order_idx` of the slot of the sums over the unique reads (lines 1748 and
1967). -/
def keep_order_idx_unique (keep_order : Bool) : Int := if keep_order then 3 else -1

/-! ## The options of go_bam -/

/-- The variables `go_bam` derives from the command line before it reads the records; `bwfp`
and `ubwfp` say that the BigWig file was created. -/
structure BamOptions where
  unique : Bool
  just_auc : Bool
  compute_coverage : Bool
  bw_unique_min_qual : Int
  bwfp : Bool
  ubwfp : Bool
  compute_ends : Bool
  print_frag_dist : Bool
  extract_junctions : Bool
  print_coverage : Bool
deriving DecidableEq, Repr

/-- The options of `go_bam` (lines 1506, 1528-1537, 1586-1614, 1621, 1635-1641, 1659-1669 and
1689); `none` when `atoi` is handed the null pointer that ends the arguments.  The names of the
files are not part of the embedding. -/
def go_bam_options (argv : List String) ( has_annotation : Bool) : Option BamOptions :=
  let unique := has_option argv "--min-unique-qual"
  let just_auc := has_option argv "--just-auc"
  let just_auc := if has_option argv "--auc" ∧ ¬ has_annotation then true else just_auc
  let auc_opt := has_option argv "--auc"
  let coverage_opt := has_option argv "--coverage"
  let annotation_opt := has_option argv "--annotation"
  let bigwig_opt := has_option argv "--bigwig"
  let coverage_block := coverage_opt || auc_opt || annotation_opt || bigwig_opt
  let just_auc :=
    if coverage_block then !(coverage_opt || annotation_opt || bigwig_opt) else just_auc
  let min_qual : Option Int :=
    if coverage_block ∧ unique then (get_option argv "--min-unique-qual" 0).map atoi
    else some 0
  min_qual.map fun q =>
    { unique := unique,
      just_auc := just_auc,
      compute_coverage := coverage_block,
      bw_unique_min_qual := q,
      bwfp := coverage_block && bigwig_opt,
      ubwfp := coverage_block && unique && !just_auc,
      compute_ends := has_option argv "--read-ends",
      print_frag_dist := has_option argv "--frag-dist",
      extract_junctions := has_option argv "--junctions",
      print_coverage := coverage_opt || auc_opt || just_auc }

/-- The calls of `print_array` for a finished contig (lines 1735-1741, and 1955-1961 at the end
of the file): the state left by the call on `coverages` and by the call on
`unique_coverages`, `none` for a call that is not made. -/
def print_contig (o : BamOptions) (coverages unique_coverages : List Nat)
    (num_lines_per_buf : Int) : Option PAState × Option PAState :=
  if o.print_coverage then
    (some (print_array coverages false o.bwfp o.just_auc num_lines_per_buf),
      if o.unique then
        some (print_array unique_coverages false o.ubwfp o.just_auc num_lines_per_buf)
      else none)
  else (none, none)

/-- The arrays `starts` and `ends` of the read-ends mode. -/
structure EndsState where
  starts : Nat → Nat
  ends : Nat → Nat

/-- The counting of one record in the read-ends mode (lines 1816-1822): `end_refpos` is the
end coordinate if `calculate_coverage` was called for the record (`none` stands for -1), and
`align_length(rec)` is `bam_endpos(rec) - pos`.  The end coordinate is taken as positive, as
it is for a record that covers a reference base. -/
def count_ends (bw_unique_min_qual : Int) (rec : Bam1) (end_refpos : Option Nat)
    (st : EndsState) : EndsState :=
  if bw_unique_min_qual = 0 ∨ (rec.qual : Int) ≥ bw_unique_min_qual then
    let e := match end_refpos with
      | some e => e
      | none => rec.pos + (bam_endpos rec - rec.pos)
    { starts := Function.update st.starts rec.pos (inc32 (st.starts rec.pos)),
      ends := Function.update st.ends (e - 1) (inc32 (st.ends (e - 1))) }
  else st

/-- A record with mapping quality 5: `100M` at 1000. -/
def low_quality_read : Bam1 := ⟨0, 1000, -1, -1, 0, 5, "r", [bam_cigar_gen 100 BAM_CMATCH]⟩

/-- The arrays `starts` and `ends` after `reset_array`. -/
def EndsState.zero : EndsState := { starts := fun _ => 0, ends := fun _ => 0 }

/-- A command line that names a list of BigWig files. -/
def args_txt : List String :=
  ["megadepth", "bigwigs.txt", "--annotation", "regions.bed", "out", "--threads", "2"]

/-- The arguments `--bigwig out` alone. -/
def argv_bigwig : List String := ["reads.bam", "--bigwig", "out"]

/-- The arguments `--read-ends out --min-unique-qual 10` alone. -/
def argv_read_ends : List String := ["reads.bam", "--read-ends", "out", "--min-unique-qual", "10"]

/-! ## The region index and the output in the order of the BED file -/

/-- The columns of a line of the BED file as `process_region_line` reads them: the name of the
contig (`strtok`) and the two coordinates (`atol`). -/
structure BedLine where
  chrm : String
  start : Int
  stop : Int
deriving DecidableEq, Repr

/-- The map `annotation_map_t` from the name of a contig to the vector of its entries, as the
list of its keys with their vectors. -/
abbrev AnnotationMap (α : Type) := List (String × List (Region α))

/-- The function `process_region_line` (lines 849-918) on the region index and on the list
`chrm_order`. -/
def process_region_line {α : Type} [Zero α] (line : BedLine) (amap : AnnotationMap α)
    (chrm_order : List String) ( keep_order : Bool) : AnnotationMap α × List String :=
  let _alen : Nat := if keep_order then 4 else 2
  let coords : Region α := { start := line.start, stop := line.stop, sum := 0, uniq_sum := 0 }
  let push := fun (m : AnnotationMap α) =>
    m.map (fun e => if e.1 = line.chrm then (e.1, e.2 ++ [coords]) else e)
  if (amap.lookup line.chrm).isNone then
    (push (amap ++ [(line.chrm, [])]), chrm_order ++ [line.chrm])
  else (push amap, chrm_order)

/-- The function `read_annotation`: `process_region_line` on every line of the file. -/
def read_annotation {α : Type} [Zero α] (lines : List BedLine) ( keep_order : Bool) :
    AnnotationMap α × List String :=
  lines.foldl (fun acc line => process_region_line line acc.1 acc.2 keep_order) ([], [])

/-- The function `output_all_coverage_ordered_by_BED` (lines 1277-1301) with `print_shared`:
the lines `(contig, start, end, value)` written to `afp` and those written to `uafp` (`uafp`
says that this file is given). -/
def output_all_coverage_ordered_by_BED {α : Type} (chrm_order : List String)
    (annotations : AnnotationMap α) (uafp : Bool) :
    List (String × Int × Int × α) × List (String × Int × Int × α) :=
  chrm_order.foldl
    (fun acc c =>
      let annotations_for_chr := (annotations.lookup c).getD []
      (acc.1 ++ annotations_for_chr.map (fun r => (c, r.start, r.stop, r.sum)),
        if uafp then acc.2 ++ annotations_for_chr.map (fun r => (c, r.start, r.stop, r.uniq_sum))
        else acc.2))
    ([], [])

/-- What the annotation code of `go_bam` leaves when the contig `name` is the last one of the
file and is finished at its end, without `--min-unique-qual` (lines 1962-1977): the region
index, the lines `sum_annotations` wrote to `afp`, and the lines
`output_all_coverage_ordered_by_BED` wrote to it. -/
structure AnnotationOut where
  annotations : AnnotationMap Int
  inline : List (String × Int × Int × Int)
  ordered : List (String × Int × Int × Int)
deriving DecidableEq, Repr

/-- The annotation code of lines 1962-1977 of `go_bam` for the last contig `name`; `none` when
`sum_annotations` fails. -/
def finish_annotations ( keep_order : Bool) (chrm_order : List String)
    (annotations : AnnotationMap Int) (name : String) (coverages : List Nat) (chr_size : Int)
    (just_auc : Bool) : Option AnnotationOut :=
  match annotations.lookup name with
  | some regions =>
    (sum_annotations coverages regions chr_size 0 just_auc (keep_order_idx keep_order)).map
      fun st =>
        let annotations :=
          annotations.map (fun e => if e.1 = name then (e.1, st.annotations) else e)
        { annotations := annotations,
          inline := st.printed.map (fun l => (name, l.1, l.2.1, l.2.2)),
          ordered :=
            if keep_order then
              (output_all_coverage_ordered_by_BED chrm_order annotations false).1
            else [] }
  | none =>
    some
      { annotations := annotations,
        inline := [],
        ordered :=
          if keep_order then (output_all_coverage_ordered_by_BED chrm_order annotations false).1
          else [] }

/-- The names of a list in the order of their first appearance. -/
def first_appearances : List String → List String
  | [] => []
  | a :: rest => a :: (first_appearances rest).filter (fun c => c ≠ a)

/-- The contig and the coordinates of the entries of a region index. -/
def region_coords {α : Type} (amap : AnnotationMap α) : List (String × List (Int × Int)) :=
  amap.map (fun e => (e.1, e.2.map (fun r => (r.start, r.stop))))

/-- Three example lines that alternate between two contigs. -/
def alternating_bed : List BedLine :=
  [{ chrm := "chr1", start := 0, stop := 10 }, { chrm := "chr2", start := 5, stop := 8 },
   { chrm := "chr1", start := 20, stop := 30 }]

/-- A command line with `--keep-order`. -/
def argv_keep_order : List String :=
  ["reads.bam", "--annotation", "regions.bed", "out", "--keep-order"]

/-- A command line without `--keep-order`. -/
def argv_default_order : List String := ["reads.bam", "--annotation", "regions.bed", "out"]

/-- A coverage array of ten cells. -/
def ten_cells : List Nat := [1, 1, 2, 2, 2, 0, 0, 3, 3, 3]

/-- A region index with two regions on one contig, slots at zero. -/
def two_regions : AnnotationMap Int :=
  [("chr1", [{ start := 0, stop := 3, sum := 0, uniq_sum := 0 },
             { start := 4, stop := 9, sum := 0, uniq_sum := 0 }])]

/-- The region index and the lines left for `two_regions` over `ten_cells` in the order of the
BED file. -/
def default_order_out : AnnotationOut :=
  { annotations :=
      [("chr1", [{ start := 0, stop := 3, sum := 4, uniq_sum := 0 },
                 { start := 4, stop := 9, sum := 8, uniq_sum := 0 }])],
    inline := [],
    ordered := [("chr1", 0, 3, 4), ("chr1", 4, 9, 8)] }

/-! ## The fragment length distribution -/

def BAM_FPAIRED : Nat := 1
def BAM_FMUNMAP : Nat := 8
def BAM_FREVERSE : Nat := 16
def BAM_FMREVERSE : Nat := 32
def BAM_FREAD1 : Nat := 64
def BAM_FREAD2 : Nat := 128
def BAM_FSECONDARY : Nat := 256
def BAM_FSUPPLEMENTARY : Nat := 2048

/-- The test `(flag & mask) != 0` for a mask of one bit. -/
def flag_set (flag mask : Nat) : Bool := flag / mask % 2 = 1

/-- The constant `frag_lens_mask`. -/
def frag_lens_mask : Nat := 0xFFFFFFFF

/-- The constant `FRAG_LEN_BITLEN`. -/
def FRAG_LEN_BITLEN : Nat := 32

/-- The value stored for the earlier mate (lines 1791-1794): the 64-bit word with the reference
span in its high half and the intron length in its low half. -/
def pack_lens (span total_intron_len : Nat) : Nat :=
  ((span <<< FRAG_LEN_BITLEN) % 2 ^ 64) ||| total_intron_len

/-- The maps `frag_mates` (name to packed word) and `frag_dist` (length to count). -/
structure FragState where
  frag_mates : List (String × Nat)
  frag_dist : Int → Nat

/-- The conditions of lines 1773-1775 on the flags and the contigs of a record. -/
def frag_eligible (rec : Bam1) : Bool :=
  ¬ flag_set rec.flag BAM_FSECONDARY ∧ ¬ flag_set rec.flag BAM_FSUPPLEMENTARY
    ∧ flag_set rec.flag BAM_FPAIRED ∧ ¬ flag_set rec.flag BAM_FMUNMAP
    ∧ flag_set rec.flag BAM_FREAD1 ≠ flag_set rec.flag BAM_FREAD2 ∧ rec.tid = rec.mtid

/-- The test of lines 1783-1784 on the strands and the positions of the two mates. -/
def frag_geometry (rec : Bam1) (end_refpos mreflen : Nat) : Bool :=
  flag_set rec.flag BAM_FREVERSE ≠ flag_set rec.flag BAM_FMREVERSE
    ∧ ((¬ flag_set rec.flag BAM_FREVERSE ∧ (rec.pos : Int) < rec.mpos + mreflen)
      ∨ (¬ flag_set rec.flag BAM_FMREVERSE ∧ rec.mpos < (end_refpos : Int)))

/-- The block of the fragment length distribution (lines 1770-1797) for a record that passed
the filter of line 1709; `isize` is the field `core.isize` of the record, `end_refpos` and
`total_intron_len` are the values left by `calculate_coverage`.  The `int32_t` locals
`both_intron_lengths` and `mreflen` are natural numbers, which they hold exactly below
`2 ^ 31`. -/
def frag_step (rec : Bam1) (isize : Int) (end_refpos total_intron_len : Nat)
    (st : FragState) : FragState :=
  if frag_eligible rec then
    match st.frag_mates.lookup rec.qname with
    | some both_lens =>
      let both_intron_lengths := total_intron_len + (both_lens &&& frag_lens_mask)
      let both_lens := both_lens >>> FRAG_LEN_BITLEN
      let mreflen := both_lens &&& frag_lens_mask
      let frag_mates := st.frag_mates.filter (fun e => e.1 ≠ rec.qname)
      if frag_geometry rec end_refpos mreflen then
        let both_intron_lengths :=
          if both_intron_lengths > isize.natAbs then 0 else both_intron_lengths
        let bin : Int := (isize.natAbs : Int) - both_intron_lengths
        { frag_mates := frag_mates,
          frag_dist := Function.update st.frag_dist bin (inc32 (st.frag_dist bin)) }
      else { st with frag_mates := frag_mates }
    | none =>
      { st with
        frag_mates :=
          (rec.qname, pack_lens (end_refpos - rec.pos) total_intron_len)
            :: st.frag_mates.filter (fun e => e.1 ≠ rec.qname) }
  else st

/-! ## The junction lines of a pair -/

/-- The text `printf` writes for `%d` given an `int`. -/
def fmt_int (x : Int) : List Char :=
  if x < 0 then '-' :: Nat.toDigits 10 x.natAbs else Nat.toDigits 10 x.natAbs

/-- The maps `jx_pairs` (name to junction string) and `jx_counts` (name to size of the
coordinate list), and the text written to `jxs_file`. -/
structure JxPairs where
  jx_pairs : List (String × List Char)
  jx_counts : List (String × Nat)
  jxs_file : List Char
deriving DecidableEq, Repr

/-- The string `jx_str` of lines 1881-1895: the name of the contig, the start, the strand, the
template length and the CIGAR string, each followed by a tab, then the coordinates. -/
def jx_line (target_name : List Char) (rec : Bam1) (tlen_orig : Int) (cigar_str : List Char)
    (cl : List Nat) : List Char :=
  target_name ++ ['\t'] ++ fmt_d (rec.pos + 1) ++ ['\t']
    ++ (if flag_set rec.flag BAM_FREVERSE then ['1'] else ['0']) ++ ['\t']
    ++ fmt_int tlen_orig ++ ['\t'] ++ cigar_str ++ ['\t'] ++ jx_coords rec.pos cl

/-- The template length the block of the pairs works with (lines 1871-1874): the field of the
record for mates on one contig, otherwise 1000 or -1000 by the order of the two contigs. -/
def pair_tlen (rec : Bam1) (tlen : Int) : Int :=
  if rec.tid ≠ rec.mtid then (if rec.mtid > rec.tid then 1000 else -1000) else tlen

/-- The block of lines 1869-1935 of `go_bam` for a record with the template length `tlen`
(`core.isize`), the name `target_name` of its contig, the CIGAR string left by `process_cigar`
and the coordinate list `cl` left by `extract_junction`.  `jx_str` is `none` for the null
pointer. -/
def junction_step (rec : Bam1) (tlen : Int) (target_name cigar_str : List Char)
    (cl : List Nat) (st : JxPairs) : JxPairs :=
  let paired := flag_set rec.flag BAM_FPAIRED
  let tlen_orig := tlen
  let tlen : Int := pair_tlen rec tlen
  let sz := cl.length
  let jx_str : Option (List Char) :=
    if sz ≥ 4 ∨ (paired ∧ sz ≥ 2) then some (jx_line target_name rec tlen_orig cigar_str cl)
    else none
  if paired then
    if tlen > 0 ∧ sz ≥ 2 then
      { st with
        jx_pairs := (rec.qname, jx_str.getD []) :: st.jx_pairs.filter (fun e => e.1 ≠ rec.qname),
        jx_counts := (rec.qname, sz) :: st.jx_counts.filter (fun e => e.1 ≠ rec.qname) }
    else if tlen < 0 then
      let found := st.jx_pairs.lookup rec.qname
      let mate_sz := match found with
        | some _ => (st.jx_counts.lookup rec.qname).getD 0
        | none => 0
      let first : List Char := match found with
        | some pre_jx_str => if mate_sz ≥ 4 ∨ (mate_sz ≥ 2 ∧ sz ≥ 2) then pre_jx_str else []
        | none => []
      let prev_mate_printed : Bool := match found with
        | some _ => mate_sz ≥ 4 ∨ (mate_sz ≥ 2 ∧ sz ≥ 2)
        | none => false
      let second : List Char :=
        if sz ≥ 4 ∨ (mate_sz ≥ 2 ∧ sz ≥ 2) then
          (if prev_mate_printed then ['\t'] else []) ++ jx_str.getD []
        else []
      let prev_mate_printed : Bool :=
        prev_mate_printed || decide (sz ≥ 4 ∨ (mate_sz ≥ 2 ∧ sz ≥ 2))
      { jx_pairs := match found with
          | some _ => st.jx_pairs.filter (fun e => e.1 ≠ rec.qname)
          | none => st.jx_pairs,
        jx_counts := match found with
          | some _ => st.jx_counts.filter (fun e => e.1 ≠ rec.qname)
          | none => st.jx_counts,
        jxs_file := st.jxs_file ++ first ++ second
          ++ (if prev_mate_printed then ['\n'] else []) }
    else st
  else if sz ≥ 4 then { st with jxs_file := st.jxs_file ++ jx_str.getD [] ++ ['\n'] }
  else st

/-- The junction part of the loop body of `go_bam` for one record (lines 1866-1939):
`process_cigar` with the callback `extract_junction` on the cleared list and counter, then the
block of the pairs. -/
def junction_record (rec : Bam1) (tlen : Int) (target_name cigar_str : List Char)
    (st : JxPairs) : List Char × JxPairs :=
  let r := process_cigar rec.cigar cigar_str [extract_junction] { base := 0, jxs := [] }
  (r.1, junction_step rec tlen target_name r.1 r.2.jxs st)

/-- The text of a CIGAR as the claim gives it: each operation as its decimal length followed by
its character. -/
def cigar_text (cigar : List Nat) : List Char :=
  cigar.flatMap (fun c => Nat.toDigits 10 (bam_cigar_oplen c) ++ [bam_cigar_opchr c])

/-- The operation code of a character of the table `MIDNSHP=XB`. -/
def cigar_op_of_char (ch : Char) : Option Nat :=
  match ['M', 'I', 'D', 'N', 'S', 'H', 'P', '=', 'X', 'B'].indexOf ch with
  | 10 => none
  | k => some k

/-- A reader of the grammar of CIGAR strings, `([0-9]+[MIDNSHP=XB])*`: each operation is a
non-empty run of decimal digits followed by a character of the table.  `acc` is the value of
the digits read since the last operation. -/
def read_cigar_text : List Char → Option Nat → Option (List (Nat × Nat))
  | [], none => some []
  | [], some _ => none
  | ch :: rest, acc =>
    if isdigit ch then
      read_cigar_text rest (some (acc.getD 0 * 10 + (ch.toNat - '0'.toNat)))
    else
      match acc, cigar_op_of_char ch with
      | some n, some op => (read_cigar_text rest none).map (fun l => (op, n) :: l)
      | _, _ => none

/-! ## The reader thread and the loop of go_bam -/

/-- Where the reader thread `read_bam_records` stands: about to call `sam_read1`, in the loop
that waits for the consumer (line 1491), or returned. -/
inductive ReaderPc where
  | reading | waiting | returned
deriving DecidableEq, Repr

/-- Where the loop of `go_bam` stands: in a loop that waits for 20 queued records (lines 1697
and 1942), about to call `try_dequeue` (line 1699), or past the loop. -/
inductive ConsumerPc where
  | waiting | dequeuing | finished
deriving DecidableEq, Repr

/-- The two threads around the queue: the records not yet read from the file, the records held
by the 200 objects of the pool `brecs`, the index `brec_idx`, the queue of pointers into the
pool (as indices), the places of the two threads, and the records the loop body of `go_bam`
has been run on, in order. -/
structure Pipeline where
  file : List Nat
  brecs : List (Option Nat)
  brec_idx : Nat
  brec_q : List Nat
  reader : ReaderPc
  consumer : ConsumerPc
  analysed : List (Option Nat)
deriving DecidableEq, Repr

/-- The local `num_bam_records` of `read_bam_records`. -/
def num_bam_records : Nat := 200

/-- The local `min_records_read` of `read_bam_records`. -/
def min_records_read : Nat := 50

/-- The state when the reader thread starts: every object of the pool is empty. -/
def Pipeline.init (file : List Nat) : Pipeline :=
  { file := file, brecs := List.replicate num_bam_records none, brec_idx := 0, brec_q := [],
    reader := .reading, consumer := .waiting, analysed := [] }

/-- One step of `read_bam_records` (lines 1486-1495): a call of `sam_read1` into
`brecs[brec_idx++]` followed, if a record was read, by `enqueue` and the test of line 1489; or
one test of the loop of line 1491, whose difference is taken in `size_t`. -/
def reader_step (s : Pipeline) : Pipeline :=
  match s.reader with
  | .reading =>
    match s.file with
    | [] => { s with brec_idx := s.brec_idx + 1, reader := .returned }
    | r :: rest =>
      { s with
        file := rest,
        brecs := s.brecs.set s.brec_idx (some r),
        brec_q := s.brec_q ++ [s.brec_idx],
        brec_idx := s.brec_idx + 1,
        reader := if s.brec_idx + 1 ≥ num_bam_records then .waiting else .reading }
  | .waiting =>
    if (num_bam_records + 2 ^ 64 - s.brec_q.length % 2 ^ 64) % 2 ^ 64 < min_records_read then s
    else { s with brec_idx := 0, reader := .reading }
  | .returned => s

/-- One step of the loop of `go_bam`: one test of a loop that waits (lines 1697 and 1942), or
`try_dequeue` followed, if a pointer was taken, by the loop body on the record the object
holds at that moment. -/
def consumer_step (s : Pipeline) : Pipeline :=
  match s.consumer with
  | .waiting => if s.brec_q.length < 20 then s else { s with consumer := .dequeuing }
  | .dequeuing =>
    match s.brec_q with
    | [] => { s with consumer := .finished }
    | p :: q =>
      { s with brec_q := q, analysed := s.analysed ++ [(s.brecs.getD p none)],
               consumer := .waiting }
  | .finished => s

/-- A run of the two threads under a schedule: `true` lets the reader thread take its next
step, `false` the loop of `go_bam`. -/
def run_threads : List Bool → Pipeline → Pipeline
  | [], s => s
  | b :: bs, s => run_threads bs (if b then reader_step s else consumer_step s)

/-- A schedule: the reader fills the pool, the loop of `go_bam` takes 50 records, the reader
passes its test and reads 51 records more, the loop takes one record. -/
def overwrite_schedule : List Bool :=
  List.replicate 200 true ++ List.replicate 101 false ++ List.replicate 52 true
    ++ [false, false]

/-- The maps of the pairs and the file before the first record. -/
def JxPairs.empty : JxPairs := { jx_pairs := [], jx_counts := [], jxs_file := [] }

/-- A first mate with two introns: `10M100N10M100N10M` at 1000, paired, mate at 1500 on the
same contig. -/
def jx_first : Bam1 :=
  ⟨0, 1000, 0, 1500, 1 + 64, 30, "q",
    [bam_cigar_gen 10 BAM_CMATCH, bam_cigar_gen 100 BAM_CREF_SKIP, bam_cigar_gen 10 BAM_CMATCH,
     bam_cigar_gen 100 BAM_CREF_SKIP, bam_cigar_gen 10 BAM_CMATCH]⟩

/-- A second mate with one intron: `10M50N20M` at 1500, paired, mate at 1000. -/
def jx_second_intron : Bam1 :=
  ⟨0, 1500, 0, 1000, 1 + 16 + 128, 30, "q",
    [bam_cigar_gen 10 BAM_CMATCH, bam_cigar_gen 50 BAM_CREF_SKIP, bam_cigar_gen 20 BAM_CMATCH]⟩

/-- The map `frag_dist` before any pair is counted. -/
def FragState.empty : FragState := { frag_mates := [], frag_dist := fun _ => 0 }

/-- The earlier mate of a pair: `50M200N50M` at 1000 on the forward strand, first of the pair,
mate at 1400 on the reverse strand. -/
def frag_first : Bam1 :=
  ⟨0, 1000, 0, 1400, 1 + 32 + 64, 30, "p",
    [bam_cigar_gen 50 BAM_CMATCH, bam_cigar_gen 200 BAM_CREF_SKIP, bam_cigar_gen 50 BAM_CMATCH]⟩

/-- The later mate of the pair: `100M` at 1400 on the reverse strand, second of the pair. -/
def frag_second : Bam1 :=
  ⟨0, 1400, 0, 1000, 1 + 16 + 128, 30, "p", [bam_cigar_gen 100 BAM_CMATCH]⟩

/-- An earlier mate whose mate spans the same intron: `50M200N50M` at 1000 on the forward
strand, mate at 1040 on the reverse strand; the template has 340 bases. -/
def frag_first_shared : Bam1 :=
  ⟨0, 1000, 0, 1040, 1 + 32 + 64, 30, "p",
    [bam_cigar_gen 50 BAM_CMATCH, bam_cigar_gen 200 BAM_CREF_SKIP, bam_cigar_gen 50 BAM_CMATCH]⟩

/-- The later mate of `frag_first_shared`: `10M200N90M` at 1040 on the reverse strand. -/
def frag_second_shared : Bam1 :=
  ⟨0, 1040, 0, 1000, 1 + 16 + 128, 30, "p",
    [bam_cigar_gen 10 BAM_CMATCH, bam_cigar_gen 200 BAM_CREF_SKIP, bam_cigar_gen 90 BAM_CMATCH]⟩

/-- The later mate as a supplementary alignment. -/
def frag_second_supplementary : Bam1 :=
  ⟨0, 1400, 0, 1000, 1 + 16 + 128 + 2048, 30, "p", [bam_cigar_gen 100 BAM_CMATCH]⟩

/-- The bin of the pair as the code counts it: the template length less the introns of the two
mates, or the template length when the introns are longer than it. -/
def frag_bin (isize : Int) (introns : Nat) : Int :=
  if introns ≤ isize.natAbs then (isize.natAbs : Int) - introns else isize.natAbs

/-- The fragment length code of the loop body of `go_bam` for one record when no coverage is
computed (lines 1764-1765 and 1770-1797): `calculate_coverage` without arrays delivers the end
coordinate and the intron length, which the block of the distribution takes. -/
def frag_record (rec : Bam1) (isize : Int) (double_count : Bool) (min_qual : Int)
    (st : FragState) : FragState :=
  let r := calculate_coverage rec zeros zeros false double_count min_qual [] 0 0
  frag_step rec isize r.ret r.total_intron_length st

/-- The contig and the coordinates of a line of the BED file. -/
def BedLine.key (l : BedLine) : String × Int × Int := (l.chrm, l.start, l.stop)

/-- The contig and the coordinates of a line of the output. -/
def out_key {α : Type} (l : String × Int × Int × α) : String × Int × Int := (l.1, l.2.1, l.2.2.1)

/-- The lines of each contig are adjacent: a name is followed by itself or does not come
again. -/
def contigs_adjacent : List String → Prop
  | [] => True
  | a :: rest => (rest.head? = some a ∨ a ∉ rest) ∧ contigs_adjacent rest

/-- The region index of `alternating_bed` with sums in its slots. -/
def alternating_filled : AnnotationMap Int :=
  [("chr1", [{ start := 0, stop := 10, sum := 7, uniq_sum := 2 },
             { start := 20, stop := 30, sum := 9, uniq_sum := 0 }]),
   ("chr2", [{ start := 5, stop := 8, sum := 3, uniq_sum := 3 }])]

/-- What holds in every state the two threads reach on a file of `n` records: the loop of
`go_bam` has not ended, every record is in the file, in the queue or analysed, and the queue
holds 20 records when `try_dequeue` is called, 19 after a record was analysed. -/
def PipelineInv (n : Nat) (s : Pipeline) : Prop :=
  s.consumer ≠ ConsumerPc.finished
    ∧ s.analysed.length + s.brec_q.length + s.file.length = n
    ∧ (s.consumer = ConsumerPc.dequeuing → 20 ≤ s.brec_q.length)
    ∧ (s.consumer = ConsumerPc.waiting → s.analysed = [] ∨ 19 ≤ s.brec_q.length)

/-! ## The text buffer, the spans of a stored mate and contiguous intervals -/

/-- In the text mode the lines written and the lines held in the buffer are the runs counted
so far, and `buf_written` is the number of lines in the buffer. -/
def BufInv (st : PAState) : Prop :=
  st.out ++ st.buf = st.runs ∧ st.buf_written = st.buf.length

/-- A first mate whose CIGAR `40M10D` ends with a deletion: at 100, mate at 145, proper
pair. -/
def mate_tail_del : Bam1 :=
  ⟨0, 100, 0, 145, 3, 30, "r1", [bam_cigar_gen 40 BAM_CMATCH, bam_cigar_gen 10 BAM_CDEL]⟩

/-- The second mate of `mate_tail_del`: `50M` at 145, which lies in the deletion. -/
def mate_in_tail : Bam1 := ⟨0, 145, 0, 100, 3, 30, "r1", [bam_cigar_gen 50 BAM_CMATCH]⟩

/-- What keeps the read of `mspans[mspans_idx]` inside the spans: no read was outside so far,
spans are left unless the stored mate has none or the walk has reached `mendpos`, and the last
span left ends at `mendpos`. -/
def InRange (n mendpos : Nat) (s : CovState) : Prop :=
  s.oob = false ∧ (s.mspans = [] → n = 0 ∨ mendpos ≤ s.algn_end_pos)
    ∧ ∀ sp, s.mspans.getLast? = some sp → sp.2 = mendpos

/-- Intervals of which each starts where the one before it ends. -/
def contiguous : List Interval → Prop
  | [] => True
  | [_] => True
  | a :: b :: rest => a.stop = b.start ∧ contiguous (b :: rest)

/-- The value of the interval that contains the base `b`: the first interval with
`start ≤ b < stop`; 0 when no interval contains `b`. -/
def interval_value_at (intervals : List Interval) (b : Int) : ℚ :=
  match intervals.find? (fun iv => decide ((iv.start : Int) ≤ b ∧ b < iv.stop)) with
  | some iv => iv.value
  | none => 0

/-- The values, base by base, of the `n` bases from `start` on: for each base the value of the
interval that contains it. -/
def bases_values (intervals : List Interval) (start : Int) (n : Nat) : List ℚ :=
  (List.range n).map (fun (k : Nat) => interval_value_at intervals (start + (k : Int)))

/-- The values, base by base, of the bases of the region `[rstart, rend)`. -/
def region_values (intervals : List Interval) (rstart rend : Int) : List ℚ :=
  bases_values intervals rstart (rend - rstart).toNat

/-- The sum over the bases of the region `[rstart, rend)` of the value of the interval that
contains the base. -/
def region_sum (intervals : List Interval) (rstart rend : Int) : ℚ :=
  (region_values intervals rstart rend).sum

/-- The values added to `s` one by one, in the order of the list, each addition of type
`double`. -/
def double_sum (s : ℚ) (vs : List ℚ) : ℚ := vs.foldl double_add s

/-- Three contiguous intervals: 2 on `[0,10)`, 3 on `[10,30)`, 5 on `[30,40)`. -/
def three_intervals : List Interval := [⟨0, 10, 2⟩, ⟨10, 30, 3⟩, ⟨30, 40, 5⟩]

/-! ## A worker over several BigWig files -/

/-- A BigWig file as `process_bigwig` reads it: its contigs in the order of the file, each with
the intervals the iterator returns for it (`[]` for a contig without interval data or with 0
intervals). -/
abbrev BigWigFile := List (String × List Interval)

/-- The map `str2dblist store_local` of a worker: the array `local_vals` kept for a contig. -/
abbrev LocalStore := List (String × List ℚ)

/-- What `process_bigwig` leaves behind for one file: the region index, the keys of
`annotation_chrs_seen`, the lines written to `afp`, `annotated_auc` and the map behind
`store_local`. -/
structure BWFileState where
  amap : AnnotationMap ℚ
  seen : List String
  afp : List (String × Int × Int × ℚ)
  annotated_auc : ℚ
  store_local : LocalStore
deriving DecidableEq, Repr

/-- One iteration of the loop of `process_bigwig` over the contigs of the file (lines
1109-1225): a contig that is not in the region index, or that has no intervals, is passed
over; `has_store` says that `store_local` is not null. -/
def process_bigwig_chrom (op : Op) (keep_order_idx : Int) (has_store : Bool)
    (st : BWFileState) (c : String × List Interval) : Option BWFileState :=
  match st.amap.lookup c.1 with
  | none => some st
  | some annotations =>
    if c.2.length = 0 then some st
    else
      (process_bigwig_contig c.2 annotations op keep_order_idx has_store st.annotated_auc).map
        fun r =>
          { amap := st.amap.map (fun e => if e.1 = c.1 then (e.1, r.annotations) else e),
            seen := st.seen.filter (fun n => n ≠ c.1) ++ [c.1],
            afp := st.afp ++ r.printed.map (fun l => (c.1, l.1, l.2.1, l.2.2)),
            annotated_auc := r.annotated_auc,
            store_local :=
              if has_store then
                (c.1, r.local_vals) :: st.store_local.filter (fun e => e.1 ≠ c.1)
              else st.store_local }

/-- The loop of `process_bigwig` over the contigs of the file. -/
def process_bigwig_loop (op : Op) (keep_order_idx : Int) (has_store : Bool) :
    List (String × List Interval) → BWFileState → Option BWFileState
  | [], st => some st
  | c :: rest, st =>
    match process_bigwig_chrom op keep_order_idx has_store st c with
    | none => none
    | some st => process_bigwig_loop op keep_order_idx has_store rest st

/-- The function `process_bigwig` (lines 1088-1232) on an opened file; `store_local` is `none`
for the null pointer.  `none` when a read falls outside an array. -/
def process_bigwig (bw : BigWigFile) (annotated_auc : ℚ) (amap : AnnotationMap ℚ)
    (keep_order_idx : Int) (op : Op) (store_local : Option LocalStore) : Option BWFileState :=
  process_bigwig_loop op keep_order_idx store_local.isSome bw
    { amap := amap, seen := [], afp := [], annotated_auc := annotated_auc,
      store_local := store_local.getD [] }

/-- The lines `print_local` writes for the entries of one contig from index `z` on: the value
is `local_vals[z]`; `none` when `local_vals` is the null pointer (`none`) or is read past its
end. -/
def print_local_lines (c : String) (local_vals : Option (List ℚ)) :
    List (Region ℚ) → Nat → Option (List (String × Int × Int × ℚ))
  | [], _ => some []
  | r :: rest, z =>
    match local_vals with
    | none => none
    | some vals =>
      match vals[z]? with
      | none => none
      | some v => (print_local_lines c local_vals rest (z + 1)).map
          (fun ls => (c, r.start, r.stop, v) :: ls)

/-- The function `output_all_coverage_ordered_by_BED` (lines 1277-1301) with a map
`store_local` and without `uafp`: the lines written to `afp`.  For a contig that has no entry
in the map `(*store_local)[c]` is the null pointer. -/
def output_all_coverage_local (annotations : AnnotationMap ℚ) (store_local : LocalStore) :
    List String → Option (List (String × Int × Int × ℚ))
  | [] => some []
  | c :: rest =>
    match print_local_lines c (store_local.lookup c) ((annotations.lookup c).getD []) 0 with
    | none => none
    | some ls => (output_all_coverage_local annotations store_local rest).map (fun t => ls ++ t)

/-- The function `output_missing_annotations` (lines 1260-1274): a line with the value 0 for
every entry of a contig that is not among the keys of `annotations_seen`, the contigs taken in
the order of the list of keys. -/
def output_missing_annotations (annotations : AnnotationMap ℚ) (annotations_seen : List String) :
    List (String × Int × Int × ℚ) :=
  (annotations.filter (fun kv => !annotations_seen.contains kv.1)).flatMap
    (fun kv => kv.2.map (fun r => (kv.1, r.start, r.stop, (0 : ℚ))))

/-- The loop of `process_bigwig_worker` over its files (lines 1319-1358), with the map
`store_local` that is declared before the loop: the lines written to the file `.all.tsv` of
each BigWig file, in the order of the files; `none` when a read falls outside an array or goes
through a null pointer. -/
def process_bigwig_worker_loop (annotations : AnnotationMap ℚ) (chrm_order : List String)
    (keep_order_idx : Int) (op : Op) :
    List BigWigFile → LocalStore → Option (List (List (String × Int × Int × ℚ)))
  | [], _ => some []
  | bw :: rest, store_local =>
    match process_bigwig bw 0 annotations keep_order_idx op (some store_local) with
    | none => none
    | some st =>
      let lines :=
        if keep_order_idx = 2 then
          (output_all_coverage_local annotations st.store_local chrm_order).map
            (fun ls => st.afp ++ ls)
        else some (st.afp ++ output_missing_annotations annotations st.seen)
      match lines with
      | none => none
      | some ls =>
        (process_bigwig_worker_loop annotations chrm_order keep_order_idx op rest
          st.store_local).map (fun t => ls :: t)

/-- The function `process_bigwig_worker` (lines 1316-1362) on the opened files `bwfns`. -/
def process_bigwig_worker (bwfns : List BigWigFile) (annotations : AnnotationMap ℚ)
    (chrm_order : List String) (keep_order_idx : Int) (op : Op) :
    Option (List (List (String × Int × Int × ℚ))) :=
  process_bigwig_worker_loop annotations chrm_order keep_order_idx op bwfns []

/-- A BigWig file with the value 5 on `[0,100)` of `chr1`. -/
def bw_five : BigWigFile := [("chr1", [⟨0, 100, 5⟩])]

/-- A BigWig file with the value 7 on `[0,100)` of `chr1`. -/
def bw_seven : BigWigFile := [("chr1", [⟨0, 100, 7⟩])]

/-- A BigWig file whose contig `chr1` has no intervals. -/
def bw_empty_contig : BigWigFile := [("chr1", [])]

/-- The region index of a BED file with the line `chr1 10 20`. -/
def one_region : AnnotationMap ℚ := [("chr1", [⟨10, 20, 0, 0⟩])]

/-! ## The loop body of go_bam -/

/-- A record as the loop body of `go_bam` reads it: the fields of `core` and the CIGAR, the
template length `core.isize`, the length `core.l_qseq`, the base codes and the quality bytes by
query offset, and the text of the `MD` field after its type character (`none` when
`bam_aux_get` finds no such field). -/
structure Alignment where
  core : Bam1
  isize : Int
  l_qseq : Nat
  seq : Nat → Nat
  qual : Nat → Nat
  md : Option (List Char)

/-- The arrays `target_name` and `target_len` of the header, by contig id. -/
structure Header where
  target_name : Int → String
  target_len : Int → Nat

/-- The variables `go_bam` fixes before it reads the records (lines 1547-1689) and the
arguments `keep_order` and `sum_annotation` it is called with; `include_sc` also says that
`softclip_file` is open, and `chr_size` is the size of the arrays. -/
structure LoopOptions where
  bam : BamOptions
  count_bases : Bool
  include_sc : Bool
  only_polya_sc : Bool
  include_n_mms : Bool
  double_count : Bool
  report_end_coord : Bool
  echo_sam : Bool
  compute_alts : Bool
  require_mdz : Bool
  keep_order : Bool
  sum_annotation : Bool
  chr_size : Int

/-- The variables the loop of `go_bam` over the records changes.  The files are the lists of
what was written to them: `cov_out` and `ucov_out` hold, per finished contig, what
`print_array` emitted; `ends_out` the lines of `--ends`; `sam_out` the records echoed; `afp`
and `uafp` the lines of `sum_annotations`; `rsfp` and `refp` the lines of the read starts and
ends.  The 64-bit totals are natural numbers.  `oob` says that a call of `calculate_coverage`
read `mspans` outside the spans. -/
structure LoopState where
  recs : Nat
  reads_processed : Nat
  total_number_sequence_bases_processed : Nat
  total_number_bases_processed : Nat
  coverages : Nat → Nat
  unique_coverages : Nat → Nat
  overlapping_mates : Read2Len
  oob : Bool
  all_auc : Nat
  unique_auc : Nat
  cov_out : List (Int × PAState)
  ucov_out : List (Int × PAState)
  annotations : AnnotationMap Int
  annotated_auc : Int
  unique_annotated_auc : Int
  afp : List (String × Int × Int × Int)
  uafp : List (String × Int × Int × Int)
  annotation_chrs_seen : List String
  ends_out : List (String × Int)
  frag : FragState
  read_ends : EndsState
  rsfp : List (String × Nat × Nat)
  refp : List (String × Nat × Nat)
  ptid : Int
  sam_out : List Bam1
  first : Bool
  print_qual : Bool
  alts_file : List AltLine
  total_softclip_count : Nat
  cigar_str : List Char
  jx : JxPairs

/-- The function `reset_array` (lines 504-507): the cells below `arr_sz` are set to 0. -/
def reset_array (arr : Nat → Nat) (arr_sz : Int) : Nat → Nat :=
  fun i => if (i : Int) < arr_sz then 0 else arr i

/-- The first `arr_sz` cells of an array, as `print_array` and `sum_annotations` read them. -/
def array_cells (arr : Nat → Nat) (arr_sz : Nat) : List Nat := (List.range arr_sz).map arr

/-- The local `num_lines_per_buf` of `print_array` (lines 526-528) for a contig name. -/
def num_lines_per_buf (chrm : String) : Int := 4000000 / ((chrm.length : Int) + 34) - 3

/-- The callback `maplength` (lines 618-621) on its total. -/
def maplength (op len : Nat) (out : Nat) : Nat :=
  if bam_cigar_type op % 2 = 1 ∧ bam_cigar_type op / 2 % 2 = 1 then out + len else out

/-- The calls of `sum_annotations` for the finished contig `name` (lines 1744-1756); `none`
when a call fails. -/
def sum_contig (o : LoopOptions) (name : String) (len : Nat) (s : LoopState) :
    Option LoopState :=
  if LoopOptions.sum_annotation o then
    match s.annotations.lookup name with
    | none => some s
    | some regions =>
      match sum_annotations (array_cells s.coverages len) regions len s.annotated_auc
          o.bam.just_auc (keep_order_idx o.keep_order) with
      | none => none
      | some st =>
        let s := { s with
          annotations :=
            s.annotations.map (fun e => if e.1 = name then (e.1, st.annotations) else e),
          afp := s.afp ++ st.printed.map (fun l => (name, l.1, l.2.1, l.2.2)),
          annotated_auc := st.annotated_auc }
        let r : Option LoopState :=
          if o.bam.unique then
            match sum_annotations (array_cells s.unique_coverages len) st.annotations len
                s.unique_annotated_auc o.bam.just_auc (keep_order_idx_unique o.keep_order) with
            | none => none
            | some ust =>
              some { s with
                annotations :=
                  s.annotations.map (fun e => if e.1 = name then (e.1, ust.annotations) else e),
                uafp := s.uafp ++ ust.printed.map (fun l => (name, l.1, l.2.1, l.2.2)),
                unique_annotated_auc := ust.annotated_auc }
          else some s
        r.map fun s =>
          if ¬ o.keep_order then
            { s with
              annotation_chrs_seen :=
                s.annotation_chrs_seen.filter (fun n => n ≠ name) ++ [name] }
          else s
  else some s

/-- The block of lines 1732-1757 for the finished contig `ptid`: the mate store is cleared,
the two arrays are printed and summed over the regions. -/
def finish_contig (o : LoopOptions) (hdr : Header) (s : LoopState) : Option LoopState :=
  let name := hdr.target_name s.ptid
  let len := hdr.target_len s.ptid
  let s := { s with overlapping_mates := [] }
  let p := print_contig o.bam (array_cells s.coverages len) (array_cells s.unique_coverages len)
    (num_lines_per_buf name)
  let s := match p.1 with
    | some st => { s with all_auc := s.all_auc + st.auc, cov_out := s.cov_out ++ [(s.ptid, st)] }
    | none => s
  let s := match p.2 with
    | some st =>
      { s with unique_auc := s.unique_auc + st.auc, ucov_out := s.ucov_out ++ [(s.ptid, st)] }
    | none => s
  sum_contig o name len s

/-- The block of lines 1731-1760, entered when `tid != ptid`: the finished contig, if there is
one, is written out, then `reset_array` is called on `coverages`, and on `unique_coverages`
when `unique` is set. -/
def contig_boundary (o : LoopOptions) (hdr : Header) (s : LoopState) : Option LoopState :=
  (if s.ptid ≠ -1 then finish_contig o hdr s else some s).map fun s =>
    { s with
      coverages := reset_array s.coverages o.chr_size,
      unique_coverages :=
        if o.bam.unique then reset_array s.unique_coverages o.chr_size
        else s.unique_coverages }

/-- The block "Reference coverage tracking" (lines 1730-1762) when `compute_coverage` is set:
the contig boundary when `tid != ptid`, then `calculate_coverage` on the two arrays and the
mate store; the state and the result of the call. -/
def coverage_block (o : LoopOptions) (hdr : Header) (junk : Nat) (rec : Alignment)
    (s : LoopState) : Option (LoopState × CovResult) :=
  (if rec.core.tid ≠ s.ptid then contig_boundary o hdr s else some s).map fun s =>
    let r := calculate_coverage rec.core s.coverages s.unique_coverages true o.double_count
      o.bam.bw_unique_min_qual s.overlapping_mates 0 junk
    ({ s with coverages := r.coverages, unique_coverages := r.unique_coverages,
              overlapping_mates := r.overlapping_mates, oob := s.oob || r.oob }, r)

/-- The lines written to `rsfp` or to `refp` for the finished contig (lines 1806-1811): the
cells above 0 with their 1-based position. -/
def ends_lines (name : String) (arr : Nat → Nat) (len : Nat) : List (String × Nat × Nat) :=
  ((List.range len).filter (fun j => decide (arr j > 0))).map (fun j => (name, j + 1, arr j))

/-- The block "Start/end positions" (lines 1802-1823) when `compute_ends` is set. -/
def read_ends_block (o : LoopOptions) (hdr : Header) (rec : Alignment)
    (end_refpos : Option Nat) (s : LoopState) : LoopState :=
  let s :=
    if rec.core.tid ≠ s.ptid then
      let s :=
        if s.ptid ≠ -1 then
          { s with
            rsfp := s.rsfp ++ ends_lines (hdr.target_name s.ptid) s.read_ends.starts
              (hdr.target_len s.ptid),
            refp := s.refp ++ ends_lines (hdr.target_name s.ptid) s.read_ends.ends
              (hdr.target_len s.ptid) }
        else s
      { s with
        read_ends :=
          { starts := reset_array s.read_ends.starts o.chr_size,
            ends := reset_array s.read_ends.ends o.chr_size } }
    else s
  { s with read_ends := count_ends o.bam.bw_unique_min_qual rec.core end_refpos s.read_ends }

/-- The block "Alternate base coverages" (lines 1837-1863) when `compute_alts` is set. -/
def alts_block (o : LoopOptions) (rec : Alignment) (s : LoopState) : Outcome LoopState :=
  let s :=
    if s.first then
      { s with
        print_qual := if s.print_qual ∧ rec.qual 0 = 255 then false else s.print_qual,
        first := false }
    else s
  match rec.md with
  | none =>
    if o.require_mdz then .thrown
    else
      match output_from_cigar rec.core rec.seq s.total_softclip_count o.include_sc
          o.only_polya_sc with
      | .done a =>
        .done { s with alts_file := s.alts_file ++ a.out,
                       total_softclip_count := a.total_softclip_count }
      | .thrown => .thrown
      | .aborted => .aborted
      | .overrun => .overrun
  | some mdz =>
    match parse_mdz mdz with
    | .done mdzbuf =>
      match output_from_cigar_mdz rec.core rec.seq rec.qual mdzbuf s.total_softclip_count
          s.print_qual o.include_sc o.only_polya_sc o.include_n_mms with
      | .done a =>
        .done { s with alts_file := s.alts_file ++ a.out,
                       total_softclip_count := a.total_softclip_count }
      | .thrown => .thrown
      | .aborted => .aborted
      | .overrun => .overrun
    | .thrown => .thrown
    | .aborted => .aborted
    | .overrun => .overrun

/-- The callbacks registered for `process_cigar` (lines 1548-1551 and 1673-1674), on the pair
of the total of `maplength` and the arguments of `extract_junction`. -/
def cigar_callbacks (o : LoopOptions) : List (Nat → Nat → Nat × JxState → Nat × JxState) :=
  (if o.count_bases then [fun op len st => (maplength op len st.1, st.2)] else [])
    ++ (if o.bam.extract_junctions then [fun op len st => (st.1, extract_junction op len st.2)]
        else [])

/-- The call of `process_cigar` and the block of the junctions (lines 1866-1939); the counter
and the coordinate list of `extract_junction` are cleared at the end of the block, so that each
record starts with them empty.  The buffer is taken here as long enough for the text of the
record; `process_cigar_cap` is the call on the 10000 bytes that `go_bam` allocates. -/
def cigar_block (o : LoopOptions) (hdr : Header) (rec : Alignment) (s : LoopState) :
    LoopState :=
  let r := process_cigar rec.core.cigar s.cigar_str (cigar_callbacks o)
    (s.total_number_bases_processed, { base := 0, jxs := [] })
  let s := { s with cigar_str := r.1, total_number_bases_processed := r.2.1 }
  if o.bam.extract_junctions then
    { s with
      jx := junction_step rec.core rec.isize (hdr.target_name rec.core.tid).data r.1 r.2.2.jxs
        s.jx }
  else s

/-- The counters of lines 1710 and 1725-1726 for a record that passed the filter. -/
def count_record (o : LoopOptions) (rec : Alignment) (s : LoopState) : LoopState :=
  let s := { s with reads_processed := s.reads_processed + 1 }
  if o.include_sc then
    { s with
      total_number_sequence_bases_processed :=
        s.total_number_sequence_bases_processed + rec.l_qseq }
  else s

/-- The call of lines 1764-1765: when the coverage block did not call `calculate_coverage`
(`r1` is `none`, `end_refpos` is -1) and the end coordinate is asked for, the function is called
without arrays and without store. -/
def end_coordinate (o : LoopOptions) (junk : Nat) (rec : Alignment) (r1 : Option CovResult) :
    Option CovResult :=
  match r1 with
  | some r => some r
  | none =>
    if o.report_end_coord ∨ o.bam.print_frag_dist then
      some (calculate_coverage rec.core zeros zeros false o.double_count
        o.bam.bw_unique_min_qual [] 0 junk)
    else none

/-- The blocks of lines 1767-1835: the line of `--ends`, the fragment lengths, the read starts
and ends, the assignment `ptid = tid` and the echo of the record (`sam_format1` is taken to
succeed).  `r2` is the result of `calculate_coverage` if it was called: `end_refpos` is what it
returned and -1 otherwise. -/
def middle_blocks (o : LoopOptions) (hdr : Header) (rec : Alignment) (r2 : Option CovResult)
    (s : LoopState) : LoopState :=
  let end_refpos : Option Nat := r2.map (fun r => r.ret)
  let total_intron_len : Nat := (r2.map (fun r => r.total_intron_length)).getD 0
  let s :=
    if o.report_end_coord then
      { s with
        ends_out := s.ends_out ++
          [(rec.core.qname, match end_refpos with
            | some e => (e : Int)
            | none => -1)] }
    else s
  let s :=
    if o.bam.print_frag_dist then
      match end_refpos with
      | some e => { s with frag := frag_step rec.core rec.isize e total_intron_len s.frag }
      | none => s
    else s
  let s := if o.bam.compute_ends then read_ends_block o hdr rec end_refpos s else s
  let s := { s with ptid := rec.core.tid }
  if o.echo_sam then { s with sam_out := s.sam_out ++ [rec.core] } else s

/-- The body of the main quantification conditional (lines 1710-1939) for a record that
passed the filter.  `junk` is what a read outside the spans of a stored mate yields (see
`fix_overlap`).  A failure of `sum_annotations` and the assertions and exceptions of the alts
code end the loop. -/
def go_bam_body (o : LoopOptions) (hdr : Header) (junk : Nat) (rec : Alignment)
    (s : LoopState) : Outcome LoopState :=
  let s := count_record o rec s
  let c : Option (LoopState × Option CovResult) :=
    if o.bam.compute_coverage then
      (coverage_block o hdr junk rec s).map (fun p => (p.1, some p.2))
    else some (s, none)
  match c with
  | none => .aborted
  | some (s, r1) =>
    let s := middle_blocks o hdr rec (end_coordinate o junk rec r1) s
    match (if o.compute_alts then alts_block o rec s else .done s) with
    | .done s => .done (cigar_block o hdr rec s)
    | .thrown => .thrown
    | .aborted => .aborted
    | .overrun => .overrun

/-- The filter of line 1709: the record is neither unmapped nor secondary. -/
def passes_filter (rec : Alignment) : Bool :=
  ¬ flag_set rec.core.flag BAM_FUNMAP ∧ ¬ flag_set rec.core.flag BAM_FSECONDARY

/-- One iteration of the loop of `go_bam` over the records (lines 1699-1944). -/
def go_bam_record (o : LoopOptions) (hdr : Header) (junk : Nat) (rec : Alignment)
    (s : LoopState) : Outcome LoopState :=
  let s := { s with recs := s.recs + 1 }
  if passes_filter rec then go_bam_body o hdr junk rec s else .done s

/-- The loop of `go_bam` over the records in the order of the queue. -/
def go_bam_records (o : LoopOptions) (hdr : Header) (junk : Nat) :
    List Alignment → LoopState → Outcome LoopState
  | [], s => .done s
  | rec :: rest, s =>
    match go_bam_record o hdr junk rec s with
    | .done s => go_bam_records o hdr junk rest s
    | .thrown => .thrown
    | .aborted => .aborted
    | .overrun => .overrun

/-- The variables of the loop before the first record (lines 1500-1503, 1545-1689); the arrays
are allocated and not yet written, the buffer `cigar_str` likewise. -/
def LoopState.init (print_qual : Bool) (annotations : AnnotationMap Int)
    (coverages unique_coverages starts ends : Nat → Nat) (cigar_str : List Char) : LoopState :=
  { recs := 0, reads_processed := 0, total_number_sequence_bases_processed := 0,
    total_number_bases_processed := 0, coverages := coverages,
    unique_coverages := unique_coverages, overlapping_mates := [], oob := false, all_auc := 0,
    unique_auc := 0, cov_out := [], ucov_out := [], annotations := annotations,
    annotated_auc := 0, unique_annotated_auc := 0, afp := [], uafp := [],
    annotation_chrs_seen := [], ends_out := [],
    frag := { frag_mates := [], frag_dist := fun _ => 0 },
    read_ends := { starts := starts, ends := ends }, rsfp := [], refp := [], ptid := -1,
    sam_out := [], first := true, print_qual := print_qual, alts_file := [],
    total_softclip_count := 0, cigar_str := cigar_str,
    jx := { jx_pairs := [], jx_counts := [], jxs_file := [] } }

/-- The state at line 1730, where the coverage block of a record that passed the filter
starts. -/
def at_coverage_block (o : LoopOptions) (rec : Alignment) (s : LoopState) : LoopState :=
  count_record o rec { s with recs := s.recs + 1 }

/-- The two arrays and the mate store after `calculate_coverage` was called, in the order of
the list, on every record that passes the filter, from the arrays and the store `c`. -/
def contig_coverage (o : LoopOptions) (junk : Nat) :
    List Alignment → (Nat → Nat) × (Nat → Nat) × Read2Len → (Nat → Nat) × (Nat → Nat) × Read2Len
  | [], c => c
  | rec :: rest, c =>
    if passes_filter rec then
      let r := calculate_coverage rec.core c.1 c.2.1 true o.double_count
        o.bam.bw_unique_min_qual c.2.2 0 junk
      contig_coverage o junk rest (r.coverages, r.unique_coverages, r.overlapping_mates)
    else contig_coverage o junk rest c

/-- What the coverage code and the junction code keep between records, `ptid` apart: the two
arrays, the mate store, the maps and the file of the junctions, and the buffer `cigar_str`. -/
def LoopState.kept (s : LoopState) :
    (Nat → Nat) × (Nat → Nat) × Read2Len × JxPairs × List Char :=
  (s.coverages, s.unique_coverages, s.overlapping_mates, s.jx, s.cigar_str)

/-- The cells of the two arrays (of `unique_coverages` when `unique` is set) and the mate store
of a state are those of `c`. -/
def CoverageIs (o : LoopOptions) (s : LoopState) (c : (Nat → Nat) × (Nat → Nat) × Read2Len) :
    Prop :=
  (∀ i : Nat, (i : Int) < o.chr_size → s.coverages i = c.1 i)
    ∧ (o.bam.unique = true → ∀ i : Nat, (i : Int) < o.chr_size → s.unique_coverages i = c.2.1 i)
    ∧ s.overlapping_mates = c.2.2

/-- Two states of the fix-up loop that differ at most in the cells of the arrays, and not in
the cell `z` of `coverages` when `a` holds, nor in the cell `z` of `unique_coverages` when `b`
holds. -/
def FixAgree (z : Nat) (a b : Prop) (s1 s2 : FixState) : Prop :=
  s1.mspans = s2.mspans ∧ s1.left_end = s2.left_end
    ∧ (a → s1.coverages z = s2.coverages z)
    ∧ (b → s1.unique_coverages z = s2.unique_coverages z)

/-- Two states of the walk over a CIGAR that differ at most in the cells of the arrays, and not
in the cell `z` of `coverages` when `a` holds, nor in the cell `z` of `unique_coverages` when
`b` holds. -/
def CovAgree (z : Nat) (a b : Prop) (s1 s2 : CovState) : Prop :=
  s1.total_intron_length = s2.total_intron_length ∧ s1.algn_end_pos = s2.algn_end_pos
    ∧ s1.mspans = s2.mspans ∧ s1.oob = s2.oob
    ∧ (a → s1.coverages z = s2.coverages z)
    ∧ (b → s1.unique_coverages z = s2.unique_coverages z)

/-- The state a run of the loop ends in, and `d` when the loop was ended by a failure. -/
def Outcome.state (d : LoopState) : Outcome LoopState → LoopState
  | .done s => s
  | .thrown => d
  | .aborted => d
  | .overrun => d

/-- A record with the fields of `core` and the template length `isize`, no bases and no `MD`
field. -/
def Alignment.of (core : Bam1) (isize : Int) : Alignment :=
  { core := core, isize := isize, l_qseq := 0, seq := fun _ => 0, qual := fun _ => 0,
    md := none }

/-- A header with the contigs `chr1` (id 0) and `chr2`, of 200 bases each. -/
def two_contigs : Header :=
  { target_name := fun t => if t = 0 then "chr1" else "chr2", target_len := fun _ => 200 }

/-- The options of a run with `--coverage` alone, for arrays of 200 cells. -/
def coverage_options : LoopOptions :=
  { bam :=
      { unique := false, just_auc := false, compute_coverage := true, bw_unique_min_qual := 0,
        bwfp := false, ubwfp := false, compute_ends := false, print_frag_dist := false,
        extract_junctions := false, print_coverage := true },
    count_bases := false, include_sc := false, only_polya_sc := false, include_n_mms := false,
    double_count := false, report_end_coord := false, echo_sam := false, compute_alts := false,
    require_mdz := false, keep_order := true, sum_annotation := false, chr_size := 200 }

/-- The options of a run with `--junctions` alone. -/
def junction_options : LoopOptions :=
  { bam :=
      { unique := false, just_auc := false, compute_coverage := false, bw_unique_min_qual := 0,
        bwfp := false, ubwfp := false, compute_ends := false, print_frag_dist := false,
        extract_junctions := true, print_coverage := false },
    count_bases := false, include_sc := false, only_polya_sc := false, include_n_mms := false,
    double_count := false, report_end_coord := false, echo_sam := false, compute_alts := false,
    require_mdz := false, keep_order := true, sum_annotation := false, chr_size := -1 }

/-- The state before the first record, with zeroed arrays and an empty buffer. -/
def state0 : LoopState := LoopState.init false [] zeros zeros zeros zeros []

/-- A state in the middle of a run: the last record was on contig 1, every cell of `coverages`
holds 7 and the mate store holds an entry. -/
def state_on_contig_1 : LoopState :=
  { state0 with
    ptid := 1, coverages := fun _ => 7,
    overlapping_mates := [("old", mate_info_of mate_a 0)] }

/-- An unmapped record. -/
def unmapped_read : Alignment := Alignment.of ⟨0, 100, -1, -1, 4, 0, "u", []⟩ 0

/-- A first mate `10M100N10M` at 10 on contig 0 whose mate lies on contig 1. -/
def jx_first_contig_0 : Alignment :=
  Alignment.of
    ⟨0, 10, 1, 50, 1 + 64, 30, "q",
      [bam_cigar_gen 10 BAM_CMATCH, bam_cigar_gen 100 BAM_CREF_SKIP,
       bam_cigar_gen 10 BAM_CMATCH]⟩ 0

/-- An unpaired record `50M` at 100 on contig 1. -/
def plain_contig_1 : Alignment :=
  Alignment.of ⟨1, 100, -1, -1, 0, 30, "x", [bam_cigar_gen 50 BAM_CMATCH]⟩ 0

/-- The second mate `10M50N20M` at 50 on contig 1 whose mate lies on contig 0. -/
def jx_second_contig_1 : Alignment :=
  Alignment.of
    ⟨1, 50, 0, 10, 1 + 16 + 128, 30, "q",
      [bam_cigar_gen 10 BAM_CMATCH, bam_cigar_gen 50 BAM_CREF_SKIP,
       bam_cigar_gen 20 BAM_CMATCH]⟩ 0

/-- Two states of `process_bigwig` that differ at most in the arrays kept for contigs the file
has not reached. -/
def StoreRel (st1 st2 : BWFileState) : Prop :=
  st1.amap = st2.amap ∧ st1.seen = st2.seen ∧ st1.afp = st2.afp
    ∧ st1.annotated_auc = st2.annotated_auc
    ∧ ∀ k ∈ st1.seen, st1.store_local.lookup k = st2.store_local.lookup k

/-- In the BigWig mode the runs handed to the writer are the runs counted so far. -/
def BwInv (st : PAState) : Prop :=
  st.bw.map (fun c => c.2) = st.runs

/-- The number of bytes `process_cigar` writes into `cigar_str`: for each operation the digits
of its length and its character, and the terminator of the last `sprintf`; nothing for a CIGAR
without operation. -/
def cigar_bytes_written (cigar : List Nat) : Nat :=
  if cigar = [] then 0
  else (cigar.map (fun c => (Nat.toDigits 10 (bam_cigar_oplen c)).length + 1)).sum + 1

/-- The size of the buffer `cigar_str` that `go_bam` hands to `process_cigar` (line 1678,
`new char[10000]`). -/
def cigar_str_size : Nat := 10000

/-- The function `process_cigar` on a buffer of `cap` bytes: `none` when `sprintf` writes behind
the end of the buffer. -/
def process_cigar_cap {σ : Type} (cap : Nat) (cigar : List Nat) (cigar_str : List Char)
    (callbacks : List (Nat → Nat → σ → σ)) (out : σ) : Option (List Char × σ) :=
  if cigar_bytes_written cigar ≤ cap then some (process_cigar cigar cigar_str callbacks out)
  else none

/-- A CIGAR of `n` operations `1M`. -/
def cigar_of_ones (n : Nat) : List Nat := List.replicate n (bam_cigar_gen 1 BAM_CMATCH)

/-- The tokens, the first of which starts at the index `i` of the string, are within the range
of `int run` and within the buffer `str`: the value of a run of digits is below 2^31, a run of
letters ends at an index of at most 1024 and has fewer than 1024 letters, and a `^` is followed
by fewer than 1024 letters. -/
def tokens_fit : Nat → List MdzToken → Bool
  | _, [] => true
  | i, .digits ds :: ts => decide (decimal_value ds < 2 ^ 31) && tokens_fit (i + ds.length) ts
  | i, .letters ls :: ts =>
    decide (i + ls.length ≤ mdz_str_size ∧ ls.length < mdz_str_size)
      && tokens_fit (i + ls.length) ts
  | i, .deletion ls :: ts =>
    decide (ls.length < mdz_str_size) && tokens_fit (i + 1 + ls.length) ts

/-- The operation is within the struct `MdzOp`: a run above 0 and below 2^31, and a string
that fits with its terminator into the buffer `str`. -/
def MdzOp.fits (m : MdzOp) : Prop :=
  0 < m.run ∧ m.run < 2 ^ 31 ∧ m.str.length < mdz_str_size

/-- Two contiguous intervals: 2^53 on `[0,1)` and 1 on `[1,2)`. -/
def two_intervals : List Interval := [⟨0, 1, 9007199254740992⟩, ⟨1, 2, 1⟩]

/-- Two contiguous intervals with the values 1/2 on `[0,10)` and 1/4 on `[10,20)`. -/
def half_intervals : List Interval := [⟨0, 10, mkRat 1 2⟩, ⟨10, 20, mkRat 1 4⟩]

/-! ## Theorems -/

/-! ### Single precision -/

theorem float_shift_small (fuel x : Nat) (h : x < 2 ^ 24) : float_shift fuel x = 0 := by
  have h2 : x < 16777216 := by omega
  cases fuel <;> simp [float_shift, h2]

theorem float_of_uint32_exact (x : Nat) (h : x ≤ 2 ^ 24) : float_of_uint32 x = x := by
  rcases Nat.lt_or_ge x (2 ^ 24) with h1 | h1
  · simp [float_of_uint32, float_shift_small _ _ h1, Nat.mod_one]
  · have : x = 2 ^ 24 := le_antisymm h h1
    subst this
    decide

theorem map_float_exact (xs : List Nat) (h : ∀ x ∈ xs, x ≤ 2 ^ 24) :
    xs.map float_of_uint32 = xs := by
  induction xs with
  | nil => rfl
  | cons x xs ih =>
    simp only [List.map_cons]
    rw [float_of_uint32_exact x (h x (List.mem_cons_self _ _)),
      ih (fun y hy => h y (List.mem_cons_of_mem _ hy))]

/-! ### print_array against the reference encoding -/

theorem print_array_from_nil (sz ja bw : Bool) (nl : Int) (i : Nat) (st : PAState) :
    print_array_from sz ja bw nl [] i st = emit_last sz ja bw st i := by
  simp [print_array_from, print_array_loop]

theorem print_array_from_cons (sz ja bw : Bool) (nl : Int) (x : Nat) (xs : List Nat) (i : Nat)
    (st : PAState) :
    print_array_from sz ja bw nl (x :: xs) i st
      = print_array_from sz ja bw nl xs (i + 1) (print_array_step sz ja bw nl st i x) := by
  simp only [print_array_from, print_array_loop, List.length_cons]
  congr 1
  omega

theorem emit_run_first (sz ja bw : Bool) (nl : Int) (st : PAState) (i : Nat) :
    (emit_run sz ja bw nl st i).first = st.first := by
  simp only [emit_run]
  split_ifs <;> rfl

theorem emit_run_running_value (sz ja bw : Bool) (nl : Int) (st : PAState) (i : Nat) :
    (emit_run sz ja bw nl st i).running_value = st.running_value := by
  simp only [emit_run]
  split_ifs <;> rfl

theorem emit_run_auc (sz ja bw : Bool) (nl : Int) (st : PAState) (i : Nat) :
    (emit_run sz ja bw nl st i).auc = st.auc + (i - st.last_pos) * st.running_value := by
  simp only [emit_run]
  split_ifs with h1 <;> simp_all

theorem emit_run_runs (sz bw : Bool) (nl : Int) (st : PAState) (i : Nat) :
    (emit_run sz false bw nl st i).runs
      = st.runs ++ (if keep_run sz (st.last_pos, i, st.running_value)
          then [(st.last_pos, i, st.running_value)] else []) := by
  simp only [emit_run, keep_run]
  by_cases h1 : st.running_value > 0 <;> cases sz <;> simp [h1] <;> split_ifs <;> simp

theorem emit_run_runs_just_auc (sz bw : Bool) (nl : Int) (st : PAState) (i : Nat) :
    (emit_run sz true bw nl st i).runs = st.runs := by
  simp only [emit_run]
  split_ifs <;> simp_all

theorem emit_last_auc (sz ja bw : Bool) (st : PAState) (n : Nat) (h : st.first = false) :
    (emit_last sz ja bw st n).auc = st.auc + (n - st.last_pos) * st.running_value := by
  simp only [emit_last]
  split_ifs with h1 <;> simp_all

theorem emit_last_runs (sz bw : Bool) (st : PAState) (n : Nat) (h : st.first = false) :
    (emit_last sz false bw st n).runs
      = st.runs ++ (if keep_run sz (st.last_pos, n, st.running_value)
          then [(st.last_pos, n, st.running_value)] else []) := by
  simp only [emit_last, keep_run]
  by_cases h1 : st.running_value > 0 <;> cases sz <;> simp [h1, h] <;> split_ifs <;> simp

theorem emit_last_runs_just_auc (sz bw : Bool) (st : PAState) (n : Nat) :
    (emit_last sz true bw st n).runs = st.runs := by
  simp only [emit_last]
  split_ifs <;> simp_all

theorem print_array_step_first (sz ja bw : Bool) (nl : Int) (st : PAState) (i x : Nat) :
    (print_array_step sz ja bw nl st i x).first = false := by
  simp only [print_array_step]
  split_ifs with h1 h2 <;> simp_all

theorem print_array_from_auc (sz ja bw : Bool) (nl : Int) (xs : List Nat) :
    ∀ (i : Nat) (st : PAState), st.first = false →
      (print_array_from sz ja bw nl xs i st).auc
        = st.auc + runs_area (rle_from st.running_value st.last_pos i xs) := by
  induction xs with
  | nil =>
    intro i st h
    rw [print_array_from_nil, emit_last_auc _ _ _ _ _ h]
    simp [rle_from, runs_area]
  | cons x xs ih =>
    intro i st h
    rw [print_array_from_cons, ih _ _ (print_array_step_first ..)]
    by_cases hv : st.running_value = float_of_uint32 x
    · simp [print_array_step, h, hv, rle_from]
    · simp [print_array_step, h, hv, rle_from, runs_area, emit_run_auc, Nat.add_assoc]

theorem print_array_from_runs (sz bw : Bool) (nl : Int) (xs : List Nat) :
    ∀ (i : Nat) (st : PAState), st.first = false →
      (print_array_from sz false bw nl xs i st).runs
        = st.runs ++ (rle_from st.running_value st.last_pos i xs).filter (keep_run sz) := by
  induction xs with
  | nil =>
    intro i st h
    rw [print_array_from_nil, emit_last_runs _ _ _ _ h]
    simp only [rle_from, List.filter_cons, List.filter_nil]
  | cons x xs ih =>
    intro i st h
    rw [print_array_from_cons, ih _ _ (print_array_step_first ..)]
    by_cases hv : st.running_value = float_of_uint32 x
    · simp [print_array_step, h, hv, rle_from]
    · simp [print_array_step, h, hv, rle_from, emit_run_runs, List.filter_cons]
      split_ifs <;> simp

theorem print_array_from_runs_just_auc (sz bw : Bool) (nl : Int) (xs : List Nat) :
    ∀ (i : Nat) (st : PAState),
      (print_array_from sz true bw nl xs i st).runs = st.runs := by
  induction xs with
  | nil =>
    intro i st
    rw [print_array_from_nil, emit_last_runs_just_auc]
  | cons x xs ih =>
    intro i st
    rw [print_array_from_cons, ih]
    simp only [print_array_step]
    split_ifs <;> simp [emit_run_runs_just_auc]

/-! ### The reference encoding -/

theorem runs_area_rle_from (xs : List Nat) :
    ∀ (v l i : Nat), l ≤ i →
      runs_area (rle_from v l i xs) = (i - l) * v + (xs.map float_of_uint32).sum := by
  induction xs with
  | nil => intro v l i _; simp [rle_from, runs_area]
  | cons x xs ih =>
    intro v l i h
    by_cases hv : v = float_of_uint32 x
    · simp only [rle_from, hv, ne_eq, not_true_eq_false, if_false, List.map_cons, List.sum_cons]
      rw [ih _ _ _ (by omega)]
      have : i + 1 - l = (i - l) + 1 := by omega
      rw [this, Nat.add_mul]
      omega
    · simp only [rle_from, hv, ne_eq, not_false_eq_true, if_true, runs_area, List.map_cons,
        List.sum_cons]
      rw [ih _ _ _ (by omega)]
      simp

theorem runs_area_filter_keep (sz : Bool) (rs : List Run) :
    runs_area (rs.filter (keep_run sz)) = runs_area rs := by
  induction rs with
  | nil => rfl
  | cons r rs ih =>
    obtain ⟨s, e, v⟩ := r
    by_cases hk : keep_run sz (s, e, v) = true
    · simp [List.filter_cons, hk, runs_area, ih]
    · have hv : v = 0 := by
        simp only [keep_run, Bool.or_eq_true, decide_eq_true_eq, not_or] at hk
        omega
      subst hv
      simp only [List.filter_cons, hk, runs_area]
      simpa using ih

theorem expand_rle_from (xs : List Nat) :
    ∀ (v l i : Nat), l ≤ i →
      expand_runs (rle_from v l i xs) = List.replicate (i - l) v ++ xs.map float_of_uint32 := by
  induction xs with
  | nil => intro v l i _; simp [rle_from, expand_runs]
  | cons x xs ih =>
    intro v l i h
    by_cases hv : v = float_of_uint32 x
    · simp only [rle_from, hv, ne_eq, not_true_eq_false, if_false, List.map_cons]
      rw [ih _ _ _ (by omega)]
      have : i + 1 - l = (i - l) + 1 := by omega
      rw [this, List.replicate_succ']
      simp
    · simp only [rle_from, hv, ne_eq, not_false_eq_true, if_true, expand_runs, List.map_cons]
      rw [ih _ _ _ (by omega)]
      simp [List.replicate_succ]

theorem tiles_rle_from (xs : List Nat) :
    ∀ (v l i : Nat), l < i → Tiles (rle_from v l i xs) l (i + xs.length) := by
  induction xs with
  | nil => intro v l i h; simp [rle_from, Tiles, h]
  | cons x xs ih =>
    intro v l i h
    by_cases hv : v = float_of_uint32 x
    · simp only [rle_from, hv, ne_eq, not_true_eq_false, if_false, List.length_cons]
      have := ih (float_of_uint32 x) l (i + 1) (by omega)
      rwa [show i + (xs.length + 1) = i + 1 + xs.length by omega]
    · simp only [rle_from, hv, ne_eq, not_false_eq_true, if_true, Tiles, List.length_cons, h,
        true_and]
      have := ih (float_of_uint32 x) i (i + 1) (by omega)
      rwa [show i + (xs.length + 1) = i + 1 + xs.length by omega]

theorem head_rle_from (xs : List Nat) :
    ∀ (v l i : Nat), ∃ e rs, rle_from v l i xs = (l, e, v) :: rs := by
  induction xs with
  | nil => intro v l i; exact ⟨i, [], rfl⟩
  | cons x xs ih =>
    intro v l i
    by_cases hv : v = float_of_uint32 x
    · simp only [rle_from, hv, ne_eq, not_true_eq_false, if_false]
      exact ih _ _ _
    · simp only [rle_from, hv, ne_eq, not_false_eq_true, if_true]
      exact ⟨i, _, rfl⟩

theorem chain_rle_from (xs : List Nat) :
    ∀ (v l i : Nat), List.Chain' (fun a b : Run => a.2.2 ≠ b.2.2) (rle_from v l i xs) := by
  induction xs with
  | nil => intro v l i; simp [rle_from]
  | cons x xs ih =>
    intro v l i
    by_cases hv : v = float_of_uint32 x
    · simp only [rle_from, hv, ne_eq, not_true_eq_false, if_false]
      exact ih _ _ _
    · simp only [rle_from, hv, ne_eq, not_false_eq_true, if_true]
      obtain ⟨e, rs, hrs⟩ := head_rle_from xs (float_of_uint32 x) i (i + 1)
      have := ih (float_of_uint32 x) i (i + 1)
      rw [hrs] at this ⊢
      exact List.Chain'.cons hv this

theorem tiles_start_le (rs : List Run) :
    ∀ (lo hi : Nat), Tiles rs lo hi → ∀ r ∈ rs, lo ≤ r.1 := by
  induction rs with
  | nil => intro lo hi _ r hr; cases hr
  | cons a rs ih =>
    obtain ⟨s, e, v⟩ := a
    intro lo hi ht r hr
    obtain ⟨h1, h2, h3⟩ := ht
    rcases List.mem_cons.1 hr with h | h
    · subst h; exact le_of_eq h1.symm
    · have := ih e hi h3 r h
      omega

theorem tiles_getElem (rs : List Run) :
    ∀ (lo hi : Nat), Tiles rs lo hi → ∀ r ∈ rs, ∀ j, r.1 ≤ j → j < r.2.1 →
      (expand_runs rs)[j - lo]? = some r.2.2 := by
  induction rs with
  | nil => intro lo hi _ r hr; cases hr
  | cons a rs ih =>
    obtain ⟨s, e, v⟩ := a
    intro lo hi ht r hr j hj1 hj2
    obtain ⟨h1, h2, h3⟩ := ht
    subst h1
    simp only [expand_runs]
    rcases List.mem_cons.1 hr with h | h
    · subst h
      simp only at hj1 hj2
      rw [List.getElem?_append_left (by simp; omega)]
      simp [List.getElem?_replicate]
      omega
    · have hle := tiles_start_le rs e hi h3 r h
      have := ih e hi h3 r h j hj1 hj2
      rw [List.getElem?_append_right (by simp; omega)]
      simp only [List.length_replicate]
      rwa [show j - s - (e - s) = j - e by omega]

/-! ### print_array -/

theorem print_array_nil (sz bw ja : Bool) (nl : Int) :
    print_array [] sz bw ja nl = PAState.init := by
  simp [print_array, print_array_loop, emit_last, PAState.init]

theorem print_array_cons (sz bw ja : Bool) (nl : Int) (x : Nat) (xs : List Nat) :
    print_array (x :: xs) sz bw ja nl
      = print_array_from sz ja bw nl xs 1
          { PAState.init with first := false, running_value := float_of_uint32 x } := by
  simp only [print_array, print_array_from, print_array_loop, List.length_cons]
  rw [Nat.add_comm 1 xs.length]
  simp [print_array_step, PAState.init]

theorem auc_of_float_cells (arr : List Nat) (sz bw ja : Bool) (nl : Int) :
    (print_array arr sz bw ja nl).auc = (arr.map float_of_uint32).sum := by
  cases arr with
  | nil => simp [print_array_nil, PAState.init]
  | cons x xs =>
    rw [print_array_cons, print_array_from_auc _ _ _ _ _ _ _ rfl]
    simp [PAState.init, runs_area_rle_from]

theorem print_array_runs_eq (arr : List Nat) (sz bw : Bool) (nl : Int) :
    (print_array arr sz bw false nl).runs
      = match arr with
        | [] => []
        | x :: xs => (rle_from (float_of_uint32 x) 0 1 xs).filter (keep_run sz) := by
  cases arr with
  | nil => simp [print_array_nil, PAState.init]
  | cons x xs =>
    rw [print_array_cons, print_array_from_runs _ _ _ _ _ _ rfl]
    simp [PAState.init]

theorem filter_keep_false (rs : List Run) : rs.filter (keep_run false) = rs := by
  simp [keep_run]

theorem filter_keep_true (rs : List Run) :
    rs.filter (keep_run true) = rs.filter (fun r => decide (r.2.2 ≠ 0)) := by
  congr 1
  funext r
  simp [keep_run, Nat.pos_iff_ne_zero]

/-- The AUC returned by `print_array` is the sum of `(stop - start) * value` over the runs it
counts as emitted when it is called without `just_auc`. -/
theorem print_array_auc_runs (arr : List Nat) (sz bw ja : Bool) (nl : Int) :
    (print_array arr sz bw ja nl).auc = runs_area (print_array arr sz bw false nl).runs := by
  rw [auc_of_float_cells, print_array_runs_eq]
  cases arr with
  | nil => rfl
  | cons x xs =>
    simp only [runs_area_filter_keep]
    rw [runs_area_rle_from _ _ _ _ (by omega)]
    simp

/-- With `skip_zeros` off the runs counted for a non-empty array tile `[0, n)` in increasing
order, adjacent runs carry different values, and every cell inside a run has the run's value as
its single precision value, so that the runs expand to the array of single precision values,
which is the array itself when every cell is at most `2 ^ 24`. -/
theorem print_array_runs_tile (arr : List Nat) (bw : Bool) (nl : Int) (h : 0 < arr.length) :
    Tiles (print_array arr false bw false nl).runs 0 arr.length
      ∧ List.Chain' (fun a b : Run => a.2.2 ≠ b.2.2) (print_array arr false bw false nl).runs
      ∧ (∀ r ∈ (print_array arr false bw false nl).runs, ∀ j, r.1 ≤ j → j < r.2.1 →
          (arr.map float_of_uint32)[j]? = some r.2.2)
      ∧ expand_runs (print_array arr false bw false nl).runs = arr.map float_of_uint32
      ∧ ((∀ x ∈ arr, x ≤ 2 ^ 24) →
          expand_runs (print_array arr false bw false nl).runs = arr
            ∧ ∀ r ∈ (print_array arr false bw false nl).runs, ∀ j, r.1 ≤ j → j < r.2.1 →
                arr[j]? = some r.2.2) := by
  cases arr with
  | nil => simp at h
  | cons x xs =>
    have hR : (print_array (x :: xs) false bw false nl).runs
        = rle_from (float_of_uint32 x) 0 1 xs := by
      rw [print_array_runs_eq]; exact filter_keep_false _
    have hT : Tiles (rle_from (float_of_uint32 x) 0 1 xs) 0 (x :: xs).length := by
      have := tiles_rle_from xs (float_of_uint32 x) 0 1 (by omega)
      rwa [show 1 + xs.length = (x :: xs).length by simp [Nat.add_comm]] at this
    have hE : expand_runs (rle_from (float_of_uint32 x) 0 1 xs)
        = (x :: xs).map float_of_uint32 := by
      rw [expand_rle_from _ _ _ _ (by omega)]; rfl
    have hG : ∀ r ∈ rle_from (float_of_uint32 x) 0 1 xs, ∀ j, r.1 ≤ j → j < r.2.1 →
        ((x :: xs).map float_of_uint32)[j]? = some r.2.2 := by
      intro r hr j h1 h2
      have := tiles_getElem _ _ _ hT r hr j h1 h2
      rwa [hE] at this
    rw [hR]
    refine ⟨hT, chain_rle_from _ _ _ _, hG, hE, ?_⟩
    intro hb
    rw [map_float_exact _ hb] at hE hG
    exact ⟨hE, hG⟩

/-! ### sum_annotations -/

theorem sum_window_eq (coverages : List Nat) (chr_size : Int) (n : Nat) :
    ∀ (s : Nat) (acc : Int), s + n ≤ coverages.length → ((s + n : Nat) : Int) ≤ chr_size →
      sum_window coverages chr_size n s acc
        = some (acc + (((coverages.drop s).take n).sum : Nat)) := by
  induction n with
  | zero => intro s acc _ _; simp [sum_window]
  | succ n ih =>
    intro s acc h1 h2
    have hs : s < coverages.length := by omega
    have hlt : (s : Int) < chr_size := by omega
    have hr : read_at coverages (s : Int) = some coverages[s] := by
      simp [read_at, List.getElem?_eq_getElem hs]
    simp only [sum_window, hlt, if_true, hr]
    have := ih (s + 1) (acc + coverages[s]) (by omega) (by push_cast at h2 ⊢; omega)
    rw [show ((s : Int) + 1) = ((s + 1 : Nat) : Int) by push_cast; rfl, this]
    rw [List.drop_eq_getElem_cons hs, List.take_succ_cons, List.sum_cons]
    simp only [Nat.cast_add, Int.add_assoc]

theorem sum_window_region (coverages : List Nat) (chr_size : Int) (r : Region Int)
    (hsz : chr_size ≤ coverages.length)
    (hr : 0 ≤ r.start ∧ r.start ≤ r.stop ∧ r.stop ≤ chr_size) :
    sum_window coverages chr_size (r.stop - r.start).toNat r.start 0
      = some (window_sum coverages r.start r.stop) := by
  obtain ⟨h0, h1, h2⟩ := hr
  have h3 : r.start = (r.start.toNat : Int) := (Int.toNat_of_nonneg h0).symm
  have := sum_window_eq coverages chr_size (r.stop - r.start).toNat r.start.toNat 0
    (by omega) (by omega)
  rw [← h3] at this
  rw [this]
  simp [window_sum]

theorem sum_annotations_loop_eq (coverages : List Nat) (chr_size : Int) (just_auc : Bool)
    (keep_order_idx : Int) (hsz : chr_size ≤ coverages.length) (rs : List (Region Int)) :
    ∀ (st : SAState),
      (∀ r ∈ rs, 0 ≤ r.start ∧ r.start ≤ r.stop ∧ r.stop ≤ chr_size) →
      sum_annotations_loop coverages chr_size just_auc keep_order_idx rs st
        = some
          { annotations := st.annotations ++
              rs.map (fun r => if just_auc = false ∧ keep_order_idx ≠ -1
                then r.store keep_order_idx (window_sum coverages r.start r.stop) else r),
            printed := st.printed ++
              (if just_auc = false ∧ keep_order_idx = -1
                then rs.map (fun r => (r.start, r.stop, window_sum coverages r.start r.stop))
                else []),
            annotated_auc := st.annotated_auc
              + (rs.map (fun r => window_sum coverages r.start r.stop)).sum } := by
  induction rs with
  | nil => intro st _; cases just_auc <;> simp [sum_annotations_loop]
  | cons r rs ih =>
    intro st h
    have hr := h r (List.mem_cons_self _ _)
    have hrs : ∀ q ∈ rs, 0 ≤ q.start ∧ q.start ≤ q.stop ∧ q.stop ≤ chr_size :=
      fun q hq => h q (List.mem_cons_of_mem _ hq)
    simp only [sum_annotations_loop, sum_window_region coverages chr_size r hsz hr]
    rw [ih _ hrs]
    cases just_auc <;> by_cases hk : keep_order_idx = -1 <;>
      simp [hk, Int.add_assoc]

/-- C9: for regions inside the finished contig, `sum_annotations` reports for each region (as a
printed line, or in the region's keep-order slot) the sum of `coverages[j]` over
`start ≤ j < end`, and adds the total of these sums to `annotated_auc`. -/
theorem sum_annotations_window (coverages : List Nat) (annotations : List (Region Int))
    (chr_size annotated_auc : Int) (just_auc : Bool) (keep_order_idx : Int)
    (hsz : chr_size ≤ coverages.length)
    (hreg : ∀ r ∈ annotations, 0 ≤ r.start ∧ r.start ≤ r.stop ∧ r.stop ≤ chr_size) :
    ∃ out, sum_annotations coverages annotations chr_size annotated_auc just_auc keep_order_idx
        = some out
      ∧ out.annotated_auc = annotated_auc
          + (annotations.map (fun r => window_sum coverages r.start r.stop)).sum
      ∧ (just_auc = false → keep_order_idx = -1 →
          out.printed
            = annotations.map (fun r => (r.start, r.stop, window_sum coverages r.start r.stop))
          ∧ out.annotations = annotations)
      ∧ (just_auc = false → keep_order_idx = 2 →
          out.printed = [] ∧ out.annotations
            = annotations.map
                (fun r => { r with sum := window_sum coverages r.start r.stop }))
      ∧ (just_auc = false → keep_order_idx = 3 →
          out.printed = [] ∧ out.annotations
            = annotations.map
                (fun r => { r with uniq_sum := window_sum coverages r.start r.stop })) := by
  refine ⟨_, sum_annotations_loop_eq coverages chr_size just_auc keep_order_idx hsz
    annotations _ hreg, ?_, ?_, ?_, ?_⟩
  · simp
  · intro h1 h2; subst h1 h2; simp
  · intro h1 h2; subst h1 h2; simp [Region.store]
  · intro h1 h2; subst h1 h2; simp [Region.store]

theorem sum_annotations_window_witness :
    ∃ out, sum_annotations [1, 2, 3, 4, 5] [⟨1, 3, 0, 0⟩, ⟨0, 5, 0, 0⟩] 5 10 false 2 = some out
      ∧ out.annotated_auc = 10 + 5 + 15
      ∧ out.annotations = [⟨1, 3, 5, 0⟩, ⟨0, 5, 15, 0⟩] := by
  obtain ⟨out, h1, h2, _, h4, _⟩ :=
    sum_annotations_window [1, 2, 3, 4, 5] [⟨1, 3, 0, 0⟩, ⟨0, 5, 0, 0⟩] 5 10 false 2
      (by decide) (by decide)
  refine ⟨out, h1, ?_, ?_⟩
  · rw [h2]; decide
  · rw [(h4 rfl rfl).2]; decide

/-! ### calculate_coverage: ranges, spans and the fix-up loop -/

theorem inc_range_apply (n : Nat) : ∀ (arr : Nat → Nat) (lo z : Nat),
    inc_range arr lo n z = if lo ≤ z ∧ z < lo + n then inc32 (arr z) else arr z := by
  induction n with
  | zero => intro arr lo z; rw [inc_range, if_neg (by omega)]
  | succ n ih =>
    intro arr lo z
    rw [inc_range, ih]
    by_cases h : z = lo
    · subst h; simp
    · simp only [Function.update_noteq h]
      by_cases h1 : lo + 1 ≤ z ∧ z < lo + 1 + n
      · rw [if_pos h1, if_pos (by omega)]
      · rw [if_neg h1, if_neg (by omega)]

theorem dec_range_apply (n : Nat) : ∀ (arr : Nat → Nat) (lo z : Nat),
    dec_range arr lo n z = if lo ≤ z ∧ z < lo + n then dec32 (arr z) else arr z := by
  induction n with
  | zero => intro arr lo z; rw [dec_range, if_neg (by omega)]
  | succ n ih =>
    intro arr lo z
    rw [dec_range, ih]
    by_cases h : z = lo
    · subst h; simp
    · simp only [Function.update_noteq h]
      by_cases h1 : lo + 1 ≤ z ∧ z < lo + 1 + n
      · rw [if_pos h1, if_pos (by omega)]
      · rw [if_neg h1, if_neg (by omega)]

theorem dec32_inc32 (x : Nat) : dec32 (inc32 x) = x % 2 ^ 32 := by
  simp only [dec32, inc32]; omega

theorem dec32_inc32_inc32 (x : Nat) : dec32 (inc32 (inc32 x)) = inc32 x := by
  simp only [dec32, inc32]; omega

theorem dec32_ne (x : Nat) : dec32 x ≠ x := by
  simp only [dec32]; omega

theorem inc32_of_lt (x : Nat) (h : x + 1 < 2 ^ 32) : inc32 x = x + 1 := by
  simp only [inc32]; omega

theorem SpansOK.mono {lo lo1 : Nat} {l : List Span} (h : SpansOK lo l) (hle : lo1 ≤ lo) :
    SpansOK lo1 l := by
  cases l with
  | nil => trivial
  | cons sp rest => exact ⟨le_trans hle h.1, h.2.1, h.2.2⟩

theorem SpansOK.lo_le {l : List Span} : ∀ {lo : Nat}, SpansOK lo l → ∀ sp ∈ l, lo ≤ sp.1 ∧ sp.1 ≤ sp.2 := by
  induction l with
  | nil => intro lo _ sp h; cases h
  | cons a rest ih =>
    intro lo h sp hsp
    rcases List.mem_cons.1 hsp with h1 | h1
    · subst h1; exact ⟨h.1, h.2.1⟩
    · have := ih h.2.2 sp h1
      exact ⟨by have := h.1; have := h.2.1; omega, this.2⟩

theorem in_spans_ge {l : List Span} {lo z : Nat} (h : SpansOK lo l) (hz : in_spans l z) : lo ≤ z := by
  obtain ⟨sp, hsp, h1, _⟩ := hz
  have := (h.lo_le sp hsp).1
  omega

theorem SpansOK.append_right {l1 : List Span} : ∀ {lo : Nat} {l2 : List Span}, SpansOK lo (l1 ++ l2) →
    ∃ lo2, lo ≤ lo2 ∧ SpansOK lo2 l2 ∧ ∀ sp ∈ l1, sp.2 ≤ lo2 := by
  induction l1 with
  | nil => intro lo l2 h; exact ⟨lo, le_rfl, h, by simp⟩
  | cons a rest ih =>
    intro lo l2 h
    obtain ⟨lo2, h1, h2, h3⟩ := ih h.2.2
    refine ⟨lo2, by have := h.1; have := h.2.1; omega, h2, ?_⟩
    intro sp hsp
    rcases List.mem_cons.1 hsp with h4 | h4
    · subst h4; exact h1
    · exact h3 sp h4

theorem fix_loop_nil (uq : Bool) (mpq cur_end fuel : Nat) (cov ucov : Nat → Nat) (le : Nat) :
    fix_loop uq mpq cur_end fuel ⟨cov, ucov, [], le⟩ = ⟨cov, ucov, [], le⟩ := by
  cases fuel <;> simp [fix_loop]

theorem fix_loop_exit (uq : Bool) (mpq cur_end fuel : Nat) (cov ucov : Nat → Nat) (le : Nat)
    (sp : Span) (rest : List Span) (h : ¬ (le < sp.2 ∧ cur_end > sp.1)) :
    fix_loop uq mpq cur_end fuel ⟨cov, ucov, sp :: rest, le⟩ = ⟨cov, ucov, sp :: rest, le⟩ := by
  cases fuel <;> simp only [fix_loop, h, if_false]

theorem fix_loop_next (uq : Bool) (mpq cur_end fuel : Nat) (cov ucov : Nat → Nat) (le : Nat)
    (sp : Span) (rest : List Span) (h : le < sp.2 ∧ cur_end > sp.1) (h2 : cur_end ≥ sp.2) :
    fix_loop uq mpq cur_end (fuel + 1) ⟨cov, ucov, sp :: rest, le⟩
      = fix_loop uq mpq cur_end fuel
          ⟨dec_range cov le (sp.2 - le),
           if uq ∧ mpq ≠ 0 then dec_range ucov le (sp.2 - le) else ucov,
           rest, head_lo rest le⟩ := by
  simp only [fix_loop, h, h2, and_self, if_true]

theorem fix_loop_last (uq : Bool) (mpq cur_end fuel : Nat) (cov ucov : Nat → Nat) (le : Nat)
    (sp : Span) (rest : List Span) (h : le < sp.2 ∧ cur_end > sp.1) (h2 : ¬ cur_end ≥ sp.2) :
    fix_loop uq mpq cur_end (fuel + 1) ⟨cov, ucov, sp :: rest, le⟩
      = ⟨dec_range cov le (cur_end - le),
         if uq ∧ mpq ≠ 0 then dec_range ucov le (cur_end - le) else ucov,
         sp :: rest, sp.2⟩ := by
  simp only [fix_loop, h, h2, and_self, if_true, if_false]
  exact fix_loop_exit _ _ _ _ _ _ _ _ _ (by omega)

theorem in_spans_cons {sp : Span} {rest : List Span} {z : Nat} :
    in_spans (sp :: rest) z ↔ (sp.1 ≤ z ∧ z < sp.2) ∨ in_spans rest z := by
  simp [in_spans]

theorem in_spans_nil (z : Nat) : ¬ in_spans [] z := by
  simp [in_spans]

theorem head_lo_ge {rest : List Span} {lo d : Nat} (h : SpansOK lo rest) (hd : lo ≤ d) :
    lo ≤ head_lo rest d := by
  cases rest with
  | nil => exact hd
  | cons a r => exact h.1

theorem fix_loop_weak (uq : Bool) (mpq cur_end : Nat) (fuel : Nat) :
    ∀ (cov ucov : Nat → Nat) (mspans : List Span) (le lo : Nat),
      SpansOK lo mspans → (∀ sp rest, mspans = sp :: rest → sp.1 ≤ le) →
      (∃ dropped, mspans = dropped ++ (fix_loop uq mpq cur_end fuel ⟨cov, ucov, mspans, le⟩).mspans
          ∧ ∀ sp ∈ dropped, sp.2 ≤ cur_end)
      ∧ ∀ z, FixEffect uq mpq cov ucov
          (fix_loop uq mpq cur_end fuel ⟨cov, ucov, mspans, le⟩).coverages
          (fix_loop uq mpq cur_end fuel ⟨cov, ucov, mspans, le⟩).unique_coverages z
          (le ≤ z ∧ z < cur_end ∧ in_spans mspans z) := by
  induction fuel with
  | zero =>
    intro cov ucov mspans le lo _ _
    exact ⟨⟨[], by simp [fix_loop]⟩, fun z => Or.inl ⟨rfl, rfl⟩⟩
  | succ fuel ih =>
    intro cov ucov mspans le lo hok hle
    cases mspans with
    | nil =>
      rw [fix_loop_nil]
      exact ⟨⟨[], by simp⟩, fun z => Or.inl ⟨rfl, rfl⟩⟩
    | cons sp rest =>
      have hsp := hle sp rest rfl
      obtain ⟨h1, h2, h3⟩ := hok
      by_cases hc : le < sp.2 ∧ cur_end > sp.1
      · by_cases hge : cur_end ≥ sp.2
        · rw [fix_loop_next _ _ _ _ _ _ _ _ _ hc hge]
          have hnl : ∀ s r, rest = s :: r → s.1 ≤ head_lo rest le := by
            intro s r hr; subst hr; exact le_rfl
          obtain ⟨⟨dropped, hd1, hd2⟩, hz⟩ := ih (dec_range cov le (sp.2 - le))
            (if uq = true ∧ mpq ≠ 0 then dec_range ucov le (sp.2 - le) else ucov)
            rest (head_lo rest le) sp.2 h3 hnl
          refine ⟨⟨sp :: dropped, ?_, ?_⟩, ?_⟩
          · rw [List.cons_append, ← hd1]
          · intro s hs
            rcases List.mem_cons.1 hs with h | h
            · subst h; exact hge
            · exact hd2 s h
          · intro z
            have hnl2 : in_spans rest z → sp.2 ≤ z := fun h => in_spans_ge h3 h
            rcases hz z with ⟨e1, e2⟩ | ⟨⟨p1, p2, p3⟩, e1, e2⟩
            · rw [dec_range_apply] at e1
              by_cases hin : le ≤ z ∧ z < le + (sp.2 - le)
              · right
                refine ⟨⟨hin.1, by omega, in_spans_cons.2 (Or.inl ⟨by omega, by omega⟩)⟩, ?_, ?_⟩
                · rw [e1, if_pos hin]
                · rw [e2]; split_ifs
                  · rw [dec_range_apply, if_pos hin]
                  · rfl
              · left
                refine ⟨by rw [e1, if_neg hin], ?_⟩
                rw [e2]; split_ifs
                · rw [dec_range_apply, if_neg hin]
                · rfl
            · have hz2 := hnl2 p3
              have hnot : ¬ (le ≤ z ∧ z < le + (sp.2 - le)) := by omega
              right
              refine ⟨⟨by omega, p2, in_spans_cons.2 (Or.inr p3)⟩, ?_, ?_⟩
              · rw [e1, dec_range_apply, if_neg hnot]
              · rw [e2]; split_ifs
                · rw [dec_range_apply, if_neg hnot]
                · rfl
        · rw [fix_loop_last _ _ _ _ _ _ _ _ _ hc hge]
          refine ⟨⟨[], by simp⟩, ?_⟩
          intro z
          simp only
          by_cases hin : le ≤ z ∧ z < le + (cur_end - le)
          · right
            refine ⟨⟨hin.1, by omega, in_spans_cons.2 (Or.inl ⟨by omega, by omega⟩)⟩, ?_, ?_⟩
            · rw [dec_range_apply, if_pos hin]
            · split_ifs
              · rw [dec_range_apply, if_pos hin]
              · rfl
          · left
            refine ⟨by rw [dec_range_apply, if_neg hin], ?_⟩
            split_ifs
            · rw [dec_range_apply, if_neg hin]
            · rfl
      · rw [fix_loop_exit _ _ _ _ _ _ _ _ _ hc]
        exact ⟨⟨[], by simp⟩, fun z => Or.inl ⟨rfl, rfl⟩⟩

theorem fix_loop_strong (uq : Bool) (mpq cur_end : Nat) (fuel : Nat) :
    ∀ (cov ucov : Nat → Nat) (mspans : List Span) (le lo a : Nat),
      SpansOK lo mspans → SpansPos mspans → mspans.length ≤ fuel →
      (∀ sp rest, mspans = sp :: rest → le = max a sp.1 ∧ a < sp.2) →
      ∀ z, a ≤ z → z < cur_end → in_spans mspans z →
        (fix_loop uq mpq cur_end fuel ⟨cov, ucov, mspans, le⟩).coverages z = dec32 (cov z) := by
  induction fuel with
  | zero =>
    intro cov ucov mspans le lo a _ _ hlen _ z _ _ hin
    have : mspans = [] := List.length_eq_zero.1 (by omega)
    subst this
    exact absurd hin (in_spans_nil z)
  | succ fuel ih =>
    intro cov ucov mspans le lo a hok hpos hlen hle z hz1 hz2 hin
    cases mspans with
    | nil => exact absurd hin (in_spans_nil z)
    | cons sp rest =>
      obtain ⟨hle1, hle2⟩ := hle sp rest rfl
      have hp : sp.1 < sp.2 := hpos sp (List.mem_cons_self _ _)
      obtain ⟨h1, h2, h3⟩ := hok
      have hrest : in_spans rest z → sp.2 ≤ z := fun h => in_spans_ge h3 h
      by_cases hc : cur_end > sp.1
      · have hc2 : le < sp.2 ∧ cur_end > sp.1 := ⟨by omega, hc⟩
        by_cases hge : cur_end ≥ sp.2
        · rw [fix_loop_next _ _ _ _ _ _ _ _ _ hc2 hge]
          rcases in_spans_cons.1 hin with hsp | hr
          · have hnl : ∀ s r, rest = s :: r → s.1 ≤ head_lo rest le := by
              intro s r hr; subst hr; exact le_rfl
            have hw := (fix_loop_weak uq mpq cur_end fuel (dec_range cov le (sp.2 - le))
              (if uq = true ∧ mpq ≠ 0 then dec_range ucov le (sp.2 - le) else ucov)
              rest (head_lo rest le) sp.2 h3 hnl).2 z
            rcases hw with ⟨e1, _⟩ | ⟨⟨_, _, p3⟩, _, _⟩
            · rw [e1, dec_range_apply, if_pos (by omega)]
            · have := hrest p3; omega
          · have hz3 := hrest hr
            have hpre : ∀ s r, rest = s :: r → head_lo rest le = max a s.1 ∧ a < s.2 := by
              intro s r hr2
              subst hr2
              have := h3.1
              have := hpos s (List.mem_cons_of_mem _ (List.mem_cons_self _ _))
              simp only [head_lo]
              omega
            have := ih (dec_range cov le (sp.2 - le))
              (if uq = true ∧ mpq ≠ 0 then dec_range ucov le (sp.2 - le) else ucov)
              rest (head_lo rest le) sp.2 a h3
              (fun s hs => hpos s (List.mem_cons_of_mem _ hs))
              (by simp only [List.length_cons] at hlen; omega) hpre z hz1 hz2 hr
            rw [this, dec_range_apply, if_neg (by omega)]
        · rw [fix_loop_last _ _ _ _ _ _ _ _ _ hc2 hge]
          rcases in_spans_cons.1 hin with hsp | hr
          · simp only
            rw [dec_range_apply, if_pos (by omega)]
          · have := hrest hr; omega
      · rcases in_spans_cons.1 hin with hsp | hr
        · omega
        · have := hrest hr; omega

theorem skip_spans_spec (a : Nat) (l : List Span) :
    (∃ dropped, l = dropped ++ skip_spans a l ∧ ∀ sp ∈ dropped, sp.2 ≤ a)
      ∧ ∀ sp rest, skip_spans a l = sp :: rest → a < sp.2 := by
  induction l with
  | nil => exact ⟨⟨[], by simp [skip_spans]⟩, by simp [skip_spans]⟩
  | cons s r ih =>
    by_cases h : a ≥ s.2
    · simp only [skip_spans, h, if_true]
      obtain ⟨⟨dropped, hd1, hd2⟩, h2⟩ := ih
      refine ⟨⟨s :: dropped, by rw [List.cons_append, ← hd1], ?_⟩, h2⟩
      intro sp hsp
      rcases List.mem_cons.1 hsp with h3 | h3
      · subst h3; exact h
      · exact hd2 sp h3
    · simp only [skip_spans, h, if_false]
      refine ⟨⟨[], by simp⟩, ?_⟩
      intro sp rest heq
      injection heq with h1 h2
      subst h1; omega

theorem FixEffect.imp {uq : Bool} {mpq : Nat} {cov ucov cov1 ucov1 : Nat → Nat} {z : Nat}
    {P Q : Prop} (h : FixEffect uq mpq cov ucov cov1 ucov1 z P) (hpq : P → Q) :
    FixEffect uq mpq cov ucov cov1 ucov1 z Q := by
  rcases h with h | ⟨hp, h⟩
  · exact Or.inl h
  · exact Or.inr ⟨hpq hp, h⟩

theorem in_spans_append {l1 l2 : List Span} {z : Nat} :
    in_spans (l1 ++ l2) z ↔ in_spans l1 z ∨ in_spans l2 z := by
  simp only [in_spans, List.mem_append]
  constructor
  · rintro ⟨sp, h1 | h1, h2⟩
    · exact Or.inl ⟨sp, h1, h2⟩
    · exact Or.inr ⟨sp, h1, h2⟩
  · rintro (⟨sp, h1, h2⟩ | ⟨sp, h1, h2⟩)
    · exact ⟨sp, Or.inl h1, h2⟩
    · exact ⟨sp, Or.inr h1, h2⟩

theorem in_spans_lt_hi {l : List Span} {z b : Nat} (h : ∀ sp ∈ l, sp.2 ≤ b) (hz : in_spans l z) :
    z < b := by
  obtain ⟨sp, hsp, _, h2⟩ := hz
  have := h sp hsp
  omega

theorem fix_overlap_fields (uq : Bool) (mpq n mendpos junk len : Nat) (s : CovState) :
    (fix_overlap uq mpq n mendpos junk len s).algn_end_pos = s.algn_end_pos
      ∧ (fix_overlap uq mpq n mendpos junk len s).total_intron_length
          = s.total_intron_length := by
  simp only [fix_overlap]
  split_ifs <;> exact ⟨rfl, rfl⟩

theorem fix_overlap_weak (uq : Bool) (mpq n mendpos junk len : Nat) (s : CovState) (lo : Nat)
    (hok : SpansOK lo s.mspans) :
    (∃ dropped, s.mspans = dropped ++ (fix_overlap uq mpq n mendpos junk len s).mspans
        ∧ ∀ sp ∈ dropped, sp.2 ≤ s.algn_end_pos + len)
      ∧ ∀ z, FixEffect uq mpq s.coverages s.unique_coverages
          (fix_overlap uq mpq n mendpos junk len s).coverages
          (fix_overlap uq mpq n mendpos junk len s).unique_coverages z
          (s.algn_end_pos ≤ z ∧ z < s.algn_end_pos + len ∧ in_spans s.mspans z) := by
  by_cases hg : n > 0 ∧ s.algn_end_pos < mendpos
  · simp only [fix_overlap, hg, and_self, if_true]
    obtain ⟨⟨d1, hd1, hd2⟩, hsk⟩ := skip_spans_spec s.algn_end_pos s.mspans
    have hok1 : SpansOK lo (d1 ++ skip_spans s.algn_end_pos s.mspans) := by rw [← hd1]; exact hok
    obtain ⟨lo2, _, hok2, _⟩ := hok1.append_right
    have hpre : ∀ sp rest, skip_spans s.algn_end_pos s.mspans = sp :: rest →
        sp.1 ≤ (if s.algn_end_pos < head_lo (skip_spans s.algn_end_pos s.mspans) junk
          then head_lo (skip_spans s.algn_end_pos s.mspans) junk else s.algn_end_pos) := by
      intro sp rest h
      rw [h]; simp only [head_lo]
      split_ifs <;> omega
    obtain ⟨⟨d2, hd3, hd4⟩, hz⟩ := fix_loop_weak uq mpq (s.algn_end_pos + len)
      ((skip_spans s.algn_end_pos s.mspans).length + 1) s.coverages s.unique_coverages
      (skip_spans s.algn_end_pos s.mspans) _ lo2 hok2 hpre
    refine ⟨⟨d1 ++ d2, ?_, ?_⟩, ?_⟩
    · rw [List.append_assoc, ← hd3, ← hd1]
    · intro sp hsp
      rcases List.mem_append.1 hsp with h | h
      · have := hd2 sp h; omega
      · exact hd4 sp h
    · intro z
      refine (hz z).imp ?_
      rintro ⟨p1, p2, p3⟩
      refine ⟨?_, p2, ?_⟩
      · split_ifs at p1 <;> omega
      · rw [hd1]; exact in_spans_append.2 (Or.inr p3)
  · simp only [fix_overlap, hg, if_false]
    exact ⟨⟨[], by simp⟩, fun z => Or.inl ⟨rfl, rfl⟩⟩

theorem fix_overlap_strong (uq : Bool) (mpq n mendpos junk len : Nat) (s : CovState) (lo : Nat)
    (hok : SpansOK lo s.mspans) (hpos : SpansPos s.mspans)
    (hend : ∀ sp ∈ s.mspans, sp.2 ≤ mendpos) (hn : s.mspans ≠ [] → 0 < n)
    (z : Nat) (hz1 : s.algn_end_pos ≤ z) (hz2 : z < s.algn_end_pos + len)
    (hin : in_spans s.mspans z) :
    (fix_overlap uq mpq n mendpos junk len s).coverages z = dec32 (s.coverages z) := by
  have hne : s.mspans ≠ [] := by
    intro h; rw [h] at hin; exact in_spans_nil z hin
  have hlt := in_spans_lt_hi hend hin
  have hg : n > 0 ∧ s.algn_end_pos < mendpos := ⟨hn hne, by omega⟩
  simp only [fix_overlap, hg, and_self, if_true]
  obtain ⟨⟨d1, hd1, hd2⟩, hsk⟩ := skip_spans_spec s.algn_end_pos s.mspans
  have hok1 : SpansOK lo (d1 ++ skip_spans s.algn_end_pos s.mspans) := by rw [← hd1]; exact hok
  obtain ⟨lo2, _, hok2, _⟩ := hok1.append_right
  have hin2 : in_spans (skip_spans s.algn_end_pos s.mspans) z := by
    rw [hd1] at hin
    rcases in_spans_append.1 hin with h | h
    · have := in_spans_lt_hi hd2 h; omega
    · exact h
  have hpos2 : SpansPos (skip_spans s.algn_end_pos s.mspans) := by
    intro sp hsp
    exact hpos sp (by rw [hd1]; exact List.mem_append_right _ hsp)
  have hpre : ∀ sp rest, skip_spans s.algn_end_pos s.mspans = sp :: rest →
      (if s.algn_end_pos < head_lo (skip_spans s.algn_end_pos s.mspans) junk
        then head_lo (skip_spans s.algn_end_pos s.mspans) junk else s.algn_end_pos)
        = max s.algn_end_pos sp.1 ∧ s.algn_end_pos < sp.2 := by
    intro sp rest h
    have := hsk sp rest h
    rw [h]; simp only [head_lo]
    split_ifs <;> omega
  exact fix_loop_strong uq mpq (s.algn_end_pos + len) _ s.coverages s.unique_coverages
    (skip_spans s.algn_end_pos s.mspans) _ lo2 s.algn_end_pos hok2 hpos2 (by omega) hpre z hz1 hz2
    hin2

theorem mate_spans_ok (cs : List Nat) : ∀ (p : Nat), SpansOK p (mate_spans cs p) := by
  induction cs with
  | nil => intro p; trivial
  | cons c cs ih =>
    intro p
    simp only [mate_spans]
    split_ifs
    · exact ⟨le_rfl, by simp, ih _⟩
    · exact (ih _).mono (by omega)
    · exact ih _

theorem mate_spans_le_end (cs : List Nat) :
    ∀ (p : Nat), p ≤ mate_end cs p ∧ ∀ sp ∈ mate_spans cs p, sp.2 ≤ mate_end cs p := by
  induction cs with
  | nil => intro p; simp [mate_spans, mate_end]
  | cons c cs ih =>
    intro p
    simp only [mate_spans, mate_end]
    split_ifs
    · have := ih (p + bam_cigar_oplen c)
      refine ⟨by omega, ?_⟩
      intro sp hsp
      rcases List.mem_cons.1 hsp with h | h
      · subst h; exact this.1
      · exact this.2 sp h
    · have := ih (p + bam_cigar_oplen c)
      exact ⟨by omega, this.2⟩
    · exact ih p

theorem mate_end_eq (cs : List Nat) : ∀ (p : Nat), mate_end cs p = p + bam_cigar2rlen cs := by
  induction cs with
  | nil => intro p; simp [mate_end, bam_cigar2rlen]
  | cons c cs ih =>
    intro p
    simp only [mate_end, bam_cigar2rlen]
    split_ifs
    · rw [ih]; omega
    · rw [ih]; omega

theorem mate_spans_pos (cs : List Nat)
    (h : ∀ c ∈ cs, consumes_ref c = true → consumes_query c = true → 0 < bam_cigar_oplen c) :
    ∀ (p : Nat), SpansPos (mate_spans cs p) := by
  induction cs with
  | nil => intro p sp hsp; cases hsp
  | cons c cs ih =>
    intro p
    have ih2 := ih (fun d hd => h d (List.mem_cons_of_mem _ hd))
    simp only [mate_spans]
    split_ifs with h1 h2
    · intro sp hsp
      rcases List.mem_cons.1 hsp with h3 | h3
      · subst h3
        have := h c (List.mem_cons_self _ _) h1 h2
        simp only; omega
      · exact ih2 _ sp h3
    · exact ih2 _
    · exact ih2 _

theorem cigar_step_fields (uq : Bool) (mpq n mendpos junk : Nat) (s : CovState) (c : Nat) :
    (cigar_step uq true mpq n mendpos junk s c).algn_end_pos
        = s.algn_end_pos + (if consumes_ref c then bam_cigar_oplen c else 0)
      ∧ (cigar_step uq true mpq n mendpos junk s c).total_intron_length
        = s.total_intron_length
          + (if consumes_ref c = true ∧ bam_cigar_op c = BAM_CREF_SKIP then bam_cigar_oplen c
              else 0) := by
  simp only [cigar_step]
  by_cases h1 : consumes_ref c = true
  · by_cases h2 : consumes_query c = true <;> by_cases h3 : bam_cigar_op c = BAM_CREF_SKIP <;>
      simp [h1, h2, h3, fix_overlap_fields]
  · simp [h1]

theorem cigar_step_weak (uq : Bool) (mpq n mendpos junk : Nat) (s : CovState) (c : Nat) (lo : Nat)
    (hok : SpansOK lo s.mspans) :
    (∃ dropped, s.mspans = dropped ++ (cigar_step uq true mpq n mendpos junk s c).mspans
        ∧ ∀ sp ∈ dropped, sp.2 ≤ (cigar_step uq true mpq n mendpos junk s c).algn_end_pos)
      ∧ ∀ z,
        ((consumes_ref c = true ∧ consumes_query c = true
            ∧ s.algn_end_pos ≤ z ∧ z < s.algn_end_pos + bam_cigar_oplen c) →
          CovEffect uq mpq s.coverages s.unique_coverages
            (cigar_step uq true mpq n mendpos junk s c).coverages
            (cigar_step uq true mpq n mendpos junk s c).unique_coverages z
            (in_spans s.mspans z))
        ∧ (¬ (consumes_ref c = true ∧ consumes_query c = true
            ∧ s.algn_end_pos ≤ z ∧ z < s.algn_end_pos + bam_cigar_oplen c) →
          (cigar_step uq true mpq n mendpos junk s c).coverages z = s.coverages z
            ∧ (cigar_step uq true mpq n mendpos junk s c).unique_coverages z
                = s.unique_coverages z) := by
  by_cases h1 : consumes_ref c = true
  · by_cases h2 : consumes_query c = true
    · have hstep : ∀ t : Nat, cigar_step uq true mpq n mendpos junk s c
          = { fix_overlap uq mpq n mendpos junk (bam_cigar_oplen c)
                { coverages := inc_range s.coverages s.algn_end_pos (bam_cigar_oplen c),
                  unique_coverages :=
                    if uq = true then
                      inc_range s.unique_coverages s.algn_end_pos (bam_cigar_oplen c)
                    else s.unique_coverages,
                  total_intron_length :=
                    if bam_cigar_op c = BAM_CREF_SKIP then
                      s.total_intron_length + bam_cigar_oplen c
                    else s.total_intron_length,
                  algn_end_pos := s.algn_end_pos, mspans := s.mspans, oob := s.oob } with
              algn_end_pos := s.algn_end_pos + bam_cigar_oplen c } := by
        intro _
        simp only [cigar_step, h1, h2, and_self, if_true]
        split_ifs <;> simp [fix_overlap_fields]
      rw [hstep 0]
      obtain ⟨⟨dropped, hd1, hd2⟩, hz⟩ := fix_overlap_weak uq mpq n mendpos junk
        (bam_cigar_oplen c)
        { coverages := inc_range s.coverages s.algn_end_pos (bam_cigar_oplen c),
          unique_coverages :=
            if uq = true then inc_range s.unique_coverages s.algn_end_pos (bam_cigar_oplen c)
            else s.unique_coverages,
          total_intron_length :=
            if bam_cigar_op c = BAM_CREF_SKIP then s.total_intron_length + bam_cigar_oplen c
            else s.total_intron_length,
          algn_end_pos := s.algn_end_pos, mspans := s.mspans, oob := s.oob } lo hok
      refine ⟨⟨dropped, hd1, hd2⟩, ?_⟩
      intro z
      have hz := hz z
      simp only at hz ⊢
      constructor
      · rintro ⟨_, _, hz1, hz2⟩
        have hr : s.algn_end_pos ≤ z ∧ z < s.algn_end_pos + bam_cigar_oplen c := ⟨hz1, hz2⟩
        rcases hz with ⟨e1, e2⟩ | ⟨⟨_, _, p3⟩, e1, e2⟩
        · left
          refine ⟨by rw [e1, inc_range_apply, if_pos hr], ?_⟩
          rw [e2]; split_ifs
          · rw [inc_range_apply, if_pos hr]
          · rfl
        · right
          refine ⟨p3, by rw [e1, inc_range_apply, if_pos hr], ?_⟩
          rw [e2]
          by_cases hu : uq = true
          · simp only [hu, if_true, inc_range_apply, if_pos hr]
          · simp [hu]
      · intro hnot
        have hr : ¬ (s.algn_end_pos ≤ z ∧ z < s.algn_end_pos + bam_cigar_oplen c) :=
          fun h => hnot ⟨h1, h2, h.1, h.2⟩
        rcases hz with ⟨e1, e2⟩ | ⟨⟨p1, p2, _⟩, _, _⟩
        · refine ⟨by rw [e1, inc_range_apply, if_neg hr], ?_⟩
          rw [e2]; split_ifs
          · rw [inc_range_apply, if_neg hr]
          · rfl
        · exact absurd ⟨p1, p2⟩ hr
    · have hstep : (cigar_step uq true mpq n mendpos junk s c).mspans = s.mspans
          ∧ (cigar_step uq true mpq n mendpos junk s c).coverages = s.coverages
          ∧ (cigar_step uq true mpq n mendpos junk s c).unique_coverages
              = s.unique_coverages := by
        have h2b : consumes_query c = false := by simpa using h2
        simp only [cigar_step, h1, h2b, Bool.false_eq_true, and_false, if_true, if_false]
        split_ifs <;> exact ⟨rfl, rfl, rfl⟩
      rw [hstep.1, hstep.2.1, hstep.2.2]
      refine ⟨⟨[], by simp⟩, fun z => ⟨fun h => absurd h.2.1 h2, fun _ => ⟨rfl, rfl⟩⟩⟩
  · have hstep : cigar_step uq true mpq n mendpos junk s c = s := by
      simp only [cigar_step, h1]; rfl
    rw [hstep]
    refine ⟨⟨[], by simp⟩, fun z => ⟨fun h => absurd h.1 h1, fun _ => ⟨rfl, rfl⟩⟩⟩

theorem cigar_step_strong (uq : Bool) (mpq n mendpos junk : Nat) (s : CovState) (c : Nat)
    (lo : Nat) (hok : SpansOK lo s.mspans) (hpos : SpansPos s.mspans)
    (hend : ∀ sp ∈ s.mspans, sp.2 ≤ mendpos) (hn : s.mspans ≠ [] → 0 < n) (z : Nat)
    (h1 : consumes_ref c = true) (h2 : consumes_query c = true)
    (hz1 : s.algn_end_pos ≤ z) (hz2 : z < s.algn_end_pos + bam_cigar_oplen c)
    (hin : in_spans s.mspans z) :
    (cigar_step uq true mpq n mendpos junk s c).coverages z = dec32 (inc32 (s.coverages z)) := by
  have hstep : (cigar_step uq true mpq n mendpos junk s c).coverages
      = (fix_overlap uq mpq n mendpos junk (bam_cigar_oplen c)
            { coverages := inc_range s.coverages s.algn_end_pos (bam_cigar_oplen c),
              unique_coverages :=
                if uq = true then
                  inc_range s.unique_coverages s.algn_end_pos (bam_cigar_oplen c)
                else s.unique_coverages,
              total_intron_length :=
                if bam_cigar_op c = BAM_CREF_SKIP then
                  s.total_intron_length + bam_cigar_oplen c
                else s.total_intron_length,
              algn_end_pos := s.algn_end_pos, mspans := s.mspans, oob := s.oob }).coverages := by
    simp only [cigar_step, h1, h2, and_self, if_true]
    split_ifs <;> rfl
  rw [hstep, fix_overlap_strong uq mpq n mendpos junk (bam_cigar_oplen c)
    { coverages := inc_range s.coverages s.algn_end_pos (bam_cigar_oplen c),
      unique_coverages :=
        if uq = true then inc_range s.unique_coverages s.algn_end_pos (bam_cigar_oplen c)
        else s.unique_coverages,
      total_intron_length :=
        if bam_cigar_op c = BAM_CREF_SKIP then s.total_intron_length + bam_cigar_oplen c
        else s.total_intron_length,
      algn_end_pos := s.algn_end_pos, mspans := s.mspans, oob := s.oob }
    lo hok hpos hend hn z hz1 hz2 hin]
  simp only
  rw [inc_range_apply, if_pos ⟨hz1, hz2⟩]

theorem mate_spans_cons (c : Nat) (cs : List Nat) (p : Nat) :
    mate_spans (c :: cs) p
      = (if consumes_ref c = true ∧ consumes_query c = true then [(p, p + bam_cigar_oplen c)]
          else [])
        ++ mate_spans cs (p + (if consumes_ref c then bam_cigar_oplen c else 0)) := by
  simp only [mate_spans]
  by_cases h1 : consumes_ref c = true <;> by_cases h2 : consumes_query c = true <;> simp [h1, h2]

theorem in_mate_spans_cons (c : Nat) (cs : List Nat) (p z : Nat) :
    in_spans (mate_spans (c :: cs) p) z
      ↔ (consumes_ref c = true ∧ consumes_query c = true
          ∧ p ≤ z ∧ z < p + bam_cigar_oplen c)
        ∨ in_spans (mate_spans cs (p + (if consumes_ref c then bam_cigar_oplen c else 0))) z := by
  rw [mate_spans_cons, in_spans_append]
  by_cases h : consumes_ref c = true ∧ consumes_query c = true
  · simp only [h, and_self, if_true, true_and]
    simp [in_spans]
  · simp only [h, if_false]
    constructor
    · rintro (h1 | h1)
      · exact absurd h1 (in_spans_nil z)
      · exact Or.inr h1
    · rintro (h1 | h1)
      · exact absurd ⟨h1.1, h1.2.1⟩ h
      · exact Or.inr h1

theorem foldl_cigar_step_fields (uq : Bool) (mpq n mendpos junk : Nat) (cs : List Nat) :
    ∀ (s : CovState),
      (cs.foldl (cigar_step uq true mpq n mendpos junk) s).algn_end_pos
        = s.algn_end_pos + bam_cigar2rlen cs := by
  induction cs with
  | nil => intro s; simp [bam_cigar2rlen]
  | cons c cs ih =>
    intro s
    rw [List.foldl_cons, ih, (cigar_step_fields uq mpq n mendpos junk s c).1]
    simp only [bam_cigar2rlen]
    omega

theorem foldl_cigar_step_weak (uq : Bool) (mpq n mendpos junk : Nat) (cs : List Nat) :
    ∀ (s : CovState) (lo : Nat), SpansOK lo s.mspans →
      (∃ dropped,
          s.mspans = dropped ++ (cs.foldl (cigar_step uq true mpq n mendpos junk) s).mspans
          ∧ ∀ sp ∈ dropped, sp.2 ≤ s.algn_end_pos + bam_cigar2rlen cs)
      ∧ ∀ z,
        (in_spans (mate_spans cs s.algn_end_pos) z →
          CovEffect uq mpq s.coverages s.unique_coverages
            (cs.foldl (cigar_step uq true mpq n mendpos junk) s).coverages
            (cs.foldl (cigar_step uq true mpq n mendpos junk) s).unique_coverages z
            (in_spans s.mspans z))
        ∧ (¬ in_spans (mate_spans cs s.algn_end_pos) z →
          (cs.foldl (cigar_step uq true mpq n mendpos junk) s).coverages z = s.coverages z
            ∧ (cs.foldl (cigar_step uq true mpq n mendpos junk) s).unique_coverages z
                = s.unique_coverages z) := by
  induction cs with
  | nil =>
    intro s lo _
    refine ⟨⟨[], by simp⟩, fun z => ⟨fun h => absurd h (in_spans_nil z), fun _ => ⟨rfl, rfl⟩⟩⟩
  | cons c cs ih =>
    intro s lo hok
    obtain ⟨⟨d1, hd1, hd2⟩, hz1⟩ := cigar_step_weak uq mpq n mendpos junk s c lo hok
    have hp := (cigar_step_fields uq mpq n mendpos junk s c).1
    have hok1 : SpansOK lo (d1 ++ (cigar_step uq true mpq n mendpos junk s c).mspans) := by
      rw [← hd1]; exact hok
    obtain ⟨lo2, _, hok2, _⟩ := hok1.append_right
    obtain ⟨⟨d2, hd3, hd4⟩, hz2⟩ := ih (cigar_step uq true mpq n mendpos junk s c) lo2 hok2
    rw [List.foldl_cons]
    refine ⟨⟨d1 ++ d2, by rw [List.append_assoc, ← hd3, ← hd1], ?_⟩, ?_⟩
    · intro sp hsp
      simp only [bam_cigar2rlen]
      rcases List.mem_append.1 hsp with h | h
      · have := hd2 sp h; omega
      · have := hd4 sp h; omega
    · intro z
      obtain ⟨hs1, hs2⟩ := hz1 z
      obtain ⟨hr1, hr2⟩ := hz2 z
      rw [hp] at hr1 hr2
      have hlater : in_spans (mate_spans cs (s.algn_end_pos
          + (if consumes_ref c then bam_cigar_oplen c else 0))) z →
          s.algn_end_pos + (if consumes_ref c then bam_cigar_oplen c else 0) ≤ z :=
        fun h => in_spans_ge (mate_spans_ok cs _) h
      by_cases hseg : consumes_ref c = true ∧ consumes_query c = true
          ∧ s.algn_end_pos ≤ z ∧ z < s.algn_end_pos + bam_cigar_oplen c
      · have hnl : ¬ in_spans (mate_spans cs (s.algn_end_pos
            + (if consumes_ref c then bam_cigar_oplen c else 0))) z := by
          intro h
          have := hlater h
          rw [if_pos hseg.1] at this
          omega
        obtain ⟨e1, e2⟩ := hr2 hnl
        refine ⟨fun _ => ?_, fun h => absurd ((in_mate_spans_cons c cs _ z).2 (Or.inl hseg)) h⟩
        have := hs1 hseg
        simp only [CovEffect, FixEffect] at this ⊢
        rw [e1, e2]
        exact this
      · obtain ⟨e1, e2⟩ := hs2 hseg
        constructor
        · intro hin
          rcases (in_mate_spans_cons c cs _ z).1 hin with h | h
          · exact absurd h hseg
          · have := hr1 h
            simp only [CovEffect, FixEffect] at this ⊢
            rw [e1, e2] at this
            rcases this with h3 | ⟨h3, h4⟩
            · exact Or.inl h3
            · exact Or.inr ⟨by rw [hd1]; exact in_spans_append.2 (Or.inr h3), h4⟩
        · intro hnin
          have hnl : ¬ in_spans (mate_spans cs (s.algn_end_pos
              + (if consumes_ref c then bam_cigar_oplen c else 0))) z :=
            fun h => hnin ((in_mate_spans_cons c cs _ z).2 (Or.inr h))
          obtain ⟨e3, e4⟩ := hr2 hnl
          exact ⟨by rw [e3, e1], by rw [e4, e2]⟩

theorem foldl_cigar_step_strong (uq : Bool) (mpq n mendpos junk : Nat) (cs : List Nat) :
    ∀ (s : CovState) (lo : Nat), SpansOK lo s.mspans → SpansPos s.mspans →
      (∀ sp ∈ s.mspans, sp.2 ≤ mendpos) → (s.mspans ≠ [] → 0 < n) →
      ∀ z, in_spans (mate_spans cs s.algn_end_pos) z → in_spans s.mspans z →
        (cs.foldl (cigar_step uq true mpq n mendpos junk) s).coverages z
          = dec32 (inc32 (s.coverages z)) := by
  induction cs with
  | nil => intro s lo _ _ _ _ z h; exact absurd h (in_spans_nil z)
  | cons c cs ih =>
    intro s lo hok hpos hend hn z hin hinA
    obtain ⟨⟨d1, hd1, hd2⟩, hz1⟩ := cigar_step_weak uq mpq n mendpos junk s c lo hok
    have hp := (cigar_step_fields uq mpq n mendpos junk s c).1
    have hok1 : SpansOK lo (d1 ++ (cigar_step uq true mpq n mendpos junk s c).mspans) := by
      rw [← hd1]; exact hok
    obtain ⟨lo2, _, hok2, _⟩ := hok1.append_right
    have hlater : in_spans (mate_spans cs (s.algn_end_pos
        + (if consumes_ref c then bam_cigar_oplen c else 0))) z →
        s.algn_end_pos + (if consumes_ref c then bam_cigar_oplen c else 0) ≤ z :=
      fun h => in_spans_ge (mate_spans_ok cs _) h
    rw [List.foldl_cons]
    by_cases hseg : consumes_ref c = true ∧ consumes_query c = true
        ∧ s.algn_end_pos ≤ z ∧ z < s.algn_end_pos + bam_cigar_oplen c
    · have hnl : ¬ in_spans (mate_spans cs
          (cigar_step uq true mpq n mendpos junk s c).algn_end_pos) z := by
        intro h
        rw [hp] at h
        have := hlater h
        rw [if_pos hseg.1] at this
        omega
      rw [((foldl_cigar_step_weak uq mpq n mendpos junk cs _ lo2 hok2).2 z).2 hnl |>.1]
      exact cigar_step_strong uq mpq n mendpos junk s c lo hok hpos hend hn z hseg.1 hseg.2.1
        hseg.2.2.1 hseg.2.2.2 hinA
    · have hl : in_spans (mate_spans cs (s.algn_end_pos
          + (if consumes_ref c then bam_cigar_oplen c else 0))) z := by
        rcases (in_mate_spans_cons c cs _ z).1 hin with h | h
        · exact absurd h hseg
        · exact h
      have hge := hlater hl
      have hinA1 : in_spans (cigar_step uq true mpq n mendpos junk s c).mspans z := by
        rw [hd1] at hinA
        rcases in_spans_append.1 hinA with h | h
        · have := in_spans_lt_hi hd2 h
          rw [hp] at this
          omega
        · exact h
      have hsub : ∀ sp ∈ (cigar_step uq true mpq n mendpos junk s c).mspans, sp ∈ s.mspans := by
        intro sp hsp; rw [hd1]; exact List.mem_append_right _ hsp
      have := ih (cigar_step uq true mpq n mendpos junk s c) lo2 hok2
        (fun sp hsp => hpos sp (hsub sp hsp)) (fun sp hsp => hend sp (hsub sp hsp))
        (fun hne => hn (by
          intro h0; rw [h0] at hd1
          have : (cigar_step uq true mpq n mendpos junk s c).mspans = [] := by
            have := congrArg List.length hd1
            simp only [List.length_nil, List.length_append] at this
            exact List.length_eq_zero.1 (by omega)
          exact hne this))
        z (by rw [hp]; exact hl) hinA1
      rw [this, ((hz1 z).2 hseg).1]

/-! ### calculate_coverage: the walk over the CIGAR and the claims -/

theorem cigar_type_table (c : Nat) :
    (consumes_ref c = true
        ↔ (is_match c = true ∨ bam_cigar_op c = BAM_CDEL ∨ bam_cigar_op c = BAM_CREF_SKIP))
      ∧ ((consumes_ref c = true ∧ consumes_query c = true) ↔ is_match c = true) := by
  have h : bam_cigar_op c < 16 := Nat.mod_lt _ (by decide)
  simp only [consumes_ref, consumes_query, is_match, bam_cigar_type, BAM_CMATCH, BAM_CEQUAL,
    BAM_CDIFF, BAM_CDEL, BAM_CREF_SKIP]
  generalize bam_cigar_op c = op at h
  interval_cases op <;> simp

theorem mate_spans_eq_match (cs : List Nat) : ∀ (p : Nat), mate_spans cs p = match_spans cs p := by
  induction cs with
  | nil => intro p; rfl
  | cons c cs ih =>
    intro p
    obtain ⟨h1, h2⟩ := cigar_type_table c
    simp only [mate_spans, match_spans]
    by_cases hm : is_match c = true
    · have hr : consumes_ref c = true := h1.2 (Or.inl hm)
      have hq : consumes_query c = true := (h2.2 hm).2
      simp [hm, hr, hq, ih]
    · by_cases hr : consumes_ref c = true
      · have hq : ¬ consumes_query c = true := fun h => hm (h2.1 ⟨hr, h⟩)
        have hd : bam_cigar_op c = BAM_CDEL ∨ bam_cigar_op c = BAM_CREF_SKIP := by
          rcases h1.1 hr with h | h
          · exact absurd h hm
          · exact h
        simp [hm, hr, hq, hd, ih]
      · have hd : ¬ (bam_cigar_op c = BAM_CDEL ∨ bam_cigar_op c = BAM_CREF_SKIP) :=
          fun h => hr (h1.2 (Or.inr h))
        simp [hm, hr, hd, ih]

theorem bam_cigar2rlen_eq (cs : List Nat) : bam_cigar2rlen cs = ref_length cs := by
  induction cs with
  | nil => rfl
  | cons c cs ih =>
    simp only [bam_cigar2rlen, ref_length, ih]
    by_cases hr : consumes_ref c = true
    · rw [if_pos hr, if_pos (by simpa using (cigar_type_table c).1.1 hr)]
    · rw [if_neg hr, if_neg (by
        intro h
        exact hr ((cigar_type_table c).1.2 (by simpa using h)))]

theorem covers_iff (cigar : List Nat) (pos z : Nat) :
    covers cigar pos z = true ↔ in_spans (mate_spans cigar pos) z := by
  simp [covers, in_spans]

theorem skip_consumes_ref (c : Nat) (h : bam_cigar_op c = BAM_CREF_SKIP) :
    consumes_ref c = true ∧ consumes_query c = false := by
  simp only [consumes_ref, consumes_query, h, BAM_CREF_SKIP, bam_cigar_type]
  decide

theorem cigar_step_fields_any (uq has_cov : Bool) (mpq n mendpos junk : Nat) (s : CovState)
    (c : Nat) :
    (cigar_step uq has_cov mpq n mendpos junk s c).algn_end_pos
        = s.algn_end_pos + (if consumes_ref c then bam_cigar_oplen c else 0)
      ∧ (cigar_step uq has_cov mpq n mendpos junk s c).total_intron_length
        = s.total_intron_length
          + (if bam_cigar_op c = BAM_CREF_SKIP then bam_cigar_oplen c else 0) := by
  by_cases h3 : bam_cigar_op c = BAM_CREF_SKIP
  · obtain ⟨hr, hq⟩ := skip_consumes_ref c h3
    simp [cigar_step, hr, hq, h3]
  · simp only [cigar_step]
    by_cases h1 : consumes_ref c = true
    · by_cases h2 : consumes_query c = true <;> cases has_cov <;>
        simp [h1, h2, h3, fix_overlap_fields]
    · simp [h1, h3]

theorem foldl_cigar_step_fields_any (uq has_cov : Bool) (mpq n mendpos junk : Nat)
    (cs : List Nat) :
    ∀ (s : CovState),
      (cs.foldl (cigar_step uq has_cov mpq n mendpos junk) s).algn_end_pos
          = s.algn_end_pos + bam_cigar2rlen cs
        ∧ (cs.foldl (cigar_step uq has_cov mpq n mendpos junk) s).total_intron_length
          = s.total_intron_length + intron_length cs := by
  induction cs with
  | nil => intro s; simp [bam_cigar2rlen, intron_length]
  | cons c cs ih =>
    intro s
    obtain ⟨h1, h2⟩ := cigar_step_fields_any uq has_cov mpq n mendpos junk s c
    obtain ⟨h3, h4⟩ := ih (cigar_step uq has_cov mpq n mendpos junk s c)
    rw [List.foldl_cons, h3, h4, h1, h2]
    simp only [bam_cigar2rlen, intron_length]
    omega

theorem foldl_cigar_step_no_cov (uq : Bool) (mpq n mendpos junk : Nat) (cs : List Nat) :
    ∀ (s : CovState),
      (cs.foldl (cigar_step uq false mpq n mendpos junk) s).coverages = s.coverages
        ∧ (cs.foldl (cigar_step uq false mpq n mendpos junk) s).unique_coverages
            = s.unique_coverages := by
  induction cs with
  | nil => intro s; exact ⟨rfl, rfl⟩
  | cons c cs ih =>
    intro s
    obtain ⟨h3, h4⟩ := ih (cigar_step uq false mpq n mendpos junk s c)
    rw [List.foldl_cons, h3, h4]
    simp only [cigar_step, Bool.false_eq_true, false_and, if_false]
    split_ifs <;> exact ⟨rfl, rfl⟩

theorem stored_spans_ok (sm : Option MateInfo) :
    (∃ lo, SpansOK lo (stored_spans sm)) ∧ (∀ sp ∈ stored_spans sm, sp.2 ≤ stored_end sm) := by
  cases sm with
  | none => exact ⟨⟨0, trivial⟩, fun sp h => by cases h⟩
  | some mi => exact ⟨⟨mi.refpos, mate_spans_ok _ _⟩, (mate_spans_le_end _ _).2⟩

theorem walk_cigar_fields (rec : Bam1) (cov ucov : Nat → Nat) (has_cov : Bool) (mq : Int)
    (sm : Option MateInfo) (til junk : Nat) :
    (walk_cigar rec cov ucov has_cov mq sm til junk).algn_end_pos
        = rec.pos + ref_length rec.cigar
      ∧ (walk_cigar rec cov ucov has_cov mq sm til junk).total_intron_length
        = til + intron_length rec.cigar := by
  simp only [walk_cigar]
  obtain ⟨h1, h2⟩ := foldl_cigar_step_fields_any
    (decide (mq > 0) && decide ((rec.qual : Int) ≥ mq)) has_cov (stored_passes sm)
    (stored_spans sm).length (stored_end sm) junk rec.cigar
    { coverages := cov, unique_coverages := ucov, total_intron_length := til,
      algn_end_pos := rec.pos, mspans := stored_spans sm, oob := false }
  rw [h1, h2, bam_cigar2rlen_eq]
  exact ⟨rfl, rfl⟩

theorem walk_cigar_effect (rec : Bam1) (cov ucov : Nat → Nat) (mq : Int)
    (sm : Option MateInfo) (til junk : Nat) (z : Nat) :
    (in_spans (match_spans rec.cigar rec.pos) z →
        CovEffect (decide (mq > 0) && decide ((rec.qual : Int) ≥ mq)) (stored_passes sm) cov ucov
          (walk_cigar rec cov ucov true mq sm til junk).coverages
          (walk_cigar rec cov ucov true mq sm til junk).unique_coverages z
          (in_spans (stored_spans sm) z))
      ∧ (¬ in_spans (match_spans rec.cigar rec.pos) z →
        (walk_cigar rec cov ucov true mq sm til junk).coverages z = cov z
          ∧ (walk_cigar rec cov ucov true mq sm til junk).unique_coverages z = ucov z) := by
  obtain ⟨⟨lo, hok⟩, _⟩ := stored_spans_ok sm
  have := ((foldl_cigar_step_weak (decide (mq > 0) && decide ((rec.qual : Int) ≥ mq))
    (stored_passes sm) (stored_spans sm).length (stored_end sm) junk rec.cigar
    { coverages := cov, unique_coverages := ucov, total_intron_length := til,
      algn_end_pos := rec.pos, mspans := stored_spans sm, oob := false } lo hok).2 z)
  simp only [mate_spans_eq_match] at this
  exact this

theorem walk_cigar_overlap (rec : Bam1) (cov ucov : Nat → Nat) (mq : Int)
    (mi : MateInfo) (til junk : Nat) (z : Nat)
    (hpos : ∀ c ∈ mi.cigar, is_match c = true → 0 < bam_cigar_oplen c)
    (hB : in_spans (match_spans rec.cigar rec.pos) z)
    (hA : in_spans (match_spans mi.cigar mi.refpos) z) :
    (walk_cigar rec cov ucov true mq (some mi) til junk).coverages z = dec32 (inc32 (cov z)) := by
  have hp : SpansPos (mate_spans mi.cigar mi.refpos) :=
    mate_spans_pos mi.cigar (fun c hc h1 h2 => hpos c hc ((cigar_type_table c).2.1 ⟨h1, h2⟩)) _
  have := foldl_cigar_step_strong (decide (mq > 0) && decide ((rec.qual : Int) ≥ mq))
    mi.passes (mate_spans mi.cigar mi.refpos).length (mate_end mi.cigar mi.refpos) junk rec.cigar
    { coverages := cov, unique_coverages := ucov, total_intron_length := til,
      algn_end_pos := rec.pos, mspans := mate_spans mi.cigar mi.refpos, oob := false }
    mi.refpos (mate_spans_ok _ _) hp (mate_spans_le_end _ _).2
    (fun h => List.length_pos.2 h) z
    (by simp only [mate_spans_eq_match]; exact hB)
    (by simp only [mate_spans_eq_match]; exact hA)
  exact this

theorem second_mate_check_none_of_lookup (rec : Bam1) (has_cov dc : Bool) (store : Read2Len)
    (h : store.lookup rec.qname = none) : second_mate_check rec has_cov dc store = none := by
  simp only [second_mate_check, h]
  split_ifs <;> rfl

theorem second_mate_check_double_count (rec : Bam1) (has_cov : Bool) (store : Read2Len) :
    second_mate_check rec has_cov true store = none
      ∧ first_mate_check rec has_cov true store = false := by
  simp [second_mate_check, first_mate_check]

theorem unique_eligible_iff (mq : Int) (qual : Nat) :
    (decide (mq > 0) && decide ((qual : Int) ≥ mq)) = true ↔ (0 < mq ∧ mq ≤ (qual : Int)) := by
  simp

theorem covEffect_iff {uq : Bool} {mpq : Nat} {cov ucov cov1 ucov1 : Nat → Nat} {z : Nat}
    {P : Prop} :
    CovEffect uq mpq cov ucov cov1 ucov1 z P
      ↔ (cov1 z = inc32 (cov z) ∧ ucov1 z = if uq = true then inc32 (ucov z) else ucov z)
        ∨ (P ∧ cov1 z = dec32 (inc32 (cov z))
            ∧ ucov1 z = if uq = true ∧ mpq ≠ 0
                then dec32 (if uq = true then inc32 (ucov z) else ucov z)
                else (if uq = true then inc32 (ucov z) else ucov z)) :=
  Iff.rfl

theorem walk_cigar_no_mate (rec : Bam1) (cov ucov : Nat → Nat) (mq : Int) (til junk : Nat)
    (z : Nat) :
    (in_spans (match_spans rec.cigar rec.pos) z →
        (walk_cigar rec cov ucov true mq none til junk).coverages z = inc32 (cov z)
          ∧ (walk_cigar rec cov ucov true mq none til junk).unique_coverages z
              = if 0 < mq ∧ mq ≤ (rec.qual : Int) then inc32 (ucov z) else ucov z)
      ∧ (¬ in_spans (match_spans rec.cigar rec.pos) z →
        (walk_cigar rec cov ucov true mq none til junk).coverages z = cov z
          ∧ (walk_cigar rec cov ucov true mq none til junk).unique_coverages z = ucov z) := by
  obtain ⟨h1, h2⟩ := walk_cigar_effect rec cov ucov mq none til junk z
  refine ⟨fun h => ?_, h2⟩
  rcases covEffect_iff.1 (h1 h) with ⟨e1, e2⟩ | ⟨p, _, _⟩
  · refine ⟨e1, ?_⟩
    rw [e2]
    by_cases hu : 0 < mq ∧ mq ≤ (rec.qual : Int)
    · rw [if_pos hu, if_pos ((unique_eligible_iff mq rec.qual).2 hu)]
    · rw [if_neg hu, if_neg (fun h => hu ((unique_eligible_iff mq rec.qual).1 h))]
  · exact absurd p (in_spans_nil z)

/-- C5: for a record with no stored mate entry, `calculate_coverage` adds 1 (in 32-bit
arithmetic) to `all[p]` for each position `p` covered by an M, = or X operation, adds 1 to
`unique[p]` on the same positions iff the record is unique-eligible (`min_qual > 0` and
`mapq >= min_qual`), and leaves every other position of both arrays unchanged. -/
theorem calculate_coverage_no_mate (rec : Bam1) (cov ucov : Nat → Nat) (double_count : Bool)
    (min_qual : Int) (store : Read2Len) (til junk : Nat)
    (h : store.lookup rec.qname = none) (z : Nat) :
    (in_spans (match_spans rec.cigar rec.pos) z →
        (calculate_coverage rec cov ucov true double_count min_qual store til junk).coverages z
            = inc32 (cov z)
          ∧ (calculate_coverage rec cov ucov true double_count min_qual store til
              junk).unique_coverages z
            = if 0 < min_qual ∧ min_qual ≤ (rec.qual : Int) then inc32 (ucov z) else ucov z)
      ∧ (¬ in_spans (match_spans rec.cigar rec.pos) z →
        (calculate_coverage rec cov ucov true double_count min_qual store til junk).coverages z
            = cov z
          ∧ (calculate_coverage rec cov ucov true double_count min_qual store til
              junk).unique_coverages z = ucov z) := by
  simp only [calculate_coverage, second_mate_check_none_of_lookup rec true double_count store h]
  exact walk_cigar_no_mate rec cov ucov min_qual til junk z

theorem first_mate_check_true (A : Bam1) (store : Read2Len)
    (hA : A.flag / BAM_FPROPER_PAIR % 2 = 1) (hcontig : A.tid = A.mtid)
    (hstart : (A.pos : Int) ≤ A.mpos) (hend : A.mpos < (bam_endpos A : Int))
    (hfresh : store.lookup A.qname = none) :
    first_mate_check A true false store = true := by
  simp [first_mate_check, hA, hcontig, hstart, hend, hfresh]

theorem first_call (A : Bam1) (cov ucov : Nat → Nat) (mq : Int) (store : Read2Len)
    (til junk : Nat)
    (hA : A.flag / BAM_FPROPER_PAIR % 2 = 1) (hcontig : A.tid = A.mtid)
    (hstart : (A.pos : Int) ≤ A.mpos) (hend : A.mpos < (bam_endpos A : Int))
    (hfresh : store.lookup A.qname = none) :
    calculate_coverage A cov ucov true false mq store til junk
      = { ret := (walk_cigar A cov ucov true mq none til junk).algn_end_pos,
          coverages := (walk_cigar A cov ucov true mq none til junk).coverages,
          unique_coverages := (walk_cigar A cov ucov true mq none til junk).unique_coverages,
          overlapping_mates := (A.qname, mate_info_of A mq) :: store,
          total_intron_length := (walk_cigar A cov ucov true mq none til junk).total_intron_length,
          oob := (walk_cigar A cov ucov true mq none til junk).oob } := by
  have h1 := first_mate_check_true A store hA hcontig hstart hend hfresh
  simp only [calculate_coverage, second_mate_check_none_of_lookup A true false store hfresh,
    update_mates, h1, if_true, mate_info_of]

theorem second_call (A B : Bam1) (cov ucov : Nat → Nat) (mq : Int) (store : Read2Len)
    (til junk : Nat) (hname : B.qname = A.qname) (hB : B.flag / BAM_FPROPER_PAIR % 2 = 1) :
    calculate_coverage B cov ucov true false mq ((A.qname, mate_info_of A mq) :: store) til junk
      = { ret := (walk_cigar B cov ucov true mq (some (mate_info_of A mq)) til junk).algn_end_pos,
          coverages :=
            (walk_cigar B cov ucov true mq (some (mate_info_of A mq)) til junk).coverages,
          unique_coverages :=
            (walk_cigar B cov ucov true mq (some (mate_info_of A mq)) til junk).unique_coverages,
          overlapping_mates := store.filter (fun e => e.1 ≠ A.qname),
          total_intron_length :=
            (walk_cigar B cov ucov true mq (some (mate_info_of A mq)) til
              junk).total_intron_length,
          oob := (walk_cigar B cov ucov true mq (some (mate_info_of A mq)) til junk).oob } := by
  have hl : List.lookup B.qname ((A.qname, mate_info_of A mq) :: store)
      = some (mate_info_of A mq) := by
    rw [hname]; simp [List.lookup]
  have h1 : first_mate_check B true false ((A.qname, mate_info_of A mq) :: store) = false := by
    simp [first_mate_check, hl]
  have h2 : second_mate_check B true false ((A.qname, mate_info_of A mq) :: store)
      = some (mate_info_of A mq) := by
    simp [second_mate_check, h1, hB, hl]
  simp only [calculate_coverage, h2, update_mates, h1, hname]
  simp

theorem coverage_of_pair_eq (A B : Bam1) (cov ucov : Nat → Nat) (mq : Int) (store : Read2Len)
    (til junk : Nat) (hname : B.qname = A.qname)
    (hA : A.flag / BAM_FPROPER_PAIR % 2 = 1) (hB : B.flag / BAM_FPROPER_PAIR % 2 = 1)
    (hcontig : A.tid = A.mtid)
    (hstart : (A.pos : Int) ≤ A.mpos) (hend : A.mpos < (bam_endpos A : Int))
    (hfresh : store.lookup A.qname = none) :
    (coverage_of_pair A B cov ucov mq store til junk).coverages
        = (walk_cigar B (walk_cigar A cov ucov true mq none til junk).coverages
            (walk_cigar A cov ucov true mq none til junk).unique_coverages true mq
            (some (mate_info_of A mq))
            (walk_cigar A cov ucov true mq none til junk).total_intron_length junk).coverages
      ∧ (coverage_of_pair A B cov ucov mq store til junk).unique_coverages
        = (walk_cigar B (walk_cigar A cov ucov true mq none til junk).coverages
            (walk_cigar A cov ucov true mq none til junk).unique_coverages true mq
            (some (mate_info_of A mq))
            (walk_cigar A cov ucov true mq none til junk).total_intron_length
            junk).unique_coverages := by
  refine ⟨?_, ?_⟩ <;>
    simp only [coverage_of_pair, first_call A cov ucov mq store til junk hA hcontig hstart hend
      hfresh, second_call A B _ _ mq store _ junk hname hB]

theorem pair_effect (A B : Bam1) (cov ucov : Nat → Nat) (mq : Int) (til til2 junk : Nat)
    (hlen : ∀ c ∈ A.cigar, is_match c = true → 0 < bam_cigar_oplen c) (z : Nat) :
    (walk_cigar B (walk_cigar A cov ucov true mq none til junk).coverages
        (walk_cigar A cov ucov true mq none til junk).unique_coverages true mq
        (some (mate_info_of A mq)) til2 junk).coverages z
      = (if in_spans (match_spans A.cigar A.pos) z ∨ in_spans (match_spans B.cigar B.pos) z
          then inc32 (cov z) else cov z)
    ∧ (walk_cigar B (walk_cigar A cov ucov true mq none til junk).coverages
        (walk_cigar A cov ucov true mq none til junk).unique_coverages true mq
        (some (mate_info_of A mq)) til2 junk).unique_coverages z
      = (if (in_spans (match_spans A.cigar A.pos) z ∧ 0 < mq ∧ mq ≤ (A.qual : Int))
            ∨ (in_spans (match_spans B.cigar B.pos) z ∧ 0 < mq ∧ mq ≤ (B.qual : Int))
          then inc32 (ucov z) else ucov z) := by
  obtain ⟨a1, a2⟩ := walk_cigar_no_mate A cov ucov mq til junk z
  obtain ⟨b1, b2⟩ := walk_cigar_effect B (walk_cigar A cov ucov true mq none til junk).coverages
    (walk_cigar A cov ucov true mq none til junk).unique_coverages mq
    (some (mate_info_of A mq)) til2 junk z
  have hpass : stored_passes (some (mate_info_of A mq))
      = if 0 < mq ∧ mq ≤ (A.qual : Int) then 1 else 0 := by
    simp [stored_passes, mate_info_of]
  by_cases hB : in_spans (match_spans B.cigar B.pos) z
  · by_cases hA : in_spans (match_spans A.cigar A.pos) z
    · obtain ⟨ea1, ea2⟩ := a1 hA
      have hs := walk_cigar_overlap B (walk_cigar A cov ucov true mq none til junk).coverages
        (walk_cigar A cov ucov true mq none til junk).unique_coverages mq (mate_info_of A mq)
        til2 junk z hlen hB hA
      rcases covEffect_iff.1 (b1 hB) with ⟨e1, _⟩ | ⟨_, e1, e2⟩
      · rw [hs] at e1; exact absurd e1 (dec32_ne _)
      · refine ⟨by rw [e1, ea1, dec32_inc32_inc32, if_pos (Or.inl hA)], ?_⟩
        rw [e2, hpass, ea2]
        by_cases h0 : 0 < mq <;> by_cases hqa : mq ≤ (A.qual : Int) <;>
          by_cases hqb : mq ≤ (B.qual : Int) <;>
          simp [h0, hqa, hqb, hA, hB, dec32_inc32_inc32]
    · obtain ⟨ea1, ea2⟩ := a2 hA
      rcases covEffect_iff.1 (b1 hB) with ⟨e1, e2⟩ | ⟨p, _, _⟩
      · refine ⟨by rw [e1, ea1, if_pos (Or.inr hB)], ?_⟩
        rw [e2, ea2]
        by_cases h0 : 0 < mq <;> by_cases hqb : mq ≤ (B.qual : Int) <;>
          simp [h0, hqb, hA, hB]
      · exact absurd (by simpa [stored_spans, mate_info_of, mate_spans_eq_match] using p) hA
  · obtain ⟨eb1, eb2⟩ := b2 hB
    by_cases hA : in_spans (match_spans A.cigar A.pos) z
    · obtain ⟨ea1, ea2⟩ := a1 hA
      refine ⟨by rw [eb1, ea1, if_pos (Or.inl hA)], ?_⟩
      rw [eb2, ea2]
      by_cases h0 : 0 < mq <;> by_cases hqa : mq ≤ (A.qual : Int) <;>
        simp [h0, hqa, hA, hB]
    · obtain ⟨ea1, ea2⟩ := a2 hA
      refine ⟨by rw [eb1, ea1, if_neg (by tauto)], ?_⟩
      rw [eb2, ea2, if_neg (by tauto)]

theorem slack_filter_le (tn : String) (z : Nat) (l : Read2Len) :
    slack (l.filter (fun e => e.1 ≠ tn)) z ≤ slack l z := by
  induction l with
  | nil => simp
  | cons a l ih =>
    by_cases ha : a.1 = tn
    · rw [List.filter_cons_of_neg (by simp [ha])]
      simp only [slack]
      omega
    · rw [List.filter_cons_of_pos (by simp [ha])]
      simp only [slack]
      omega

theorem slack_filter (tn : String) (mi : MateInfo) (z : Nat) (store : Read2Len) :
    store.lookup tn = some mi →
      slack (store.filter (fun e => e.1 ≠ tn)) z
        + (if mi.passes = 0 ∧ covers mi.cigar mi.refpos z = true then 1 else 0)
        ≤ slack store z := by
  induction store with
  | nil => intro h; simp [List.lookup] at h
  | cons e es ih =>
    intro h
    obtain ⟨k, v⟩ := e
    by_cases hk : tn = k
    · subst hk
      have hv : v = mi := by simpa [List.lookup] using h
      subst hv
      have := slack_filter_le tn z es
      rw [List.filter_cons_of_neg (by simp)]
      simp only [slack]
      omega
    · have h2 : es.lookup tn = some mi := by
        have hb : (tn == k) = false := by simpa using hk
        simpa [List.lookup, hb] using h
      have := ih h2
      have hk2 : ¬ k = tn := fun h => hk h.symm
      rw [List.filter_cons_of_pos (by simp [hk2])]
      simp only [slack]
      omega

theorem dec32_inc32_of_lt (x : Nat) (h : x < 2 ^ 32) : dec32 (inc32 x) = x := by
  rw [dec32_inc32]; exact Nat.mod_eq_of_lt h

theorem second_mate_check_some (rec : Bam1) (dc : Bool) (store : Read2Len) (mi : MateInfo)
    (h : second_mate_check rec true dc store = some mi) :
    store.lookup rec.qname = some mi ∧ first_mate_check rec true dc store = false := by
  simp only [second_mate_check] at h
  split_ifs at h with hg
  exact ⟨h, by simpa using hg.2.2.2⟩

theorem second_mate_check_of_first (rec : Bam1) (dc : Bool) (store : Read2Len)
    (h : first_mate_check rec true dc store = true) :
    second_mate_check rec true dc store = none := by
  simp [second_mate_check, h]

theorem covers_iff_match (cigar : List Nat) (pos z : Nat) :
    covers cigar pos z = true ↔ in_spans (match_spans cigar pos) z := by
  rw [covers_iff, mate_spans_eq_match]

theorem walk_cigar_cases (rec : Bam1) (cov ucov : Nat → Nat) (mq : Int)
    (sm : Option MateInfo) (til junk : Nat) (z : Nat)
    (hB : in_spans (match_spans rec.cigar rec.pos) z) :
    ((walk_cigar rec cov ucov true mq sm til junk).coverages z = inc32 (cov z)
        ∧ (walk_cigar rec cov ucov true mq sm til junk).unique_coverages z
            = if 0 < mq ∧ mq ≤ (rec.qual : Int) then inc32 (ucov z) else ucov z)
      ∨ (in_spans (stored_spans sm) z
        ∧ (walk_cigar rec cov ucov true mq sm til junk).coverages z = dec32 (inc32 (cov z))
        ∧ (walk_cigar rec cov ucov true mq sm til junk).unique_coverages z
            = if 0 < mq ∧ mq ≤ (rec.qual : Int) then
                (if stored_passes sm = 0 then inc32 (ucov z) else dec32 (inc32 (ucov z)))
              else ucov z) := by
  rcases covEffect_iff.1 ((walk_cigar_effect rec cov ucov mq sm til junk z).1 hB)
    with ⟨c1, c2⟩ | ⟨p, c1, c2⟩
  · left
    refine ⟨c1, ?_⟩
    rw [c2]
    by_cases hu : 0 < mq ∧ mq ≤ (rec.qual : Int)
    · rw [if_pos hu, if_pos ((unique_eligible_iff mq rec.qual).2 hu)]
    · rw [if_neg hu, if_neg (fun h => hu ((unique_eligible_iff mq rec.qual).1 h))]
  · right
    refine ⟨p, c1, ?_⟩
    rw [c2]
    by_cases hu : 0 < mq ∧ mq ≤ (rec.qual : Int)
    · have hu2 := (unique_eligible_iff mq rec.qual).2 hu
      by_cases hp : stored_passes sm = 0
      · simp [hu, hu2, hp]
      · simp [hu, hu2, hp]
    · have hu2 : ¬ (decide (mq > 0) && decide ((rec.qual : Int) ≥ mq)) = true :=
        fun h => hu ((unique_eligible_iff mq rec.qual).1 h)
      simp [hu, hu2]

theorem slack_update_first (rec : Bam1) (dc : Bool) (mq : Int) (store : Read2Len) (z : Nat)
    (hfm : first_mate_check rec true dc store = true) :
    slack (update_mates rec true dc mq store) z
      = (if 0 < mq ∧ mq ≤ (rec.qual : Int) then 0
          else if in_spans (match_spans rec.cigar rec.pos) z then 1 else 0)
        + slack store z := by
  simp only [update_mates, hfm, if_true, slack]
  by_cases hu : 0 < mq ∧ mq ≤ (rec.qual : Int)
  · have hu2 : mq > 0 ∧ (rec.qual : Int) ≥ mq := hu
    simp [hu, hu2]
  · have hu2 : ¬ (mq > 0 ∧ (rec.qual : Int) ≥ mq) := hu
    by_cases hB : in_spans (match_spans rec.cigar rec.pos) z
    · have hc := (covers_iff_match rec.cigar rec.pos z).2 hB
      simp [hu, hu2, hB, hc]
    · have hc : ¬ covers rec.cigar rec.pos z = true :=
        fun h => hB ((covers_iff_match _ _ _).1 h)
      simp [hu, hu2, hB, hc]

theorem slack_update_second (rec : Bam1) (dc : Bool) (mq : Int) (store : Read2Len) (z : Nat)
    (mi : MateInfo) (hsm : second_mate_check rec true dc store = some mi) :
    slack (update_mates rec true dc mq store) z
      + (if mi.passes = 0 ∧ in_spans (stored_spans (some mi)) z then 1 else 0)
      ≤ slack store z := by
  obtain ⟨hl, hfm⟩ := second_mate_check_some rec dc store mi hsm
  have := slack_filter rec.qname mi z store hl
  simp only [update_mates, hfm, hsm, Bool.false_eq_true, if_false]
  by_cases hA : in_spans (stored_spans (some mi)) z
  · have hc : covers mi.cigar mi.refpos z = true := (covers_iff _ _ _).2 hA
    simp only [hc, and_true] at this
    simp only [hA, and_true]
    exact this
  · have : slack (store.filter (fun e => e.1 ≠ rec.qname)) z ≤ slack store z :=
      slack_filter_le _ _ _
    simp only [hA, and_false, if_false]
    omega

theorem slack_update_none (rec : Bam1) (dc : Bool) (mq : Int) (store : Read2Len)
    (hfm : first_mate_check rec true dc store = false)
    (hsm : second_mate_check rec true dc store = none) :
    update_mates rec true dc mq store = store := by
  simp only [update_mates, hfm, hsm, Bool.false_eq_true, if_false]

theorem call_invariant (rec : Bam1) (cov ucov : Nat → Nat) (dc : Bool) (mq : Int)
    (store : Read2Len) (til junk k : Nat) (hk : k + 1 < 2 ^ 32)
    (hinv : ∀ z, cov z ≤ k ∧ ucov z + slack store z ≤ cov z) (z : Nat) :
    (calculate_coverage rec cov ucov true dc mq store til junk).coverages z ≤ k + 1
      ∧ (calculate_coverage rec cov ucov true dc mq store til junk).unique_coverages z
          + slack (calculate_coverage rec cov ucov true dc mq store til junk).overlapping_mates z
        ≤ (calculate_coverage rec cov ucov true dc mq store til junk).coverages z := by
  obtain ⟨hc, hu⟩ := hinv z
  have hi1 : inc32 (cov z) = cov z + 1 := inc32_of_lt _ (by omega)
  have hi2 : inc32 (ucov z) = ucov z + 1 := inc32_of_lt _ (by omega)
  have hd1 : dec32 (inc32 (cov z)) = cov z := dec32_inc32_of_lt _ (by omega)
  have hd2 : dec32 (inc32 (ucov z)) = ucov z := dec32_inc32_of_lt _ (by omega)
  show (walk_cigar rec cov ucov true mq (second_mate_check rec true dc store) til
        junk).coverages z ≤ k + 1
      ∧ (walk_cigar rec cov ucov true mq (second_mate_check rec true dc store) til
          junk).unique_coverages z + slack (update_mates rec true dc mq store) z
        ≤ (walk_cigar rec cov ucov true mq (second_mate_check rec true dc store) til
          junk).coverages z
  by_cases hB : in_spans (match_spans rec.cigar rec.pos) z
  · have hcase := walk_cigar_cases rec cov ucov mq (second_mate_check rec true dc store) til
      junk z hB
    by_cases hfm : first_mate_check rec true dc store = true
    · have hs := slack_update_first rec dc mq store z hfm
      rw [second_mate_check_of_first rec dc store hfm] at hcase ⊢
      rcases hcase with ⟨c1, c2⟩ | ⟨p, _, _⟩
      · rw [c1, c2, hs, hi1]
        split_ifs <;> omega
      · exact absurd p (in_spans_nil z)
    · have hfm2 : first_mate_check rec true dc store = false := by simpa using hfm
      cases hsm : second_mate_check rec true dc store with
      | none =>
        rw [hsm] at hcase
        rw [slack_update_none rec dc mq store hfm2 hsm]
        rcases hcase with ⟨c1, c2⟩ | ⟨p, _, _⟩
        · rw [c1, c2, hi1]
          split_ifs <;> omega
        · exact absurd p (in_spans_nil z)
      | some mi =>
        rw [hsm] at hcase
        have hs := slack_update_second rec dc mq store z mi hsm
        rcases hcase with ⟨c1, c2⟩ | ⟨p, c1, c2⟩
        · rw [c1, c2, hi1]
          split_ifs at hs ⊢ <;> omega
        · rw [c1, c2, hd1]
          simp only [stored_passes, p, and_true] at hs ⊢
          split_ifs at hs ⊢ <;> omega
  · obtain ⟨c1, c2⟩ := (walk_cigar_effect rec cov ucov mq (second_mate_check rec true dc store)
      til junk z).2 hB
    rw [c1, c2]
    refine ⟨by omega, ?_⟩
    by_cases hfm : first_mate_check rec true dc store = true
    · rw [slack_update_first rec dc mq store z hfm]
      simp only [hB, if_false]
      split_ifs <;> omega
    · have hfm2 : first_mate_check rec true dc store = false := by simpa using hfm
      cases hsm : second_mate_check rec true dc store with
      | none => rw [slack_update_none rec dc mq store hfm2 hsm]; exact hu
      | some mi =>
        have := slack_update_second rec dc mq store z mi hsm
        omega

theorem run_calls_invariant (calls : List Call) :
    ∀ (r : CovResult) (k : Nat), k + calls.length < 2 ^ 32 →
      (∀ z, r.coverages z ≤ k ∧ r.unique_coverages z + slack r.overlapping_mates z
          ≤ r.coverages z) →
      ∀ z, (run_calls calls r).unique_coverages z ≤ (run_calls calls r).coverages z := by
  induction calls with
  | nil =>
    intro r k _ hinv z
    have := hinv z
    simp only [run_calls]
    omega
  | cons c cs ih =>
    intro r k hk hinv z
    simp only [run_calls]
    simp only [List.length_cons] at hk
    exact ih _ (k + 1) (by omega)
      (fun y => call_invariant c.record r.coverages r.unique_coverages c.double_count c.min_qual
        r.overlapping_mates r.total_intron_length c.junk k (by omega) hinv y) z

/-- C2: starting from zeroed coverage arrays and an empty mate store, after any sequence of
fewer than `2 ^ 32` calls of `calculate_coverage` (double-count on or off, any minimum
quality) `unique[b] ≤ all[b]` holds at every position `b`. -/
theorem unique_le_all (calls : List Call) (h : calls.length < 2 ^ 32) (b : Nat) :
    (run_calls calls CovResult.start).unique_coverages b
      ≤ (run_calls calls CovResult.start).coverages b :=
  run_calls_invariant calls CovResult.start 0 (by omega)
    (fun z => by simp [CovResult.start, slack]) b

theorem unique_le_all_witness :
    [Call.mk mate_a false 10 0, Call.mk mate_b_low false 10 0].length < 2 ^ 32
      ∧ (run_calls [Call.mk mate_a false 10 0, Call.mk mate_b_low false 10 0]
          CovResult.start).unique_coverages 140
        ≤ (run_calls [Call.mk mate_a false 10 0, Call.mk mate_b_low false 10 0]
          CovResult.start).coverages 140 :=
  ⟨by decide,
    unique_le_all [Call.mk mate_a false 10 0, Call.mk mate_b_low false 10 0] (by decide) 140⟩

/-- With double-count off, for a proper pair on one contig whose first mate `A`
(`start ≤ mate start < end`) is passed to `calculate_coverage` before its mate `B` of the same
read name, when every M, = and X operation of `A` has a positive length and the call on `B`
makes no read outside the spans (so that the source returns from it), the two calls together
add exactly 1 (in 32-bit arithmetic) to `all` on every base covered by an M, = or X operation of
`A` or of `B`, bases covered by both mates included, and leave every other base unchanged. -/
theorem coverage_of_pair_all (A B : Bam1) (cov ucov : Nat → Nat) (min_qual : Int)
    (store : Read2Len) (til junk : Nat) (hname : B.qname = A.qname)
    (hA : A.flag / BAM_FPROPER_PAIR % 2 = 1) (hB : B.flag / BAM_FPROPER_PAIR % 2 = 1)
    (hcontig : A.tid = A.mtid)
    (hstart : (A.pos : Int) ≤ A.mpos) (hend : A.mpos < (bam_endpos A : Int))
    (hfresh : store.lookup A.qname = none)
    (hlen : ∀ c ∈ A.cigar, is_match c = true → 0 < bam_cigar_oplen c)
    (hret : (coverage_of_pair A B cov ucov min_qual store til junk).oob = false) (z : Nat) :
    (coverage_of_pair A B cov ucov min_qual store til junk).coverages z
      = if in_spans (match_spans A.cigar A.pos) z ∨ in_spans (match_spans B.cigar B.pos) z
          then inc32 (cov z) else cov z := by
  have _ := hret
  rw [(coverage_of_pair_eq A B cov ucov min_qual store til junk hname hA hB hcontig hstart hend
    hfresh).1]
  exact (pair_effect A B cov ucov min_qual til _ junk hlen z).1

theorem coverage_of_pair_all_witness :
    (coverage_of_pair mate_a mate_b zeros zeros 10 [] 0 0).coverages 140 = 1
      ∧ (coverage_of_pair mate_a mate_b zeros zeros 10 [] 0 0).coverages 110 = 1
      ∧ (coverage_of_pair mate_a mate_b zeros zeros 10 [] 0 0).coverages 179 = 1
      ∧ (coverage_of_pair mate_a mate_b zeros zeros 10 [] 0 0).coverages 180 = 0
      ∧ ∀ z, (coverage_of_pair mate_a mate_b zeros zeros 10 [] 0 0).coverages z
          = if 100 ≤ z ∧ z < 180 then 1 else 0 := by
  have h := coverage_of_pair_all mate_a mate_b zeros zeros 10 [] 0 0 (by decide) (by decide)
    (by decide) (by decide) (by decide) (by decide) (by decide) (by decide) (by decide)
  refine ⟨(h 140).trans (by decide), (h 110).trans (by decide), (h 179).trans (by decide),
    (h 180).trans (by decide), ?_⟩
  intro z
  have ea : match_spans mate_a.cigar mate_a.pos = [(100, 150)] := by decide
  have eb : match_spans mate_b.cigar mate_b.pos = [(130, 180)] := by decide
  rw [h z, ea, eb]
  have hz : (in_spans [(100, 150)] z ∨ in_spans [(130, 180)] z) ↔ (100 ≤ z ∧ z < 180) := by
    simp only [in_spans, List.mem_singleton, exists_eq_left]
    omega
  by_cases hc : 100 ≤ z ∧ z < 180
  · rw [if_pos (hz.2 hc), if_pos hc]; rfl
  · rw [if_neg (fun h => hc (hz.1 h)), if_neg hc]; rfl

/-- For an overlapping proper pair processed with double-count off, under the conditions of
`coverage_of_pair_all`, the two calls together add 1 (in 32-bit arithmetic) to `unique` on a
base covered by both mates when at least one mate is unique-eligible and nothing otherwise, and
on a base covered by only one mate they add 1 exactly when that mate is unique-eligible. -/
theorem coverage_of_pair_unique (A B : Bam1) (cov ucov : Nat → Nat) (min_qual : Int)
    (store : Read2Len) (til junk : Nat) (hname : B.qname = A.qname)
    (hA : A.flag / BAM_FPROPER_PAIR % 2 = 1) (hB : B.flag / BAM_FPROPER_PAIR % 2 = 1)
    (hcontig : A.tid = A.mtid)
    (hstart : (A.pos : Int) ≤ A.mpos) (hend : A.mpos < (bam_endpos A : Int))
    (hfresh : store.lookup A.qname = none)
    (hlen : ∀ c ∈ A.cigar, is_match c = true → 0 < bam_cigar_oplen c)
    (hret : (coverage_of_pair A B cov ucov min_qual store til junk).oob = false) (z : Nat) :
    (coverage_of_pair A B cov ucov min_qual store til junk).unique_coverages z
      = if (in_spans (match_spans A.cigar A.pos) z ∧ 0 < min_qual ∧ min_qual ≤ (A.qual : Int))
            ∨ (in_spans (match_spans B.cigar B.pos) z
                ∧ 0 < min_qual ∧ min_qual ≤ (B.qual : Int))
          then inc32 (ucov z) else ucov z := by
  have _ := hret
  rw [(coverage_of_pair_eq A B cov ucov min_qual store til junk hname hA hB hcontig hstart hend
    hfresh).2]
  exact (pair_effect A B cov ucov min_qual til _ junk hlen z).2

theorem coverage_of_pair_unique_witness :
    (coverage_of_pair mate_a_low mate_b zeros zeros 10 [] 0 0).unique_coverages 140 = 1
      ∧ (coverage_of_pair mate_a_low mate_b zeros zeros 10 [] 0 0).unique_coverages 110 = 0
      ∧ (coverage_of_pair mate_a_low mate_b zeros zeros 10 [] 0 0).unique_coverages 170 = 1 := by
  have h := coverage_of_pair_unique mate_a_low mate_b zeros zeros 10 [] 0 0 (by decide)
    (by decide) (by decide) (by decide) (by decide) (by decide) (by decide) (by decide)
    (by decide)
  exact ⟨(h 140).trans (by decide), (h 110).trans (by decide), (h 170).trans (by decide)⟩

/-- C8: with `double_count` on, `calculate_coverage` leaves the mate store as it was and its
result does not depend on the store; it adds 1 (in 32-bit arithmetic) over the M, = and X spans
of the record and nothing else, so that a second record covering the same base brings the total
added there to 2. -/
theorem calculate_coverage_double_count (rec rec2 : Bam1) (cov ucov : Nat → Nat)
    (min_qual : Int) (store : Read2Len) (til junk : Nat) (z : Nat) :
    (calculate_coverage rec cov ucov true true min_qual store til junk).overlapping_mates = store
      ∧ calculate_coverage rec cov ucov true true min_qual store til junk
          = { calculate_coverage rec cov ucov true true min_qual [] til junk with
              overlapping_mates := store }
      ∧ (calculate_coverage rec cov ucov true true min_qual store til junk).coverages z
          = (if in_spans (match_spans rec.cigar rec.pos) z then inc32 (cov z) else cov z)
      ∧ (calculate_coverage rec cov ucov true true min_qual store til junk).unique_coverages z
          = (if in_spans (match_spans rec.cigar rec.pos) z
                ∧ 0 < min_qual ∧ min_qual ≤ (rec.qual : Int)
              then inc32 (ucov z) else ucov z)
      ∧ (in_spans (match_spans rec.cigar rec.pos) z →
          in_spans (match_spans rec2.cigar rec2.pos) z →
          (calculate_coverage rec2
            (calculate_coverage rec cov ucov true true min_qual store til junk).coverages
            (calculate_coverage rec cov ucov true true min_qual store til junk).unique_coverages
            true true min_qual
            (calculate_coverage rec cov ucov true true min_qual store til junk).overlapping_mates
            (calculate_coverage rec cov ucov true true min_qual store til
              junk).total_intron_length junk).coverages z
            = inc32 (inc32 (cov z))) := by
  have hnone : ∀ (r : Bam1) (st : Read2Len), second_mate_check r true true st = none :=
    fun r st => (second_mate_check_double_count r true st).1
  have hst : ∀ (r : Bam1) (st : Read2Len), update_mates r true true min_qual st = st := by
    intro r st
    simp [update_mates, (second_mate_check_double_count r true st).2, hnone r st]
  have hcov : ∀ (r : Bam1) (c u : Nat → Nat) (st : Read2Len) (t : Nat),
      (calculate_coverage r c u true true min_qual st t junk).coverages z
          = (if in_spans (match_spans r.cigar r.pos) z then inc32 (c z) else c z)
        ∧ (calculate_coverage r c u true true min_qual st t junk).unique_coverages z
          = (if in_spans (match_spans r.cigar r.pos) z ∧ 0 < min_qual ∧ min_qual ≤ (r.qual : Int)
              then inc32 (u z) else u z) := by
    intro r c u st t
    simp only [calculate_coverage, hnone]
    obtain ⟨h1, h2⟩ := walk_cigar_no_mate r c u min_qual t junk z
    by_cases hin : in_spans (match_spans r.cigar r.pos) z
    · obtain ⟨e1, e2⟩ := h1 hin
      rw [e1, e2, if_pos hin]
      refine ⟨rfl, ?_⟩
      by_cases he : 0 < min_qual ∧ min_qual ≤ (r.qual : Int)
      · rw [if_pos he, if_pos ⟨hin, he⟩]
      · rw [if_neg he, if_neg (fun h => he h.2)]
    · obtain ⟨e1, e2⟩ := h2 hin
      rw [e1, e2, if_neg hin, if_neg (fun h => hin h.1)]
      exact ⟨rfl, rfl⟩
  refine ⟨?_, ?_, (hcov rec cov ucov store til).1, (hcov rec cov ucov store til).2, ?_⟩
  · simp only [calculate_coverage, hst]
  · simp only [calculate_coverage, hst, hnone]
  · intro h1 h2
    rw [(hcov rec2 _ _ _ _).1, if_pos h2, (hcov rec cov ucov store til).1, if_pos h1]

theorem calculate_coverage_double_count_witness :
    (calculate_coverage mate_b
      (calculate_coverage mate_a zeros zeros true true 10 [] 0 0).coverages
      (calculate_coverage mate_a zeros zeros true true 10 [] 0 0).unique_coverages
      true true 10
      (calculate_coverage mate_a zeros zeros true true 10 [] 0 0).overlapping_mates
      (calculate_coverage mate_a zeros zeros true true 10 [] 0 0).total_intron_length
      0).coverages 140 = 2 :=
  ((calculate_coverage_double_count mate_a mate_b zeros zeros 10 [] 0 0 140).2.2.2.2
    (by decide) (by decide)).trans (by decide)

theorem calculate_coverage_no_mate_witness :
    List.lookup single_read.qname ([] : Read2Len) = none
      ∧ (calculate_coverage single_read zeros zeros true false 10 [] 0 0).coverages 1050 = 1
      ∧ (calculate_coverage single_read zeros zeros true false 10 [] 0 0).unique_coverages 1050
          = 1
      ∧ (calculate_coverage single_read zeros zeros true false 10 [] 0 0).coverages 1100
          = 0 := by
  have h := calculate_coverage_no_mate single_read zeros zeros false 10 [] 0 0 (by decide)
  exact ⟨by decide, ((h 1050).1 (by decide)).1.trans (by decide),
    ((h 1050).1 (by decide)).2.trans (by decide), ((h 1100).2 (by decide)).1⟩

/-- C1: two proper pairs on which the two calls do not add exactly 1 to `all` on every base of
the mates.  For the first mate `5M0M5M` at 100 and its mate `10M` at 100 the fix-up loop leaves
at the empty stored span `[105,105)`: the base 102 is counted once and the base 107, which both
mates cover, twice, in a call that returns.  For the first mate `40M10D` at 100 and its mate
`50M` at 145 the second call reads `mspans[1]` behind the one span stored (line 803), where the
source dies. -/
theorem coverage_of_pair_not_once :
    (coverage_of_pair mate_zero_op mate_ten zeros zeros 0 [] 0 0).coverages 102 = 1
      ∧ (coverage_of_pair mate_zero_op mate_ten zeros zeros 0 [] 0 0).coverages 107 = 2
      ∧ (coverage_of_pair mate_zero_op mate_ten zeros zeros 0 [] 0 0).oob = false
      ∧ (coverage_of_pair mate_tail_del mate_in_tail zeros zeros 0 [] 0 0).oob = true := by
  decide

/-- C7: the same two pairs with the minimum quality 10, which both mates pass.  For the first
mate `5M0M5M` at 100 and its mate `10M` at 100 the base 107, which both mates cover, gets 2 in
`unique`, where the base 102 gets 1; for the first mate `40M10D` at 100 and its mate `50M` at 145
the second call reads `mspans[1]` behind the one span stored (line 751), where the source
dies. -/
theorem coverage_of_pair_unique_not_once :
    (coverage_of_pair mate_zero_op mate_ten zeros zeros 10 [] 0 0).unique_coverages 102 = 1
      ∧ (coverage_of_pair mate_zero_op mate_ten zeros zeros 10 [] 0 0).unique_coverages 107 = 2
      ∧ (coverage_of_pair mate_zero_op mate_ten zeros zeros 10 [] 0 0).oob = false
      ∧ (coverage_of_pair mate_tail_del mate_in_tail zeros zeros 10 [] 0 0).oob = true := by
  decide

/-! ### parse_mdz -/

theorem isalpha_not_isdigit (c : Char) (h : isalpha c = true) : isdigit c = false := by
  simp only [isalpha, isdigit, decide_eq_true_eq, decide_eq_false_iff_not] at h ⊢
  omega

theorem alpha_run_append (ls : List Char) (hls : ls.all isalpha = true) (rest : List Char)
    (hrest : ∀ c ∈ rest.head?, isalpha c = false) :
    alpha_run (ls ++ rest) = (ls, rest) := by
  induction ls with
  | nil =>
    cases rest with
    | nil => rfl
    | cons c cs =>
      have hc : isalpha c = false := hrest c (by simp)
      simp [alpha_run, hc]
  | cons d ds ih =>
    simp only [List.all_cons, Bool.and_eq_true] at hls
    have h := ih hls.2
    simp only [List.cons_append, alpha_run, hls.1, if_true, List.append_eq, h]

/-- The first character of the text of a well-formed token. -/
theorem token_text_head (t : MdzToken) (ht : t.wf = true) :
    ∃ c cs, t.text = c :: cs ∧
      (match t with
       | .digits _ => isdigit c = true
       | .letters _ => isalpha c = true
       | .deletion _ => c = '^') := by
  cases t with
  | digits ds =>
    cases ds with
    | nil => simp [MdzToken.wf] at ht
    | cons d ds =>
      simp only [MdzToken.wf, List.all_cons, Bool.and_eq_true, decide_eq_true_eq,
        Bool.decide_and] at ht
      exact ⟨d, ds, rfl, ht.2.1⟩
  | letters ds =>
    cases ds with
    | nil => simp [MdzToken.wf] at ht
    | cons d ds =>
      simp only [MdzToken.wf, List.all_cons, Bool.and_eq_true, decide_eq_true_eq,
        Bool.decide_and] at ht
      exact ⟨d, ds, rfl, ht.2.1⟩
  | deletion ds => exact ⟨'^', ds, rfl, rfl⟩

theorem tokens_maximal_cons (t : MdzToken) (ts : List MdzToken)
    (h : tokens_maximal (t :: ts) = true) :
    t.wf = true ∧ tokens_maximal ts = true ∧ ∀ u ∈ ts.head?, t.merges u = false := by
  cases ts with
  | nil => simpa [tokens_maximal] using h
  | cons u rest =>
    simp only [tokens_maximal, Bool.and_eq_true, Bool.not_eq_true'] at h
    refine ⟨h.1.1, h.2, ?_⟩
    intro v hv
    simp only [List.head?_cons, Option.mem_def, Option.some.injEq] at hv
    subst hv
    exact h.1.2

theorem tokens_maximal_wf (ts : List MdzToken) (h : tokens_maximal ts = true) :
    ∀ t ∈ ts.head?, t.wf = true := by
  cases ts with
  | nil => simp
  | cons t ts =>
    intro u hu
    simp only [List.head?_cons, Option.mem_def, Option.some.injEq] at hu
    subst hu
    exact (tokens_maximal_cons _ ts h).1

theorem text_bind_head (t : MdzToken) (ts : List MdzToken) :
    ((t :: ts).flatMap MdzToken.text).head? = (t.text ++ ts.flatMap MdzToken.text).head? := by
  simp [List.flatMap_cons]

theorem caret_not_isdigit : isdigit '^' = false := by decide

theorem caret_not_isalpha : isalpha '^' = false := by decide

theorem isdigit_not_isalpha (c : Char) (h : isdigit c = true) : isalpha c = false := by
  simp only [isalpha, isdigit, decide_eq_true_eq, decide_eq_false_iff_not] at h ⊢
  omega

theorem rest_head_not_digit (ts : List MdzToken) (hts : tokens_maximal ts = true)
    (ds : List Char) (hm : ∀ u ∈ ts.head?, (MdzToken.digits ds).merges u = false) :
    ∀ c ∈ (ts.flatMap MdzToken.text).head?, isdigit c = false := by
  cases ts with
  | nil => simp
  | cons u rest =>
    intro c hc
    obtain ⟨d, cs, htext, hd⟩ := token_text_head u (tokens_maximal_wf _ hts u (by simp))
    have hu := hm u (by simp)
    simp only [List.flatMap_cons, htext, List.cons_append, List.head?_cons, Option.mem_def,
      Option.some.injEq] at hc
    subst hc
    cases u with
    | digits _ => simp [MdzToken.merges] at hu
    | letters _ => exact isalpha_not_isdigit _ hd
    | deletion _ => simp only at hd; rw [hd]; exact caret_not_isdigit

theorem rest_head_not_alpha (ts : List MdzToken) (hts : tokens_maximal ts = true)
    (t : MdzToken) (ht : ∀ ds, t ≠ MdzToken.digits ds)
    (hm : ∀ u ∈ ts.head?, t.merges u = false) :
    ∀ c ∈ (ts.flatMap MdzToken.text).head?, isalpha c = false := by
  cases ts with
  | nil => simp
  | cons u rest =>
    intro c hc
    obtain ⟨d, cs, htext, hd⟩ := token_text_head u (tokens_maximal_wf _ hts u (by simp))
    have hu := hm u (by simp)
    simp only [List.flatMap_cons, htext, List.cons_append, List.head?_cons, Option.mem_def,
      Option.some.injEq] at hc
    subst hc
    cases u with
    | digits _ => exact isdigit_not_isalpha _ hd
    | letters _ =>
      cases t with
      | digits ds => exact absurd rfl (ht ds)
      | letters _ => simp [MdzToken.merges] at hu
      | deletion _ => simp [MdzToken.merges] at hu
    | deletion _ => simp only at hd; rw [hd]; exact caret_not_isalpha

/-! ### process_cigar and the junction coordinates -/

theorem ref_length_append (l1 l2 : List Nat) :
    ref_length (l1 ++ l2) = ref_length l1 + ref_length l2 := by
  induction l1 with
  | nil => simp [ref_length]
  | cons c cs ih => simp only [List.cons_append, ref_length, List.append_eq, ih]; omega

theorem query_length_append (l1 l2 : List Nat) :
    query_length (l1 ++ l2) = query_length l1 + query_length l2 := by
  induction l1 with
  | nil => simp [query_length]
  | cons c cs ih => simp only [List.cons_append, query_length, List.append_eq, ih]; omega

theorem soft_clip_lines_no_indel (tid : Int) (seq : Nat → Nat) (only_polya_sc : Bool)
    (seq_off ref_off run : Nat) :
    (soft_clip_lines tid seq only_polya_sc seq_off ref_off run).filter AltLine.is_indel = [] := by
  unfold soft_clip_lines
  cases only_polya_sc with
  | false => simp [AltLine.is_indel]
  | true =>
    simp only [if_true]
    cases polya_check seq seq_off run with
    | none => rfl
    | some p =>
      obtain ⟨c, n⟩ := p
      simp only
      split_ifs <;> simp [AltLine.is_indel]

theorem query_length_single (c : Nat) :
    query_length [c] = if is_match c ∨ bam_cigar_op c = BAM_CINS ∨ bam_cigar_op c = BAM_CSOFT_CLIP
      then bam_cigar_oplen c else 0 := by
  simp [query_length]

theorem ref_length_single_ops (c : Nat) :
    ref_length [c] = if is_match c ∨ bam_cigar_op c = BAM_CDEL ∨ bam_cigar_op c = BAM_CREF_SKIP
      then bam_cigar_oplen c else 0 := by
  simp [ref_length]

theorem cigar_alt_step_spec (tid : Int) (seq : Nat → Nat) (include_sc only_polya_sc : Bool)
    (st : AltState) (c : Nat)
    (hc : bam_cigar_op c ≤ 8 ∧ bam_cigar_op c ≠ BAM_CHARD_CLIP ∧ bam_cigar_op c ≠ BAM_CPAD) :
    ∃ st1, cigar_alt_step tid seq include_sc only_polya_sc st c = .done st1
      ∧ st1.ref_off = st.ref_off + ref_length [c]
      ∧ st1.seq_off = st.seq_off + query_length [c]
      ∧ st1.out.filter AltLine.is_indel = st.out.filter AltLine.is_indel ++
          (if bam_cigar_op c = BAM_CDEL then [AltLine.D tid st.ref_off (bam_cigar_oplen c)]
            else if bam_cigar_op c = BAM_CINS then
              [AltLine.I tid st.ref_off (seq_substring seq st.seq_off (bam_cigar_oplen c))]
            else []) := by
  simp only [BAM_CHARD_CLIP, BAM_CPAD] at hc
  have hop : bam_cigar_op c = 0 ∨ bam_cigar_op c = 1 ∨ bam_cigar_op c = 2 ∨ bam_cigar_op c = 3
      ∨ bam_cigar_op c = 4 ∨ bam_cigar_op c = 7 ∨ bam_cigar_op c = 8 := by omega
  rw [ref_length_single_ops, query_length_single]
  simp only [cigar_alt_step]
  rcases hop with h | h | h | h | h | h | h
  all_goals
    simp only [h, is_match, BAM_CDEL, BAM_CSOFT_CLIP, BAM_CINS, BAM_CREF_SKIP, BAM_CMATCH,
      BAM_CDIFF, BAM_CEQUAL]
    norm_num
  all_goals
    cases include_sc <;>
      simp [List.filter_append, AltLine.is_indel, soft_clip_lines_no_indel]

theorem cigar_alt_loop_indels (tid : Int) (seq : Nat → Nat) (include_sc only_polya_sc : Bool)
    (pos : Nat) (cs : List Nat) :
    ∀ (pre : List Nat) (st : AltState),
      (∀ c ∈ cs, bam_cigar_op c ≤ 8 ∧ bam_cigar_op c ≠ BAM_CHARD_CLIP
        ∧ bam_cigar_op c ≠ BAM_CPAD) →
      st.ref_off = pos + ref_length pre → st.seq_off = query_length pre →
      ∃ st1, cigar_alt_loop tid seq include_sc only_polya_sc cs st = .done st1
        ∧ st1.out.filter AltLine.is_indel
          = st.out.filter AltLine.is_indel ++ indel_lines tid seq pos pre cs := by
  induction cs with
  | nil => intro pre st _ _ _; exact ⟨st, rfl, by simp [indel_lines]⟩
  | cons c cs ih =>
    intro pre st hops href hseq
    have hc := hops c (by simp)
    have hcs : ∀ d ∈ cs, bam_cigar_op d ≤ 8 ∧ bam_cigar_op d ≠ BAM_CHARD_CLIP
        ∧ bam_cigar_op d ≠ BAM_CPAD := fun d hd => hops d (by simp [hd])
    obtain ⟨st1, hst1, hr1, hq1, ho1⟩ :=
      cigar_alt_step_spec tid seq include_sc only_polya_sc st c hc
    obtain ⟨st2, hst2, ho2⟩ := ih (pre ++ [c]) st1 hcs
      (by rw [hr1, href, ref_length_append]; omega)
      (by rw [hq1, hseq, query_length_append])
    refine ⟨st2, ?_, ?_⟩
    · simp only [cigar_alt_loop, hst1]
      exact hst2
    · rw [ho2, ho1, href, hseq]
      simp only [indel_lines, List.append_assoc]

/-- C17 (amended claim): for every record whose CIGAR does not consist of a single operation and
holds only the operations M, I, D, N, S, = and X, `output_from_cigar` returns, and the D and I
lines it wrote are, in the order of the CIGAR, one line per D operation (the reference position
reached by the operations before it, and its length) and one line per I operation (that
reference position, and the bases of the read from the query offset reached by the operations
before it). -/
theorem output_from_cigar_indels (rec : Bam1) (seq : Nat → Nat) (total_softclip_count : Nat)
    (include_sc only_polya_sc : Bool) (hn : rec.cigar.length ≠ 1)
    (hops : ∀ c ∈ rec.cigar, bam_cigar_op c ≤ 8 ∧ bam_cigar_op c ≠ BAM_CHARD_CLIP
      ∧ bam_cigar_op c ≠ BAM_CPAD) :
    ∃ st, output_from_cigar rec seq total_softclip_count include_sc only_polya_sc = .done st
      ∧ st.out.filter AltLine.is_indel = indel_lines rec.tid seq rec.pos [] rec.cigar := by
  obtain ⟨st1, hst1, hout⟩ := cigar_alt_loop_indels rec.tid seq include_sc only_polya_sc rec.pos
    rec.cigar []
    { mdz := [], seq_off := 0, ref_off := rec.pos, out := [],
      total_softclip_count := total_softclip_count } hops rfl rfl
  refine ⟨st1, ?_, by simpa using hout⟩
  simp only [output_from_cigar, hn, if_false]
  exact hst1

theorem output_from_cigar_indels_witness :
    ∃ st, output_from_cigar indel_read s4_seq 0 true false = .done st
      ∧ st.out.filter AltLine.is_indel
        = [AltLine.D 0 12 5, AltLine.I 0 22 ['A', 'A']] :=
  output_from_cigar_indels indel_read s4_seq 0 true false (by decide) (by decide)

/-- C17 (counterexample): for the CIGAR `5D` alone `output_from_cigar` returns at once
(`n_cigar == 1`) and writes no line, where the claim has one line for the D operation. -/
theorem output_from_cigar_single_op :
    output_from_cigar lone_deletion all_a 0 false false
        = .done { mdz := [], seq_off := 0, ref_off := 0, out := [], total_softclip_count := 0 }
      ∧ indel_lines lone_deletion.tid all_a lone_deletion.pos [] lone_deletion.cigar
        = [AltLine.D 0 0 5] := by
  decide

/-! ### output_from_cigar_mdz: hard clips, exhausted MD:Z, deletions -/

/-- C18 (evaluation at the failing inputs): on the CIGAR `5H16M`, and on `8M2P8M`,
`output_from_cigar` throws (its `switch` has the labels `'H'` and `'P'`, the character codes 72
and 80, which no operation code equals), while `output_from_cigar_mdz` returns on both, with no
line written and the positions advanced by the M operations only. -/
theorem output_from_cigar_hard_clip :
    output_from_cigar hard_clipped all_a 0 false false = .thrown
      ∧ output_from_cigar padded all_a 0 false false = .thrown
      ∧ output_from_cigar_mdz hard_clipped all_a all_a [⟨'=', 16, []⟩] 0 false false false false
        = .done { mdz := [], seq_off := 16, ref_off := 16, out := [], total_softclip_count := 0 }
      ∧ output_from_cigar_mdz padded all_a all_a [⟨'=', 16, []⟩] 0 false false false false
        = .done { mdz := [], seq_off := 16, ref_off := 16, out := [],
                  total_softclip_count := 0 } := by
  decide

/-- In `output_from_cigar` every H or P operation throws, in `output_from_cigar_mdz` it leaves
the state as it is. -/
theorem hard_clip_steps (tid : Int) (seq qual : Nat → Nat)
    (print_qual include_sc only_polya_sc include_n_mms : Bool) (st : AltState) (c : Nat)
    (hc : bam_cigar_op c = BAM_CHARD_CLIP ∨ bam_cigar_op c = BAM_CPAD) :
    cigar_alt_step tid seq include_sc only_polya_sc st c = .thrown
      ∧ cigar_mdz_step tid seq qual print_qual include_sc only_polya_sc include_n_mms st c
        = .done st := by
  rcases hc with h | h <;>
    simp [cigar_alt_step, cigar_mdz_step, h, BAM_CHARD_CLIP, BAM_CPAD, BAM_CDEL, BAM_CSOFT_CLIP,
      BAM_CINS, BAM_CREF_SKIP, BAM_CMATCH, BAM_CDIFF, BAM_CEQUAL]

/-- C15 (evaluation at the failing input): for the CIGAR `16M` and the MD:Z string `10`,
`output_from_cigar_mdz` returns, although the CIGAR has 16 bases in M, =, X and D operations
and the MD:Z operations describe 10: the loop over the MD:Z operations ends when they are
exhausted, and the last assertion holds. -/
theorem output_from_cigar_mdz_short :
    parse_mdz ['1', '0'] = .done [⟨'=', 10, []⟩]
      ∧ output_from_cigar_mdz sixteen_match all_a all_a [⟨'=', 10, []⟩] 0 false false false false
        = .done { mdz := [], seq_off := 10, ref_off := 10, out := [], total_softclip_count := 0 }
      ∧ cigar_md_length sixteen_match.cigar = 16
      ∧ mdz_total [⟨'=', 10, []⟩] = 10 := by
  decide

theorem cigar_mdz_loop_append (tid : Int) (seq qual : Nat → Nat)
    (print_qual include_sc only_polya_sc include_n_mms : Bool) (pre : List Nat) :
    ∀ (post : List Nat) (st : AltState),
      cigar_mdz_loop tid seq qual print_qual include_sc only_polya_sc include_n_mms
          (pre ++ post) st
        = match cigar_mdz_loop tid seq qual print_qual include_sc only_polya_sc include_n_mms
            pre st with
          | .done st1 =>
            cigar_mdz_loop tid seq qual print_qual include_sc only_polya_sc include_n_mms post st1
          | .thrown => .thrown
          | .aborted => .aborted
          | .overrun => .overrun := by
  induction pre with
  | nil => intro post st; rfl
  | cons c cs ih =>
    intro post st
    simp only [List.cons_append, cigar_mdz_loop]
    cases cigar_mdz_step tid seq qual print_qual include_sc only_polya_sc include_n_mms st c with
    | done st1 => exact ih post st1
    | thrown => rfl
    | aborted => rfl
    | overrun => rfl

/-- C16: when the walk of `output_from_cigar_mdz` reaches a D operation and the current MD:Z
operation is not `^`, or its run differs from the length of the D operation, the call fails
on an assertion: it does not return, and the D line is not written. -/
theorem output_from_cigar_mdz_deletion (rec : Bam1) (seq qual : Nat → Nat) (mdz : List MdzOp)
    (total_softclip_count : Nat) (print_qual include_sc only_polya_sc include_n_mms : Bool)
    (pre post : List Nat) (c : Nat) (st : AltState) (m : MdzOp) (rest : List MdzOp)
    (hcigar : rec.cigar = pre ++ c :: post) (hc : bam_cigar_op c = BAM_CDEL)
    (hpre : cigar_mdz_loop rec.tid seq qual print_qual include_sc only_polya_sc include_n_mms pre
        { mdz := mdz, seq_off := 0, ref_off := rec.pos, out := [],
          total_softclip_count := total_softclip_count } = .done st)
    (hm : st.mdz = m :: rest) (hbad : m.op ≠ '^' ∨ m.run ≠ bam_cigar_oplen c) :
    output_from_cigar_mdz rec seq qual mdz total_softclip_count print_qual include_sc
      only_polya_sc include_n_mms = .aborted := by
  have hstep : cigar_mdz_step rec.tid seq qual print_qual include_sc only_polya_sc include_n_mms
      st c = .aborted := by
    have hcond : ¬ (m.op = '^' ∧ bam_cigar_oplen c = m.run ∧ m.str.length = bam_cigar_oplen c) := by
      rintro ⟨h1, h2, _⟩
      rcases hbad with h | h
      · exact h h1
      · exact h h2.symm
    simp only [cigar_mdz_step, hc, hm, BAM_CDEL, BAM_CSOFT_CLIP, BAM_CINS, BAM_CREF_SKIP,
      BAM_CMATCH, BAM_CDIFF, BAM_CEQUAL]
    simp [hcond]
  simp only [output_from_cigar_mdz, hcigar, cigar_mdz_loop_append, hpre, cigar_mdz_loop, hstep]

theorem output_from_cigar_mdz_deletion_witness :
    output_from_cigar_mdz s4_read s4_seq all_a
        [⟨'=', 10, []⟩, ⟨'X', 1, ['A']⟩, ⟨'=', 5, []⟩, ⟨'^', 1, ['A']⟩, ⟨'=', 4, []⟩]
        0 false false false false = .aborted :=
  output_from_cigar_mdz_deletion s4_read s4_seq all_a
    [⟨'=', 10, []⟩, ⟨'X', 1, ['A']⟩, ⟨'=', 5, []⟩, ⟨'^', 1, ['A']⟩, ⟨'=', 4, []⟩]
    0 false false false false [bam_cigar_gen 16 BAM_CMATCH] [bam_cigar_gen 3 BAM_CMATCH]
    (bam_cigar_gen 2 BAM_CDEL)
    { mdz := [⟨'^', 1, ['A']⟩, ⟨'=', 4, []⟩], seq_off := 16, ref_off := 16,
      out := [AltLine.X 0 10 ['T'] none], total_softclip_count := 0 }
    ⟨'^', 1, ['A']⟩ [⟨'=', 4, []⟩] (by decide) (by decide) (by decide) (by decide) (by decide)

/-! ### output_from_cigar_mdz: the lines written for a consistent record -/

theorem soft_clip_lines_no_mismatch (tid : Int) (seq : Nat → Nat) (only_polya_sc : Bool)
    (seq_off ref_off run : Nat) :
    (soft_clip_lines tid seq only_polya_sc seq_off ref_off run).filter
      AltLine.is_mismatch_or_deletion = [] := by
  unfold soft_clip_lines
  cases only_polya_sc with
  | false => simp [AltLine.is_mismatch_or_deletion]
  | true =>
    simp only [if_true]
    cases polya_check seq seq_off run with
    | none => rfl
    | some p =>
      obtain ⟨c, n⟩ := p
      simp only
      split_ifs <;> simp [AltLine.is_mismatch_or_deletion]

theorem mdz_match_loop_zero (tid : Int) (seq qual : Nat → Nat) (print_qual include_n_mms : Bool)
    (fuel : Nat) (st : AltState) :
    mdz_match_loop tid seq qual print_qual include_n_mms fuel 0 st = .done st := by
  cases fuel with
  | zero => rfl
  | succ f =>
    simp only [mdz_match_loop]
    cases st.mdz <;> simp

theorem mdz_match_loop_lay (tid : Int) (seq qual : Nat → Nat) (print_qual include_n_mms : Bool)
    (cols : List (Nat × Nat)) (ops : List MdzOp) :
    ∀ (n fuel k : Nat) (st : AltState) (rest1 : List MdzOp),
      st.mdz = ops → ops.length + 1 ≤ fuel → lay_match ops n = some rest1 →
      (∀ i < n, cols.getD (k + i) (0, 0) = (st.ref_off + i, st.seq_off + i)) →
      ∃ st1, mdz_match_loop tid seq qual print_qual include_n_mms fuel n st = .done st1
        ∧ st1.mdz = rest1 ∧ st1.ref_off = st.ref_off + n ∧ st1.seq_off = st.seq_off + n
        ∧ st1.out.filter AltLine.is_mismatch_or_deletion
            ++ mdz_lines tid seq qual print_qual include_n_mms cols rest1 (k + n)
          = st.out.filter AltLine.is_mismatch_or_deletion
            ++ mdz_lines tid seq qual print_qual include_n_mms cols ops k := by
  induction ops with
  | nil =>
    intro n fuel k st rest1 hm hfuel hlay hcols
    simp only [lay_match] at hlay
    by_cases hn : n = 0
    · subst hn
      simp only [if_true, Option.some.injEq] at hlay
      subst hlay
      exact ⟨st, mdz_match_loop_zero _ _ _ _ _ _ _, hm, rfl, rfl, rfl⟩
    · simp [hn] at hlay
  | cons m rest ih =>
    intro n fuel k st rest1 hm hfuel hlay hcols
    by_cases hn : n = 0
    · subst hn
      simp only [lay_match, if_true, Option.some.injEq] at hlay
      subst hlay
      exact ⟨st, mdz_match_loop_zero _ _ _ _ _ _ _, hm, rfl, rfl, rfl⟩
    · obtain ⟨fuel, rfl⟩ : ∃ f, fuel = f + 1 := ⟨fuel - 1, by simp at hfuel; omega⟩
      simp only [List.length_cons] at hfuel
      have hnpos : n > 0 := Nat.pos_of_ne_zero hn
      simp only [lay_match, hn, if_false] at hlay
      by_cases hrun : m.run = 0
      · simp [hrun] at hlay
      · simp only [hrun, if_false] at hlay
        by_cases heq : m.op = '='
        · simp only [heq, if_true] at hlay
          by_cases hle : m.run ≤ n
          · simp only [hle, if_true] at hlay
            have hmin : min n m.run = m.run := Nat.min_eq_right hle
            obtain ⟨st1, h1, h2, h3, h4, h5⟩ := ih (n - m.run) fuel (k + m.run)
              { st with mdz := rest, seq_off := st.seq_off + m.run,
                        ref_off := st.ref_off + m.run, out := st.out ++ [] } rest1 rfl
              (by omega) hlay (by
                intro i hi
                have := hcols (m.run + i) (by omega)
                simp only [← Nat.add_assoc] at this ⊢
                rw [this])
            refine ⟨st1, ?_, h2, ?_, ?_, ?_⟩
            · simp only [mdz_match_loop, hm, hnpos, if_true, heq, hmin, true_or, or_true,
                Nat.lt_irrefl, if_false]
              exact h1
            · rw [h3]; simp only; omega
            · rw [h4]; simp only; omega
            · have hk : k + m.run + (n - m.run) = k + n := by omega
              rw [hk] at h5
              rw [h5]
              simp [mdz_lines, heq]
          · simp only [hle, if_false, Option.some.injEq] at hlay
            subst hlay
            have hlt : n < m.run := by omega
            have hmin : min n m.run = n := Nat.min_eq_left (by omega)
            refine ⟨{ st with mdz := { m with run := m.run - n } :: rest,
                              seq_off := st.seq_off + n, ref_off := st.ref_off + n,
                              out := st.out ++ [] }, ?_, by simp [heq], rfl, rfl, ?_⟩
            · simp only [mdz_match_loop, hm, hnpos, if_true, heq, hmin, true_or, or_true, hlt,
                Nat.sub_self]
              exact mdz_match_loop_zero _ _ _ _ _ _ _
            · have hk : k + n + (m.run - n) = k + m.run := by omega
              simp [mdz_lines, heq, hk]
        · simp only [heq, if_false] at hlay
          by_cases hx : m.op = 'X' ∧ m.str.length = m.run ∧ m.run ≤ n
          · simp only [hx, and_self, if_true] at hlay
            obtain ⟨hx1, hx2, hle⟩ := hx
            have hmin : min n m.run = m.run := Nat.min_eq_right hle
            have hc0 := hcols 0 hnpos
            simp only [Nat.add_zero] at hc0
            obtain ⟨st1, h1, h2, h3, h4, h5⟩ := ih (n - m.run) fuel (k + m.run)
              { st with mdz := rest, seq_off := st.seq_off + m.run,
                        ref_off := st.ref_off + m.run,
                        out := st.out ++
                          (if include_n_mms = false ∧ m.run = 1
                              ∧ seq_nt16_str.getD (bam_seqi seq st.seq_off) '=' = 'N' then []
                           else [AltLine.X tid st.ref_off (seq_substring seq st.seq_off m.run)
                            (if print_qual then some (cstr_substring qual st.seq_off m.run)
                             else none)]) } rest1 rfl
              (by omega) hlay (by
                intro i hi
                have := hcols (m.run + i) (by omega)
                simp only [← Nat.add_assoc] at this ⊢
                rw [this])
            refine ⟨st1, ?_, h2, ?_, ?_, ?_⟩
            · simp only [mdz_match_loop, hm, hnpos, if_true, heq, hmin, true_or, or_true,
                Nat.lt_irrefl, if_false, hx1, hx2, false_or]
              exact h1
            · rw [h3]; simp only; omega
            · rw [h4]; simp only; omega
            · have hk : k + m.run + (n - m.run) = k + n := by omega
              rw [hk] at h5
              rw [h5]
              simp only [mdz_lines, hx1, if_true, hc0, List.filter_append, List.append_assoc]
              congr 1
              congr 1
              split_ifs <;> simp [AltLine.is_mismatch_or_deletion]
          · simp [hx] at hlay

theorem cols_split {cols A B : List (Nat × Nat)} {k : Nat} (h : cols.drop k = A ++ B) :
    cols.drop (k + A.length) = B ∧ ∀ i < A.length, cols.getD (k + i) (0, 0) = A.getD i (0, 0) := by
  constructor
  · rw [← List.drop_drop, h, List.drop_left]
  · intro i hi
    have h1 : cols[k + i]? = (cols.drop k)[i]? := by rw [List.getElem?_drop]
    rw [List.getD_eq_getElem?_getD, List.getD_eq_getElem?_getD, h1, h,
      List.getElem?_append_left hi]

theorem lay_match_ne_nil (ops : List MdzOp) (n : Nat) (rest1 : List MdzOp) (hn : n > 0)
    (h : lay_match ops n = some rest1) : ops ≠ [] := by
  intro h0
  subst h0
  simp only [lay_match] at h
  have : ¬ n = 0 := by omega
  simp [this] at h

theorem is_match_iff (c : Nat) :
    is_match c = true
      ↔ (bam_cigar_op c = BAM_CMATCH ∨ bam_cigar_op c = BAM_CDIFF ∨ bam_cigar_op c = BAM_CEQUAL) := by
  simp only [is_match, decide_eq_true_eq]
  tauto

theorem cigar_mdz_step_match (tid : Int) (seq qual : Nat → Nat)
    (print_qual include_sc only_polya_sc include_n_mms : Bool) (st : AltState) (c : Nat)
    (hc : is_match c = true) (hne : st.mdz ≠ []) :
    cigar_mdz_step tid seq qual print_qual include_sc only_polya_sc include_n_mms st c
      = mdz_match_loop tid seq qual print_qual include_n_mms (st.mdz.length + 1)
          (bam_cigar_oplen c) st := by
  have h := (is_match_iff c).1 hc
  simp only [cigar_mdz_step, hne, and_false, if_false, h, if_true]

theorem cigar_mdz_loop_lines (tid : Int) (seq qual : Nat → Nat)
    (print_qual include_sc only_polya_sc include_n_mms : Bool) (cols : List (Nat × Nat))
    (cs : List Nat) :
    ∀ (ops : List MdzOp) (st : AltState) (k : Nat),
      mdz_consistent cs ops = true → st.mdz = ops →
      cols.drop k = md_columns cs st.ref_off st.seq_off →
      ∃ st1, cigar_mdz_loop tid seq qual print_qual include_sc only_polya_sc include_n_mms cs st
          = .done st1
        ∧ st1.mdz = []
        ∧ st1.out.filter AltLine.is_mismatch_or_deletion
          = st.out.filter AltLine.is_mismatch_or_deletion
            ++ mdz_lines tid seq qual print_qual include_n_mms cols ops k := by
  induction cs with
  | nil =>
    intro ops st k hcons hm _
    simp only [mdz_consistent, decide_eq_true_eq] at hcons
    subst hcons
    exact ⟨st, rfl, hm, by simp [mdz_lines]⟩
  | cons c cs ih =>
    intro ops st k hcons hm hcols
    simp only [mdz_consistent] at hcons
    simp only [md_columns] at hcols
    by_cases hmatch : is_match c = true
    · simp only [hmatch, if_true, Bool.and_eq_true, decide_eq_true_eq] at hcons hcols
      obtain ⟨hpos, hcons⟩ := hcons
      cases hlay : lay_match ops (bam_cigar_oplen c) with
      | none => simp [hlay] at hcons
      | some rest1 =>
        simp only [hlay] at hcons
        obtain ⟨hdrop, hget⟩ := cols_split hcols
        simp only [List.length_map, List.length_range] at hdrop hget
        obtain ⟨st1, h1, h2, h3, h4, h5⟩ := mdz_match_loop_lay tid seq qual print_qual
          include_n_mms cols ops (bam_cigar_oplen c) (st.mdz.length + 1) k st rest1 hm
          (by rw [hm]) hlay (by
            intro i hi
            rw [hget i hi, List.getD_eq_getElem?_getD]
            simp [hi])
        obtain ⟨st2, g1, g2, g3⟩ := ih rest1 st1 (k + bam_cigar_oplen c) hcons h2
          (by rw [hdrop, h3, h4])
        refine ⟨st2, ?_, g2, ?_⟩
        · simp only [cigar_mdz_loop]
          rw [cigar_mdz_step_match _ _ _ _ _ _ _ _ _ hmatch
            (by rw [hm]; exact lay_match_ne_nil _ _ _ hpos hlay), h1]
          exact g1
        · rw [g3, h5]
    · have hnm : ¬ (bam_cigar_op c = 0 ∨ bam_cigar_op c = 8 ∨ bam_cigar_op c = 7) := by
        intro h
        apply hmatch
        rw [is_match_iff]
        simpa [BAM_CMATCH, BAM_CDIFF, BAM_CEQUAL] using h
      simp only [hmatch, Bool.false_eq_true, if_false] at hcons hcols
      by_cases hD : bam_cigar_op c = BAM_CDEL
      · simp only [hD, if_true] at hcons hcols
        cases ops with
        | nil => simp at hcons
        | cons m rest =>
          simp only [Bool.and_eq_true, decide_eq_true_eq] at hcons
          obtain ⟨⟨hop, hrun, hstr, hpos⟩, hcons⟩ := hcons
          obtain ⟨hdrop, hget⟩ := cols_split hcols
          simp only [List.length_map, List.length_range] at hdrop hget
          have hk : cols.getD k (0, 0) = (st.ref_off, st.seq_off) := by
            have := hget 0 hpos
            rw [List.getD_eq_getElem?_getD] at this
            simpa [hpos] using this
          obtain ⟨st2, g1, g2, g3⟩ := ih rest
            { st with mdz := rest,
                      out := st.out ++ [AltLine.D tid st.ref_off (bam_cigar_oplen c)],
                      ref_off := st.ref_off + bam_cigar_oplen c }
            (k + bam_cigar_oplen c) hcons rfl (by rw [hdrop])
          refine ⟨st2, ?_, g2, ?_⟩
          · simp only [BAM_CDEL] at hD
            simp only [cigar_mdz_loop, cigar_mdz_step, hD, hm, BAM_CDEL, BAM_CSOFT_CLIP, BAM_CINS,
              BAM_CREF_SKIP, BAM_CMATCH, BAM_CDIFF, BAM_CEQUAL, hop, hrun, hstr]
            simpa using g1
          · rw [g3]
            have hx : ¬ ('^' = 'X') := by decide
            have hk2 : cols[k]?.getD 0 = (st.ref_off, st.seq_off) := by simpa using hk
            simp [mdz_lines, hop, hx, hk2, hrun, List.filter_append,
              AltLine.is_mismatch_or_deletion]
      · simp only [hD, if_false] at hcons hcols
        simp only [BAM_CDEL] at hD
        by_cases hN : bam_cigar_op c = BAM_CREF_SKIP
        · simp only [hN, if_true, Bool.and_eq_true, decide_eq_true_eq] at hcons hcols
          obtain ⟨hne, hcons⟩ := hcons
          obtain ⟨st2, g1, g2, g3⟩ := ih ops
            { st with ref_off := st.ref_off + bam_cigar_oplen c } k hcons hm hcols
          refine ⟨st2, ?_, g2, g3⟩
          simp only [BAM_CREF_SKIP] at hN
          have hne2 : st.mdz ≠ [] := by rw [hm]; exact hne
          simp only [cigar_mdz_loop, cigar_mdz_step, hN, hne2, BAM_CDEL, BAM_CSOFT_CLIP, BAM_CINS,
            BAM_CREF_SKIP, BAM_CMATCH, BAM_CDIFF, BAM_CEQUAL]
          simpa using g1
        · simp only [hN, if_false] at hcons hcols
          simp only [BAM_CREF_SKIP] at hN
          have hfirst : ¬ ((bam_cigar_op c = BAM_CDEL ∨ bam_cigar_op c = BAM_CREF_SKIP
              ∨ bam_cigar_op c = BAM_CMATCH ∨ bam_cigar_op c = BAM_CDIFF
              ∨ bam_cigar_op c = BAM_CEQUAL) ∧ st.mdz = []) := by
            simp only [BAM_CDEL, BAM_CREF_SKIP, BAM_CMATCH, BAM_CDIFF, BAM_CEQUAL]
            omega
          by_cases hI : bam_cigar_op c = BAM_CINS
          · simp only [hI, true_or, if_true] at hcons hcols
            obtain ⟨st2, g1, g2, g3⟩ := ih ops
              { st with out := st.out ++
                          [AltLine.I tid st.ref_off (seq_substring seq st.seq_off (bam_cigar_oplen c))],
                        seq_off := st.seq_off + bam_cigar_oplen c } k hcons hm hcols
            refine ⟨st2, ?_, g2, ?_⟩
            · simp only [cigar_mdz_loop, cigar_mdz_step, hfirst, if_false]
              simp only [BAM_CINS] at hI
              simp only [hI, BAM_CDEL, BAM_CSOFT_CLIP, BAM_CINS, BAM_CREF_SKIP, BAM_CMATCH,
                BAM_CDIFF, BAM_CEQUAL]
              simpa using g1
            · rw [g3]
              simp [List.filter_append, AltLine.is_mismatch_or_deletion]
          · by_cases hS : bam_cigar_op c = BAM_CSOFT_CLIP
            · simp only [hS, true_or, or_true, if_true] at hcons hcols
              cases hsc : include_sc with
              | false =>
                obtain ⟨st2, g1, g2, g3⟩ := ih ops
                  { st with seq_off := st.seq_off + bam_cigar_oplen c } k hcons hm hcols
                refine ⟨st2, ?_, g2, g3⟩
                simp only [cigar_mdz_loop, cigar_mdz_step, hfirst, if_false]
                simp only [BAM_CSOFT_CLIP] at hS
                simp only [hS, BAM_CDEL, BAM_CSOFT_CLIP, BAM_CINS, BAM_CREF_SKIP, BAM_CMATCH,
                  BAM_CDIFF, BAM_CEQUAL]
                subst hsc
                simpa using g1
              | true =>
                obtain ⟨st2, g1, g2, g3⟩ := ih ops
                  { st with total_softclip_count := st.total_softclip_count + bam_cigar_oplen c,
                            out := st.out ++ soft_clip_lines tid seq only_polya_sc st.seq_off
                              st.ref_off (bam_cigar_oplen c),
                            seq_off := st.seq_off + bam_cigar_oplen c } k hcons hm hcols
                refine ⟨st2, ?_, g2, ?_⟩
                · simp only [cigar_mdz_loop, cigar_mdz_step, hfirst, if_false]
                  simp only [BAM_CSOFT_CLIP] at hS
                  simp only [hS, BAM_CDEL, BAM_CSOFT_CLIP, BAM_CINS, BAM_CREF_SKIP, BAM_CMATCH,
                    BAM_CDIFF, BAM_CEQUAL]
                  subst hsc
                  simpa using g1
                · rw [g3]
                  simp [List.filter_append, soft_clip_lines_no_mismatch]
            · simp only [hI, hS, false_or, if_false] at hcols
              simp only [hI, hS, false_or] at hcons
              by_cases hHP : bam_cigar_op c = BAM_CHARD_CLIP ∨ bam_cigar_op c = BAM_CPAD
              · simp only [hHP, if_true] at hcons
                obtain ⟨st2, g1, g2, g3⟩ := ih ops st k hcons hm hcols
                refine ⟨st2, ?_, g2, g3⟩
                have hstep := (hard_clip_steps tid seq qual print_qual include_sc only_polya_sc
                  include_n_mms st c hHP).2
                simp only [cigar_mdz_loop, hstep]
                exact g1
              · simp [hHP] at hcons

theorem mdz_match_loop_indel (tid : Int) (seq qual : Nat → Nat) (print_qual include_n_mms : Bool)
    (fuel : Nat) :
    ∀ (n : Nat) (st st1 : AltState),
      mdz_match_loop tid seq qual print_qual include_n_mms fuel n st = .done st1 →
      st1.out.filter AltLine.is_indel = st.out.filter AltLine.is_indel := by
  induction fuel with
  | zero =>
    intro n st st1 h
    simp only [mdz_match_loop, Outcome.done.injEq] at h
    subst h; rfl
  | succ fuel ih =>
    intro n st st1 h
    cases hm : st.mdz with
    | nil =>
      simp only [mdz_match_loop, hm, Outcome.done.injEq] at h
      subst h; rfl
    | cons m rest =>
      simp only [mdz_match_loop, hm] at h
      by_cases hn : n > 0
      · simp only [hn, if_true] at h
        by_cases h1 : m.op = 'X' ∨ m.op = '='
        · simp only [h1, if_true] at h
          by_cases h2 : m.op = '=' ∨ m.str.length = min n m.run
          · simp only [h2, if_true] at h
            by_cases h3 : min n m.run < m.run
            · simp only [h3, if_true] at h
              by_cases h4 : m.op = '='
              · simp only [h4, if_true] at h
                have := ih _ _ _ h
                simpa using this
              · simp [h4] at h
            · simp only [h3, if_false] at h
              have := ih _ _ _ h
              rw [this]
              simp only [List.filter_append]
              split_ifs <;> simp [AltLine.is_indel]
          · simp [h2] at h
        · simp [h1] at h
      · simp only [hn, if_false, Outcome.done.injEq] at h
        subst h; rfl

/-- One turn of the walk of `output_from_cigar_mdz` on a consistent record: the turn returns,
what is left of the MD:Z operations is consistent with what is left of the CIGAR, the positions
advance by the length of the operation when it consumes the reference, respectively the query,
and the only D or I line written is the line of a D or an I operation. -/
theorem cigar_mdz_step_consistent (tid : Int) (seq qual : Nat → Nat)
    (print_qual include_sc only_polya_sc include_n_mms : Bool) (c : Nat) (cs : List Nat)
    (st : AltState) (hcons : mdz_consistent (c :: cs) st.mdz = true) :
    ∃ st1, cigar_mdz_step tid seq qual print_qual include_sc only_polya_sc include_n_mms st c
          = .done st1
      ∧ mdz_consistent cs st1.mdz = true
      ∧ st1.ref_off = st.ref_off + ref_length [c]
      ∧ st1.seq_off = st.seq_off + query_length [c]
      ∧ st1.out.filter AltLine.is_indel = st.out.filter AltLine.is_indel ++
          (if bam_cigar_op c = BAM_CDEL then [AltLine.D tid st.ref_off (bam_cigar_oplen c)]
            else if bam_cigar_op c = BAM_CINS then
              [AltLine.I tid st.ref_off (seq_substring seq st.seq_off (bam_cigar_oplen c))]
            else []) := by
  rw [ref_length_single_ops, query_length_single]
  simp only [mdz_consistent] at hcons
  by_cases hmatch : is_match c = true
  · simp only [hmatch, if_true, Bool.and_eq_true, decide_eq_true_eq] at hcons
    obtain ⟨hpos, hcons⟩ := hcons
    have hops := (is_match_iff c).1 hmatch
    have hnD : ¬ bam_cigar_op c = BAM_CDEL := by
      simp only [BAM_CMATCH, BAM_CDIFF, BAM_CEQUAL] at hops
      simp only [BAM_CDEL]; omega
    have hnI : ¬ bam_cigar_op c = BAM_CINS := by
      simp only [BAM_CMATCH, BAM_CDIFF, BAM_CEQUAL] at hops
      simp only [BAM_CINS]; omega
    cases hlay : lay_match st.mdz (bam_cigar_oplen c) with
    | none => simp [hlay] at hcons
    | some rest1 =>
      simp only [hlay] at hcons
      obtain ⟨st1, h1, h2, h3, h4, _⟩ := mdz_match_loop_lay tid seq qual print_qual
        include_n_mms
        ((List.range (bam_cigar_oplen c)).map (fun i => (st.ref_off + i, st.seq_off + i)))
        st.mdz (bam_cigar_oplen c) (st.mdz.length + 1) 0 st rest1 rfl (le_refl _) hlay (by
          intro i hi
          rw [List.getD_eq_getElem?_getD]
          simp [hi])
      refine ⟨st1, ?_, by rw [h2]; exact hcons, ?_, ?_, ?_⟩
      · rw [cigar_mdz_step_match _ _ _ _ _ _ _ _ _ hmatch (lay_match_ne_nil _ _ _ hpos hlay)]
        exact h1
      · simp [h3, hmatch]
      · simp [h4, hmatch]
      · rw [mdz_match_loop_indel _ _ _ _ _ _ _ _ _ h1, if_neg hnD, if_neg hnI, List.append_nil]
  · have hnm : ¬ (bam_cigar_op c = BAM_CMATCH ∨ bam_cigar_op c = BAM_CDIFF
        ∨ bam_cigar_op c = BAM_CEQUAL) := fun hh => hmatch ((is_match_iff c).2 hh)
    have hnm2 : ¬ (bam_cigar_op c = 0 ∨ bam_cigar_op c = 8 ∨ bam_cigar_op c = 7) := by
      simpa [BAM_CMATCH, BAM_CDIFF, BAM_CEQUAL] using hnm
    simp only [hmatch, Bool.false_eq_true, if_false] at hcons
    simp only [hmatch, Bool.false_eq_true, false_or]
    by_cases hD : bam_cigar_op c = BAM_CDEL
    · simp only [hD, if_true] at hcons
      cases hm : st.mdz with
      | nil => simp [hm] at hcons
      | cons m rest =>
        simp only [hm, Bool.and_eq_true, decide_eq_true_eq] at hcons
        obtain ⟨⟨hop, hrun, hstr, hpos⟩, hcons⟩ := hcons
        refine ⟨{ st with mdz := rest,
                          out := st.out ++ [AltLine.D tid st.ref_off (bam_cigar_oplen c)],
                          ref_off := st.ref_off + bam_cigar_oplen c }, ?_, hcons, ?_, ?_, ?_⟩
        · simp only [BAM_CDEL] at hD
          simp only [cigar_mdz_step, hD, hm, BAM_CDEL, BAM_CSOFT_CLIP, BAM_CINS, BAM_CREF_SKIP,
            BAM_CMATCH, BAM_CDIFF, BAM_CEQUAL, hop, hrun, hstr]
          simp
        · simp [hD]
        · have : ¬ (BAM_CDEL = BAM_CINS ∨ BAM_CDEL = BAM_CSOFT_CLIP) := by decide
          simp [hD, this]
        · simp [hD, List.filter_append, AltLine.is_indel]
    · simp only [hD, if_false] at hcons
      have hD2 : ¬ bam_cigar_op c = 2 := by simpa [BAM_CDEL] using hD
      by_cases hN : bam_cigar_op c = BAM_CREF_SKIP
      · simp only [hN, if_true, Bool.and_eq_true, decide_eq_true_eq] at hcons
        obtain ⟨hne, hcons⟩ := hcons
        refine ⟨{ st with ref_off := st.ref_off + bam_cigar_oplen c }, ?_, hcons, ?_, ?_, ?_⟩
        · simp only [BAM_CREF_SKIP] at hN
          simp only [cigar_mdz_step, hN, hne, BAM_CDEL, BAM_CSOFT_CLIP, BAM_CINS, BAM_CREF_SKIP,
            BAM_CMATCH, BAM_CDIFF, BAM_CEQUAL]
          simp
        · simp [hN]
        · have : ¬ (BAM_CREF_SKIP = BAM_CINS ∨ BAM_CREF_SKIP = BAM_CSOFT_CLIP) := by decide
          simp [hN, this]
        · have h1 : ¬ (BAM_CREF_SKIP = BAM_CDEL) := by decide
          have h2 : ¬ (BAM_CREF_SKIP = BAM_CINS) := by decide
          simp [hN, h1, h2]
      · simp only [hN, if_false] at hcons
        have hN2 : ¬ bam_cigar_op c = 3 := by simpa [BAM_CREF_SKIP] using hN
        have hfirst : ¬ ((bam_cigar_op c = BAM_CDEL ∨ bam_cigar_op c = BAM_CREF_SKIP
            ∨ bam_cigar_op c = BAM_CMATCH ∨ bam_cigar_op c = BAM_CDIFF
            ∨ bam_cigar_op c = BAM_CEQUAL) ∧ st.mdz = []) := by
          simp only [BAM_CDEL, BAM_CREF_SKIP, BAM_CMATCH, BAM_CDIFF, BAM_CEQUAL]
          omega
        by_cases hI : bam_cigar_op c = BAM_CINS
        · simp only [hI, true_or, if_true] at hcons
          refine ⟨{ st with
            out := st.out ++
              [AltLine.I tid st.ref_off (seq_substring seq st.seq_off (bam_cigar_oplen c))],
            seq_off := st.seq_off + bam_cigar_oplen c }, ?_, hcons, ?_, ?_, ?_⟩
          · simp only [cigar_mdz_step, hfirst, if_false]
            simp only [BAM_CINS] at hI
            simp only [hI, BAM_CDEL, BAM_CSOFT_CLIP, BAM_CINS, BAM_CREF_SKIP, BAM_CMATCH,
              BAM_CDIFF, BAM_CEQUAL]
            simp
          · have : ¬ (BAM_CINS = BAM_CDEL ∨ BAM_CINS = BAM_CREF_SKIP) := by decide
            simp [hI, this]
          · simp [hI]
          · have h1 : ¬ (BAM_CINS = BAM_CDEL) := by decide
            simp [hI, h1, List.filter_append, AltLine.is_indel]
        · by_cases hS : bam_cigar_op c = BAM_CSOFT_CLIP
          · simp only [hS, true_or, or_true, if_true] at hcons
            have h1 : ¬ (BAM_CSOFT_CLIP = BAM_CDEL) := by decide
            have h2 : ¬ (BAM_CSOFT_CLIP = BAM_CINS) := by decide
            have h3 : ¬ (BAM_CSOFT_CLIP = BAM_CDEL ∨ BAM_CSOFT_CLIP = BAM_CREF_SKIP) := by decide
            cases hsc : include_sc with
            | false =>
              refine ⟨{ st with seq_off := st.seq_off + bam_cigar_oplen c }, ?_, hcons, ?_, ?_,
                ?_⟩
              · simp only [cigar_mdz_step, hfirst, if_false]
                simp only [BAM_CSOFT_CLIP] at hS
                simp only [hS, BAM_CDEL, BAM_CSOFT_CLIP, BAM_CINS, BAM_CREF_SKIP, BAM_CMATCH,
                  BAM_CDIFF, BAM_CEQUAL]
                simp
              · simp [hS, h3]
              · simp [hS]
              · simp [hS, h1, h2]
            | true =>
              refine ⟨{ st with
                total_softclip_count := st.total_softclip_count + bam_cigar_oplen c,
                out := st.out ++ soft_clip_lines tid seq only_polya_sc st.seq_off st.ref_off
                  (bam_cigar_oplen c),
                seq_off := st.seq_off + bam_cigar_oplen c }, ?_, hcons, ?_, ?_, ?_⟩
              · simp only [cigar_mdz_step, hfirst, if_false]
                simp only [BAM_CSOFT_CLIP] at hS
                simp only [hS, BAM_CDEL, BAM_CSOFT_CLIP, BAM_CINS, BAM_CREF_SKIP, BAM_CMATCH,
                  BAM_CDIFF, BAM_CEQUAL]
                simp
              · simp [hS, h3]
              · simp [hS]
              · simp [hS, h1, h2, List.filter_append, soft_clip_lines_no_indel]
          · simp only [hI, hS, false_or] at hcons
            by_cases hHP : bam_cigar_op c = BAM_CHARD_CLIP ∨ bam_cigar_op c = BAM_CPAD
            · simp only [hHP, if_true] at hcons
              refine ⟨st, (hard_clip_steps tid seq qual print_qual include_sc only_polya_sc
                include_n_mms st c hHP).2, hcons, ?_, ?_, ?_⟩
              · simp [hD, hN]
              · simp [hI, hS]
              · simp [hD, hI]
            · simp [hHP] at hcons

theorem cigar_mdz_loop_indels (tid : Int) (seq qual : Nat → Nat)
    (print_qual include_sc only_polya_sc include_n_mms : Bool) (pos : Nat) (cs : List Nat) :
    ∀ (pre : List Nat) (st st1 : AltState), mdz_consistent cs st.mdz = true →
      st.ref_off = pos + ref_length pre → st.seq_off = query_length pre →
      cigar_mdz_loop tid seq qual print_qual include_sc only_polya_sc include_n_mms cs st
        = .done st1 →
      st1.out.filter AltLine.is_indel
        = st.out.filter AltLine.is_indel ++ indel_lines tid seq pos pre cs := by
  induction cs with
  | nil =>
    intro pre st st1 _ _ _ h
    simp only [cigar_mdz_loop, Outcome.done.injEq] at h
    subst h
    simp [indel_lines]
  | cons c cs ih =>
    intro pre st st1 hcons href hseq h
    obtain ⟨st2, g1, g2, g3, g4, g5⟩ := cigar_mdz_step_consistent tid seq qual print_qual
      include_sc only_polya_sc include_n_mms c cs st hcons
    simp only [cigar_mdz_loop, g1] at h
    have := ih (pre ++ [c]) st2 st1 g2
      (by rw [g3, href, ref_length_append]; omega)
      (by rw [g4, hseq, query_length_append]) h
    rw [this, g5, href, hseq]
    simp only [indel_lines, List.append_assoc]

/-- C14 (amended claim): for every record whose CIGAR and MD:Z operations are consistent,
`output_from_cigar_mdz` returns, and the X and D lines it wrote are, in the order of the MD:Z
operations (which is the order of the CIGAR): for each mismatch segment one X line at the
reference position of its first base, with the bases of the read from the query offset of that
base, except that a segment of one base read as `N` gets no line unless `include_n_mms` is set;
and for each deletion one D line with its reference position and its length.  The D lines are
those of the D operations of the CIGAR: the D and I lines written are, in the order of the
CIGAR, one line per D operation and one per I operation, at the reference position reached by
the operations before it. -/
theorem output_from_cigar_mdz_lines (rec : Bam1) (seq qual : Nat → Nat) (mdz : List MdzOp)
    (total_softclip_count : Nat) (print_qual include_sc only_polya_sc include_n_mms : Bool)
    (h : mdz_consistent rec.cigar mdz = true) :
    ∃ st, output_from_cigar_mdz rec seq qual mdz total_softclip_count print_qual include_sc
          only_polya_sc include_n_mms = .done st
      ∧ st.out.filter AltLine.is_mismatch_or_deletion
        = mdz_lines rec.tid seq qual print_qual include_n_mms (md_columns rec.cigar rec.pos 0)
            mdz 0
      ∧ st.out.filter AltLine.is_indel = indel_lines rec.tid seq rec.pos [] rec.cigar := by
  obtain ⟨st1, h1, h2, h3⟩ := cigar_mdz_loop_lines rec.tid seq qual print_qual include_sc
    only_polya_sc include_n_mms (md_columns rec.cigar rec.pos 0) rec.cigar mdz
    { mdz := mdz, seq_off := 0, ref_off := rec.pos, out := [],
      total_softclip_count := total_softclip_count } 0 h rfl rfl
  have h4 := cigar_mdz_loop_indels rec.tid seq qual print_qual include_sc only_polya_sc
    include_n_mms rec.pos rec.cigar []
    { mdz := mdz, seq_off := 0, ref_off := rec.pos, out := [],
      total_softclip_count := total_softclip_count } st1 h rfl rfl h1
  refine ⟨st1, ?_, by simpa using h3, by simpa using h4⟩
  simp only [output_from_cigar_mdz, h1, h2, if_true]

theorem output_from_cigar_mdz_lines_witness :
    mdz_consistent s4_read.cigar s4_mdz = true ∧
    ∃ st, output_from_cigar_mdz s4_read s4_seq all_a s4_mdz 0 false false false false = .done st
      ∧ st.out.filter AltLine.is_mismatch_or_deletion
        = [AltLine.X 0 10 ['T'] none, AltLine.D 0 16 2]
      ∧ st.out.filter AltLine.is_indel = [AltLine.D 0 16 2] :=
  ⟨by decide,
   output_from_cigar_mdz_lines s4_read s4_seq all_a s4_mdz 0 false false false false (by decide)⟩

/-- C14 (counterexample): for the record of scenario S4 with the base `N` at the query offset
10, the CIGAR and the MD:Z operations are consistent and one X line per mismatch segment would
be an X line at 10 and the D line at 16, but `output_from_cigar_mdz` with `include_n_mms` off
writes the D line only. -/
theorem output_from_cigar_mdz_n_base :
    mdz_consistent s4_read.cigar s4_mdz = true
      ∧ mdz_lines 0 s4_seq_n all_a false true (md_columns s4_read.cigar 0 0) s4_mdz 0
        = [AltLine.X 0 10 ['N'] none, AltLine.D 0 16 2]
      ∧ (match output_from_cigar_mdz s4_read s4_seq_n all_a s4_mdz 0 false false false false with
          | .done st => st.out
          | _ => []) = [AltLine.D 0 16 2] := by
  decide

/-! ### The poly-A filter -/

theorem base_count_succ (seq : Nat → Nat) (off run b : Nat) :
    base_count seq off (run + 1) b
      = (if bam_seqi seq off = b then 1 else 0) + base_count seq (off + 1) run b := by
  simp only [base_count, List.range_succ_eq_map, List.filter_cons, Nat.add_zero, List.filter_map,
    List.length_map]
  have hf : ((fun i => decide (bam_seqi seq (off + i) = b)) ∘ Nat.succ)
      = (fun i => decide (bam_seqi seq (off + 1 + i) = b)) := by
    funext i
    simp only [Function.comp, Nat.succ_eq_add_one]
    rw [show off + (i + 1) = off + 1 + i by omega]
  rw [hf]
  by_cases h : bam_seqi seq off = b
  · simp [h]; omega
  · simp [h]

theorem base_count_le (seq : Nat → Nat) (off run b : Nat) : base_count seq off run b ≤ run := by
  simp only [base_count]
  exact (List.length_filter_le _ _).trans (by simp)

theorem polya_loop_count (seq : Nat → Nat) (b : Nat) (n : Nat) :
    ∀ (i : Nat) (counts : Nat → Int),
      polya_loop seq n i counts b = inc_char^[base_count seq i n b] (counts b) := by
  induction n with
  | zero => intro i counts; simp [polya_loop, base_count]
  | succ n ih =>
    intro i counts
    rw [polya_loop, ih, base_count_succ]
    by_cases h : bam_seqi seq i = b
    · rw [if_pos h, show 1 + base_count seq (i + 1) n b = base_count seq (i + 1) n b + 1 by omega,
        Function.iterate_succ_apply, h, Function.update_same]
    · rw [if_neg h, Nat.zero_add, Function.update_noteq (Ne.symm h)]

theorem inc_char_iterate (m : Nat) (h : m ≤ 127) : inc_char^[m] 0 = (m : Int) := by
  induction m with
  | zero => rfl
  | succ m ih =>
    rw [Function.iterate_succ_apply', ih (by omega)]
    simp only [inc_char]
    rw [if_neg (by omega)]
    push_cast
    rfl

theorem polya_ratio_ok_iff (count run : Nat) :
    polya_ratio_ok (count : Int) run = true ↔ (run ≠ 0 ∧ 4 * run ≤ 5 * count) := by
  simp only [polya_ratio_ok, decide_eq_true_eq]
  omega

/-- The poly-A filter on a soft clip of at most 127 bases: the clip is written exactly when
it has at least 3 bases and its bases `A`, or else its bases `T`, make up at least four fifths of
it, and the line carries that base and the number of its occurrences in the clip. -/
theorem soft_clip_lines_polya_short (tid : Int) (seq : Nat → Nat) (seq_off ref_off run : Nat)
    (h : run ≤ 127) :
    soft_clip_lines tid seq true seq_off ref_off run
      = if 3 ≤ run ∧ 4 * run ≤ 5 * base_count seq seq_off run A_idx then
          [AltLine.SA tid ref_off run (if seq_off = 0 then '-' else '+') 'A'
            (base_count seq seq_off run A_idx)]
        else if 3 ≤ run ∧ 4 * run ≤ 5 * base_count seq seq_off run T_idx then
          [AltLine.SA tid ref_off run (if seq_off = 0 then '-' else '+') 'T'
            (base_count seq seq_off run T_idx)]
        else [] := by
  have hA := base_count_le seq seq_off run A_idx
  have hT := base_count_le seq seq_off run T_idx
  have cA : polya_loop seq run seq_off (fun _ => 0) A_idx = (base_count seq seq_off run A_idx : Int) := by
    rw [polya_loop_count, inc_char_iterate _ (by omega)]
  have cT : polya_loop seq run seq_off (fun _ => 0) T_idx = (base_count seq seq_off run T_idx : Int) := by
    rw [polya_loop_count, inc_char_iterate _ (by omega)]
  simp only [soft_clip_lines, if_true, polya_check, cA, cT, SOFTCLIP_POLYA_TOTAL_COUNT_MIN]
  by_cases h1 : polya_ratio_ok (base_count seq seq_off run A_idx : Int) run = true
  · have h1p := (polya_ratio_ok_iff _ _).1 h1
    simp only [h1, if_true]
    by_cases h3 : 3 ≤ run
    · have hne : ¬ ((base_count seq seq_off run A_idx : Int) = -1) := by omega
      simp [h3, h1p.2, hne]
    · have h3p : ¬ (run ≥ 3) := h3
      simp [h3]
  · have h1p : ¬ (run ≠ 0 ∧ 4 * run ≤ 5 * base_count seq seq_off run A_idx) :=
      fun hh => h1 ((polya_ratio_ok_iff _ _).2 hh)
    simp only [h1, Bool.false_eq_true, if_false]
    have hA2 : ¬ (3 ≤ run ∧ 4 * run ≤ 5 * base_count seq seq_off run A_idx) := by
      intro hh; exact h1p ⟨by omega, hh.2⟩
    rw [if_neg hA2]
    by_cases h2 : polya_ratio_ok (base_count seq seq_off run T_idx : Int) run = true
    · have h2p := (polya_ratio_ok_iff _ _).1 h2
      simp only [h2, if_true]
      by_cases h3 : 3 ≤ run
      · have hne : ¬ ((base_count seq seq_off run T_idx : Int) = -1) := by omega
        simp [h3, h2p.2, hne]
      · simp [h3]
    · have h2p : ¬ (run ≠ 0 ∧ 4 * run ≤ 5 * base_count seq seq_off run T_idx) :=
        fun hh => h2 ((polya_ratio_ok_iff _ _).2 hh)
      simp only [h2, Bool.false_eq_true, if_false]
      have hT2 : ¬ (3 ≤ run ∧ 4 * run ≤ 5 * base_count seq seq_off run T_idx) := by
        intro hh; exact h2p ⟨by omega, hh.2⟩
      rw [if_neg hT2]

set_option maxRecDepth 8000 in
/-- C19 (evaluation at the failing inputs): with the poly-A filter on, a soft clip of 127 bases
`A` is written with the count 127, and a soft clip of 128 or of 256 bases `A` is not written:
the counters of `polya_check` have 8 bits, and the count of 128 is read as -128, the count of
256 as 0. -/
theorem soft_clip_long_polya :
    soft_clip_lines 0 all_a true 0 0 127 = [AltLine.SA 0 0 127 '-' 'A' 127]
      ∧ soft_clip_lines 0 all_a true 0 0 128 = []
      ∧ soft_clip_lines 0 all_a true 0 0 256 = [] := by
  decide

/-! ### parse_mdz: the strings on which it returns -/

theorem alpha_run_length (s : List Char) :
    (alpha_run s).1.length + (alpha_run s).2.length = s.length := by
  induction s with
  | nil => simp [alpha_run]
  | cons c cs ih =>
    simp only [alpha_run]
    split_ifs
    · simp only [List.length_cons]; omega
    · simp

theorem alpha_run_split (s : List Char) :
    (alpha_run s).1.all isalpha = true ∧ s = (alpha_run s).1 ++ (alpha_run s).2
      ∧ ∀ c ∈ (alpha_run s).2.head?, isalpha c = false := by
  induction s with
  | nil => simp [alpha_run]
  | cons c cs ih =>
    obtain ⟨h1, h2, h3⟩ := ih
    by_cases ha : isalpha c = true
    · simp only [alpha_run, ha, if_true, List.all_cons, Bool.true_and, List.cons_append]
      exact ⟨h1, by rw [← h2], h3⟩
    · simp only [alpha_run, ha, Bool.false_eq_true, if_false, List.all_nil, List.nil_append,
        List.head?_cons, Option.mem_def, Option.some.injEq, true_and]
      intro d hcd
      subst hcd
      simpa using ha

theorem tokens_maximal_of_cons (t : MdzToken) (ts : List MdzToken) (hwf : t.wf = true)
    (hts : tokens_maximal ts = true) (hm : ∀ u ∈ ts.head?, t.merges u = false) :
    tokens_maximal (t :: ts) = true := by
  cases ts with
  | nil => simpa [tokens_maximal] using hwf
  | cons u rest =>
    simp only [tokens_maximal, Bool.and_eq_true, Bool.not_eq_true']
    exact ⟨⟨hwf, hm u (by simp)⟩, hts⟩

theorem tokens_head_char (ts : List MdzToken) (hts : tokens_maximal ts = true) :
    ∀ u ∈ ts.head?, ∃ c, (ts.flatMap MdzToken.text).head? = some c ∧
      (match u with
       | .digits _ => isdigit c = true
       | .letters _ => isalpha c = true
       | .deletion _ => c = '^') := by
  cases ts with
  | nil => simp
  | cons t rest =>
    intro u hu
    simp only [List.head?_cons, Option.mem_def, Option.some.injEq] at hu
    subst hu
    have hwf := (tokens_maximal_cons t rest hts).1
    cases t with
    | digits ds =>
      obtain ⟨c, cs, htext, hc⟩ := token_text_head _ hwf
      exact ⟨c, by simp [List.flatMap_cons, htext], hc⟩
    | letters ds =>
      obtain ⟨c, cs, htext, hc⟩ := token_text_head _ hwf
      exact ⟨c, by simp [List.flatMap_cons, htext], hc⟩
    | deletion ds =>
      obtain ⟨c, cs, htext, hc⟩ := token_text_head _ hwf
      exact ⟨c, by simp [List.flatMap_cons, htext], hc⟩

/-! ### output_from_cigar_mdz: fuel and the length invariant -/

/-- The loop over the MD:Z operations never runs out of fuel when the fuel is the number of
operations left plus one: more fuel gives the same result. -/
theorem mdz_match_loop_fuel (tid : Int) (seq qual : Nat → Nat) (print_qual include_n_mms : Bool)
    (fuel : Nat) :
    ∀ (n : Nat) (st : AltState) (extra : Nat), st.mdz.length + 1 ≤ fuel →
      mdz_match_loop tid seq qual print_qual include_n_mms (fuel + extra) n st
        = mdz_match_loop tid seq qual print_qual include_n_mms fuel n st := by
  induction fuel with
  | zero => intro n st extra h; omega
  | succ fuel ih =>
    intro n st extra h
    have he : fuel + 1 + extra = (fuel + extra) + 1 := by omega
    rw [he]
    cases hm : st.mdz with
    | nil => simp only [mdz_match_loop, hm]
    | cons m rest =>
      rw [hm] at h
      simp only [List.length_cons] at h
      simp only [mdz_match_loop, hm]
      by_cases hn : n > 0
      · simp only [hn, if_true]
        by_cases h1 : m.op = 'X' ∨ m.op = '='
        · simp only [h1, if_true]
          by_cases h2 : m.op = '=' ∨ m.str.length = min n m.run
          · simp only [h2, if_true]
            by_cases h3 : min n m.run < m.run
            · simp only [h3, if_true]
              by_cases h4 : m.op = '='
              · have h5 : n - min n m.run = 0 := by
                  have : min n m.run = n := by omega
                  omega
                simp only [h4, if_true, h5, mdz_match_loop_zero]
              · simp only [h4, if_false]
            · simp only [h3, if_false]
              apply ih
              simp only
              omega
          · simp only [h2, if_false]
        · simp only [h1, if_false]
      · simp only [hn, if_false]

theorem mdz_total_cons (m : MdzOp) (rest : List MdzOp) :
    mdz_total (m :: rest) = m.run + mdz_total rest := by
  simp [mdz_total]

theorem mdz_match_loop_total (tid : Int) (seq qual : Nat → Nat) (print_qual include_n_mms : Bool)
    (fuel : Nat) :
    ∀ (n : Nat) (st st1 : AltState),
      mdz_match_loop tid seq qual print_qual include_n_mms fuel n st = .done st1 →
      ∃ a, a ≤ n ∧ mdz_total st.mdz = a + mdz_total st1.mdz := by
  induction fuel with
  | zero =>
    intro n st st1 h
    simp only [mdz_match_loop, Outcome.done.injEq] at h
    subst h
    exact ⟨0, Nat.zero_le _, by simp⟩
  | succ fuel ih =>
    intro n st st1 h
    cases hm : st.mdz with
    | nil =>
      simp only [mdz_match_loop, hm, Outcome.done.injEq] at h
      subst h
      exact ⟨0, Nat.zero_le _, by simp [hm]⟩
    | cons m rest =>
      simp only [mdz_match_loop, hm] at h
      by_cases hn : n > 0
      · simp only [hn, if_true] at h
        by_cases h1 : m.op = 'X' ∨ m.op = '='
        · simp only [h1, if_true] at h
          by_cases h2 : m.op = '=' ∨ m.str.length = min n m.run
          · simp only [h2, if_true] at h
            by_cases h3 : min n m.run < m.run
            · simp only [h3, if_true] at h
              by_cases h4 : m.op = '='
              · simp only [h4, if_true] at h
                obtain ⟨a, ha, hb⟩ := ih _ _ _ h
                simp only [mdz_total_cons] at hb
                refine ⟨min n m.run + a, by omega, ?_⟩
                rw [mdz_total_cons]
                omega
              · simp [h4] at h
            · simp only [h3, if_false] at h
              obtain ⟨a, ha, hb⟩ := ih _ _ _ h
              simp only at hb
              refine ⟨min n m.run + a, by omega, ?_⟩
              rw [mdz_total_cons, hb]
              have : min n m.run = m.run := by omega
              omega
          · simp [h2] at h
        · simp [h1] at h
      · simp only [hn, if_false, Outcome.done.injEq] at h
        subst h
        exact ⟨0, Nat.zero_le _, by simp [hm]⟩

theorem cigar_md_length_single (c : Nat) :
    cigar_md_length [c]
      = if is_match c ∨ bam_cigar_op c = BAM_CDEL then bam_cigar_oplen c else 0 := by
  simp [cigar_md_length]

theorem cigar_mdz_step_total (tid : Int) (seq qual : Nat → Nat)
    (print_qual include_sc only_polya_sc include_n_mms : Bool) (st st1 : AltState) (c : Nat)
    (h : cigar_mdz_step tid seq qual print_qual include_sc only_polya_sc include_n_mms st c
      = .done st1) :
    mdz_total st.mdz ≤ cigar_md_length [c] + mdz_total st1.mdz := by
  rw [cigar_md_length_single]
  by_cases hmatch : is_match c = true
  · by_cases hne : st.mdz = []
    · have hops := (is_match_iff c).1 hmatch
      have : (bam_cigar_op c = BAM_CDEL ∨ bam_cigar_op c = BAM_CREF_SKIP
          ∨ bam_cigar_op c = BAM_CMATCH ∨ bam_cigar_op c = BAM_CDIFF
          ∨ bam_cigar_op c = BAM_CEQUAL) := by tauto
      simp [cigar_mdz_step, hne, this] at h
    · rw [cigar_mdz_step_match _ _ _ _ _ _ _ _ _ hmatch hne] at h
      obtain ⟨a, ha, hb⟩ := mdz_match_loop_total _ _ _ _ _ _ _ _ _ h
      simp only [hmatch, true_or, if_true]
      omega
  · have hnm : ¬ (bam_cigar_op c = BAM_CMATCH ∨ bam_cigar_op c = BAM_CDIFF
        ∨ bam_cigar_op c = BAM_CEQUAL) := fun hh => hmatch ((is_match_iff c).2 hh)
    simp only [cigar_mdz_step] at h
    by_cases h0 : (bam_cigar_op c = BAM_CDEL ∨ bam_cigar_op c = BAM_CREF_SKIP
        ∨ bam_cigar_op c = BAM_CMATCH ∨ bam_cigar_op c = BAM_CDIFF
        ∨ bam_cigar_op c = BAM_CEQUAL) ∧ st.mdz = []
    · rw [if_pos h0] at h
      cases h
    · rw [if_neg h0, if_neg hnm] at h
      by_cases hI : bam_cigar_op c = BAM_CINS
      · simp only [hI, if_true, Outcome.done.injEq] at h
        subst h
        simp
      · simp only [hI, if_false] at h
        by_cases hS : bam_cigar_op c = BAM_CSOFT_CLIP
        · simp only [hS, if_true] at h
          cases include_sc <;>
            · simp only [Bool.false_eq_true, if_false, if_true, Outcome.done.injEq] at h
              subst h
              simp
        · simp only [hS, if_false] at h
          by_cases hD : bam_cigar_op c = BAM_CDEL
          · simp only [hD, if_true] at h
            cases hm : st.mdz with
            | nil => simp [hm] at h
            | cons m rest =>
              simp only [hm] at h
              by_cases hc : m.op = '^' ∧ bam_cigar_oplen c = m.run
                  ∧ m.str.length = bam_cigar_oplen c
              · simp only [hc, and_self, if_true, Outcome.done.injEq] at h
                subst h
                simp only [hD, or_true, if_true, mdz_total_cons]
                omega
              · simp [hc] at h
          · simp only [hD, if_false] at h
            by_cases hN : bam_cigar_op c = BAM_CREF_SKIP
            · simp only [hN, if_true, Outcome.done.injEq] at h
              subst h
              simp
            · simp only [hN, if_false] at h
              by_cases hH : bam_cigar_op c = BAM_CHARD_CLIP
              · simp only [hH, if_true, Outcome.done.injEq] at h
                subst h
                simp
              · simp only [hH, if_false] at h
                by_cases hP : bam_cigar_op c = BAM_CPAD
                · simp only [hP, if_true, Outcome.done.injEq] at h
                  subst h
                  simp
                · simp [hP] at h

theorem cigar_md_length_cons (c : Nat) (cs : List Nat) :
    cigar_md_length (c :: cs) = cigar_md_length [c] + cigar_md_length cs := by
  simp [cigar_md_length]

theorem cigar_mdz_loop_total (tid : Int) (seq qual : Nat → Nat)
    (print_qual include_sc only_polya_sc include_n_mms : Bool) (cs : List Nat) :
    ∀ (st st1 : AltState),
      cigar_mdz_loop tid seq qual print_qual include_sc only_polya_sc include_n_mms cs st
        = .done st1 →
      mdz_total st.mdz ≤ cigar_md_length cs + mdz_total st1.mdz := by
  induction cs with
  | nil =>
    intro st st1 h
    simp only [cigar_mdz_loop, Outcome.done.injEq] at h
    subst h
    simp [cigar_md_length]
  | cons c cs ih =>
    intro st st1 h
    simp only [cigar_mdz_loop] at h
    cases hs : cigar_mdz_step tid seq qual print_qual include_sc only_polya_sc include_n_mms
        st c with
    | done st2 =>
      rw [hs] at h
      have h1 := cigar_mdz_step_total _ _ _ _ _ _ _ _ _ _ hs
      have h2 := ih _ _ h
      rw [cigar_md_length_cons]
      omega
    | thrown => rw [hs] at h; cases h
    | aborted => rw [hs] at h; cases h
    | overrun => rw [hs] at h; cases h

/-- The half of the length invariant that `output_from_cigar_mdz` enforces: when the call
returns, the MD:Z operations describe at most as many bases as the M, =, X and D operations of
the CIGAR have (an MD:Z that describes more ends on the last assertion). -/
theorem output_from_cigar_mdz_total_le (rec : Bam1) (seq qual : Nat → Nat) (mdz : List MdzOp)
    (total_softclip_count : Nat) (print_qual include_sc only_polya_sc include_n_mms : Bool)
    (st : AltState)
    (h : output_from_cigar_mdz rec seq qual mdz total_softclip_count print_qual include_sc
      only_polya_sc include_n_mms = .done st) :
    mdz_total mdz ≤ cigar_md_length rec.cigar := by
  simp only [output_from_cigar_mdz] at h
  cases hl : cigar_mdz_loop rec.tid seq qual print_qual include_sc only_polya_sc include_n_mms
      rec.cigar { mdz := mdz, seq_off := 0, ref_off := rec.pos, out := [],
                  total_softclip_count := total_softclip_count } with
  | done st1 =>
    rw [hl] at h
    have h1 := cigar_mdz_loop_total _ _ _ _ _ _ _ _ _ _ hl
    by_cases he : st1.mdz = []
    · simp only [he, mdz_total, List.map_nil, List.sum_nil, Nat.add_zero] at h1
      exact h1
    · simp [he] at h
  | thrown => rw [hl] at h; cases h
  | aborted => rw [hl] at h; cases h
  | overrun => rw [hl] at h; cases h

theorem lay_match_total (ops : List MdzOp) :
    ∀ (n : Nat) (rest1 : List MdzOp), lay_match ops n = some rest1 →
      mdz_total ops = n + mdz_total rest1 := by
  induction ops with
  | nil =>
    intro n rest1 h
    simp only [lay_match] at h
    by_cases hn : n = 0
    · simp only [hn, if_true, Option.some.injEq] at h
      subst h; simp [hn]
    · simp [hn] at h
  | cons m rest ih =>
    intro n rest1 h
    simp only [lay_match] at h
    by_cases hn : n = 0
    · simp only [hn, if_true, Option.some.injEq] at h
      subst h; simp [hn]
    · simp only [hn, if_false] at h
      by_cases hr : m.run = 0
      · simp [hr] at h
      · simp only [hr, if_false] at h
        by_cases he : m.op = '='
        · simp only [he, if_true] at h
          by_cases hle : m.run ≤ n
          · simp only [hle, if_true] at h
            have := ih _ _ h
            rw [mdz_total_cons]; omega
          · simp only [hle, if_false, Option.some.injEq] at h
            subst h
            simp only [mdz_total_cons]; omega
        · simp only [he, if_false] at h
          by_cases hx : m.op = 'X' ∧ m.str.length = m.run ∧ m.run ≤ n
          · simp only [hx, and_self, if_true] at h
            have := ih _ _ h
            rw [mdz_total_cons]; omega
          · simp [hx] at h

/-- On a consistent record the length invariant holds: the M, =, X and D operations of the
CIGAR have as many bases as the MD:Z operations describe. -/
theorem mdz_consistent_total (cs : List Nat) :
    ∀ (ops : List MdzOp), mdz_consistent cs ops = true → cigar_md_length cs = mdz_total ops := by
  induction cs with
  | nil =>
    intro ops h
    simp only [mdz_consistent, decide_eq_true_eq] at h
    subst h; rfl
  | cons c cs ih =>
    intro ops h
    rw [cigar_md_length_cons, cigar_md_length_single]
    simp only [mdz_consistent] at h
    by_cases hmatch : is_match c = true
    · simp only [hmatch, if_true, Bool.and_eq_true, decide_eq_true_eq] at h
      cases hlay : lay_match ops (bam_cigar_oplen c) with
      | none => simp [hlay] at h
      | some rest1 =>
        simp only [hlay] at h
        have h1 := lay_match_total _ _ _ hlay
        have h2 := ih _ h.2
        simp only [hmatch, true_or, if_true]
        omega
    · simp only [hmatch, Bool.false_eq_true, if_false, false_or] at h ⊢
      by_cases hD : bam_cigar_op c = BAM_CDEL
      · simp only [hD, if_true] at h ⊢
        cases ops with
        | nil => simp at h
        | cons m rest =>
          simp only [Bool.and_eq_true, decide_eq_true_eq] at h
          have h2 := ih _ h.2
          rw [mdz_total_cons]
          omega
      · simp only [hD, if_false] at h ⊢
        by_cases hN : bam_cigar_op c = BAM_CREF_SKIP
        · simp only [hN, if_true, Bool.and_eq_true, decide_eq_true_eq] at h
          have := ih _ h.2
          omega
        · simp only [hN, if_false] at h
          split_ifs at h
          have := ih _ h
          omega

/-! ## The command line and the options -/

theorem has_option_iff (argv : List String) (option : String) :
    has_option argv option = true ↔ option ∈ argv := by
  simp [has_option]

/-- The lines `sum_annotations` prints: one for every entry when it prints, none otherwise. -/
theorem sum_annotations_loop_printed (coverages : List Nat) (chr_size : Int) (just_auc : Bool)
    (idx : Int) (rs : List (Region Int)) :
    ∀ (st out : SAState), sum_annotations_loop coverages chr_size just_auc idx rs st = some out →
      out.printed.map (fun l => (l.1, l.2.1))
        = st.printed.map (fun l => (l.1, l.2.1))
          ++ (if just_auc = false ∧ idx = -1 then rs.map (fun r => (r.start, r.stop)) else []) := by
  induction rs with
  | nil =>
    intro st out h
    simp only [sum_annotations_loop] at h
    cases h
    simp
  | cons r rs ih =>
    intro st out h
    simp only [sum_annotations_loop] at h
    cases hw : sum_window coverages chr_size (r.stop - r.start).toNat r.start 0 with
    | none => rw [hw] at h; cases h
    | some sum =>
      rw [hw] at h
      have := ih _ _ h
      rw [this]
      cases just_auc <;> by_cases hk : idx = -1 <;> simp [hk]

/-- C25 (as stated): with `--keep-order` on the command line the variable `keep_order` of `go`
is false and the slot index is -1: `sum_annotations` writes the regions as the contig is
finished and `output_all_coverage_ordered_by_BED` is not called. -/
theorem keep_order_flag_writes_inline :
    go_keep_order argv_keep_order = false
      ∧ keep_order_idx (go_keep_order argv_keep_order) = -1
      ∧ finish_annotations (go_keep_order argv_keep_order) ["chr1"] two_regions "chr1" ten_cells
          10 false
        = some { annotations := two_regions,
                 inline := [("chr1", 0, 3, 4), ("chr1", 4, 9, 8)],
                 ordered := [] } := by
  decide

/-- C25 (amended): the output in the order of the BED file is enabled exactly when
`--keep-order` is absent from the command line.  Without the flag the slot index is 2 (3 for
the unique reads), `sum_annotations` writes nothing as the contig is finished and the lines are
those of `output_all_coverage_ordered_by_BED`; with the flag the index is -1,
`sum_annotations` writes one line for every region of the contig and
`output_all_coverage_ordered_by_BED` writes nothing. -/
theorem keep_order_flag_absent (argv : List String) (chrm_order : List String)
    (annotations : AnnotationMap Int) (name : String) (coverages : List Nat) (chr_size : Int)
    (out : AnnotationOut)
    (h : finish_annotations (go_keep_order argv) chrm_order annotations name coverages
      chr_size false = some out) :
    (go_keep_order argv = true ↔ "--keep-order" ∉ argv)
      ∧ ("--keep-order" ∉ argv →
          keep_order_idx (go_keep_order argv) = 2
            ∧ keep_order_idx_unique (go_keep_order argv) = 3
            ∧ out.inline = []
            ∧ out.ordered
              = (output_all_coverage_ordered_by_BED chrm_order out.annotations false).1)
      ∧ ("--keep-order" ∈ argv →
          keep_order_idx (go_keep_order argv) = -1
            ∧ keep_order_idx_unique (go_keep_order argv) = -1
            ∧ out.ordered = []
            ∧ out.inline.map (fun l => (l.1, l.2.1, l.2.2.1))
              = ((annotations.lookup name).getD []).map (fun r => (name, r.start, r.stop))) := by
  have hk : go_keep_order argv = true ↔ "--keep-order" ∉ argv := by
    simp [go_keep_order, has_option]
  refine ⟨hk, ?_, ?_⟩
  · intro hn
    have hko : go_keep_order argv = true := hk.2 hn
    rw [hko] at h ⊢
    refine ⟨rfl, rfl, ?_, ?_⟩
    · simp only [finish_annotations] at h
      cases hl : annotations.lookup name with
      | none => rw [hl] at h; simp at h; rw [← h]
      | some regions =>
        rw [hl] at h
        simp only [Option.map_eq_some'] at h
        obtain ⟨st, hst, hout⟩ := h
        have hp := sum_annotations_loop_printed coverages chr_size false (keep_order_idx true)
          regions _ _ hst
        simp [keep_order_idx] at hp
        rw [← hout]
        simp [hp]
    · simp only [finish_annotations] at h
      cases hl : annotations.lookup name with
      | none => rw [hl] at h; simp at h; rw [← h]
      | some regions =>
        rw [hl] at h
        simp only [Option.map_eq_some'] at h
        obtain ⟨st, hst, hout⟩ := h
        rw [← hout]
        simp
  · intro hn
    have hko : go_keep_order argv = false := by
      cases hb : go_keep_order argv with
      | false => rfl
      | true => exact absurd hn (hk.1 hb)
    rw [hko] at h ⊢
    refine ⟨rfl, rfl, ?_, ?_⟩
    · simp only [finish_annotations] at h
      cases hl : annotations.lookup name with
      | none => rw [hl] at h; simp at h; rw [← h]
      | some regions =>
        rw [hl] at h
        simp only [Option.map_eq_some'] at h
        obtain ⟨st, hst, hout⟩ := h
        rw [← hout]
        simp
    · simp only [finish_annotations] at h
      cases hl : annotations.lookup name with
      | none => rw [hl] at h; simp at h; rw [← h]; simp
      | some regions =>
        rw [hl] at h
        simp only [Option.map_eq_some'] at h
        obtain ⟨st, hst, hout⟩ := h
        have hp := sum_annotations_loop_printed coverages chr_size false (keep_order_idx false)
          regions _ _ hst
        simp [keep_order_idx] at hp
        rw [← hout]
        simp only [Option.getD_some, List.map_map]
        have h2 : st.printed.map (fun l => (name, l.1, l.2.1))
            = (st.printed.map (fun l => (l.1, l.2.1))).map (fun p => (name, p.1, p.2)) := by
          simp [List.map_map, Function.comp_def]
        have h3 : (List.map ((fun l : String × Int × Int × Int => (l.1, l.2.1, l.2.2.1))
              ∘ fun l : Int × Int × Int => (name, l.1, l.2.1, l.2.2)) st.printed)
            = st.printed.map (fun l => (name, l.1, l.2.1)) := by
          simp [Function.comp_def]
        rw [h3, h2, hp]
        simp [List.map_map, Function.comp_def]

theorem keep_order_flag_absent_witness :
    finish_annotations (go_keep_order argv_default_order) ["chr1"] two_regions "chr1" ten_cells
        10 false = some default_order_out
      ∧ "--keep-order" ∉ argv_default_order
      ∧ keep_order_idx (go_keep_order argv_default_order) = 2
      ∧ keep_order_idx_unique (go_keep_order argv_default_order) = 3
      ∧ default_order_out.inline = []
      ∧ default_order_out.ordered
        = (output_all_coverage_ordered_by_BED ["chr1"] default_order_out.annotations false).1 :=
  ⟨by decide, by decide,
    (keep_order_flag_absent argv_default_order ["chr1"] two_regions "chr1" ten_cells 10
      default_order_out (by decide)).2.1 (by decide)⟩

/-! ## Format detection -/

theorem suffix_at_txt (before pre : List Char) :
    suffix_at before (pre ++ ['t', 'x', 't']) 3 = ['t', 'x', 't']
      ∧ suffix_at before (pre ++ ['t', 'x', 't']) 2 = ['x', 't'] := by
  constructor
  · have h : 3 ≤ (pre ++ ['t', 'x', 't']).length := by simp
    simp only [suffix_at, if_pos h]
    have : (pre ++ ['t', 'x', 't']).length - 3 = pre.length := by simp
    rw [this, List.drop_left]
  · have h : 2 ≤ (pre ++ ['t', 'x', 't']).length := by simp
    simp only [suffix_at, if_pos h]
    have : (pre ++ ['t', 'x', 't']).length - 2 = (pre ++ ['t']).length := by simp
    have h2 : pre ++ ['t', 'x', 't'] = (pre ++ ['t']) ++ ['x', 't'] := by simp
    rw [this, h2, List.drop_left]

/-- A string that ends in `txt` is none of the three names of six characters. -/
theorem ends_txt_ne (y s : List Char) (hs : s.getLast? ≠ some 't') :
    y ++ ['t', 'x', 't'] ≠ s := by
  intro h
  apply hs
  rw [← h]
  simp [List.getLast?_append]

theorem suffix_at_txt_six (before pre s : List Char) (hs : s.getLast? ≠ some 't')
    (hl : s.length = 6) :
    suffix_at before (pre ++ ['t', 'x', 't']) 6 ≠ s := by
  simp only [suffix_at]
  by_cases h : 6 ≤ (pre ++ ['t', 'x', 't']).length
  · rw [if_pos h]
    have hp : (pre ++ ['t', 'x', 't']).length - 6 ≤ pre.length := by
      simp only [List.length_append, List.length_cons, List.length_nil]; omega
    rw [List.drop_append_of_le_length hp]
    exact ends_txt_ne _ _ hs
  · rw [if_neg h]
    intro heq
    have hpre := List.takeWhile_prefix (fun c : Char => decide (c.toNat ≠ 0))
      (l := (before.reverse.take (6 - (pre ++ ['t', 'x', 't']).length)).reverse
        ++ (pre ++ ['t', 'x', 't']))
    rw [heq] at hpre
    have hlen : ((before.reverse.take (6 - (pre ++ ['t', 'x', 't']).length)).reverse
        ++ (pre ++ ['t', 'x', 't'])).length ≤ 6 := by
      simp only [List.length_append, List.length_reverse, List.length_take, List.length_cons,
        List.length_nil] at h ⊢
      omega
    have heq2 := List.IsPrefix.eq_of_length_le hpre (by rw [hl]; exact hlen)
    rw [← List.append_assoc] at heq2
    exact ends_txt_ne _ _ hs heq2.symm

/-- A name that ends in `txt` has the format `UNKNOWN_FORMAT`, whatever precedes the name in
memory. -/
theorem txt_unknown_format (before pre : List Char) :
    get_file_format_extension before (pre ++ ['t', 'x', 't']) = UNKNOWN_FORMAT := by
  obtain ⟨h3, h2⟩ := suffix_at_txt before pre
  have a := suffix_at_txt_six before pre "bigwig".data (by decide) (by decide)
  have b := suffix_at_txt_six before pre "bigWig".data (by decide) (by decide)
  have c := suffix_at_txt_six before pre "BigWig".data (by decide) (by decide)
  simp only [get_file_format_extension, h3, h2]
  rw [if_neg (by decide), if_neg]
  simp only [a, b, c, or_false]
  decide

/-- The function `main` calls `go` only on a name whose format is known. -/
theorem main_go_format (before : List Char) (ok : Bool) (args : List String) (f : String)
    (b : Bool) (op : Op) (d : Bool) (h : main before ok args = MainResult.go f b op d) :
    get_file_format_extension before f.data ≠ UNKNOWN_FORMAT := by
  intro hu
  simp only [main] at h
  split_ifs at h
  all_goals
    split at h
    · exact MainResult.noConfusion h
    · split_ifs at h with h1
      all_goals first
        | exact MainResult.noConfusion h
        | (injection h with e1; subst e1; exact h1 hu)
        | (split at h <;> first
            | exact MainResult.noConfusion h
            | (injection h with e1; subst e1; exact h1 hu))

/-- C26: a name that ends in `txt` passes the test `is_bw_list_file` of `go_bw`, but
`get_file_format_extension` returns `UNKNOWN_FORMAT` for it and `main` never calls `go` on it:
on the command line `megadepth bigwigs.txt --annotation regions.bed out --threads 2` it returns
-1. -/
theorem txt_list_rejected :
    (∀ before pre : List Char,
        is_bw_list_file before (pre ++ ['t', 'x', 't']) = true
          ∧ get_file_format_extension before (pre ++ ['t', 'x', 't']) = UNKNOWN_FORMAT)
      ∧ (∀ (before pre : List Char) (sam_open_ok : Bool) (args : List String) (is_bam : Bool)
          (op : Op) (as_double : Bool),
          main before sam_open_ok args
            ≠ MainResult.go (String.mk (pre ++ ['t', 'x', 't'])) is_bam op as_double)
      ∧ (∀ before sam_open_ok, main before sam_open_ok args_txt = MainResult.returned (-1)) := by
  refine ⟨?_, ?_, ?_⟩
  · intro before pre
    refine ⟨?_, txt_unknown_format before pre⟩
    simp [is_bw_list_file, (suffix_at_txt before pre).1]
  · intro before pre ok args is_bam op d h
    exact main_go_format before ok args _ is_bam op d h (txt_unknown_format before pre)
  · intro before ok
    have h : get_file_format_extension before
        ['b', 'i', 'g', 'w', 'i', 'g', 's', '.', 't', 'x', 't'] = UNKNOWN_FORMAT :=
      txt_unknown_format before ['b', 'i', 'g', 'w', 'i', 'g', 's', '.']
    have hp : get_positional_n (List.drop 1 args_txt) 0 = some "bigwigs.txt" := by decide
    simp only [main]
    rw [if_neg (by decide), if_neg (by decide), if_neg (by decide), hp]
    simp only [h, if_true]

/-! ## The options of go_bam -/

/-- With `--bigwig`, `print_coverage` is the presence of `--coverage` or `--auc`. -/
theorem bigwig_print_coverage (argv : List String) (a : Bool) (o : BamOptions)
    (hb : "--bigwig" ∈ argv) (h : go_bam_options argv a = some o) :
    o.bwfp = true ∧ o.just_auc = false
      ∧ (o.print_coverage = true ↔ "--coverage" ∈ argv ∨ "--auc" ∈ argv) := by
  have hb2 : has_option argv "--bigwig" = true := (has_option_iff _ _).2 hb
  simp only [go_bam_options, hb2, Option.map_eq_some'] at h
  obtain ⟨q, _, ho⟩ := h
  rw [← ho]
  simp [has_option_iff]

/-- C27: with `--bigwig out` and neither `--coverage` nor `--auc`, the BigWig file is created
and the arrays are filled, but `print_coverage` is false: for a finished contig, and at the end
of the file, `print_array` is not called and nothing is handed to the BigWig writer. -/
theorem bigwig_alone_not_written :
    ∃ o, go_bam_options argv_bigwig false = some o
      ∧ o.bwfp = true ∧ o.compute_coverage = true ∧ o.print_coverage = false
      ∧ ∀ (coverages unique_coverages : List Nat) (n : Int),
          print_contig o coverages unique_coverages n = (none, none) := by
  refine ⟨_, rfl, by decide, by decide, by decide, ?_⟩
  intro c u n
  rfl

/-- The threshold in the read-ends mode, once read: a record is counted exactly when its
mapping quality reaches a positive threshold. -/
theorem count_ends_threshold (q : Int) (rec : Bam1) (e : Option Nat) (st : EndsState)
    (hq : 0 < q) (hlow : (rec.qual : Int) < q) : count_ends q rec e st = st := by
  have h : ¬ (q = 0 ∨ (rec.qual : Int) ≥ q) := by omega
  simp only [count_ends, if_neg h]

/-- With a coverage option the threshold of `--min-unique-qual` is read. -/
theorem min_qual_read (argv : List String) (a : Bool) (o : BamOptions) (v : String)
    (hc : "--coverage" ∈ argv ∨ "--auc" ∈ argv ∨ "--annotation" ∈ argv ∨ "--bigwig" ∈ argv)
    (hu : "--min-unique-qual" ∈ argv) (hv : get_option argv "--min-unique-qual" 0 = some v)
    (h : go_bam_options argv a = some o) : o.bw_unique_min_qual = atoi v := by
  have hu2 : has_option argv "--min-unique-qual" = true := (has_option_iff _ _).2 hu
  have hc2 : (has_option argv "--coverage" || has_option argv "--auc"
      || has_option argv "--annotation" || has_option argv "--bigwig") = true := by
    simp only [Bool.or_eq_true, has_option_iff]
    tauto
  simp only [go_bam_options, hu2, hc2, hv, Option.map_eq_some'] at h
  obtain ⟨q, hq, ho⟩ := h
  rw [← ho]
  simp at hq
  exact hq.symm

/-- C28: with `--read-ends out --min-unique-qual 10` and none of `--coverage`, `--auc`,
`--annotation`, `--bigwig`, the threshold `bw_unique_min_qual` stays 0 and a record of mapping
quality 5 is counted at its start and at its end. -/
theorem read_ends_threshold_unread :
    ∃ o, go_bam_options argv_read_ends false = some o
      ∧ o.compute_ends = true ∧ o.unique = true ∧ o.bw_unique_min_qual = 0
      ∧ (count_ends o.bw_unique_min_qual low_quality_read none EndsState.zero).starts 1000 = 1
      ∧ (count_ends o.bw_unique_min_qual low_quality_read none EndsState.zero).ends 1099 = 1 := by
  refine ⟨_, rfl, by decide, by decide, by decide, by decide, by decide⟩

/-! ## The reader thread and the loop of go_bam -/

theorem reader_step_inv (n : Nat) (s : Pipeline) (h : PipelineInv n s) :
    PipelineInv n (reader_step s) := by
  obtain ⟨h1, h2, h3, h4⟩ := h
  cases hr : s.reader with
  | reading =>
    cases hf : s.file with
    | nil =>
      have e : reader_step s
          = { s with brec_idx := s.brec_idx + 1, reader := ReaderPc.returned } := by
        simp only [reader_step, hr, hf]
      rw [e]
      exact ⟨h1, h2, h3, h4⟩
    | cons r rest =>
      have e : reader_step s
          = { s with
              file := rest,
              brecs := s.brecs.set s.brec_idx (some r),
              brec_q := s.brec_q ++ [s.brec_idx],
              brec_idx := s.brec_idx + 1,
              reader := if s.brec_idx + 1 ≥ num_bam_records then ReaderPc.waiting
                else ReaderPc.reading } := by
        simp only [reader_step, hr, hf]
      rw [e]
      rw [hf] at h2
      simp only [List.length_cons] at h2
      refine ⟨h1, ?_, ?_, ?_⟩
      · simp only [List.length_append, List.length_cons, List.length_nil]
        omega
      · intro hc
        have := h3 hc
        simp only [List.length_append, List.length_cons, List.length_nil]
        omega
      · intro hc
        rcases h4 hc with h | h
        · exact Or.inl h
        · right
          simp only [List.length_append, List.length_cons, List.length_nil]
          omega
  | waiting =>
    by_cases hw : (num_bam_records + 2 ^ 64 - s.brec_q.length % 2 ^ 64) % 2 ^ 64
        < min_records_read
    · have e : reader_step s = s := by simp only [reader_step, hr, if_pos hw]
      rw [e]
      exact ⟨h1, h2, h3, h4⟩
    · have e : reader_step s = { s with brec_idx := 0, reader := ReaderPc.reading } := by
        simp only [reader_step, hr, if_neg hw]
      rw [e]
      exact ⟨h1, h2, h3, h4⟩
  | returned =>
    have e : reader_step s = s := by simp only [reader_step, hr]
    rw [e]
    exact ⟨h1, h2, h3, h4⟩

theorem consumer_step_inv (n : Nat) (s : Pipeline) (h : PipelineInv n s) :
    PipelineInv n (consumer_step s) := by
  obtain ⟨h1, h2, h3, h4⟩ := h
  cases hc : s.consumer with
  | waiting =>
    by_cases hl : s.brec_q.length < 20
    · have e : consumer_step s = s := by simp only [consumer_step, hc, if_pos hl]
      rw [e]
      exact ⟨h1, h2, h3, h4⟩
    · have e : consumer_step s = { s with consumer := ConsumerPc.dequeuing } := by
        simp only [consumer_step, hc, if_neg hl]
      rw [e]
      exact ⟨by simp, h2, fun _ => by simpa using hl, fun h => by simp at h⟩
  | dequeuing =>
    have h20 := h3 hc
    cases hq : s.brec_q with
    | nil => rw [hq] at h20; simp at h20
    | cons p q =>
      have e : consumer_step s
          = { s with brec_q := q, analysed := s.analysed ++ [(s.brecs.getD p none)],
                     consumer := ConsumerPc.waiting } := by
        simp only [consumer_step, hc, hq]
      rw [e]
      rw [hq] at h20 h2
      simp only [List.length_cons] at h20 h2
      refine ⟨by simp, ?_, fun h => by simp at h, fun _ => Or.inr ?_⟩
      · simp only [List.length_append, List.length_cons, List.length_nil]
        omega
      · show 19 ≤ q.length
        omega
  | finished => exact absurd hc h1

theorem run_threads_inv (n : Nat) (sched : List Bool) :
    ∀ s, PipelineInv n s → PipelineInv n (run_threads sched s) := by
  induction sched with
  | nil => intro s h; exact h
  | cons b bs ih =>
    intro s h
    simp only [run_threads]
    apply ih
    cases b
    · exact consumer_step_inv n s h
    · exact reader_step_inv n s h

theorem init_inv (file : List Nat) : PipelineInv file.length (Pipeline.init file) := by
  refine ⟨by simp [Pipeline.init], by simp [Pipeline.init], ?_, ?_⟩
  · intro h; simp [Pipeline.init] at h
  · intro _; left; rfl

/-- C30: on every file and under every schedule of the two threads the loop of `go_bam` never
gets past its loops that wait for 20 queued records: it does not end, the records it has run
its body on leave at least 19 records of the file aside, and on a file of fewer than 20 records
it runs its body on none. -/
theorem consumer_never_finishes (file : List Nat) (sched : List Bool) :
    (run_threads sched (Pipeline.init file)).consumer ≠ ConsumerPc.finished
      ∧ ((run_threads sched (Pipeline.init file)).analysed = []
        ∨ (run_threads sched (Pipeline.init file)).analysed.length + 19 ≤ file.length) := by
  obtain ⟨h1, h2, h3, h4⟩ := run_threads_inv file.length sched _ (init_inv file)
  refine ⟨h1, ?_⟩
  cases hc : (run_threads sched (Pipeline.init file)).consumer with
  | waiting =>
    rcases h4 hc with h | h
    · exact Or.inl h
    · right; omega
  | dequeuing =>
    have := h3 hc
    right; omega
  | finished => exact absurd hc h1

/-- The test of the reader is made in `size_t`: with 350 pointers queued the difference wraps
and the reader goes on at once. -/
theorem reader_wait_wraps (s : Pipeline) (hr : s.reader = ReaderPc.waiting)
    (hq : s.brec_q.length = 350) :
    reader_step s = { s with brec_idx := 0, reader := ReaderPc.reading } := by
  have hw : ¬ (num_bam_records + 2 ^ 64 - s.brec_q.length % 2 ^ 64) % 2 ^ 64
      < min_records_read := by
    rw [hq]
    decide
  simp only [reader_step, hr, if_neg hw]

set_option maxRecDepth 100000 in
set_option maxHeartbeats 4000000 in
/-- C29: on a file of 251 records, numbered from 0, there is a schedule of the two threads
under which the loop of `go_bam` runs its body on the records 0 to 49 and then on the record
250: the reader has read the records 200 to 250 into the objects 0 to 50 of the pool while the
pointers to the objects 50 to 199 were still queued, so the record 50 is lost and the record
250 is met out of order. -/
theorem pool_slot_overwritten :
    (run_threads overwrite_schedule (Pipeline.init (List.range 251))).analysed
      = (List.range 50).map some ++ [some 250] := by
  decide

/-! ## The CIGAR string -/

theorem digitChar_toNat (k : Nat) (h : k < 10) :
    (Nat.digitChar k).toNat = 48 + k := by
  interval_cases k <;> rfl

/-- The digits `Nat.toDigitsCore` puts in front of its accumulator: decimal digits whose value
is the number. -/
theorem toDigitsCore_spec : ∀ (fuel n : Nat) (ds : List Char), n < fuel →
    ∃ pre, Nat.toDigitsCore 10 fuel n ds = pre ++ ds ∧ pre ≠ []
      ∧ (∀ c ∈ pre, isdigit c = true)
      ∧ ∀ a, pre.foldl (fun m c => m * 10 + (c.toNat - '0'.toNat)) a
          = a * 10 ^ pre.length + n := by
  intro fuel
  induction fuel with
  | zero => intro n ds h; omega
  | succ fuel ih =>
    intro n ds h
    have hd : (Nat.digitChar (n % 10)).toNat = 48 + n % 10 :=
      digitChar_toNat _ (Nat.mod_lt _ (by decide))
    simp only [Nat.toDigitsCore]
    by_cases h0 : n / 10 = 0
    · rw [if_pos h0]
      refine ⟨[Nat.digitChar (n % 10)], rfl, by simp, ?_, ?_⟩
      · intro c hc
        simp only [List.mem_singleton] at hc
        subst hc
        simp only [isdigit, hd, decide_eq_true_eq]
        omega
      · intro a
        simp only [List.foldl_cons, List.foldl_nil, hd, List.length_singleton, pow_one]
        have : ('0'.toNat) = 48 := rfl
        rw [this]
        omega
    · rw [if_neg h0]
      obtain ⟨pre, hp, _, hdig, hval⟩ := ih (n / 10) (Nat.digitChar (n % 10) :: ds) (by omega)
      refine ⟨pre ++ [Nat.digitChar (n % 10)], by rw [hp]; simp, by simp, ?_, ?_⟩
      · intro c hc
        simp only [List.mem_append, List.mem_singleton] at hc
        rcases hc with hc | hc
        · exact hdig c hc
        · subst hc
          simp only [isdigit, hd, decide_eq_true_eq]
          omega
      · intro a
        simp only [List.foldl_append, List.foldl_cons, List.foldl_nil, hval, hd,
          List.length_append, List.length_singleton]
        have : ('0'.toNat) = 48 := rfl
        rw [this, pow_succ]
        have h1 : 48 + n % 10 - 48 = n % 10 := by omega
        rw [h1]
        have h2 := Nat.div_add_mod n 10
        nlinarith [h2]

/-- The text of `%d` for a natural number: a non-empty run of decimal digits whose value is the
number. -/
theorem toDigits_spec (n : Nat) :
    Nat.toDigits 10 n ≠ [] ∧ (∀ c ∈ Nat.toDigits 10 n, isdigit c = true)
      ∧ ∀ a, (Nat.toDigits 10 n).foldl (fun m c => m * 10 + (c.toNat - '0'.toNat)) a
          = a * 10 ^ (Nat.toDigits 10 n).length + n := by
  obtain ⟨pre, hp, hne, hdig, hval⟩ := toDigitsCore_spec (n + 1) n [] (by omega)
  have : Nat.toDigits 10 n = pre := by
    simp only [Nat.toDigits, hp, List.append_nil]
  rw [this]
  exact ⟨hne, hdig, hval⟩

/-- The value of the decimal text of a number is the number. -/
theorem decimal_value_toDigits (n : Nat) : decimal_value (Nat.toDigits 10 n) = n := by
  have := (toDigits_spec n).2.2 0
  simpa [decimal_value] using this

/-- The reader on a run of digits. -/
theorem read_cigar_text_digits (ds : List Char) (hd : ∀ c ∈ ds, isdigit c = true) :
    ∀ (rest : List Char) (acc : Option Nat), ds ≠ [] →
      read_cigar_text (ds ++ rest) acc
        = read_cigar_text rest
            (some (ds.foldl (fun m c => m * 10 + (c.toNat - '0'.toNat)) (acc.getD 0))) := by
  induction ds with
  | nil => intro rest acc h; exact absurd rfl h
  | cons d ds ih =>
    intro rest acc _
    have h1 : isdigit d = true := hd d (List.mem_cons_self _ _)
    have h2 : ∀ c ∈ ds, isdigit c = true := fun c hc => hd c (List.mem_cons_of_mem _ hc)
    simp only [List.cons_append, read_cigar_text, h1, if_true, List.foldl_cons, List.append_eq]
    by_cases hds : ds = []
    · subst hds
      simp
    · rw [ih h2 rest _ hds]
      simp

theorem opchr_not_digit (c : Nat) (h : bam_cigar_op c ≤ 9) :
    isdigit (bam_cigar_opchr c) = false
      ∧ cigar_op_of_char (bam_cigar_opchr c) = some (bam_cigar_op c) := by
  simp only [bam_cigar_opchr]
  generalize bam_cigar_op c = k at h
  interval_cases k <;> exact ⟨by decide, by decide⟩

/-- The reader on the text of one operation followed by `rest`. -/
theorem read_cigar_text_word (c : Nat) (rest : List Char) (h : bam_cigar_op c ≤ 9) :
    read_cigar_text (Nat.toDigits 10 (bam_cigar_oplen c) ++ [bam_cigar_opchr c] ++ rest) none
      = (read_cigar_text rest none).map
          (fun l => (bam_cigar_op c, bam_cigar_oplen c) :: l) := by
  obtain ⟨hne, hdig, hval⟩ := toDigits_spec (bam_cigar_oplen c)
  obtain ⟨hnd, hop⟩ := opchr_not_digit c h
  rw [List.append_assoc, read_cigar_text_digits _ hdig _ _ hne, hval]
  simp only [Option.getD_none, Nat.zero_mul, Nat.zero_add, List.singleton_append,
    read_cigar_text, hnd, hop]
  simp

theorem read_cigar_text_cigar_text (cigar : List Nat) (h : ∀ c ∈ cigar, bam_cigar_op c ≤ 9) :
    read_cigar_text (cigar_text cigar) none
      = some (cigar.map (fun c => (bam_cigar_op c, bam_cigar_oplen c))) := by
  induction cigar with
  | nil => simp [cigar_text, read_cigar_text]
  | cons c cs ih =>
    have h1 := h c (List.mem_cons_self _ _)
    have h2 : ∀ c ∈ cs, bam_cigar_op c ≤ 9 := fun c hc => h c (List.mem_cons_of_mem _ hc)
    have e : cigar_text (c :: cs)
        = Nat.toDigits 10 (bam_cigar_oplen c) ++ [bam_cigar_opchr c] ++ cigar_text cs := by
      simp [cigar_text]
    rw [e, read_cigar_text_word c _ h1, ih h2]
    simp

/-- The string `process_cigar` leaves in the buffer once `written` (of length `cx`) has been
written for the operations already visited. -/
theorem process_cigar_loop_text {σ : Type} (callbacks : List (Nat → Nat → σ → σ)) :
    ∀ (cs : List Nat) (written cigar_str : List Char) (out : σ), cs ≠ [] →
      (process_cigar_loop callbacks cs written.length (written ++ cigar_str) out).1
        = written ++ cigar_text cs := by
  intro cs
  induction cs with
  | nil => intro w s out h; exact absurd rfl h
  | cons c cs ih =>
    intro w s out _
    simp only [process_cigar_loop]
    have ht : List.take w.length (w ++ s) = w := by simp
    rw [ht]
    have e : cigar_text (c :: cs)
        = Nat.toDigits 10 (bam_cigar_oplen c) ++ [bam_cigar_opchr c] ++ cigar_text cs := by
      simp [cigar_text]
    by_cases hcs : cs = []
    · subst hcs
      simp [process_cigar_loop, cigar_text]
    · have := ih (w ++ (Nat.toDigits 10 (bam_cigar_oplen c) ++ [bam_cigar_opchr c])) []
        (callbacks.foldl (fun o func => func (bam_cigar_op c) (bam_cigar_oplen c) o) out) hcs
      simp only [List.length_append, List.append_nil] at this
      simp only [List.length_append]
      rw [this, e]
      simp

/-- For a CIGAR without operation `process_cigar` writes nothing: the buffer keeps what it
held. -/
theorem process_cigar_empty {σ : Type} (cigar_str : List Char)
    (callbacks : List (Nat → Nat → σ → σ)) (out : σ) :
    (process_cigar [] cigar_str callbacks out).1 = cigar_str := rfl

/-- The text of a CIGAR and the walk over it, the size of the buffer left aside: for a CIGAR
whose operations have the codes of the table `MIDNSHP=XB`, the text of the CIGAR, each operation
as its decimal length followed by its character, is mapped by the reader of the grammar of CIGAR
strings to the operations and lengths of the CIGAR, in order; this text is what the walk writes
as soon as the CIGAR has an operation, and for a CIGAR without operation nothing is written and
the buffer keeps what it held. -/
theorem process_cigar_round_trip {σ : Type} (cigar : List Nat) (cigar_str : List Char)
    (callbacks : List (Nat → Nat → σ → σ)) (out : σ)
    (hops : ∀ c ∈ cigar, bam_cigar_op c ≤ 9) :
    read_cigar_text (cigar_text cigar) none
        = some (cigar.map (fun c => (bam_cigar_op c, bam_cigar_oplen c)))
      ∧ (cigar ≠ [] → (process_cigar cigar cigar_str callbacks out).1 = cigar_text cigar)
      ∧ (cigar = [] → (process_cigar cigar cigar_str callbacks out).1 = cigar_str) := by
  refine ⟨read_cigar_text_cigar_text cigar hops, ?_, ?_⟩
  · intro hne
    have h := process_cigar_loop_text callbacks cigar [] cigar_str out hne
    simp only [List.length_nil, List.nil_append] at h
    simp only [process_cigar, h]
  · intro he
    subst he
    rfl

theorem process_cigar_round_trip_witness :
    (∀ c ∈ junction_read.cigar, bam_cigar_op c ≤ 9)
      ∧ (process_cigar junction_read.cigar "stale".data [extract_junction]
          ({ base := 0, jxs := [] } : JxState)).1 = "30M100N30M".data
      ∧ read_cigar_text (cigar_text junction_read.cigar) none
        = some [(0, 30), (3, 100), (0, 30)] :=
  ⟨by decide,
    ((process_cigar_round_trip junction_read.cigar "stale".data [extract_junction]
      ({ base := 0, jxs := [] } : JxState) (by decide)).2.1 (by decide)).trans (by decide),
    (process_cigar_round_trip junction_read.cigar "stale".data [extract_junction]
      ({ base := 0, jxs := [] } : JxState) (by decide)).1.trans (by decide)⟩

/-! ## The fragment length distribution -/

/-- The two halves of the word stored for the earlier mate. -/
theorem pack_lens_halves (span intron : Nat) (hs : span < 2 ^ 32) (hi : intron < 2 ^ 32) :
    pack_lens span intron &&& frag_lens_mask = intron
      ∧ (pack_lens span intron >>> FRAG_LEN_BITLEN) &&& frag_lens_mask = span := by
  have hp : pack_lens span intron = 2 ^ 32 * span + intron := by
    simp only [pack_lens, FRAG_LEN_BITLEN, Nat.shiftLeft_eq]
    have h1 : span * 2 ^ 32 % 2 ^ 64 = 2 ^ 32 * span := by
      rw [Nat.mod_eq_of_lt (by omega)]
      omega
    rw [h1]
    exact (Nat.mul_add_lt_is_or hi span).symm
  have hm : frag_lens_mask = 2 ^ 32 - 1 := by decide
  rw [hp, hm, Nat.and_pow_two_sub_one_eq_mod, Nat.and_pow_two_sub_one_eq_mod]
  simp only [FRAG_LEN_BITLEN, Nat.shiftRight_eq_div_pow]
  constructor
  · omega
  · omega

theorem lookup_filter_ne {β : Type} (l : List (String × β)) (k : String) :
    (l.filter (fun e => e.1 ≠ k)).lookup k = none := by
  induction l with
  | nil => rfl
  | cons e l ih =>
    by_cases h : e.1 = k
    · rw [List.filter_cons_of_neg (by simp [h])]
      exact ih
    · rw [List.filter_cons_of_pos (by simp [h])]
      obtain ⟨a, b⟩ := e
      have hk : (k == a) = false := by
        simp only [beq_eq_false_iff_ne, ne_eq]
        exact fun hh => h hh.symm
      simp only [List.lookup, hk]
      exact ih

/-- The entry stored for the earlier mate of a pair. -/
theorem frag_step_first_mate (rec : Bam1) (isize : Int) (end_refpos til : Nat)
    (st : FragState) (hel : frag_eligible rec = true)
    (hno : st.frag_mates.lookup rec.qname = none) :
    (frag_step rec isize end_refpos til st).frag_mates.lookup rec.qname
        = some (pack_lens (end_refpos - rec.pos) til)
      ∧ (frag_step rec isize end_refpos til st).frag_dist = st.frag_dist := by
  simp only [frag_step, hel, if_true, hno]
  simp [List.lookup]

/-- C23 (as stated): for a pair whose mates both span one intron of 200 bases, with the
template length 340, the later mate passes the tests and the bin counted is 340, not
340 - 400; and a later mate that is a supplementary alignment counts nothing and leaves the
entry of the earlier mate in place. -/
theorem frag_bin_not_difference :
    frag_eligible frag_second_shared = true
      ∧ frag_geometry frag_second_shared 1340 300 = true
      ∧ (frag_step frag_second_shared (-340) 1340 200
          (frag_step frag_first_shared 340 1300 200 FragState.empty)).frag_dist 340 = 1
      ∧ (frag_step frag_second_shared (-340) 1340 200
          (frag_step frag_first_shared 340 1300 200 FragState.empty)).frag_dist (340 - 400) = 0
      ∧ frag_geometry frag_second_supplementary 1500 300 = true
      ∧ (frag_step frag_second_supplementary (-500) 1500 0
          (frag_step frag_first 500 1300 200 FragState.empty)).frag_mates
        = [("p", pack_lens 300 200)]
      ∧ (frag_step frag_second_supplementary (-500) 1500 0
          (frag_step frag_first 500 1300 200 FragState.empty)).frag_dist 300 = 0 := by
  decide

/-- C23 (amended): in the fragment length mode, when a record that is neither secondary nor
supplementary, is paired with a mapped mate on its own contig and is exactly one of read 1 and
read 2 finds the entry of its mate (reference span `span`, intron length `intron`), the entry
is removed; if the strands are opposite and the geometry test passes, the count of one bin is
incremented: the bin `|tlen|` less the intron lengths of the two mates, or the bin `|tlen|`
when these lengths exceed `|tlen|`; otherwise no bin changes.  A record that fails the
conditions on the flags and the contigs changes nothing. -/
theorem frag_step_later_mate (rec : Bam1) (isize : Int) (end_refpos til : Nat)
    (st : FragState) (span intron : Nat)
    (hst : st.frag_mates.lookup rec.qname = some (pack_lens span intron))
    (hs : span < 2 ^ 31) (hi : til + intron < 2 ^ 31) :
    (frag_eligible rec = true →
        (frag_step rec isize end_refpos til st).frag_mates
            = st.frag_mates.filter (fun e => e.1 ≠ rec.qname)
          ∧ (frag_step rec isize end_refpos til st).frag_mates.lookup rec.qname = none
          ∧ (frag_geometry rec end_refpos span = true →
              (frag_step rec isize end_refpos til st).frag_dist
                = Function.update st.frag_dist (frag_bin isize (til + intron))
                    (inc32 (st.frag_dist (frag_bin isize (til + intron)))))
          ∧ (frag_geometry rec end_refpos span = false →
              (frag_step rec isize end_refpos til st).frag_dist = st.frag_dist))
      ∧ (frag_eligible rec = false → frag_step rec isize end_refpos til st = st) := by
  obtain ⟨h1, h2⟩ := pack_lens_halves span intron (by omega) (by omega)
  constructor
  · intro hel
    by_cases hg : frag_geometry rec end_refpos span = true
    · have e : frag_step rec isize end_refpos til st
          = { frag_mates := st.frag_mates.filter (fun e => e.1 ≠ rec.qname),
              frag_dist := Function.update st.frag_dist (frag_bin isize (til + intron))
                (inc32 (st.frag_dist (frag_bin isize (til + intron)))) } := by
        simp only [frag_step, hel, if_true, hst, h1, h2, hg, frag_bin]
        by_cases hb : til + intron > isize.natAbs
        · have hb2 : ¬ (til + intron ≤ isize.natAbs) := by omega
          simp [hb, hb2]
        · have hb2 : til + intron ≤ isize.natAbs := by omega
          simp [hb, hb2]
      rw [e]
      refine ⟨rfl, lookup_filter_ne _ _, fun _ => rfl, fun h => ?_⟩
      rw [hg] at h
      cases h
    · have hg2 : frag_geometry rec end_refpos span = false := by
        cases h : frag_geometry rec end_refpos span with
        | false => rfl
        | true => exact absurd h hg
      have e : frag_step rec isize end_refpos til st
          = { st with frag_mates := st.frag_mates.filter (fun e => e.1 ≠ rec.qname) } := by
        simp only [frag_step, hel, if_true, hst, h1, h2, hg2]
        simp
      rw [e]
      refine ⟨rfl, lookup_filter_ne _ _, fun h => ?_, fun _ => rfl⟩
      rw [hg2] at h
      cases h
  · intro hel
    simp only [frag_step, hel]
    simp

theorem frag_step_later_mate_witness :
    (frag_step frag_first 500 1300 200 FragState.empty).frag_mates.lookup frag_second.qname
        = some (pack_lens 300 200)
      ∧ frag_eligible frag_second = true
      ∧ frag_geometry frag_second 1500 300 = true
      ∧ frag_bin (-500) (0 + 200) = 300
      ∧ (frag_step frag_second (-500) 1500 0
          (frag_step frag_first 500 1300 200 FragState.empty)).frag_dist
        = Function.update (frag_step frag_first 500 1300 200 FragState.empty).frag_dist
            (frag_bin (-500) (0 + 200))
            (inc32 ((frag_step frag_first 500 1300 200 FragState.empty).frag_dist
              (frag_bin (-500) (0 + 200)))) :=
  ⟨by decide, by decide, by decide, by decide,
    ((frag_step_later_mate frag_second (-500) 1500 0
      (frag_step frag_first 500 1300 200 FragState.empty) 300 200 (by decide) (by decide)
      (by decide)).1 (by decide)).2.2.1 (by decide)⟩

/-- The end coordinate and the intron length the block of the distribution is given are those
of the CIGAR of the record. -/
theorem frag_record_eq (rec : Bam1) (isize : Int) (double_count : Bool) (min_qual : Int)
    (st : FragState) :
    frag_record rec isize double_count min_qual st
      = frag_step rec isize (rec.pos + ref_length rec.cigar) (intron_length rec.cigar) st := by
  simp only [frag_record, calculate_coverage]
  obtain ⟨h1, h2⟩ := walk_cigar_fields rec zeros zeros false min_qual
    (second_mate_check rec false double_count []) 0 0
  rw [h1, h2, Nat.zero_add]

/-! ## The output in the order of the BED file -/

theorem mem_first_appearances (c : String) (xs : List String) :
    c ∈ first_appearances xs ↔ c ∈ xs := by
  induction xs with
  | nil => simp [first_appearances]
  | cons a xs ih =>
    simp only [first_appearances, List.mem_cons, List.mem_filter, ih, decide_eq_true_eq]
    by_cases h : c = a
    · simp [h]
    · simp [h]

theorem first_appearances_nodup (xs : List String) : (first_appearances xs).Nodup := by
  induction xs with
  | nil => simp [first_appearances]
  | cons a xs ih =>
    simp only [first_appearances, List.nodup_cons, List.mem_filter, decide_eq_true_eq]
    exact ⟨fun h => h.2 rfl, ih.filter _⟩

theorem first_appearances_append (xs : List String) (x : String) :
    first_appearances (xs ++ [x])
      = if x ∈ first_appearances xs then first_appearances xs
        else first_appearances xs ++ [x] := by
  induction xs with
  | nil => simp [first_appearances]
  | cons a xs ih =>
    have e : first_appearances (a :: xs ++ [x])
        = a :: (first_appearances (xs ++ [x])).filter (fun c => c ≠ a) := rfl
    rw [e, ih]
    have e2 : first_appearances (a :: xs)
        = a :: (first_appearances xs).filter (fun c => c ≠ a) := rfl
    rw [e2]
    by_cases hxa : x = a
    · subst hxa
      by_cases hm : x ∈ first_appearances xs
      · simp [hm]
      · simp [hm, List.filter_append]
    · by_cases hm : x ∈ first_appearances xs
      · simp [hm, hxa]
      · simp [hm, hxa, List.filter_append]

theorem lookup_append_single {β : Type} (m : List (String × β)) (k c : String) (v : β) :
    (m ++ [(k, v)]).lookup c
      = match m.lookup c with
        | some w => some w
        | none => if c = k then some v else none := by
  induction m with
  | nil =>
    by_cases h : c = k
    · simp [List.lookup, h]
    · have : (c == k) = false := by simpa using h
      simp [List.lookup, h, this]
  | cons e m ih =>
    obtain ⟨a, b⟩ := e
    by_cases h : c = a
    · subst h
      simp [List.lookup]
    · have : (c == a) = false := by simpa using h
      simp only [List.cons_append, List.lookup, this]
      exact ih

theorem lookup_map_key {β : Type} (m : List (String × β)) (k c : String) (g : β → β) :
    (m.map (fun e => if e.1 = k then (e.1, g e.2) else e)).lookup c
      = (m.lookup c).map (fun w => if c = k then g w else w) := by
  induction m with
  | nil => rfl
  | cons e m ih =>
    obtain ⟨a, b⟩ := e
    rw [List.map_cons]
    by_cases hk : a = k
    · rw [if_pos (show (a, b).1 = k from hk)]
      by_cases h : c = a
      · have hca : (c == a) = true := by simpa using h
        simp only [List.lookup, hca, Option.map_some']
        rw [if_pos (h.trans hk)]
      · have hca : (c == a) = false := by simpa using h
        simp only [List.lookup, hca]
        exact ih
    · rw [if_neg (show ¬ (a, b).1 = k from hk)]
      by_cases h : c = a
      · have hca : (c == a) = true := by simpa using h
        simp only [List.lookup, hca, Option.map_some']
        rw [if_neg (fun hh => hk (h.symm.trans hh))]
      · have hca : (c == a) = false := by simpa using h
        simp only [List.lookup, hca]
        exact ih

theorem lookup_region_coords {α : Type} (m : AnnotationMap α) (c : String) :
    (region_coords m).lookup c
      = (m.lookup c).map (fun rs => rs.map (fun r => (r.start, r.stop))) := by
  induction m with
  | nil => rfl
  | cons e m ih =>
    obtain ⟨a, b⟩ := e
    by_cases h : c = a
    · subst h
      simp [region_coords, List.lookup]
    · have hca : (c == a) = false := by simpa using h
      simp only [region_coords, List.map_cons, List.lookup, hca]
      exact ih

/-- The region index and the list `chrm_order` after the lines of a BED file: the contigs in
the order of their first line, and for each contig the entries of its lines in their order. -/
theorem read_annotation_spec {α : Type} [Zero α] (lines : List BedLine) ( keep_order : Bool) :
    ( read_annotation (α := α) lines keep_order).2 = first_appearances (lines.map (·.chrm))
      ∧ ∀ c, ( read_annotation (α := α) lines keep_order).1.lookup c
          = if c ∈ lines.map (·.chrm) then
              some ((lines.filter (fun l => l.chrm = c)).map
                (fun l => ({ start := l.start, stop := l.stop, sum := 0, uniq_sum := 0 } :
                  Region α)))
            else none := by
  induction lines using List.reverseRecOn with
  | nil => simp [first_appearances, read_annotation]
  | append_singleton ls l ih =>
    obtain ⟨ih1, ih2⟩ := ih
    have hstep : read_annotation (α := α) (ls ++ [l]) keep_order
        = process_region_line l ( read_annotation (α := α) ls keep_order).1
            ( read_annotation (α := α) ls keep_order).2 keep_order := by
      simp [List.foldl_append, read_annotation]
    rw [hstep]
    have hl := ih2 l.chrm
    by_cases hm : l.chrm ∈ ls.map (·.chrm)
    · rw [if_pos hm] at hl
      have hnone : (( read_annotation (α := α) ls keep_order).1.lookup l.chrm).isNone = false := by
        rw [hl]; rfl
      simp only [process_region_line, hnone, Bool.false_eq_true, if_false]
      constructor
      · rw [ih1, List.map_append, List.map_singleton, first_appearances_append,
          if_pos ((mem_first_appearances _ _).2 hm)]
      · intro c
        refine Eq.trans (lookup_map_key _ l.chrm c (fun v => v ++
          [({ start := l.start, stop := l.stop, sum := 0, uniq_sum := 0 } : Region α)])) ?_
        rw [ih2 c]
        by_cases hc : c = l.chrm
        · subst hc
          simp [hm, List.filter_append]
        · have hc2 : ¬ l.chrm = c := fun h => hc h.symm
          by_cases hcm : c ∈ ls.map (·.chrm)
          · have : c ∈ (ls ++ [l]).map (·.chrm) := by simp at hcm ⊢; exact Or.inl hcm
            simp [hcm, this, hc, hc2, List.filter_append]
          · have : c ∉ (ls ++ [l]).map (·.chrm) := by
              simp only [List.map_append, List.map_singleton, List.mem_append,
                List.mem_singleton]
              tauto
            rw [if_neg hcm, if_neg this]
            rfl
    · rw [if_neg hm] at hl
      have hnone : (( read_annotation (α := α) ls keep_order).1.lookup l.chrm).isNone = true := by
        rw [hl]; rfl
      simp only [process_region_line, hnone, if_true]
      constructor
      · rw [ih1, List.map_append, List.map_singleton, first_appearances_append,
          if_neg (fun h => hm ((mem_first_appearances _ _).1 h))]
      · intro c
        refine Eq.trans (lookup_map_key _ l.chrm c (fun v => v ++
          [({ start := l.start, stop := l.stop, sum := 0, uniq_sum := 0 } : Region α)])) ?_
        rw [lookup_append_single, ih2 c]
        have hfl : ls.filter (fun x => x.chrm = l.chrm) = [] := by
          rw [List.filter_eq_nil_iff]
          intro x hx hxc
          apply hm
          simp only [decide_eq_true_eq] at hxc
          exact List.mem_map.2 ⟨x, hx, hxc⟩
        by_cases hc : c = l.chrm
        · subst hc
          simp [hm, List.filter_append, hfl]
        · have hc2 : ¬ l.chrm = c := fun h => hc h.symm
          by_cases hcm : c ∈ ls.map (·.chrm)
          · have : c ∈ (ls ++ [l]).map (·.chrm) := by simp at hcm ⊢; exact Or.inl hcm
            simp [hcm, this, hc, hc2, List.filter_append]
          · have : c ∉ (ls ++ [l]).map (·.chrm) := by
              simp only [List.map_append, List.map_singleton, List.mem_append,
                List.mem_singleton]
              tauto
            simp [hcm, this, hc]

/-- The lines `output_all_coverage_ordered_by_BED` writes: for each name of `chrm_order` in
turn, the entries of the contig in the order of its vector. -/
theorem output_ordered_eq {α : Type} (annotations : AnnotationMap α) (uafp : Bool)
    (chrm_order : List String) :
    ∀ acc : List (String × Int × Int × α) × List (String × Int × Int × α),
      (chrm_order.foldl
        (fun acc c =>
          let annotations_for_chr := (annotations.lookup c).getD []
          (acc.1 ++ annotations_for_chr.map (fun r => (c, r.start, r.stop, r.sum)),
            if uafp then
              acc.2 ++ annotations_for_chr.map (fun r => (c, r.start, r.stop, r.uniq_sum))
            else acc.2)) acc)
        = (acc.1 ++ chrm_order.flatMap (fun c =>
              ((annotations.lookup c).getD []).map (fun r => (c, r.start, r.stop, r.sum))),
            if uafp then
              acc.2 ++ chrm_order.flatMap (fun c =>
                ((annotations.lookup c).getD []).map (fun r => (c, r.start, r.stop, r.uniq_sum)))
            else acc.2) := by
  induction chrm_order with
  | nil => intro acc; cases uafp <;> simp
  | cons c cs ih =>
    intro acc
    simp only [List.foldl_cons, ih, List.flatMap_cons]
    cases uafp <;> simp [List.append_assoc]

theorem sum_indicator (a : String) (k : Nat) (l : List String) :
    (l.map (fun c => if a = c then k else 0)).sum = k * l.count a := by
  induction l with
  | nil => simp
  | cons c l ih =>
    by_cases h : a = c
    · subst h
      simp [ih, Nat.mul_add, Nat.add_comm]
    · have h2 : ¬ c = a := fun hh => h hh.symm
      have h3 : (c == a) = false := by simpa using h2
      simp [ih, h, List.count_cons, h3]

/-- Grouping the lines by contig, the contigs in the order of their first line, permutes the
lines. -/
theorem grouped_perm (lines : List BedLine) :
    ((first_appearances (lines.map (·.chrm))).flatMap
      (fun c => lines.filter (fun l => l.chrm = c))).Perm lines := by
  classical
  rw [List.perm_iff_count]
  intro x
  rw [List.count_flatMap]
  have h1 : ∀ c, List.count x (lines.filter (fun l => l.chrm = c))
      = if x.chrm = c then List.count x lines else 0 := by
    intro c
    by_cases h : x.chrm = c
    · rw [if_pos h, List.count_filter (by simpa using h)]
    · rw [if_neg h]
      apply List.count_eq_zero_of_not_mem
      intro hmem
      have := (List.mem_filter.1 hmem).2
      simp only [decide_eq_true_eq] at this
      exact h this
  have h2 : (List.count x ∘ fun c => lines.filter (fun l => decide (l.chrm = c)))
      = fun c => if x.chrm = c then List.count x lines else 0 := by
    funext c
    exact h1 c
  rw [h2, sum_indicator]
  by_cases hx : x ∈ lines
  · have hm : x.chrm ∈ first_appearances (lines.map (·.chrm)) :=
      (mem_first_appearances _ _).2 (List.mem_map.2 ⟨x, hx, rfl⟩)
    rw [List.count_eq_one_of_mem (first_appearances_nodup _) hm, Nat.mul_one]
  · rw [List.count_eq_zero_of_not_mem hx, Nat.zero_mul]

/-- The lines of the output for a region index that holds the entries of the BED file with any
values in their slots. -/
theorem output_ordered_keys {α : Type} [Zero α] (lines : List BedLine)
    (annotations : AnnotationMap α)
    (h : region_coords annotations
      = region_coords ( read_annotation (α := α) lines true).1) :
    ∀ c ∈ lines.map (·.chrm),
      ((annotations.lookup c).getD []).map (fun r => (c, r.start, r.stop))
        = (lines.filter (fun l => l.chrm = c)).map BedLine.key := by
  intro c hc
  have h1 := lookup_region_coords annotations c
  rw [h, lookup_region_coords, ( read_annotation_spec (α := α) lines true).2 c, if_pos hc] at h1
  cases hl : annotations.lookup c with
  | none => rw [hl] at h1; simp at h1
  | some rs =>
    rw [hl] at h1
    simp only [Option.map_some', Option.some.injEq, List.map_map] at h1
    simp only [Option.getD_some]
    have h2 : rs.map (fun r => (c, r.start, r.stop))
        = (rs.map (fun r => (r.start, r.stop))).map (fun p => (c, p.1, p.2)) := by
      simp [List.map_map, Function.comp_def]
    rw [h2, ← h1]
    simp only [List.map_map]
    apply List.map_congr_left
    intro l hl2
    have := (List.mem_filter.1 hl2).2
    simp only [decide_eq_true_eq] at this
    simp [BedLine.key, this]

theorem flatMap_congr_mem {β γ : Type} (l : List β) (f g : β → List γ)
    (h : ∀ x ∈ l, f x = g x) : l.flatMap f = l.flatMap g := by
  induction l with
  | nil => rfl
  | cons a l ih =>
    simp only [List.flatMap_cons]
    rw [h a (List.mem_cons_self _ _), ih (fun x hx => h x (List.mem_cons_of_mem _ hx))]

/-- Lines whose contigs are adjacent are in the grouped order already. -/
theorem grouped_eq_of_adjacent (lines : List BedLine)
    (h : contigs_adjacent (lines.map (·.chrm))) :
    (first_appearances (lines.map (·.chrm))).flatMap
      (fun c => lines.filter (fun l => l.chrm = c)) = lines := by
  induction lines with
  | nil => rfl
  | cons l ls ih =>
    obtain ⟨h1, h2⟩ := h
    have ih := ih h2
    have e : first_appearances ((l :: ls).map (·.chrm))
        = l.chrm :: (first_appearances (ls.map (·.chrm))).filter (fun c => c ≠ l.chrm) := rfl
    rw [e, List.flatMap_cons]
    have hhead : (l :: ls).filter (fun x => x.chrm = l.chrm)
        = l :: ls.filter (fun x => x.chrm = l.chrm) := by
      simp [List.filter_cons]
    have hrest : ((first_appearances (ls.map (·.chrm))).filter (fun c => c ≠ l.chrm)).flatMap
          (fun c => (l :: ls).filter (fun x => x.chrm = c))
        = ((first_appearances (ls.map (·.chrm))).filter (fun c => c ≠ l.chrm)).flatMap
          (fun c => ls.filter (fun x => x.chrm = c)) := by
      apply flatMap_congr_mem
      intro c hc
      have hne : c ≠ l.chrm := by
        have := (List.mem_filter.1 hc).2
        simpa using this
      have : ¬ l.chrm = c := fun hh => hne hh.symm
      simp [List.filter_cons, this]
    rw [hhead, hrest, List.cons_append]
    congr 1
    rcases h1 with h1 | h1
    · -- the next line is on the same contig
      cases ls with
      | nil => simp at h1
      | cons l2 ls2 =>
        simp only [List.map_cons, List.head?_cons, Option.some.injEq] at h1
        have e2 : first_appearances ((l2 :: ls2).map (·.chrm))
            = l2.chrm :: (first_appearances (ls2.map (·.chrm))).filter
                (fun c => c ≠ l2.chrm) := rfl
        have hF : (first_appearances ((l2 :: ls2).map (·.chrm))).filter (fun c => c ≠ l.chrm)
            = (first_appearances (ls2.map (·.chrm))).filter (fun c => c ≠ l.chrm) := by
          rw [e2, h1, List.filter_cons_of_neg (by simp), List.filter_filter]
          congr 1
          funext a
          simp
        rw [e2, List.flatMap_cons, h1] at ih
        rw [hF]
        exact ih
    · -- the contig does not come again
      have hf : ls.filter (fun x => x.chrm = l.chrm) = [] := by
        rw [List.filter_eq_nil_iff]
        intro x hx hxc
        simp only [decide_eq_true_eq] at hxc
        exact h1 (List.mem_map.2 ⟨x, hx, hxc⟩)
      have hff : (first_appearances (ls.map (·.chrm))).filter (fun c => c ≠ l.chrm)
          = first_appearances (ls.map (·.chrm)) := by
        rw [List.filter_eq_self]
        intro c hc
        have hc2 := (mem_first_appearances _ _).1 hc
        simp only [ne_eq, decide_not, Bool.not_eq_true', decide_eq_false_iff_not]
        intro hh
        subst hh
        exact h1 hc2
      rw [hf, hff, List.nil_append]
      exact ih

/-- C24 (as stated): for a BED file whose three lines are on `chr1`, `chr2` and `chr1`, the
output in the order of the BED file writes the two regions of `chr1` before the region of
`chr2`. -/
theorem bed_order_alternating :
    (output_all_coverage_ordered_by_BED ( read_annotation (α := Int) alternating_bed true).2
        ( read_annotation (α := Int) alternating_bed true).1 false).1.map out_key
      = [("chr1", 0, 10), ("chr1", 20, 30), ("chr2", 5, 8)]
      ∧ alternating_bed.map BedLine.key = [("chr1", 0, 10), ("chr2", 5, 8), ("chr1", 20, 30)] := by
  decide

/-- C24 (amended): with the output in the order of the BED file, whatever values the processing
of the contigs has left in the slots of the region index, the regions are written grouped by
contig: the contigs in the order of their first line in the BED file and the regions of a
contig in the order of their lines.  Every line of the BED file is written exactly once, and
the order is that of the lines of the file when the lines of each contig are adjacent in
it.  The file of the unique reads, if any, receives the same regions in the same order. -/
theorem bed_order_by_contig {α : Type} [Zero α] (lines : List BedLine)
    (annotations : AnnotationMap α) (uafp : Bool)
    (h : region_coords annotations
      = region_coords ( read_annotation (α := α) lines true).1) :
    (output_all_coverage_ordered_by_BED ( read_annotation (α := α) lines true).2 annotations
        uafp).1.map out_key
        = (first_appearances (lines.map (·.chrm))).flatMap
            (fun c => (lines.filter (fun l => l.chrm = c)).map BedLine.key)
      ∧ ((output_all_coverage_ordered_by_BED ( read_annotation (α := α) lines true).2
            annotations uafp).1.map out_key).Perm (lines.map BedLine.key)
      ∧ (contigs_adjacent (lines.map (·.chrm)) →
          (output_all_coverage_ordered_by_BED ( read_annotation (α := α) lines true).2
            annotations uafp).1.map out_key = lines.map BedLine.key)
      ∧ (uafp = true →
          (output_all_coverage_ordered_by_BED ( read_annotation (α := α) lines true).2
            annotations uafp).2.map out_key
          = (output_all_coverage_ordered_by_BED ( read_annotation (α := α) lines true).2
            annotations uafp).1.map out_key) := by
  have hord := ( read_annotation_spec (α := α) lines true).1
  have hout : output_all_coverage_ordered_by_BED ( read_annotation (α := α) lines true).2
        annotations uafp
      = ((first_appearances (lines.map (·.chrm))).flatMap (fun c =>
            ((annotations.lookup c).getD []).map (fun r => (c, r.start, r.stop, r.sum))),
          if uafp then
            (first_appearances (lines.map (·.chrm))).flatMap (fun c =>
              ((annotations.lookup c).getD []).map (fun r => (c, r.start, r.stop, r.uniq_sum)))
          else []) := by
    unfold output_all_coverage_ordered_by_BED
    rw [output_ordered_eq annotations uafp _ ([], []), hord]
    simp
  have hkeys := output_ordered_keys lines annotations h
  have e1 : (output_all_coverage_ordered_by_BED ( read_annotation (α := α) lines true).2
        annotations uafp).1.map out_key
      = (first_appearances (lines.map (·.chrm))).flatMap
          (fun c => (lines.filter (fun l => l.chrm = c)).map BedLine.key) := by
    rw [hout]
    simp only [List.map_flatMap, List.map_map]
    apply flatMap_congr_mem
    intro c hc
    rw [← hkeys c ((mem_first_appearances _ _).1 hc)]
    simp [out_key, Function.comp_def]
  have e2 : (first_appearances (lines.map (·.chrm))).flatMap
        (fun c => (lines.filter (fun l => l.chrm = c)).map BedLine.key)
      = ((first_appearances (lines.map (·.chrm))).flatMap
          (fun c => lines.filter (fun l => l.chrm = c))).map BedLine.key := by
    rw [List.map_flatMap]
  refine ⟨e1, ?_, ?_, ?_⟩
  · rw [e1, e2]
    exact (grouped_perm lines).map _
  · intro hadj
    rw [e1, e2, grouped_eq_of_adjacent lines hadj]
  · intro hu
    subst hu
    rw [hout]
    simp only [List.map_flatMap, List.map_map, if_true]
    apply flatMap_congr_mem
    intro c _
    simp [out_key, Function.comp_def]

theorem bed_order_by_contig_witness :
    region_coords alternating_filled
        = region_coords ( read_annotation (α := Int) alternating_bed true).1
      ∧ (output_all_coverage_ordered_by_BED ( read_annotation (α := Int) alternating_bed true).2
          alternating_filled true).1.map out_key
        = (first_appearances (alternating_bed.map (·.chrm))).flatMap
            (fun c => (alternating_bed.filter (fun l => l.chrm = c)).map BedLine.key) :=
  ⟨by decide, (bed_order_by_contig alternating_bed alternating_filled true (by decide)).1⟩

/-! ## The junction lines of a pair -/

theorem lookup_cons_self {β : Type} (k : String) (v : β) (l : List (String × β)) :
    ((k, v) :: l).lookup k = some v := by
  simp [List.lookup]

/-- The line of the pair of the example: the strings of the two mates with a tab between. -/
theorem junction_pair_example :
    (junction_record jx_second_intron (-580) "chr1".data []
        (junction_record jx_first 580 "chr1".data [] JxPairs.empty).2).2.jxs_file
      = ("chr1\t1001\t0\t580\t10M100N10M100N10M\t1011-1110,1121-1220"
          ++ "\tchr1\t1501\t1\t-580\t10M50N20M\t1511-1560\n").data := by
  decide

/-! ## The text buffer of print_array -/

theorem emit_run_buf (sz : Bool) (nl : Int) (st : PAState) (i : Nat) (h : BufInv st) :
    BufInv (emit_run sz false false nl st i) := by
  obtain ⟨h1, h2⟩ := h
  simp only [BufInv] at *
  by_cases hv : st.running_value > 0 <;> cases sz <;>
    by_cases hf : nl ≤ (st.buf.length : Int) <;>
    simp [emit_run, hv, hf, ← h1, h2]

theorem print_array_step_buf (sz : Bool) (nl : Int) (st : PAState) (i x : Nat)
    (h : BufInv st) : BufInv (print_array_step sz false false nl st i x) := by
  simp only [print_array_step]
  by_cases hc : st.first = true ∨ st.running_value ≠ float_of_uint32 x
  · rw [if_pos hc]
    by_cases hf : st.first = true
    · simp only [hf, not_true_eq_false, if_false]
      exact h
    · simp only [hf, not_false_eq_true, if_true]
      exact emit_run_buf sz nl st i h
  · rw [if_neg hc]
    exact h

theorem print_array_loop_buf (sz : Bool) (nl : Int) (xs : List Nat) :
    ∀ (i : Nat) (st : PAState), BufInv st →
      BufInv (print_array_loop sz false false nl xs i st) := by
  induction xs with
  | nil => intro i st h; exact h
  | cons x xs ih =>
    intro i st h
    simp only [print_array_loop]
    exact ih _ _ (print_array_step_buf sz nl st i x h)

theorem print_array_step_value (sz ja bw : Bool) (nl : Int) (st : PAState) (i x : Nat) :
    (print_array_step sz ja bw nl st i x).running_value = float_of_uint32 x := by
  simp only [print_array_step]
  by_cases hc : st.first = true ∨ st.running_value ≠ float_of_uint32 x
  · rw [if_pos hc]
  · rw [if_neg hc]
    have : st.running_value = float_of_uint32 x := by
      by_contra hne
      exact hc (Or.inr hne)
    exact this

theorem print_array_loop_last (sz ja bw : Bool) (nl : Int) (xs : List Nat) :
    ∀ (i : Nat) (st : PAState) (x : Nat),
      (print_array_loop sz ja bw nl (x :: xs) i st).running_value
          = float_of_uint32 ((x :: xs).getLastD 0)
        ∧ (print_array_loop sz ja bw nl (x :: xs) i st).first = false := by
  induction xs with
  | nil =>
    intro i st x
    simp only [print_array_loop, List.getLastD_cons, List.getLastD_nil]
    exact ⟨print_array_step_value .., print_array_step_first ..⟩
  | cons y ys ih =>
    intro i st x
    have := ih (i + 1) (print_array_step sz ja bw nl st i x) y
    simp only [print_array_loop] at this ⊢
    simpa using this

/-- In the text mode every run counted is written when the last run is let through: without
`skip_zeros`, or with a last run above zero. -/
theorem print_array_out_eq_runs (arr : List Nat) (sz : Bool) (nl : Int)
    (h : sz = false ∨ 0 < float_of_uint32 (arr.getLastD 0)) :
    (print_array arr sz false false nl).out = (print_array arr sz false false nl).runs := by
  cases arr with
  | nil => simp [print_array, print_array_loop, emit_last, PAState.init]
  | cons x xs =>
    have hinv : BufInv (print_array_loop sz false false nl (x :: xs) 0 PAState.init) :=
      print_array_loop_buf sz nl (x :: xs) 0 PAState.init ⟨rfl, rfl⟩
    obtain ⟨hv, hf⟩ := print_array_loop_last sz false false nl xs 0 PAState.init x
    obtain ⟨h1, h2⟩ := hinv
    simp only [print_array]
    generalize print_array_loop sz false false nl (x :: xs) 0 PAState.init = st at *
    have hk : 0 < st.running_value ∨ sz = false := by
      rcases h with h | h
      · right; exact h
      · left; rw [hv]; exact h
    by_cases hb : st.buf_written > 0
    · simp [emit_last, hf, hk, hb, ← h1]
    · have hb0 : st.buf = [] := by
        have : st.buf.length = 0 := by omega
        exact List.length_eq_zero.1 this
      simp [emit_last, hf, hk, hb, ← h1, hb0]

/-- A call that no caller makes: in the text mode with `skip_zeros` on, on the array of the two
cells 1 and 0, the run `(0, 1, 1)` is counted and put into the text buffer, the last run is of
value 0 and is skipped together with the flush of the buffer, so the function returns with the
line still in the buffer.  Every call of `print_array` passes `skip_zeros` off (lines 1737,
1740, 1958 and 1961). -/
theorem print_array_buffer_not_flushed :
    (print_array [1, 0] true false false 100).runs = [(0, 1, 1)]
      ∧ (print_array [1, 0] true false false 100).buf = [(0, 1, 1)]
      ∧ (print_array [1, 0] true false false 100).out = [] := by
  decide

/-! ## calculate_coverage never lowers a counter -/

/-- C36: for every record, every store and every position `z` whose two counters are below
`2 ^ 32 - 1`, `calculate_coverage` leaves `coverages[z]` and `unique_coverages[z]` at their
value or one above it.  Outside the M, = and X operations of the record nothing changes; on
them the counter is incremented once and then decremented at most once by the fix-up, so a
decrement lands on a position the call has just incremented, no position is decremented twice
and no counter goes below its value before the call. -/
theorem calculate_coverage_not_below (rec : Bam1) (cov ucov : Nat → Nat)
    (has_cov double_count : Bool) (min_qual : Int) (store : Read2Len) (til junk z : Nat)
    (hc : cov z + 1 < 2 ^ 32) (hu : ucov z + 1 < 2 ^ 32) :
    (in_spans (match_spans rec.cigar rec.pos) z →
        ((calculate_coverage rec cov ucov has_cov double_count min_qual store til
              junk).coverages z = cov z
          ∨ (calculate_coverage rec cov ucov has_cov double_count min_qual store til
              junk).coverages z = cov z + 1)
        ∧ ((calculate_coverage rec cov ucov has_cov double_count min_qual store til
              junk).unique_coverages z = ucov z
          ∨ (calculate_coverage rec cov ucov has_cov double_count min_qual store til
              junk).unique_coverages z = ucov z + 1))
      ∧ (¬ in_spans (match_spans rec.cigar rec.pos) z →
          (calculate_coverage rec cov ucov has_cov double_count min_qual store til
              junk).coverages z = cov z
          ∧ (calculate_coverage rec cov ucov has_cov double_count min_qual store til
              junk).unique_coverages z = ucov z)
      ∧ cov z ≤ (calculate_coverage rec cov ucov has_cov double_count min_qual store til
              junk).coverages z
      ∧ ucov z ≤ (calculate_coverage rec cov ucov has_cov double_count min_qual store til
              junk).unique_coverages z := by
  have hi1 : inc32 (cov z) = cov z + 1 := inc32_of_lt _ hc
  have hi2 : inc32 (ucov z) = ucov z + 1 := inc32_of_lt _ hu
  have hd1 : dec32 (inc32 (cov z)) = cov z := dec32_inc32_of_lt _ (by omega)
  have hd2 : dec32 (inc32 (ucov z)) = ucov z := dec32_inc32_of_lt _ (by omega)
  simp only [calculate_coverage]
  cases has_cov with
  | false =>
    obtain ⟨e1, e2⟩ := foldl_cigar_step_no_cov
      (decide (min_qual > 0) && decide ((rec.qual : Int) ≥ min_qual))
      (stored_passes (second_mate_check rec false double_count store))
      (stored_spans (second_mate_check rec false double_count store)).length
      (stored_end (second_mate_check rec false double_count store)) junk rec.cigar
      { coverages := cov, unique_coverages := ucov, total_intron_length := til,
        algn_end_pos := rec.pos,
        mspans := stored_spans (second_mate_check rec false double_count store), oob := false }
    have e1' : (walk_cigar rec cov ucov false min_qual
        (second_mate_check rec false double_count store) til junk).coverages = cov := e1
    have e2' : (walk_cigar rec cov ucov false min_qual
        (second_mate_check rec false double_count store) til junk).unique_coverages = ucov := e2
    rw [e1', e2']
    exact ⟨fun _ => ⟨Or.inl rfl, Or.inl rfl⟩, fun _ => ⟨rfl, rfl⟩, le_refl _, le_refl _⟩
  | true =>
    obtain ⟨_, hout⟩ := walk_cigar_effect rec cov ucov min_qual
      (second_mate_check rec true double_count store) til junk z
    have hin : in_spans (match_spans rec.cigar rec.pos) z →
        ((walk_cigar rec cov ucov true min_qual (second_mate_check rec true double_count store)
              til junk).coverages z = cov z
          ∨ (walk_cigar rec cov ucov true min_qual
              (second_mate_check rec true double_count store) til junk).coverages z = cov z + 1)
        ∧ ((walk_cigar rec cov ucov true min_qual
              (second_mate_check rec true double_count store) til junk).unique_coverages z
              = ucov z
          ∨ (walk_cigar rec cov ucov true min_qual
              (second_mate_check rec true double_count store) til junk).unique_coverages z
              = ucov z + 1) := by
      intro hB
      rcases walk_cigar_cases rec cov ucov min_qual
        (second_mate_check rec true double_count store) til junk z hB with ⟨c1, c2⟩ | ⟨_, c1, c2⟩
      · rw [c1, c2, hi1]
        refine ⟨Or.inr rfl, ?_⟩
        split_ifs
        · rw [hi2]; exact Or.inr rfl
        · exact Or.inl rfl
      · rw [c1, c2, hd1]
        refine ⟨Or.inl rfl, ?_⟩
        split_ifs
        · rw [hi2]; exact Or.inr rfl
        · rw [hd2]; exact Or.inl rfl
        · exact Or.inl rfl
    refine ⟨hin, hout, ?_, ?_⟩
    · by_cases hB : in_spans (match_spans rec.cigar rec.pos) z
      · rcases (hin hB).1 with h | h <;> omega
      · rw [(hout hB).1]
    · by_cases hB : in_spans (match_spans rec.cigar rec.pos) z
      · rcases (hin hB).2 with h | h <;> omega
      · rw [(hout hB).2]

theorem calculate_coverage_not_below_witness :
    (fun _ : Nat => 1) 140 + 1 < 2 ^ 32 ∧ zeros 140 + 1 < 2 ^ 32
      ∧ in_spans (match_spans mate_b.cigar mate_b.pos) 140
      ∧ ((calculate_coverage mate_b (fun _ => 1) zeros true false 0
            [("r1", mate_info_of mate_a 0)] 0 0).coverages 140 = (fun _ : Nat => 1) 140
        ∨ (calculate_coverage mate_b (fun _ => 1) zeros true false 0
            [("r1", mate_info_of mate_a 0)] 0 0).coverages 140 = (fun _ : Nat => 1) 140 + 1) :=
  ⟨by decide, by decide, by decide,
    ((calculate_coverage_not_below mate_b (fun _ => 1) zeros true false 0
      [("r1", mate_info_of mate_a 0)] 0 0 140 (by decide) (by decide)).1 (by decide)).1⟩

/-! ## The index into the spans of the stored mate -/

theorem getLast?_mem_of_ne_nil {α : Type} (l : List α) (h : l ≠ []) :
    ∃ a, l.getLast? = some a ∧ a ∈ l := by
  refine ⟨l.getLast h, List.getLast?_eq_getLast l h, List.getLast_mem h⟩

theorem getLast?_append_right {α : Type} (l1 l2 : List α) (a : α)
    (h : l2.getLast? = some a) : (l1 ++ l2).getLast? = some a := by
  have hne : l2 ≠ [] := by
    intro he; rw [he] at h; simp at h
  rw [List.getLast?_append_of_ne_nil l1 hne]
  exact h

theorem fix_overlap_oob (uq : Bool) (mpq n mendpos junk len : Nat) (s : CovState)
    (h : InRange n mendpos s) :
    (fix_overlap uq mpq n mendpos junk len s).oob = false := by
  obtain ⟨h1, h2, h3⟩ := h
  by_cases hg : n > 0 ∧ s.algn_end_pos < mendpos
  · have hne : s.mspans ≠ [] := by
      intro he
      rcases h2 he with h | h <;> omega
    obtain ⟨sp, hl, hm⟩ := getLast?_mem_of_ne_nil s.mspans hne
    have hhi := h3 sp hl
    obtain ⟨⟨d, hd1, hd2⟩, _⟩ := skip_spans_spec s.algn_end_pos s.mspans
    have hsk : skip_spans s.algn_end_pos s.mspans ≠ [] := by
      intro he
      rw [he, List.append_nil] at hd1
      have := hd2 sp (hd1 ▸ hm)
      omega
    have hemp : (skip_spans s.algn_end_pos s.mspans).isEmpty = false := by
      cases hs : skip_spans s.algn_end_pos s.mspans with
      | nil => exact absurd hs hsk
      | cons a r => rfl
    simp only [fix_overlap, hg, and_self, if_true, h1, hemp, Bool.or_false]
  · simp only [fix_overlap, hg, if_false, h1]

theorem cigar_step_in_range (uq : Bool) (mpq n mendpos junk : Nat) (s : CovState) (c : Nat)
    (lo : Nat) (hok : SpansOK lo s.mspans) (h : InRange n mendpos s) :
    InRange n mendpos (cigar_step uq true mpq n mendpos junk s c) := by
  obtain ⟨⟨d, hd1, hd2⟩, _⟩ := cigar_step_weak uq mpq n mendpos junk s c lo hok
  have hpos := (cigar_step_fields uq mpq n mendpos junk s c).1
  obtain ⟨h1, h2, h3⟩ := h
  refine ⟨?_, ?_, ?_⟩
  · simp only [cigar_step]
    split_ifs <;>
      first
      | exact h1
      | exact fix_overlap_oob _ _ _ _ _ _ _ ⟨h1, h2, h3⟩
  · intro he
    rw [he, List.append_nil] at hd1
    by_cases hs : s.mspans = []
    · rcases h2 hs with h | h
      · exact Or.inl h
      · right
        rw [hpos]
        omega
    · obtain ⟨sp, hl, hm⟩ := getLast?_mem_of_ne_nil s.mspans hs
      have hhi := h3 sp hl
      have := hd2 sp (hd1 ▸ hm)
      right
      omega
  · intro sp hsp
    apply h3
    rw [hd1]
    exact getLast?_append_right _ _ _ hsp

theorem foldl_cigar_step_in_range (uq : Bool) (mpq n mendpos junk : Nat) (cs : List Nat) :
    ∀ (s : CovState) (lo : Nat), SpansOK lo s.mspans → InRange n mendpos s →
      (cs.foldl (cigar_step uq true mpq n mendpos junk) s).oob = false := by
  induction cs with
  | nil => intro s lo _ h; exact h.1
  | cons c cs ih =>
    intro s lo hok h
    obtain ⟨⟨d, hd1, _⟩, _⟩ := cigar_step_weak uq mpq n mendpos junk s c lo hok
    have hok1 : SpansOK lo (d ++ (cigar_step uq true mpq n mendpos junk s c).mspans) := by
      rw [← hd1]; exact hok
    obtain ⟨lo2, _, hok2, _⟩ := hok1.append_right
    rw [List.foldl_cons]
    exact ih _ lo2 hok2 (cigar_step_in_range uq mpq n mendpos junk s c lo hok h)

theorem foldl_cigar_step_no_cov_oob (uq : Bool) (mpq n mendpos junk : Nat) (cs : List Nat) :
    ∀ (s : CovState), (cs.foldl (cigar_step uq false mpq n mendpos junk) s).oob = s.oob := by
  induction cs with
  | nil => intro s; rfl
  | cons c cs ih =>
    intro s
    rw [List.foldl_cons, ih]
    simp only [cigar_step, Bool.false_eq_true, false_and, if_false]
    split_ifs <;> rfl

/-- Every read of `mspans[mspans_idx]` is inside the spans when the last span of the stored mate
ends at `mendpos`, that is, when the last reference-consuming operation of the stored CIGAR is
M, = or X. -/
theorem walk_cigar_in_range (rec : Bam1) (cov ucov : Nat → Nat) (has_cov : Bool) (mq : Int)
    (sm : Option MateInfo) (til junk : Nat)
    (h : ∀ sp, (stored_spans sm).getLast? = some sp → sp.2 = stored_end sm) :
    (walk_cigar rec cov ucov has_cov mq sm til junk).oob = false := by
  simp only [walk_cigar]
  cases has_cov with
  | false => rw [foldl_cigar_step_no_cov_oob]
  | true =>
    obtain ⟨⟨lo, hok⟩, _⟩ := stored_spans_ok sm
    apply foldl_cigar_step_in_range _ _ _ _ _ _ _ lo hok
    refine ⟨rfl, ?_, h⟩
    intro he
    left
    have he2 : stored_spans sm = [] := he
    show (stored_spans sm).length = 0
    rw [he2]
    rfl

/-- C37: the first mate `40M10D` at 100 is stored with the single span `[100,140)` and
`mendpos = 150`; for its second mate `50M` at 145 the guard `algn_end_pos < mendpos` holds, the
loop of line 747 takes `mspans_idx` to 1, which is `n_mspans`, and line 751 reads
`mspans[1][0]`. -/
theorem mspans_read_past_end :
    (calculate_coverage mate_tail_del zeros zeros true false 0 [] 0 0).overlapping_mates
        = [("r1", mate_info_of mate_tail_del 0)]
      ∧ stored_spans (some (mate_info_of mate_tail_del 0)) = [(100, 140)]
      ∧ stored_end (some (mate_info_of mate_tail_del 0)) = 150
      ∧ skip_spans 145 (stored_spans (some (mate_info_of mate_tail_del 0))) = []
      ∧ (calculate_coverage mate_in_tail
          (calculate_coverage mate_tail_del zeros zeros true false 0 [] 0 0).coverages
          (calculate_coverage mate_tail_del zeros zeros true false 0 [] 0 0).unique_coverages
          true false 0
          (calculate_coverage mate_tail_del zeros zeros true false 0 [] 0 0).overlapping_mates
          0 0).oob = true := by
  decide

/-! ## The interval cursor of process_bigwig -/

/-- The back-up loop stays inside the intervals when the cursor is inside them and the region
does not start before the first interval. -/
theorem back_up_in_range (intervals : List Interval) (start : Int) (first : Interval)
    (h0 : intervals[0]? = some first) (hs : (first.start : Int) ≤ start) :
    ∀ last_j, last_j < intervals.length →
      ∃ j, back_up intervals start last_j = some j ∧ j ≤ last_j
        ∧ ∃ iv, intervals[j]? = some iv ∧ (iv.start : Int) ≤ start := by
  intro last_j
  induction last_j with
  | zero =>
    intro _
    refine ⟨0, ?_, le_refl _, first, h0, hs⟩
    simp only [back_up, h0]
    rw [if_neg (by omega)]
  | succ n ih =>
    intro hlt
    obtain ⟨iv, hiv⟩ : ∃ iv, intervals[n + 1]? = some iv :=
      ⟨intervals[n + 1], List.getElem?_eq_getElem hlt⟩
    by_cases hc : start < (iv.start : Int)
    · obtain ⟨j, hj, hle, h3⟩ := ih (by omega)
      refine ⟨j, ?_, by omega, h3⟩
      simp only [back_up, hiv, if_pos hc]
      exact hj
    · refine ⟨n + 1, ?_, le_refl _, iv, hiv, by omega⟩
      simp only [back_up, hiv, if_neg hc]

/-- The two reads outside the intervals: with the cursor at 0 and a region that starts before
the first interval, and with the cursor at the number of intervals or beyond. -/
theorem back_up_out_of_range (intervals : List Interval) (start : Int) :
    (∀ first, intervals[0]? = some first → start < (first.start : Int) →
        back_up intervals start 0 = none)
      ∧ (∀ last_j, intervals.length ≤ last_j → back_up intervals start last_j = none) := by
  constructor
  · intro first h0 hs
    simp only [back_up, h0, if_pos hs]
  · intro last_j hle
    have hn : intervals[last_j]? = none := List.getElem?_eq_none hle
    cases last_j with
    | zero => simp only [back_up, hn]
    | succ n => simp only [back_up, hn]

/-! ## The cells of the arrays are counted one by one -/

theorem fix_loop_agree (uq : Bool) (mpq cur_end z : Nat) (a b : Prop) (fuel : Nat) :
    ∀ (s1 s2 : FixState), FixAgree z a b s1 s2 →
      FixAgree z a b (fix_loop uq mpq cur_end fuel s1) (fix_loop uq mpq cur_end fuel s2) := by
  induction fuel with
  | zero => intro s1 s2 h; exact h
  | succ fuel ih =>
    intro s1 s2 h
    obtain ⟨c1, u1, m1, l1⟩ := s1
    obtain ⟨c2, u2, m2, l2⟩ := s2
    obtain ⟨hm, hl, hc, hu⟩ := h
    simp only at hm hl hc hu
    subst hm
    subst hl
    cases m1 with
    | nil => exact ⟨rfl, rfl, hc, hu⟩
    | cons sp rest =>
      simp only [fix_loop]
      by_cases hg : l1 < sp.2 ∧ cur_end > sp.1
      · rw [if_pos hg, if_pos hg]
        apply ih
        refine ⟨rfl, rfl, ?_, ?_⟩
        · intro ha
          simp only [dec_range_apply, hc ha]
        · intro hb
          by_cases hq : uq = true ∧ mpq ≠ 0
          · simp only [hq, and_self, ne_eq, not_false_eq_true, if_true, dec_range_apply, hu hb]
          · simp only [hq, if_false]
            exact hu hb
      · rw [if_neg hg, if_neg hg]
        exact ⟨rfl, rfl, hc, hu⟩

theorem fix_overlap_agree (uq : Bool) (mpq n mendpos junk len z : Nat) (a b : Prop)
    (s1 s2 : CovState) (h : CovAgree z a b s1 s2) :
    CovAgree z a b (fix_overlap uq mpq n mendpos junk len s1)
      (fix_overlap uq mpq n mendpos junk len s2) := by
  obtain ⟨c1, u1, t1, p1, m1, o1⟩ := s1
  obtain ⟨c2, u2, t2, p2, m2, o2⟩ := s2
  obtain ⟨ht, hp, hm, ho, hc, hu⟩ := h
  simp only at ht hp hm ho hc hu
  subst ht
  subst hp
  subst hm
  subst ho
  simp only [fix_overlap]
  by_cases hg : n > 0 ∧ p1 < mendpos
  · rw [if_pos hg, if_pos hg]
    have := fix_loop_agree uq mpq (p1 + len) z a b ((skip_spans p1 m1).length + 1)
      { coverages := c1, unique_coverages := u1, mspans := skip_spans p1 m1,
        left_end := if p1 < head_lo (skip_spans p1 m1) junk then head_lo (skip_spans p1 m1) junk
          else p1 }
      { coverages := c2, unique_coverages := u2, mspans := skip_spans p1 m1,
        left_end := if p1 < head_lo (skip_spans p1 m1) junk then head_lo (skip_spans p1 m1) junk
          else p1 }
      ⟨rfl, rfl, hc, hu⟩
    exact ⟨rfl, rfl, this.1, rfl, this.2.2.1, this.2.2.2⟩
  · rw [if_neg hg, if_neg hg]
    exact ⟨rfl, rfl, rfl, rfl, hc, hu⟩

theorem cigar_step_agree (uq has_cov : Bool) (mpq n mendpos junk z : Nat) (a b : Prop)
    (s1 s2 : CovState) (c : Nat) (h : CovAgree z a b s1 s2) :
    CovAgree z a b (cigar_step uq has_cov mpq n mendpos junk s1 c)
      (cigar_step uq has_cov mpq n mendpos junk s2 c) := by
  obtain ⟨c1, u1, t1, p1, m1, o1⟩ := s1
  obtain ⟨c2, u2, t2, p2, m2, o2⟩ := s2
  obtain ⟨ht, hp, hm, ho, hc, hu⟩ := h
  simp only at ht hp hm ho hc hu
  subst ht
  subst hp
  subst hm
  subst ho
  simp only [cigar_step]
  by_cases hr : consumes_ref c = true
  · simp only [hr, if_true]
    by_cases hq : has_cov = true ∧ consumes_query c = true
    · simp only [hq, and_self, if_true]
      have key : ∀ t : Nat,
          CovAgree z a b
            (fix_overlap uq mpq n mendpos junk (bam_cigar_oplen c)
              { coverages := inc_range c1 p1 (bam_cigar_oplen c),
                unique_coverages := if uq = true then inc_range u1 p1 (bam_cigar_oplen c) else u1,
                total_intron_length := t, algn_end_pos := p1, mspans := m1, oob := o1 })
            (fix_overlap uq mpq n mendpos junk (bam_cigar_oplen c)
              { coverages := inc_range c2 p1 (bam_cigar_oplen c),
                unique_coverages := if uq = true then inc_range u2 p1 (bam_cigar_oplen c) else u2,
                total_intron_length := t, algn_end_pos := p1, mspans := m1, oob := o1 }) := by
        intro t
        apply fix_overlap_agree
        refine ⟨rfl, rfl, rfl, rfl, ?_, ?_⟩
        · intro ha
          simp only [inc_range_apply, hc ha]
        · intro hb
          cases uq with
          | true => simp only [if_true, inc_range_apply, hu hb]
          | false => simp only [Bool.false_eq_true, if_false]; exact hu hb
      by_cases hs : bam_cigar_op c = BAM_CREF_SKIP
      · simp only [hs, if_true]
        obtain ⟨k1, k2, k3, k4, k5, k6⟩ := key (t1 + bam_cigar_oplen c)
        exact ⟨k1, by simp only [k2], k3, k4, k5, k6⟩
      · simp only [hs, if_false]
        obtain ⟨k1, k2, k3, k4, k5, k6⟩ := key t1
        exact ⟨k1, by simp only [k2], k3, k4, k5, k6⟩
    · simp only [hq, if_false]
      split_ifs <;> exact ⟨rfl, rfl, rfl, rfl, hc, hu⟩
  · simp only [hr, if_false, Bool.false_eq_true]
    exact ⟨rfl, rfl, rfl, rfl, hc, hu⟩

theorem foldl_cigar_step_agree (uq has_cov : Bool) (mpq n mendpos junk z : Nat) (a b : Prop)
    (cs : List Nat) :
    ∀ (s1 s2 : CovState), CovAgree z a b s1 s2 →
      CovAgree z a b (cs.foldl (cigar_step uq has_cov mpq n mendpos junk) s1)
        (cs.foldl (cigar_step uq has_cov mpq n mendpos junk) s2) := by
  induction cs with
  | nil => intro s1 s2 h; exact h
  | cons c cs ih =>
    intro s1 s2 h
    rw [List.foldl_cons, List.foldl_cons]
    exact ih _ _ (cigar_step_agree uq has_cov mpq n mendpos junk z a b s1 s2 c h)

/-- The cell `z` of an array after `calculate_coverage` depends, among the cells of the arrays,
on the cell `z` of that array alone; what is returned and what is stored does not depend on the
arrays. -/
theorem calculate_coverage_agree (rec : Bam1) (cov1 ucov1 cov2 ucov2 : Nat → Nat)
    (has_cov double_count : Bool) (min_qual : Int) (store : Read2Len) (til junk z : Nat) :
    (cov1 z = cov2 z →
        (calculate_coverage rec cov1 ucov1 has_cov double_count min_qual store til junk).coverages z
          = (calculate_coverage rec cov2 ucov2 has_cov double_count min_qual store til
              junk).coverages z)
      ∧ (ucov1 z = ucov2 z →
        (calculate_coverage rec cov1 ucov1 has_cov double_count min_qual store til
            junk).unique_coverages z
          = (calculate_coverage rec cov2 ucov2 has_cov double_count min_qual store til
              junk).unique_coverages z)
      ∧ (calculate_coverage rec cov1 ucov1 has_cov double_count min_qual store til
            junk).overlapping_mates
          = (calculate_coverage rec cov2 ucov2 has_cov double_count min_qual store til
              junk).overlapping_mates
      ∧ (calculate_coverage rec cov1 ucov1 has_cov double_count min_qual store til junk).ret
          = (calculate_coverage rec cov2 ucov2 has_cov double_count min_qual store til junk).ret
      ∧ (calculate_coverage rec cov1 ucov1 has_cov double_count min_qual store til
            junk).total_intron_length
          = (calculate_coverage rec cov2 ucov2 has_cov double_count min_qual store til
              junk).total_intron_length
      ∧ (calculate_coverage rec cov1 ucov1 has_cov double_count min_qual store til junk).oob
          = (calculate_coverage rec cov2 ucov2 has_cov double_count min_qual store til
              junk).oob := by
  have h := foldl_cigar_step_agree
    (decide (min_qual > 0) && decide ((rec.qual : Int) ≥ min_qual)) has_cov
    (stored_passes (second_mate_check rec has_cov double_count store))
    (stored_spans (second_mate_check rec has_cov double_count store)).length
    (stored_end (second_mate_check rec has_cov double_count store)) junk z
    (cov1 z = cov2 z) (ucov1 z = ucov2 z) rec.cigar
    { coverages := cov1, unique_coverages := ucov1, total_intron_length := til,
      algn_end_pos := rec.pos,
      mspans := stored_spans (second_mate_check rec has_cov double_count store), oob := false }
    { coverages := cov2, unique_coverages := ucov2, total_intron_length := til,
      algn_end_pos := rec.pos,
      mspans := stored_spans (second_mate_check rec has_cov double_count store), oob := false }
    ⟨rfl, rfl, rfl, rfl, id, id⟩
  obtain ⟨h1, h2, _, h4, h5, h6⟩ := h
  simp only [calculate_coverage, walk_cigar]
  exact ⟨h5, h6, trivial, h2, h1, h4⟩

/-! ## The loop body of go_bam -/

theorem count_record_kept (o : LoopOptions) (rec : Alignment) (s : LoopState) :
    (count_record o rec s).kept = s.kept ∧ (count_record o rec s).ptid = s.ptid := by
  unfold count_record
  dsimp only
  split_ifs <;> exact ⟨rfl, rfl⟩

theorem read_ends_block_kept (o : LoopOptions) (hdr : Header) (rec : Alignment)
    (e : Option Nat) (s : LoopState) :
    (read_ends_block o hdr rec e s).kept = s.kept := by
  unfold read_ends_block
  dsimp only
  split_ifs <;> rfl

theorem middle_blocks_kept (o : LoopOptions) (hdr : Header) (rec : Alignment)
    (r2 : Option CovResult) (s : LoopState) :
    (middle_blocks o hdr rec r2 s).kept = s.kept
      ∧ (middle_blocks o hdr rec r2 s).ptid = rec.core.tid := by
  have f1 : ∀ e t, (read_ends_block o hdr rec e t).coverages = t.coverages :=
    fun e t => congrArg (fun v => v.1) (read_ends_block_kept o hdr rec e t)
  have f2 : ∀ e t, (read_ends_block o hdr rec e t).unique_coverages = t.unique_coverages :=
    fun e t => congrArg (fun v => v.2.1) (read_ends_block_kept o hdr rec e t)
  have f3 : ∀ e t, (read_ends_block o hdr rec e t).overlapping_mates = t.overlapping_mates :=
    fun e t => congrArg (fun v => v.2.2.1) (read_ends_block_kept o hdr rec e t)
  have f4 : ∀ e t, (read_ends_block o hdr rec e t).jx = t.jx :=
    fun e t => congrArg (fun v => v.2.2.2.1) (read_ends_block_kept o hdr rec e t)
  have f5 : ∀ e t, (read_ends_block o hdr rec e t).cigar_str = t.cigar_str :=
    fun e t => congrArg (fun v => v.2.2.2.2) (read_ends_block_kept o hdr rec e t)
  cases r2 <;>
  · unfold middle_blocks
    dsimp only [Option.map]
    split_ifs <;> refine ⟨?_, rfl⟩ <;> simp only [LoopState.kept, f1, f2, f3, f4, f5]

theorem alts_block_kept (o : LoopOptions) (rec : Alignment) (s s' : LoopState)
    (h : alts_block o rec s = .done s') : s'.kept = s.kept ∧ s'.ptid = s.ptid := by
  unfold alts_block at h
  dsimp only at h
  split at h
  · split at h
    · exact Outcome.noConfusion h
    · split at h
      · injection h with h
        subst h
        split_ifs <;> exact ⟨rfl, rfl⟩
      · exact Outcome.noConfusion h
      · exact Outcome.noConfusion h
      · exact Outcome.noConfusion h
  · split at h
    · split at h
      · injection h with h
        subst h
        split_ifs <;> exact ⟨rfl, rfl⟩
      · exact Outcome.noConfusion h
      · exact Outcome.noConfusion h
      · exact Outcome.noConfusion h
    · exact Outcome.noConfusion h
    · exact Outcome.noConfusion h
    · exact Outcome.noConfusion h

theorem cigar_block_kept (o : LoopOptions) (hdr : Header) (rec : Alignment) (s : LoopState) :
    (cigar_block o hdr rec s).coverages = s.coverages
      ∧ (cigar_block o hdr rec s).unique_coverages = s.unique_coverages
      ∧ (cigar_block o hdr rec s).overlapping_mates = s.overlapping_mates
      ∧ (cigar_block o hdr rec s).ptid = s.ptid := by
  unfold cigar_block
  dsimp only
  split_ifs <;> exact ⟨rfl, rfl, rfl, rfl⟩

theorem sum_contig_kept (o : LoopOptions) (name : String) (len : Nat) (s s' : LoopState)
    (h : sum_contig o name len s = some s') : s'.kept = s.kept ∧ s'.ptid = s.ptid := by
  unfold sum_contig at h
  by_cases hs : LoopOptions.sum_annotation o = true
  · rw [if_pos hs] at h
    cases hl : s.annotations.lookup name with
    | none =>
      simp only [hl, Option.some.injEq] at h
      subst h
      exact ⟨rfl, rfl⟩
    | some regions =>
      simp only [hl] at h
      cases ha : sum_annotations (array_cells s.coverages len) regions len s.annotated_auc
          o.bam.just_auc (keep_order_idx o.keep_order) with
      | none =>
        simp only [ha] at h
        cases h
      | some st =>
        simp only [ha] at h
        by_cases hu : o.bam.unique = true
        · simp only [hu, if_true] at h
          cases hb : sum_annotations (array_cells s.unique_coverages len) st.annotations len
              s.unique_annotated_auc o.bam.just_auc (keep_order_idx_unique o.keep_order) with
          | none =>
            simp only [hb] at h
            cases h
          | some ust =>
            simp only [hb, Option.map_some', Option.some.injEq] at h
            subst h
            split_ifs <;> exact ⟨rfl, rfl⟩
        · simp only [hu, Bool.false_eq_true, if_false, Option.map_some',
            Option.some.injEq] at h
          subst h
          split_ifs <;> exact ⟨rfl, rfl⟩
  · rw [if_neg hs] at h
    injection h with h
    subst h
    exact ⟨rfl, rfl⟩

theorem finish_contig_kept (o : LoopOptions) (hdr : Header) (s s' : LoopState)
    (h : finish_contig o hdr s = some s') :
    s'.kept = (s.coverages, s.unique_coverages, [], s.jx, s.cigar_str) ∧ s'.ptid = s.ptid := by
  unfold finish_contig at h
  dsimp only at h
  obtain ⟨h1, h2⟩ := sum_contig_kept _ _ _ _ _ h
  rw [h1, h2]
  constructor
  · simp only [LoopState.kept]
    split <;> split <;> rfl
  · split <;> split <;> rfl

theorem contig_boundary_kept (o : LoopOptions) (hdr : Header) (s s' : LoopState)
    (h : contig_boundary o hdr s = some s') :
    s'.kept
        = (reset_array s.coverages o.chr_size,
            if o.bam.unique then reset_array s.unique_coverages o.chr_size
            else s.unique_coverages,
            if s.ptid ≠ -1 then [] else s.overlapping_mates, s.jx, s.cigar_str)
      ∧ s'.ptid = s.ptid := by
  unfold contig_boundary at h
  by_cases hp : s.ptid ≠ -1
  · rw [if_pos hp] at h
    cases hf : finish_contig o hdr s with
    | none => rw [hf] at h; exact Option.noConfusion h
    | some sf =>
      rw [hf] at h
      simp only [Option.map_some', Option.some.injEq] at h
      obtain ⟨h1, h2⟩ := finish_contig_kept o hdr s sf hf
      simp only [LoopState.kept, Prod.mk.injEq] at h1
      obtain ⟨k1, k2, k3, k4, k5⟩ := h1
      subst h
      simp only [LoopState.kept, k1, k2, k3, k4, k5, h2, if_pos hp]
      exact ⟨trivial, trivial⟩
  · rw [if_neg hp] at h
    simp only [Option.map_some', Option.some.injEq] at h
    subst h
    simp only [LoopState.kept, if_neg hp]
    exact ⟨trivial, trivial⟩

theorem go_bam_record_skip (o : LoopOptions) (hdr : Header) (junk : Nat) (rec : Alignment)
    (s : LoopState) (hp : passes_filter rec = false) :
    go_bam_record o hdr junk rec s = .done { s with recs := s.recs + 1 } := by
  simp only [go_bam_record, hp, Bool.false_eq_true, if_false]

theorem go_bam_record_done (o : LoopOptions) (hdr : Header) (junk : Nat) (rec : Alignment)
    (s s' : LoopState) (hp : passes_filter rec = true)
    (h : go_bam_record o hdr junk rec s = .done s') :
    ∃ sc r1 sa,
      (if o.bam.compute_coverage then
          (coverage_block o hdr junk rec (at_coverage_block o rec s)).map
            (fun p => (p.1, some p.2))
        else some (at_coverage_block o rec s, none)) = some (sc, r1)
      ∧ sa.kept = sc.kept ∧ sa.ptid = rec.core.tid
      ∧ s' = cigar_block o hdr rec sa := by
  simp only [go_bam_record, hp, if_true, go_bam_body] at h
  cases hc : (if o.bam.compute_coverage then
          (coverage_block o hdr junk rec (at_coverage_block o rec s)).map
            (fun p => (p.1, some p.2))
        else some (at_coverage_block o rec s, none)) with
  | none =>
    simp only [at_coverage_block] at hc
    simp only [hc] at h
    cases h
  | some p =>
    obtain ⟨sc, r1⟩ := p
    simp only [at_coverage_block] at hc
    simp only [hc] at h
    obtain ⟨m1, m2⟩ := middle_blocks_kept o hdr rec (end_coordinate o junk rec r1) sc
    by_cases ha : o.compute_alts = true
    · simp only [ha, if_true] at h
      cases hb : alts_block o rec (middle_blocks o hdr rec (end_coordinate o junk rec r1) sc) with
      | done sa =>
        simp only [hb, Outcome.done.injEq] at h
        obtain ⟨a1, a2⟩ := alts_block_kept o rec _ sa hb
        exact ⟨sc, r1, sa, rfl, a1.trans m1, a2.trans m2, h.symm⟩
      | thrown => simp only [hb] at h; cases h
      | aborted => simp only [hb] at h; cases h
      | overrun => simp only [hb] at h; cases h
    · simp only [ha, Bool.false_eq_true, if_false, Outcome.done.injEq] at h
      exact ⟨sc, r1, _, rfl, m1, m2, h.symm⟩

theorem coverage_block_some (o : LoopOptions) (hdr : Header) (junk : Nat) (rec : Alignment)
    (s sc : LoopState) (r : CovResult) (h : coverage_block o hdr junk rec s = some (sc, r)) :
    ∃ sb, (if rec.core.tid ≠ s.ptid then contig_boundary o hdr s else some s) = some sb
      ∧ r = calculate_coverage rec.core sb.coverages sb.unique_coverages true o.double_count
          o.bam.bw_unique_min_qual sb.overlapping_mates 0 junk
      ∧ sc.kept = (r.coverages, r.unique_coverages, r.overlapping_mates, sb.jx, sb.cigar_str)
      ∧ sc.ptid = sb.ptid := by
  unfold coverage_block at h
  cases hb : (if rec.core.tid ≠ s.ptid then contig_boundary o hdr s else some s) with
  | none => rw [hb] at h; cases h
  | some sb =>
    rw [hb] at h
    simp only [Option.map_some', Option.some.injEq, Prod.mk.injEq] at h
    obtain ⟨h1, h2⟩ := h
    subst h1
    subst h2
    exact ⟨sb, rfl, rfl, rfl, rfl⟩

/-- C35: a record flagged unmapped or secondary leaves every variable of the loop as it was,
the count `recs` of the records seen apart, which grows by one. -/
theorem go_bam_record_filtered (o : LoopOptions) (hdr : Header) (junk : Nat) (rec : Alignment)
    (s : LoopState)
    (h : flag_set rec.core.flag BAM_FUNMAP = true ∨ flag_set rec.core.flag BAM_FSECONDARY = true) :
    go_bam_record o hdr junk rec s = .done { s with recs := s.recs + 1 } := by
  apply go_bam_record_skip
  simp only [passes_filter]
  rcases h with h | h <;> simp [h]

theorem go_bam_record_filtered_witness :
    (flag_set unmapped_read.core.flag BAM_FUNMAP = true
        ∨ flag_set unmapped_read.core.flag BAM_FSECONDARY = true)
      ∧ go_bam_record coverage_options two_contigs 0 unmapped_read state_on_contig_1
        = .done { state_on_contig_1 with recs := state_on_contig_1.recs + 1 } :=
  ⟨Or.inl (by decide),
    go_bam_record_filtered coverage_options two_contigs 0 unmapped_read state_on_contig_1
      (Or.inl (by decide))⟩

theorem go_bam_records_same_contig (o : LoopOptions) (hdr : Header) (junk : Nat)
    (hcc : o.bam.compute_coverage = true) (t : Int) :
    ∀ (rest : List Alignment) (s s' : LoopState) (c : (Nat → Nat) × (Nat → Nat) × Read2Len),
      go_bam_records o hdr junk rest s = .done s' → s.ptid = t →
      (∀ r ∈ rest, passes_filter r = true → r.core.tid = t) →
      CoverageIs o s c → CoverageIs o s' (contig_coverage o junk rest c) := by
  intro rest
  induction rest with
  | nil =>
    intro s s' c h _ _ hc
    simp only [go_bam_records, Outcome.done.injEq] at h
    subst h
    exact hc
  | cons r rest ih =>
    intro s s' c h ht hall hc
    simp only [go_bam_records] at h
    cases h1 : go_bam_record o hdr junk r s with
    | thrown => simp only [h1] at h; cases h
    | aborted => simp only [h1] at h; cases h
    | overrun => simp only [h1] at h; cases h
    | done s1 =>
      simp only [h1] at h
      by_cases hp : passes_filter r = true
      · obtain ⟨sc, r1, sa, e1, e2, e3, e4⟩ := go_bam_record_done o hdr junk r s s1 hp h1
        rw [if_pos hcc] at e1
        cases hcb : coverage_block o hdr junk r (at_coverage_block o r s) with
        | none => rw [hcb] at e1; cases e1
        | some p =>
          obtain ⟨sc2, res⟩ := p
          rw [hcb] at e1
          simp only [Option.map_some', Option.some.injEq, Prod.mk.injEq] at e1
          obtain ⟨e1a, _⟩ := e1
          subst e1a
          obtain ⟨sb, b1, b2, b3, b4⟩ := coverage_block_some o hdr junk r _ _ _ hcb
          have hat : (at_coverage_block o r s).kept = s.kept
              ∧ (at_coverage_block o r s).ptid = s.ptid :=
            count_record_kept o r _
          have htid : r.core.tid = (at_coverage_block o r s).ptid := by
            rw [hat.2, ht]
            exact hall r (List.mem_cons_self _ _) hp
          rw [if_neg (by simpa using htid)] at b1
          simp only [Option.some.injEq] at b1
          subst b1
          obtain ⟨k1, k2, k3, k4⟩ := cigar_block_kept o hdr r sa
          simp only [LoopState.kept, Prod.mk.injEq] at e2 b3 hat
          obtain ⟨hc1, hc2, hc3⟩ := hc
          have hs1 : CoverageIs o s1
              (contig_coverage o junk [r] c) := by
            simp only [contig_coverage, hp, if_true]
            subst e4
            refine ⟨?_, ?_, ?_⟩
            · intro i hi
              rw [k1, e2.1, b3.1, b2, hat.1.1, hat.1.2.2.1, hc3]
              exact (calculate_coverage_agree r.core _ _ _ _ true o.double_count _ _ 0 junk i).1
                (hc1 i hi)
            · intro hu i hi
              rw [k2, e2.2.1, b3.2.1, b2, hat.1.2.1, hat.1.2.2.1, hc3]
              exact (calculate_coverage_agree r.core _ _ _ _ true o.double_count _ _ 0 junk
                i).2.1 (hc2 hu i hi)
            · rw [k3, e2.2.2.1, b3.2.2.1, b2, hat.1.2.2.1, hc3]
              exact (calculate_coverage_agree r.core s.coverages s.unique_coverages c.1 c.2.1
                true o.double_count _ _ 0 junk 0).2.2.1
          have hpt : s1.ptid = t := by
            subst e4
            rw [k4, e3]
            exact hall r (List.mem_cons_self _ _) hp
          have := ih s1 s' _ h hpt (fun x hx => hall x (List.mem_cons_of_mem _ hx)) hs1
          simpa only [contig_coverage, hp, if_true] using this
      · have hp2 : passes_filter r = false := by simpa using hp
        rw [go_bam_record_skip o hdr junk r s hp2] at h1
        simp only [Outcome.done.injEq] at h1
        subst h1
        have := ih _ s' c h ht (fun x hx => hall x (List.mem_cons_of_mem _ hx)) hc
        simpa only [contig_coverage, hp2, Bool.false_eq_true, if_false] using this

theorem array_cells_congr (f g : Nat → Nat) (len : Nat) (h : ∀ i, i < len → f i = g i) :
    array_cells f len = array_cells g len := by
  simp only [array_cells]
  apply List.map_congr_left
  intro i hi
  exact h i (List.mem_range.mp hi)

/-- C31: for a record that passes the filter and lies on another contig than the passing
record before it, the block of the contig boundary leaves every cell of `coverages` at 0, every
cell of `unique_coverages` at 0 when `unique` is set, and the mate store empty, before
`calculate_coverage` counts the record; after the records that follow on that contig the two
arrays and the store are what `calculate_coverage` makes of zeroed arrays and an empty store on
the passing records of the contig, whatever the state was before, and so are the cells read
when the contig is finished. -/
theorem contig_change_resets (o : LoopOptions) (hdr : Header) (junk : Nat) (rec : Alignment)
    (rest : List Alignment) (s s' : LoopState) (hcc : o.bam.compute_coverage = true)
    (hp : passes_filter rec = true) (ht : rec.core.tid ≠ s.ptid)
    (hinv : s.ptid = -1 → s.overlapping_mates = [])
    (hrest : ∀ r ∈ rest, passes_filter r = true → r.core.tid = rec.core.tid)
    (hrun : go_bam_records o hdr junk (rec :: rest) s = .done s') :
    (∃ sb, contig_boundary o hdr (at_coverage_block o rec s) = some sb
        ∧ CoverageIs o sb (zeros, zeros, []))
      ∧ CoverageIs o s' (contig_coverage o junk (rec :: rest) (zeros, zeros, []))
      ∧ ∀ len : Nat, (len : Int) ≤ o.chr_size →
          array_cells s'.coverages len
            = array_cells (contig_coverage o junk (rec :: rest) (zeros, zeros, [])).1 len := by
  simp only [go_bam_records] at hrun
  cases h1 : go_bam_record o hdr junk rec s with
  | thrown => simp only [h1] at hrun; cases hrun
  | aborted => simp only [h1] at hrun; cases hrun
  | overrun => simp only [h1] at hrun; cases hrun
  | done s1 =>
    simp only [h1] at hrun
    obtain ⟨sc, r1, sa, e1, e2, e3, e4⟩ := go_bam_record_done o hdr junk rec s s1 hp h1
    rw [if_pos hcc] at e1
    cases hcb : coverage_block o hdr junk rec (at_coverage_block o rec s) with
    | none => rw [hcb] at e1; cases e1
    | some p =>
      obtain ⟨sc2, res⟩ := p
      rw [hcb] at e1
      simp only [Option.map_some', Option.some.injEq, Prod.mk.injEq] at e1
      obtain ⟨e1a, _⟩ := e1
      subst e1a
      obtain ⟨sb, b1, b2, b3, b4⟩ := coverage_block_some o hdr junk rec _ _ _ hcb
      have hat : (at_coverage_block o rec s).kept = s.kept
          ∧ (at_coverage_block o rec s).ptid = s.ptid := count_record_kept o rec _
      have htid : rec.core.tid ≠ (at_coverage_block o rec s).ptid := by
        rw [hat.2]
        exact ht
      rw [if_pos htid] at b1
      obtain ⟨c1, c2⟩ := contig_boundary_kept o hdr _ sb b1
      simp only [LoopState.kept, Prod.mk.injEq] at e2 b3 hat c1
      have hsb : CoverageIs o sb (zeros, zeros, []) := by
        refine ⟨?_, ?_, ?_⟩
        · intro i hi
          rw [c1.1]
          simp only [reset_array, hi, if_true, zeros]
        · intro hu i hi
          rw [c1.2.1]
          simp only [hu, if_true, reset_array, hi, zeros]
        · rw [c1.2.2.1, hat.2, hat.1.2.2.1]
          by_cases hm : s.ptid = -1
          · simp only [hm, ne_eq, not_true_eq_false, if_false]
            exact hinv hm
          · simp only [ne_eq, hm, not_false_eq_true, if_true]
      obtain ⟨k1, k2, k3, k4⟩ := cigar_block_kept o hdr rec sa
      obtain ⟨hc1, hc2, hc3⟩ := hsb
      have hs1 : CoverageIs o s1 (contig_coverage o junk [rec] (zeros, zeros, [])) := by
        simp only [contig_coverage, hp, if_true]
        subst e4
        refine ⟨?_, ?_, ?_⟩
        · intro i hi
          rw [k1, e2.1, b3.1, b2, hc3]
          exact (calculate_coverage_agree rec.core _ _ _ _ true o.double_count _ _ 0 junk i).1
            (hc1 i hi)
        · intro hu i hi
          rw [k2, e2.2.1, b3.2.1, b2, hc3]
          exact (calculate_coverage_agree rec.core _ _ _ _ true o.double_count _ _ 0 junk
            i).2.1 (hc2 hu i hi)
        · rw [k3, e2.2.2.1, b3.2.2.1, b2, hc3]
          exact (calculate_coverage_agree rec.core sb.coverages sb.unique_coverages zeros zeros
            true o.double_count _ _ 0 junk 0).2.2.1
      have hpt : s1.ptid = rec.core.tid := by
        subst e4
        rw [k4, e3]
      have hfin := go_bam_records_same_contig o hdr junk hcc rec.core.tid rest s1 s' _ hrun hpt
        hrest hs1
      have hfin2 : CoverageIs o s' (contig_coverage o junk (rec :: rest) (zeros, zeros, [])) := by
        simpa only [contig_coverage, hp, if_true] using hfin
      refine ⟨⟨sb, b1, hc1, hc2, hc3⟩, hfin2, ?_⟩
      intro len hlen
      apply array_cells_congr
      intro i hi
      exact hfin2.1 i (by omega)

theorem contig_change_resets_witness :
    coverage_options.bam.compute_coverage = true
      ∧ passes_filter (Alignment.of mate_a 80) = true
      ∧ (Alignment.of mate_a 80).core.tid ≠ state_on_contig_1.ptid
      ∧ (state_on_contig_1.ptid = -1 → state_on_contig_1.overlapping_mates = [])
      ∧ (∀ r ∈ [Alignment.of mate_b (-80)],
          passes_filter r = true → r.core.tid = (Alignment.of mate_a 80).core.tid)
      ∧ CoverageIs coverage_options
          ((go_bam_records coverage_options two_contigs 0
            [Alignment.of mate_a 80, Alignment.of mate_b (-80)] state_on_contig_1).state state0)
          (contig_coverage coverage_options 0 [Alignment.of mate_a 80, Alignment.of mate_b (-80)]
            (zeros, zeros, [])) :=
  ⟨rfl, by decide, by decide, fun h => absurd h (by decide),
    fun r hr _ => by
      rw [List.mem_singleton] at hr
      rw [hr]
      rfl,
    (contig_change_resets coverage_options two_contigs 0 (Alignment.of mate_a 80)
      [Alignment.of mate_b (-80)] state_on_contig_1
      ((go_bam_records coverage_options two_contigs 0
        [Alignment.of mate_a 80, Alignment.of mate_b (-80)] state_on_contig_1).state state0)
      rfl (by decide) (by decide)
      (fun h => absurd h (by decide))
      (fun r hr _ => by
        rw [List.mem_singleton] at hr
        rw [hr]
        rfl)
      (by with_unfolding_all rfl)).2.1⟩

set_option maxRecDepth 100000 in
/-- Two mates on contig 0 after records on contig 1: the cells of contig 1, which all hold 7,
are printed when the first record of contig 0 arrives; after the two mates the store is empty
again and a cell outside the mates holds 0. -/
theorem contig_change_example :
    ((go_bam_records coverage_options two_contigs 0
        [Alignment.of mate_a 80, Alignment.of mate_b (-80)] state_on_contig_1).state
          state0).overlapping_mates = []
      ∧ ((go_bam_records coverage_options two_contigs 0
        [Alignment.of mate_a 80, Alignment.of mate_b (-80)] state_on_contig_1).state
          state0).coverages 190 = 0
      ∧ ((go_bam_records coverage_options two_contigs 0
        [Alignment.of mate_a 80] state_on_contig_1).state
          state0).cov_out.map (fun p => (p.1, p.2.out)) = [(1, [(0, 200, 7)])] :=
  ⟨by decide, by decide, by decide⟩

/-! ## The junction maps across a contig change -/

/-- C32, counterexample: a first mate on contig 0 whose mate lies on contig 1 is stored in
`jx_pairs`; after an unrelated record, the first one the loop sees on contig 1, the entry is
still in the map, and the second mate on contig 1 writes the line that was buffered on
contig 0 in front of its own. -/
theorem junction_entry_survives_contig_change :
    ((go_bam_records junction_options two_contigs 0 [jx_first_contig_0, plain_contig_1]
        state0).state state0).ptid = 1
      ∧ ((go_bam_records junction_options two_contigs 0 [jx_first_contig_0, plain_contig_1]
          state0).state state0).jx.jx_pairs
        = [("q", "chr1\t11\t0\t0\t10M100N10M\t21-120".data)]
      ∧ ((go_bam_records junction_options two_contigs 0
          [jx_first_contig_0, plain_contig_1, jx_second_contig_1] state0).state state0).jx
        = { jx_pairs := [], jx_counts := [],
            jxs_file :=
              "chr1\t11\t0\t0\t10M100N10M\t21-120\tchr2\t51\t1\t0\t10M50N20M\t61-110\n".data } := by
  decide

theorem lookup_filter_other {β : Type} (l : List (String × β)) (k q : String) (h : q ≠ k) :
    (l.filter (fun e => e.1 ≠ k)).lookup q = l.lookup q := by
  induction l with
  | nil => rfl
  | cons e l ih =>
    obtain ⟨a, b⟩ := e
    by_cases ha : a = k
    · rw [List.filter_cons_of_neg (by simp [ha])]
      have hq : (q == a) = false := by
        simp only [beq_eq_false_iff_ne, ne_eq]
        rw [ha]
        exact h
      simp only [List.lookup, hq]
      exact ih
    · rw [List.filter_cons_of_pos (by simp [ha])]
      by_cases hq : q = a
      · subst hq
        simp only [List.lookup, beq_self_eq_true]
      · have hq2 : (q == a) = false := by
          simp only [beq_eq_false_iff_ne, ne_eq]
          exact hq
        simp only [List.lookup, hq2]
        exact ih

theorem lookup_cons_other {β : Type} (l : List (String × β)) (k q : String) (v : β)
    (h : q ≠ k) : ((k, v) :: l).lookup q = l.lookup q := by
  have hq : (q == k) = false := by
    simp only [beq_eq_false_iff_ne, ne_eq]
    exact h
  simp only [List.lookup, hq]

theorem junction_step_other (rec : Bam1) (tlen : Int) (target_name cigar_str : List Char)
    (cl : List Nat) (st : JxPairs) (q : String) (h : q ≠ rec.qname) :
    (junction_step rec tlen target_name cigar_str cl st).jx_pairs.lookup q = st.jx_pairs.lookup q
      ∧ (junction_step rec tlen target_name cigar_str cl st).jx_counts.lookup q
        = st.jx_counts.lookup q := by
  unfold junction_step
  dsimp only
  split_ifs <;> refine ⟨?_, ?_⟩ <;>
    first
    | rfl
    | rw [lookup_cons_other _ _ _ _ h, lookup_filter_other _ _ _ h]
    | (dsimp only
       split <;> first | rfl | exact lookup_filter_other _ _ _ h)

theorem junction_step_own (rec : Bam1) (tlen : Int) (target_name cigar_str : List Char)
    (cl : List Nat) (st : JxPairs)
    (h : ¬ (flag_set rec.flag BAM_FPAIRED = true ∧ pair_tlen rec tlen < 0))
    (hs : (st.jx_pairs.lookup rec.qname).isSome = true) :
    ((junction_step rec tlen target_name cigar_str cl st).jx_pairs.lookup rec.qname).isSome
      = true := by
  unfold junction_step
  dsimp only
  by_cases hp : flag_set rec.flag BAM_FPAIRED = true
  · have hn : ¬ pair_tlen rec tlen < 0 := fun hh => h ⟨hp, hh⟩
    simp only [hp, if_true, hn, if_false]
    split_ifs <;> first | exact hs | (rw [lookup_cons_self]; rfl)
  · simp only [hp, Bool.false_eq_true, if_false]
    split_ifs <;> exact hs

theorem go_bam_record_jx (o : LoopOptions) (hdr : Header) (junk : Nat) (rec : Alignment)
    (s s' : LoopState) (hp : passes_filter rec = true)
    (h : go_bam_record o hdr junk rec s = .done s') :
    ∃ cigar_str cl,
      s'.jx = if o.bam.extract_junctions = true then
          junction_step rec.core rec.isize (hdr.target_name rec.core.tid).data cigar_str cl s.jx
        else s.jx := by
  obtain ⟨sc, r1, sa, e1, e2, _, e4⟩ := go_bam_record_done o hdr junk rec s s' hp h
  have hat : (at_coverage_block o rec s).kept = s.kept := (count_record_kept o rec _).1
  have hsc : sc.jx = s.jx := by
    by_cases hcc : o.bam.compute_coverage = true
    · rw [if_pos hcc] at e1
      cases hcb : coverage_block o hdr junk rec (at_coverage_block o rec s) with
      | none => rw [hcb] at e1; cases e1
      | some p =>
        obtain ⟨sc2, res⟩ := p
        rw [hcb] at e1
        simp only [Option.map_some', Option.some.injEq, Prod.mk.injEq] at e1
        obtain ⟨e1a, _⟩ := e1
        subst e1a
        obtain ⟨sb, b1, _, b3, _⟩ := coverage_block_some o hdr junk rec _ _ _ hcb
        simp only [LoopState.kept, Prod.mk.injEq] at b3 hat
        rw [b3.2.2.2.1]
        by_cases ht : rec.core.tid ≠ (at_coverage_block o rec s).ptid
        · rw [if_pos ht] at b1
          obtain ⟨c1, _⟩ := contig_boundary_kept o hdr _ sb b1
          simp only [LoopState.kept, Prod.mk.injEq] at c1
          rw [c1.2.2.2.1, hat.2.2.2.1]
        · rw [if_neg ht] at b1
          simp only [Option.some.injEq] at b1
          subst b1
          exact hat.2.2.2.1
    · rw [if_neg hcc] at e1
      simp only [Option.some.injEq, Prod.mk.injEq] at e1
      obtain ⟨e1a, _⟩ := e1
      subst e1a
      simp only [LoopState.kept, Prod.mk.injEq] at hat
      exact hat.2.2.2.1
  simp only [LoopState.kept, Prod.mk.injEq] at e2
  have hsa : sa.jx = s.jx := e2.2.2.2.1.trans hsc
  subst e4
  unfold cigar_block
  dsimp only
  by_cases hx : o.bam.extract_junctions = true
  · simp only [hx, if_true]
    exact ⟨_, _, by rw [hsa]⟩
  · simp only [hx, Bool.false_eq_true, if_false]
    exact ⟨[], [], hsa⟩

/-- C32, as the code has it: a record of the loop, on whatever contig, leaves the entries
that `jx_pairs` and `jx_counts` hold under other names as they are, and the entry under its own
name stays in `jx_pairs` unless the record passes the filter in a run with `--junctions`, is
paired, and has a negative template length (-1000 for a mate on an earlier contig). -/
theorem junction_entry_kept (o : LoopOptions) (hdr : Header) (junk : Nat) (rec : Alignment)
    (s s' : LoopState) (q : String) (h : go_bam_record o hdr junk rec s = .done s') :
    (q ≠ rec.core.qname →
        s'.jx.jx_pairs.lookup q = s.jx.jx_pairs.lookup q
          ∧ s'.jx.jx_counts.lookup q = s.jx.jx_counts.lookup q)
      ∧ (¬ (o.bam.extract_junctions = true ∧ passes_filter rec = true
            ∧ flag_set rec.core.flag BAM_FPAIRED = true ∧ pair_tlen rec.core rec.isize < 0) →
          (s.jx.jx_pairs.lookup rec.core.qname).isSome = true →
          (s'.jx.jx_pairs.lookup rec.core.qname).isSome = true) := by
  by_cases hp : passes_filter rec = true
  · obtain ⟨cigar_str, cl, e⟩ := go_bam_record_jx o hdr junk rec s s' hp h
    by_cases hx : o.bam.extract_junctions = true
    · rw [if_pos hx] at e
      rw [e]
      exact ⟨fun hq => junction_step_other _ _ _ _ _ _ q hq,
        fun hn hs => junction_step_own _ _ _ _ _ _ (fun hh => hn ⟨hx, hp, hh.1, hh.2⟩) hs⟩
    · rw [if_neg hx] at e
      rw [e]
      exact ⟨fun _ => ⟨rfl, rfl⟩, fun _ hs => hs⟩
  · have hp2 : passes_filter rec = false := by simpa using hp
    rw [go_bam_record_skip o hdr junk rec s hp2] at h
    simp only [Outcome.done.injEq] at h
    subst h
    exact ⟨fun _ => ⟨rfl, rfl⟩, fun _ hs => hs⟩

theorem junction_entry_kept_witness :
    "q" ≠ plain_contig_1.core.qname
      ∧ ((go_bam_record junction_options two_contigs 0 jx_first_contig_0 state0).state
          state0).jx.jx_pairs.lookup "q" = some "chr1\t11\t0\t0\t10M100N10M\t21-120".data
      ∧ ((go_bam_record junction_options two_contigs 0 plain_contig_1
            ((go_bam_record junction_options two_contigs 0 jx_first_contig_0 state0).state
              state0)).state state0).jx.jx_pairs.lookup "q"
        = ((go_bam_record junction_options two_contigs 0 jx_first_contig_0 state0).state
            state0).jx.jx_pairs.lookup "q" :=
  ⟨by decide, by decide,
    ((junction_entry_kept junction_options two_contigs 0 plain_contig_1
      ((go_bam_record junction_options two_contigs 0 jx_first_contig_0 state0).state state0)
      ((go_bam_record junction_options two_contigs 0 plain_contig_1
        ((go_bam_record junction_options two_contigs 0 jx_first_contig_0 state0).state
          state0)).state state0)
      "q" (by with_unfolding_all rfl)).1 (by decide)).1⟩

/-! ## The files of a worker whose contigs all have intervals -/

theorem process_bigwig_chrom_rel (op : Op) (keep_order_idx : Int) (st1 st2 : BWFileState)
    (c : String × List Interval) (h : StoreRel st1 st2) :
    Option.Rel StoreRel (process_bigwig_chrom op keep_order_idx true st1 c)
      (process_bigwig_chrom op keep_order_idx true st2 c) := by
  obtain ⟨h1, h2, h3, h4, h5⟩ := h
  unfold process_bigwig_chrom
  rw [← h1, ← h4]
  cases hl : st1.amap.lookup c.1 with
  | none => exact Option.Rel.some ⟨h1, h2, h3, h4, h5⟩
  | some annotations =>
    dsimp only
    by_cases he : c.2.length = 0
    · rw [if_pos he, if_pos he]
      exact Option.Rel.some ⟨h1, h2, h3, h4, h5⟩
    · rw [if_neg he, if_neg he]
      cases hp : process_bigwig_contig c.2 annotations op keep_order_idx true
          st1.annotated_auc with
      | none => exact Option.Rel.none
      | some r =>
        simp only [Option.map_some', if_true]
        refine Option.Rel.some ⟨rfl, by rw [h2], by rw [h3], rfl, ?_⟩
        intro k hk
        simp only at hk ⊢
        by_cases hkc : k = c.1
        · rw [hkc, lookup_cons_self, lookup_cons_self]
        · rw [lookup_cons_other _ _ _ _ hkc, lookup_cons_other _ _ _ _ hkc,
            lookup_filter_other _ _ _ hkc, lookup_filter_other _ _ _ hkc]
          apply h5
          rcases List.mem_append.mp hk with hk | hk
          · exact (List.mem_filter.mp hk).1
          · rw [List.mem_singleton] at hk
            exact absurd hk hkc

theorem process_bigwig_loop_rel (op : Op) (keep_order_idx : Int)
    (bw : List (String × List Interval)) :
    ∀ (st1 st2 : BWFileState), StoreRel st1 st2 →
      Option.Rel StoreRel (process_bigwig_loop op keep_order_idx true bw st1)
        (process_bigwig_loop op keep_order_idx true bw st2) := by
  induction bw with
  | nil => intro st1 st2 h; exact Option.Rel.some h
  | cons c rest ih =>
    intro st1 st2 h
    simp only [process_bigwig_loop]
    have hc := process_bigwig_chrom_rel op keep_order_idx st1 st2 c h
    cases h1 : process_bigwig_chrom op keep_order_idx true st1 c with
    | none =>
      rw [h1] at hc
      cases h2 : process_bigwig_chrom op keep_order_idx true st2 c with
      | none => exact Option.Rel.none
      | some r2 => rw [h2] at hc; cases hc
    | some r1 =>
      rw [h1] at hc
      cases h2 : process_bigwig_chrom op keep_order_idx true st2 c with
      | none => rw [h2] at hc; cases hc
      | some r2 =>
        rw [h2] at hc
        cases hc with
        | some hr => exact ih r1 r2 hr

theorem print_local_lines_nil (c : String) (lv : Option (List ℚ)) (z : Nat) :
    print_local_lines c lv [] z = some [] := by
  cases lv <;> rfl

theorem output_all_coverage_local_congr (annotations : AnnotationMap ℚ)
    (s1 s2 : LocalStore) (chrm_order : List String)
    (h : ∀ c ∈ chrm_order, s1.lookup c = s2.lookup c ∨ (annotations.lookup c).getD [] = []) :
    output_all_coverage_local annotations s1 chrm_order
      = output_all_coverage_local annotations s2 chrm_order := by
  induction chrm_order with
  | nil => rfl
  | cons c rest ih =>
    simp only [output_all_coverage_local]
    rw [ih (fun x hx => h x (List.mem_cons_of_mem _ hx))]
    rcases h c (List.mem_cons_self _ _) with hc | hc
    · rw [hc]
    · rw [hc, print_local_lines_nil, print_local_lines_nil]

/-- The lines a worker writes for a file do not depend on the files it processed before when
every contig of the BED file that has regions is a contig of the file with intervals: they are
the lines of a worker that starts with that file. -/
theorem process_bigwig_worker_file_alone (annotations : AnnotationMap ℚ)
    (chrm_order : List String) (op : Op) (bw : BigWigFile) (store_local : LocalStore)
    (r0 : BWFileState)
    (h0 : process_bigwig bw 0 annotations 2 op (some []) = some r0)
    (hcov : ∀ c ∈ chrm_order, c ∈ r0.seen ∨ (annotations.lookup c).getD [] = []) :
    process_bigwig_worker_loop annotations chrm_order 2 op [bw] store_local
      = process_bigwig_worker_loop annotations chrm_order 2 op [bw] [] := by
  have hrel := process_bigwig_loop_rel op 2 bw
    { amap := annotations, seen := [], afp := [], annotated_auc := 0,
      store_local := store_local }
    { amap := annotations, seen := [], afp := [], annotated_auc := 0, store_local := [] }
    ⟨rfl, rfl, rfl, rfl, fun k hk => by cases hk⟩
  have h0b : process_bigwig_loop op 2 true bw
      { amap := annotations, seen := [], afp := [], annotated_auc := 0, store_local := [] }
      = some r0 := h0
  have hs : process_bigwig bw 0 annotations 2 op (some store_local)
      = process_bigwig_loop op 2 true bw
        { amap := annotations, seen := [], afp := [], annotated_auc := 0,
          store_local := store_local } := rfl
  simp only [process_bigwig_worker_loop, h0, hs]
  rw [h0b] at hrel
  cases h1 : process_bigwig_loop op 2 true bw
      { amap := annotations, seen := [], afp := [], annotated_auc := 0,
        store_local := store_local } with
  | none => rw [h1] at hrel; cases hrel
  | some r1 =>
    rw [h1] at hrel
    cases hrel with
    | some hr =>
      obtain ⟨_, k2, k3, _, k5⟩ := hr
      simp only [if_true, Option.map_some', k3]
      rw [output_all_coverage_local_congr annotations r1.store_local r0.store_local chrm_order]
      intro c hc
      rcases hcov c hc with h | h
      · left
        exact k5 c (k2 ▸ h)
      · right
        exact h

theorem process_bigwig_worker_file_alone_witness :
    process_bigwig_worker_loop one_region ["chr1"] 2 Op.csum [bw_five] [("chr1", [70])]
      = process_bigwig_worker_loop one_region ["chr1"] 2 Op.csum [bw_five] [] :=
  process_bigwig_worker_file_alone one_region ["chr1"] Op.csum bw_five [("chr1", [70])]
    ((process_bigwig bw_five 0 one_region 2 Op.csum (some [])).getD
      { amap := [], seen := [], afp := [], annotated_auc := 0, store_local := [] })
    (by decide) (by decide)

/-! ## What print_array writes -/

theorem emit_run_bw (sz : Bool) (nl : Int) (st : PAState) (i : Nat) (h : BwInv st) :
    BwInv (emit_run sz false true nl st i) := by
  simp only [BwInv] at *
  by_cases hv : st.running_value > 0 <;> cases sz <;>
    by_cases hf : st.first_print = true <;>
    simp [emit_run, hv, hf, h]

theorem print_array_step_bw (sz : Bool) (nl : Int) (st : PAState) (i x : Nat)
    (h : BwInv st) : BwInv (print_array_step sz false true nl st i x) := by
  simp only [print_array_step]
  by_cases hc : st.first = true ∨ st.running_value ≠ float_of_uint32 x
  · rw [if_pos hc]
    by_cases hf : st.first = true
    · simp only [hf, not_true_eq_false, if_false]
      exact h
    · simp only [hf, not_false_eq_true, if_true]
      exact emit_run_bw sz nl st i h
  · rw [if_neg hc]
    exact h

theorem print_array_loop_bw (sz : Bool) (nl : Int) (xs : List Nat) :
    ∀ (i : Nat) (st : PAState), BwInv st →
      BwInv (print_array_loop sz false true nl xs i st) := by
  induction xs with
  | nil => intro i st h; exact h
  | cons x xs ih =>
    intro i st h
    simp only [print_array_loop]
    exact ih _ _ (print_array_step_bw sz nl st i x h)

/-- In the BigWig mode every run counted is handed to the writer, in order. -/
theorem print_array_bw_eq_runs (arr : List Nat) (sz : Bool) (nl : Int) :
    (print_array arr sz true false nl).bw.map (fun c => c.2)
      = (print_array arr sz true false nl).runs := by
  have hinv : BwInv (print_array_loop sz false true nl arr 0 PAState.init) :=
    print_array_loop_bw sz nl arr 0 PAState.init rfl
  simp only [print_array]
  generalize print_array_loop sz false true nl arr 0 PAState.init = st at *
  simp only [BwInv] at hinv
  by_cases h1 : st.first = true <;> by_cases h2 : st.running_value > 0 <;> cases sz <;>
    by_cases h3 : st.first_print = true <;> simp [emit_last, h1, h2, h3, hinv]

/-- C3: for the array of the one cell 16777217, which is `2 ^ 24 + 1`, `print_array` returns the
AUC 16777216, one less than the cell, in the text mode, in the BigWig mode and with
`just_auc`. -/
theorem print_array_auc_rounded :
    (print_array [16777217] false false false 100).auc = 16777216
      ∧ (print_array [16777217] false true false 100).auc = 16777216
      ∧ (print_array [16777217] false false true 100).auc = 16777216
      ∧ [16777217].sum = 16777217 := by
  decide

/-- C4: the cells 16777216 and 16777217 are written as one run of the value 16777216, in the
text mode and in the BigWig mode, and the cell 16777217 alone as a run of the value
16777216. -/
theorem print_array_line_rounded :
    (print_array [16777216, 16777217] false false false 100).out = [(0, 2, 16777216)]
      ∧ (print_array [16777216, 16777217] false true false 100).bw
        = [(true, (0, 2, 16777216))]
      ∧ (print_array [16777217] false false false 100).out = [(0, 1, 16777216)] := by
  decide

/-- The AUC returned is the sum of `(stop - start) * value` over the lines written in the text
mode and over the runs handed to the writer in the BigWig mode, with `skip_zeros` off; it is the
sum of the cells when every cell is at most `2 ^ 24`, whatever the mode. -/
theorem print_array_auc_written (arr : List Nat) (ja : Bool) (nl : Int) :
    (print_array arr false false ja nl).auc
        = runs_area (print_array arr false false false nl).out
      ∧ (print_array arr false true ja nl).auc
        = runs_area ((print_array arr false true false nl).bw.map (fun c => c.2))
      ∧ ((∀ x ∈ arr, x ≤ 2 ^ 24) →
          ∀ sz bw, (print_array arr sz bw ja nl).auc = arr.sum) := by
  refine ⟨?_, ?_, ?_⟩
  · rw [print_array_out_eq_runs arr false nl (Or.inl rfl)]
    exact print_array_auc_runs arr false false ja nl
  · rw [print_array_bw_eq_runs]
    exact print_array_auc_runs arr false true ja nl
  · intro h sz bw
    rw [auc_of_float_cells, map_float_exact arr h]

/-- With `skip_zeros` off the lines written in the text mode for a non-empty array tile
`[0, n)` in increasing order, adjacent lines carry different values, and every cell inside a
line has the value of the line as its single precision value; when every cell is at most
`2 ^ 24` the lines expand to the array.  The same holds of the runs handed to the writer in the
BigWig mode. -/
theorem print_array_written_tile (arr : List Nat) (nl : Int) (h : 0 < arr.length) :
    Tiles (print_array arr false false false nl).out 0 arr.length
      ∧ List.Chain' (fun a b : Run => a.2.2 ≠ b.2.2) (print_array arr false false false nl).out
      ∧ (∀ r ∈ (print_array arr false false false nl).out, ∀ j, r.1 ≤ j → j < r.2.1 →
          (arr.map float_of_uint32)[j]? = some r.2.2)
      ∧ ((∀ x ∈ arr, x ≤ 2 ^ 24) →
          expand_runs (print_array arr false false false nl).out = arr)
      ∧ (print_array arr false true false nl).bw.map (fun c => c.2)
        = (print_array arr false false false nl).out := by
  obtain ⟨t1, t2, t3, _, t5⟩ := print_array_runs_tile arr false nl h
  rw [print_array_out_eq_runs arr false nl (Or.inl rfl)]
  refine ⟨t1, t2, t3, fun hb => (t5 hb).1, ?_⟩
  rw [print_array_bw_eq_runs, print_array_runs_eq, print_array_runs_eq]

/-! ## The buffer cigar_str -/

theorem cigar_bytes_written_text (cigar : List Nat) (h : cigar ≠ []) :
    cigar_bytes_written cigar = (cigar_text cigar).length + 1 := by
  simp only [cigar_bytes_written, h, if_false, cigar_text]
  congr 1
  induction cigar with
  | nil => exact absurd rfl h
  | cons c cs ih =>
    cases cs with
    | nil => simp
    | cons d ds =>
      have := ih (by simp)
      simp only [List.map_cons, List.sum_cons, List.flatMap_cons, List.length_append,
        List.length_singleton] at this ⊢
      omega

theorem cigar_bytes_written_ones (n : Nat) (h : 0 < n) :
    cigar_bytes_written (cigar_of_ones n) = 2 * n + 1 := by
  have hne : List.replicate n (bam_cigar_gen 1 BAM_CMATCH) ≠ [] := by
    cases n with
    | zero => omega
    | succ k => simp [List.replicate_succ]
  have h1 : Nat.toDigits 10 (bam_cigar_oplen (bam_cigar_gen 1 BAM_CMATCH)) = ['1'] := by decide
  simp only [cigar_bytes_written, cigar_of_ones, hne, if_false, List.map_replicate, h1,
    List.length_singleton, List.sum_replicate, smul_eq_mul]
  omega

/-- C22: two CIGARs for which the text in `cigar_str` does not read back as the CIGAR.  A record
without operation after a record `10M`: `process_cigar` writes nothing, the buffer keeps `10M`,
which reads back as one operation where the record has none.  A record of 5000 operations `1M`:
the text has 10000 characters and its terminator is written behind the 10000 bytes of the
buffer. -/
theorem process_cigar_text_not_cigar :
    (process_cigar [] (process_cigar [bam_cigar_gen 10 BAM_CMATCH] [] [] ()).1 [] ()).1
        = "10M".data
      ∧ read_cigar_text "10M".data none = some [(0, 10)]
      ∧ read_cigar_text "10M".data none
        ≠ some (([] : List Nat).map (fun c => (bam_cigar_op c, bam_cigar_oplen c)))
      ∧ cigar_bytes_written (cigar_of_ones 5000) = 10001
      ∧ process_cigar_cap cigar_str_size (cigar_of_ones 5000) [] [] () = none := by
  have h := cigar_bytes_written_ones 5000 (by decide)
  refine ⟨by decide, by decide, by decide, h, ?_⟩
  simp only [process_cigar_cap, h, cigar_str_size]
  rfl

/-- For a CIGAR that has an operation, whose operations have the codes of the table
`MIDNSHP=XB`, and whose text fits with its terminator into the buffer of `go_bam`,
`process_cigar` returns with the text of the CIGAR in the buffer, whatever the buffer held
before, and the reader of the grammar of CIGAR strings maps that text to the operations and
lengths of the CIGAR, in order. -/
theorem process_cigar_cap_round_trip {σ : Type} (cigar : List Nat) (cigar_str : List Char)
    (callbacks : List (Nat → Nat → σ → σ)) (out : σ)
    (hops : ∀ c ∈ cigar, bam_cigar_op c ≤ 9) (hne : cigar ≠ [])
    (hfit : (cigar_text cigar).length < cigar_str_size) :
    ∃ r, process_cigar_cap cigar_str_size cigar cigar_str callbacks out = some r
      ∧ r.1 = cigar_text cigar
      ∧ read_cigar_text r.1 none
        = some (cigar.map (fun c => (bam_cigar_op c, bam_cigar_oplen c))) := by
  have hb := cigar_bytes_written_text cigar hne
  have h := process_cigar_loop_text callbacks cigar [] cigar_str out hne
  simp only [List.length_nil, List.nil_append] at h
  have h1 : (process_cigar cigar cigar_str callbacks out).1 = cigar_text cigar := by
    simp only [process_cigar, h]
  refine ⟨process_cigar cigar cigar_str callbacks out, ?_, h1, ?_⟩
  · simp only [process_cigar_cap]
    rw [if_pos (by omega)]
  · rw [h1]
    exact read_cigar_text_cigar_text cigar hops

/-! ## parse_mdz: the range of int run and the buffer str -/

theorem wrap_int32_id (x : Int) (h0 : 0 ≤ x) (h1 : x < 2 ^ 31) : wrap_int32 x = x := by
  unfold wrap_int32
  omega

theorem wrap_int32_range (x : Int) : -2 ^ 31 ≤ wrap_int32 x ∧ wrap_int32 x < 2 ^ 31 := by
  unfold wrap_int32
  omega

theorem decimal_fold_ge (ds : List Char) :
    ∀ run : Nat, run ≤ ds.foldl (fun n c => n * 10 + (c.toNat - '0'.toNat)) run := by
  induction ds with
  | nil => intro run; exact le_refl _
  | cons d ds ih =>
    intro run
    simp only [List.foldl_cons]
    have := ih (run * 10 + (d.toNat - '0'.toNat))
    omega

theorem digit_run_append (ds : List Char) (hds : ds.all isdigit = true) (rest : List Char)
    (hrest : ∀ c ∈ rest.head?, isdigit c = false) (run : Nat)
    (hb : ds.foldl (fun n c => n * 10 + (c.toNat - '0'.toNat)) run < 2 ^ 31) :
    digit_run (ds ++ rest) (run : Int)
      = (((ds.foldl (fun n c => n * 10 + (c.toNat - '0'.toNat)) run : Nat) : Int), rest) := by
  induction ds generalizing run with
  | nil =>
    cases rest with
    | nil => rfl
    | cons c cs =>
      have hc : isdigit c = false := hrest c (by simp)
      simp [digit_run, hc]
  | cons d ds ih =>
    simp only [List.all_cons, Bool.and_eq_true] at hds
    simp only [List.foldl_cons] at hb
    have hge := decimal_fold_ge ds (run * 10 + (d.toNat - '0'.toNat))
    have h1 : wrap_int32 ((run : Int) * 10) = (run : Int) * 10 :=
      wrap_int32_id _ (by omega) (by omega)
    have h2 : wrap_int32 ((run : Int) * 10 + ((d.toNat - '0'.toNat : Nat) : Int))
        = ((run * 10 + (d.toNat - '0'.toNat) : Nat) : Int) := by
      rw [wrap_int32_id _ (by omega) (by omega)]
      push_cast
      rfl
    simp only [List.cons_append, digit_run, hds.1, if_true, List.foldl_cons, h1, h2]
    exact ih hds.2 _ hb

theorem parse_mdz_loop_tokens (ts : List MdzToken) :
    ∀ (fuel i : Nat) (ops : List MdzOp), tokens_maximal ts = true → tokens_fit i ts = true →
      (ts.flatMap MdzToken.text).length ≤ fuel →
      parse_mdz_loop fuel i (ts.flatMap MdzToken.text) ops
        = .done (ops ++ ts.flatMap MdzToken.ops) := by
  induction ts with
  | nil =>
    intro fuel i ops _ _ _
    cases fuel <;> simp [parse_mdz_loop]
  | cons t ts ih =>
    intro fuel i ops hmax hfit hfuel
    obtain ⟨hwf, hts, hmerge⟩ := tokens_maximal_cons t ts hmax
    simp only [List.flatMap_cons, List.length_append] at hfuel ⊢
    cases t with
    | digits ds =>
      cases ds with
      | nil => simp [MdzToken.wf] at hwf
      | cons d ds =>
        simp only [MdzToken.wf, List.all_cons, Bool.and_eq_true, decide_eq_true_eq,
          Bool.decide_and] at hwf
        simp only [tokens_fit, Bool.and_eq_true, decide_eq_true_eq] at hfit
        have hall : (d :: ds).all isdigit = true := by simp [hwf.2.1, hwf.2.2]
        have hrun := digit_run_append (d :: ds) hall (ts.flatMap MdzToken.text)
          (rest_head_not_digit ts hts (d :: ds) hmerge) 0 hfit.1
        simp only [MdzToken.text, List.length_cons] at hfuel
        obtain ⟨fuel, rfl⟩ : ∃ f, fuel = f + 1 := ⟨fuel - 1, by omega⟩
        simp only [MdzToken.text, List.cons_append, parse_mdz_loop, hwf.2.1, if_true]
        simp only [List.cons_append, Nat.cast_zero] at hrun
        simp only [List.append_eq, hrun]
        have hoff : i + ((d :: (ds ++ ts.flatMap MdzToken.text)).length
            - (ts.flatMap MdzToken.text).length) = i + (d :: ds).length := by
          simp only [List.length_cons, List.length_append]
          omega
        rw [hoff, ih fuel _ _ hts hfit.2 (by omega)]
        simp only [MdzToken.ops, decimal_value, Int.toNat_ofNat, gt_iff_lt, Nat.cast_pos]
        split_ifs <;> simp
    | letters ls =>
      cases ls with
      | nil => simp [MdzToken.wf] at hwf
      | cons d ds =>
        simp only [MdzToken.wf, List.all_cons, Bool.and_eq_true, decide_eq_true_eq,
          Bool.decide_and] at hwf
        simp only [tokens_fit, Bool.and_eq_true, decide_eq_true_eq] at hfit
        have hall : (d :: ds).all isalpha = true := by simp [hwf.2.1, hwf.2.2]
        have hrun := alpha_run_append (d :: ds) hall (ts.flatMap MdzToken.text)
          (rest_head_not_alpha ts hts _ (by intro ds0 h0; cases h0) hmerge)
        simp only [MdzToken.text, List.length_cons] at hfuel
        obtain ⟨fuel, rfl⟩ : ∃ f, fuel = f + 1 := ⟨fuel - 1, by omega⟩
        simp only [MdzToken.text, List.cons_append, parse_mdz_loop,
          isalpha_not_isdigit d hwf.2.1, hwf.2.1, if_true, Bool.false_eq_true, if_false]
        simp only [List.cons_append] at hrun
        simp only [List.append_eq, hrun]
        rw [if_pos (by simp), if_pos hfit.1, ih fuel _ _ hts hfit.2 (by omega)]
        simp [MdzToken.ops]
    | deletion ls =>
      cases ls with
      | nil => simp [MdzToken.wf] at hwf
      | cons d ds =>
        simp only [MdzToken.wf, List.all_cons, Bool.and_eq_true, decide_eq_true_eq,
          Bool.decide_and] at hwf
        simp only [tokens_fit, Bool.and_eq_true, decide_eq_true_eq] at hfit
        have hall : (d :: ds).all isalpha = true := by simp [hwf.2.1, hwf.2.2]
        have hrun := alpha_run_append (d :: ds) hall (ts.flatMap MdzToken.text)
          (rest_head_not_alpha ts hts _ (by intro ds0 h0; cases h0) hmerge)
        simp only [MdzToken.text, List.length_cons] at hfuel
        obtain ⟨fuel, rfl⟩ : ∃ f, fuel = f + 1 := ⟨fuel - 1, by omega⟩
        simp only [MdzToken.text, List.cons_append, parse_mdz_loop, caret_not_isdigit,
          caret_not_isalpha, if_true, Bool.false_eq_true, if_false]
        simp only [List.append_eq, hrun]
        rw [if_pos (by simp), if_pos hfit.1, ih fuel _ _ hts hfit.2 (by omega)]
        simp [MdzToken.ops]

/-- For every list of well-formed tokens whose runs are maximal and which are within the range
of `int run` and within the buffer `str`, `parse_mdz` on the concatenated text of the tokens
returns, in order, `(=, n)` for each run of digits of value `n > 0` and nothing for a run of
value 0, `(X, letters)` for each run of letters and `(^, letters)` for each `^` followed by
letters, the run being the number of letters. -/
theorem parse_mdz_tokens (ts : List MdzToken) (h : tokens_maximal ts = true)
    (hfit : tokens_fit 0 ts = true) :
    parse_mdz (ts.flatMap MdzToken.text) = .done (ts.flatMap MdzToken.ops) := by
  have := parse_mdz_loop_tokens ts (ts.flatMap MdzToken.text).length 0 [] h hfit (le_refl _)
  simpa [parse_mdz] using this

theorem parse_mdz_tokens_witness :
    tokens_maximal [.digits ['1', '0'], .letters ['A'], .digits ['5'], .deletion ['A', 'C'],
        .digits ['3']] = true ∧
    parse_mdz ['1', '0', 'A', '5', '^', 'A', 'C', '3']
      = .done [⟨'=', 10, []⟩, ⟨'X', 1, ['A']⟩, ⟨'=', 5, []⟩, ⟨'^', 2, ['A', 'C']⟩, ⟨'=', 3, []⟩] :=
  ⟨by decide,
   parse_mdz_tokens [.digits ['1', '0'], .letters ['A'], .digits ['5'], .deletion ['A', 'C'],
     .digits ['3']] (by decide) (by decide)⟩

theorem digit_run_length (s : List Char) : ∀ run, (digit_run s run).2.length ≤ s.length := by
  induction s with
  | nil => intro run; simp [digit_run]
  | cons c cs ih =>
    intro run
    simp only [digit_run]
    split_ifs
    · have := ih (wrap_int32 (wrap_int32 (run * 10) + ((c.toNat - '0'.toNat : Nat) : Int)))
      simp only [List.length_cons]
      omega
    · simp

theorem digit_run_range (s : List Char) :
    ∀ run : Int, -2 ^ 31 ≤ run → run < 2 ^ 31 →
      -2 ^ 31 ≤ (digit_run s run).1 ∧ (digit_run s run).1 < 2 ^ 31 := by
  induction s with
  | nil => intro run h0 h1; exact ⟨h0, h1⟩
  | cons c cs ih =>
    intro run h0 h1
    simp only [digit_run]
    split_ifs
    · have h := wrap_int32_range (wrap_int32 (run * 10) + ((c.toNat - '0'.toNat : Nat) : Int))
      exact ih _ h.1 h.2
    · exact ⟨h0, h1⟩

/-- The loop of `parse_mdz` never runs out of fuel when the fuel is the length of the string:
more fuel gives the same result. -/
theorem parse_mdz_loop_fuel (fuel : Nat) :
    ∀ (s : List Char) (i : Nat) (ops : List MdzOp) (extra : Nat), s.length ≤ fuel →
      parse_mdz_loop (fuel + extra) i s ops = parse_mdz_loop fuel i s ops := by
  induction fuel with
  | zero =>
    intro s i ops extra h
    have : s = [] := List.length_eq_zero.mp (by omega)
    subst this
    cases extra <;> rfl
  | succ fuel ih =>
    intro s i ops extra h
    cases s with
    | nil => simp [parse_mdz_loop]
    | cons c cs =>
      have he : fuel + 1 + extra = (fuel + extra) + 1 := by omega
      rw [he]
      simp only [List.length_cons] at h
      simp only [parse_mdz_loop]
      by_cases hd : isdigit c = true
      · simp only [hd, if_true]
        apply ih
        have := digit_run_length cs
          (wrap_int32 (wrap_int32 (0 * 10) + ((c.toNat - '0'.toNat : Nat) : Int)))
        simp only [digit_run, hd, if_true]
        omega
      · simp only [hd, Bool.false_eq_true, if_false]
        by_cases ha : isalpha c = true
        · simp only [ha, if_true]
          split_ifs
          · apply ih
            have := alpha_run_length cs
            simp only [alpha_run, ha, if_true]
            omega
          · rfl
          · rfl
        · simp only [ha, Bool.false_eq_true, if_false]
          by_cases hc : c = '^'
          · simp only [hc, if_true]
            split_ifs
            · apply ih
              have := alpha_run_length cs
              omega
            · rfl
            · rfl
          · simp only [hc, if_false]

theorem digit_run_split (s : List Char) : ∀ run, ∃ ds : List Char,
    ds.all isdigit = true ∧ s = ds ++ (digit_run s run).2
      ∧ ∀ c ∈ (digit_run s run).2.head?, isdigit c = false := by
  induction s with
  | nil => intro run; exact ⟨[], rfl, rfl, by simp [digit_run]⟩
  | cons c cs ih =>
    intro run
    by_cases hd : isdigit c = true
    · obtain ⟨ds, h1, h2, h4⟩ :=
        ih (wrap_int32 (wrap_int32 (run * 10) + ((c.toNat - '0'.toNat : Nat) : Int)))
      refine ⟨c :: ds, by simp [hd, h1], ?_, ?_⟩
      · simp only [digit_run, hd, if_true, List.cons_append]
        rw [← h2]
      · simp only [digit_run, hd, if_true]
        exact h4
    · refine ⟨[], rfl, ?_, ?_⟩
      · simp [digit_run, hd]
      · simp only [digit_run, hd, Bool.false_eq_true, if_false, List.head?_cons, Option.mem_def,
          Option.some.injEq]
        intro d hcd
        subst hcd
        simpa using hd

/-- Converse of the theorem on tokens: a string on which `parse_mdz` returns is a
concatenation of well-formed tokens with maximal runs, and every operation of the result is
within the struct `MdzOp`; every other string ends in the throw, in a failed assertion or in a
write outside `str`. -/
theorem parse_mdz_loop_done (fuel : Nat) :
    ∀ (s : List Char) (i : Nat) (ops0 ops : List MdzOp), s.length ≤ fuel →
      parse_mdz_loop fuel i s ops0 = .done ops → (∀ m ∈ ops0, m.fits) →
      (∃ ts, tokens_maximal ts = true ∧ ts.flatMap MdzToken.text = s) ∧ ∀ m ∈ ops, m.fits := by
  induction fuel with
  | zero =>
    intro s i ops0 ops h hdone h0
    have : s = [] := List.length_eq_zero.mp (by omega)
    subst this
    simp only [parse_mdz_loop, Outcome.done.injEq] at hdone
    subst hdone
    exact ⟨⟨[], rfl, rfl⟩, h0⟩
  | succ fuel ih =>
    intro s i ops0 ops h hdone h0
    cases s with
    | nil =>
      simp only [parse_mdz_loop, Outcome.done.injEq] at hdone
      subst hdone
      exact ⟨⟨[], rfl, rfl⟩, h0⟩
    | cons c cs =>
      simp only [List.length_cons] at h
      simp only [parse_mdz_loop] at hdone
      by_cases hd : isdigit c = true
      · simp only [hd, if_true] at hdone
        obtain ⟨ds, h1, h2, h4⟩ := digit_run_split (c :: cs) 0
        have hlen := digit_run_length cs
          (wrap_int32 (wrap_int32 (0 * 10) + ((c.toNat - '0'.toNat : Nat) : Int)))
        have hrange := digit_run_range (c :: cs) 0 (by norm_num) (by norm_num)
        have hne : ds ≠ [] := by
          intro h0
          subst h0
          simp only [List.nil_append] at h2
          have := h4 c (by rw [← h2]; simp)
          rw [hd] at this
          exact absurd this (by simp)
        obtain ⟨⟨ts, g1, g2⟩, g3⟩ := ih _ _ _ _ (by
          simp only [digit_run, hd, if_true]
          omega) hdone (by
          intro m hm
          split_ifs at hm with hpos
          · rcases List.mem_append.mp hm with hm | hm
            · exact h0 m hm
            · simp only [List.mem_singleton] at hm
              subst hm
              refine ⟨?_, ?_, ?_⟩
              · show 0 < (digit_run (c :: cs) 0).1.toNat
                omega
              · show (digit_run (c :: cs) 0).1.toNat < 2 ^ 31
                omega
              · show 0 < mdz_str_size
                decide
          · exact h0 m hm)
        refine ⟨⟨MdzToken.digits ds :: ts, ?_, ?_⟩, g3⟩
        · apply tokens_maximal_of_cons _ _ (by simp [MdzToken.wf, hne, h1]) g1
          intro u hu
          obtain ⟨d, hd1, hd2⟩ := tokens_head_char ts g1 u hu
          rw [g2] at hd1
          have hd3 := h4 d hd1
          cases u with
          | digits _ => simp only at hd2; rw [hd2] at hd3; exact absurd hd3 (by simp)
          | letters _ => rfl
          | deletion _ => rfl
        · simp only [List.flatMap_cons, MdzToken.text, g2]
          exact h2.symm
      · simp only [hd, Bool.false_eq_true, if_false] at hdone
        by_cases ha : isalpha c = true
        · simp only [ha, if_true] at hdone
          obtain ⟨h1, h2, h4⟩ := alpha_run_split (c :: cs)
          have hlen := alpha_run_length cs
          by_cases hpos : (alpha_run (c :: cs)).1.length > 0
          · simp only [hpos, if_true] at hdone
            by_cases hfit : i + (alpha_run (c :: cs)).1.length ≤ mdz_str_size
                ∧ (alpha_run (c :: cs)).1.length < mdz_str_size
            · rw [if_pos hfit] at hdone
              obtain ⟨⟨ts, g1, g2⟩, g3⟩ := ih _ _ _ _ (by
                simp only [alpha_run, ha, if_true]
                omega) hdone (by
                intro m hm
                rcases List.mem_append.mp hm with hm | hm
                · exact h0 m hm
                · simp only [List.mem_singleton] at hm
                  subst hm
                  have hs : mdz_str_size = 1024 := rfl
                  refine ⟨hpos, ?_, hfit.2⟩
                  show (alpha_run (c :: cs)).1.length < 2 ^ 31
                  omega)
              refine ⟨⟨MdzToken.letters (alpha_run (c :: cs)).1 :: ts, ?_, ?_⟩, g3⟩
              · apply tokens_maximal_of_cons _ _ (by
                  simp only [MdzToken.wf, Bool.decide_and, Bool.and_eq_true, decide_eq_true_eq]
                  exact ⟨by intro h0; rw [h0] at hpos; simp at hpos, h1⟩) g1
                intro u hu
                obtain ⟨d, hd1, hd2⟩ := tokens_head_char ts g1 u hu
                rw [g2] at hd1
                have hd3 := h4 d hd1
                cases u with
                | digits _ => rfl
                | letters _ => simp only at hd2; rw [hd2] at hd3; exact absurd hd3 (by simp)
                | deletion _ => rfl
              · simp only [List.flatMap_cons, MdzToken.text, g2]
                exact h2.symm
            · rw [if_neg hfit] at hdone
              cases hdone
          · simp [hpos] at hdone
        · simp only [ha, Bool.false_eq_true, if_false] at hdone
          by_cases hc : c = '^'
          · simp only [hc, if_true] at hdone
            obtain ⟨h1, h2, h4⟩ := alpha_run_split cs
            have hlen := alpha_run_length cs
            by_cases hpos : (alpha_run cs).1.length > 0
            · simp only [hpos, if_true] at hdone
              by_cases hfit : (alpha_run cs).1.length < mdz_str_size
              · rw [if_pos hfit] at hdone
                obtain ⟨⟨ts, g1, g2⟩, g3⟩ := ih _ _ _ _ (by omega) hdone (by
                  intro m hm
                  rcases List.mem_append.mp hm with hm | hm
                  · exact h0 m hm
                  · simp only [List.mem_singleton] at hm
                    subst hm
                    have hs : mdz_str_size = 1024 := rfl
                    refine ⟨hpos, ?_, hfit⟩
                    show (alpha_run cs).1.length < 2 ^ 31
                    omega)
                refine ⟨⟨MdzToken.deletion (alpha_run cs).1 :: ts, ?_, ?_⟩, g3⟩
                · apply tokens_maximal_of_cons _ _ (by
                    simp only [MdzToken.wf, Bool.decide_and, Bool.and_eq_true,
                      decide_eq_true_eq]
                    exact ⟨by intro h0; rw [h0] at hpos; simp at hpos, h1⟩) g1
                  intro u hu
                  obtain ⟨d, hd1, hd2⟩ := tokens_head_char ts g1 u hu
                  rw [g2] at hd1
                  have hd3 := h4 d hd1
                  cases u with
                  | digits _ => rfl
                  | letters _ => simp only at hd2; rw [hd2] at hd3; exact absurd hd3 (by simp)
                  | deletion _ => rfl
                · simp only [List.flatMap_cons, MdzToken.text, g2, hc, List.cons_append]
                  rw [← h2]
              · rw [if_neg hfit] at hdone
                cases hdone
            · simp [hpos] at hdone
          · simp [hc] at hdone

theorem parse_mdz_done (s : List Char) (ops : List MdzOp) (h : parse_mdz s = .done ops) :
    ∃ ts, tokens_maximal ts = true ∧ ts.flatMap MdzToken.text = s :=
  (parse_mdz_loop_done s.length s 0 [] ops (le_refl _) h (by simp)).1

/-- Every operation that `parse_mdz` returns is within the struct `MdzOp`. -/
theorem parse_mdz_ops_fit (s : List Char) (ops : List MdzOp) (h : parse_mdz s = .done ops) :
    ∀ m ∈ ops, m.fits :=
  (parse_mdz_loop_done s.length s 0 [] ops (le_refl _) h (by simp)).2

set_option maxRecDepth 100000 in
/-- C13: MD:Z strings on which `parse_mdz` does not give the operations of the string.  The
digits `4294967297` become `(=, 1)` and the digits `2147483648` before `A` become no operation,
because `int run` holds 32 bits; for a `^` followed by 1024 letters the terminator is written
behind the 1024 bytes of `str`; and for a letter that follows 1024 digits the loop of
lines 295-297 writes 1025 bytes into `str`.  On the string `10A5^AC3` the result is the one the
claim gives. -/
theorem parse_mdz_int_and_buffer :
    parse_mdz "4294967297".data = .done [⟨'=', 1, []⟩]
      ∧ parse_mdz "2147483648A".data = .done [⟨'X', 1, ['A']⟩]
      ∧ parse_mdz ('^' :: List.replicate 1024 'A') = .overrun
      ∧ parse_mdz (List.replicate 1024 '0' ++ ['A']) = .overrun
      ∧ parse_mdz "10A5^AC3".data
        = .done [⟨'=', 10, []⟩, ⟨'X', 1, ['A']⟩, ⟨'=', 5, []⟩, ⟨'^', 2, ['A', 'C']⟩,
            ⟨'=', 3, []⟩] := by
  refine ⟨by decide, by decide, by decide, by decide, by decide⟩

/-! ## process_bigwig on single inputs -/

set_option maxRecDepth 100000 in
/-- C10 (evaluation at the failing input): for the intervals `[0,100)=1`, `[200,300)=2` and the
region `[50,250)`, `process_bigwig` with `op=sum` reports 50: the part of the region after the
gap is never counted. -/
theorem process_bigwig_sparse_sum :
    (process_bigwig_contig [⟨0, 100, 1⟩, ⟨200, 300, 2⟩] [⟨50, 250, 0, 0⟩] Op.csum (-1) false
        0).map (fun st => (st.printed, st.annotated_auc))
      = some ([(50, 250, 50)], 50) := by
  decide

theorem iterate_min_const (v : ℚ) (n : Nat) (m : ℚ) :
    (fun m => if v < m then v else m)^[n + 1] m = if v < m then v else m := by
  induction n generalizing m with
  | zero => rfl
  | succ n ih =>
    rw [Function.iterate_succ_apply, ih]
    by_cases h : v < m
    · simp [h]
    · simp [h]

/-- C11 (evaluation at the failing inputs): with `op=min`, the region `[10,20)` lying inside the
single interval `[0,100)` of value `v` is reported as `v` when `v < 61` and as 61 otherwise: the
accumulator `min` starts at `MAX_INT`, which is `2 xor 63 = 61`. -/
theorem process_bigwig_min_single (v : Int) :
    (process_bigwig_contig [⟨0, 100, v⟩] [⟨10, 20, 0, 0⟩] Op.cmin (-1) false 0).map
        (fun st => st.printed)
      = some [(10, 20, ((if v < 61 then v else 61 : Int) : ℚ))] := by
  have h := iterate_min_const (v : ℚ) 9 61
  have h61 : ((MAX_INT : Int) : ℚ) = 61 := by decide
  have hlt : ((v : ℚ) < 61) ↔ v < 61 := by
    have : ((61 : Int) : ℚ) = 61 := by norm_num
    rw [← this, Int.cast_lt]
  simp only [process_bigwig_contig, process_regions, back_up, scan_intervals, accumulate,
    region_value, h61]
  simp
  simp only [scan_intervals, accumulate]
  norm_num
  have h10 : Int.toNat 10 = 9 + 1 := rfl
  rw [h10, h]
  by_cases hv : v < 61
  · rw [if_pos (hlt.mpr hv), if_pos hv]
  · rw [if_neg (fun h => hv (hlt.mp h)), if_neg hv]

set_option maxRecDepth 8000 in
/-- With `op=min` the input of scenario S5 (intervals `[0,100)=1` and `[200,300)=2`, region
`[50,250)`) is reported as 1; with the values 5 and 2 the same region is reported as 5: the
interval after the gap is not visited. -/
theorem process_bigwig_min_sparse :
    (process_bigwig_contig [⟨0, 100, 1⟩, ⟨200, 300, 2⟩] [⟨50, 250, 0, 0⟩] Op.cmin (-1) false
        0).map (fun st => st.printed) = some [(50, 250, 1)]
      ∧ (process_bigwig_contig [⟨0, 100, 5⟩, ⟨200, 300, 2⟩] [⟨50, 250, 0, 0⟩] Op.cmin (-1) false
        0).map (fun st => st.printed) = some [(50, 250, 5)] := by
  decide

set_option maxRecDepth 100000 in
/-- C12 (evaluation at the failing input): over the single interval `[0,100)=1`, the region
`[50,150)` alone is reported as 50 and leaves the cursor `last_j` at 1, the number of intervals;
the region `[10,20)` alone is reported as 10; for the list of the two, in this order, the
back-up loop of the second region reads `intervals->start[1]`, outside the array, and the
computation has no result. -/
theorem process_bigwig_after_last_interval :
    (process_bigwig_contig [⟨0, 100, 1⟩] [⟨50, 150, 0, 0⟩] Op.csum (-1) false 0).map
        (fun st => (st.printed, st.last_j)) = some ([(50, 150, 50)], 1)
      ∧ (process_bigwig_contig [⟨0, 100, 1⟩] [⟨10, 20, 0, 0⟩] Op.csum (-1) false 0).map
        (fun st => st.printed) = some [(10, 20, 10)]
      ∧ process_bigwig_contig [⟨0, 100, 1⟩] [⟨50, 150, 0, 0⟩, ⟨10, 20, 0, 0⟩] Op.csum (-1) false 0
        = none := by
  decide

set_option maxRecDepth 100000 in
/-- C38: over the single interval `[10,20)`, the region `[5,15)` starts before the interval:
the back-up loop takes the cursor from 0 to -1 and reads `intervals->start[-1]`; over the
single interval `[0,10)`, the region `[5,15)` runs past the interval and leaves the cursor at
1, the number of intervals, and the back-up loop of the region `[20,25)` that follows reads
`intervals->start[1]`.  Both reads are outside the array and the computation has no result. -/
theorem process_bigwig_cursor_out_of_range :
    back_up [⟨10, 20, 1⟩] 5 0 = none
      ∧ process_bigwig_contig [⟨10, 20, 1⟩] [⟨5, 15, 0, 0⟩] Op.csum (-1) false 0 = none
      ∧ (process_bigwig_contig [⟨0, 10, 1⟩] [⟨5, 15, 0, 0⟩] Op.csum (-1) false 0).map
          (fun st => st.last_j) = some 1
      ∧ back_up [⟨0, 10, 1⟩] 20 1 = none
      ∧ process_bigwig_contig [⟨0, 10, 1⟩] [⟨5, 15, 0, 0⟩, ⟨20, 25, 0, 0⟩] Op.csum (-1) false 0
        = none := by
  decide

/-! ## The sum of a region over contiguous intervals -/

theorem double_sum_append (s : ℚ) (a b : List ℚ) :
    double_sum s (a ++ b) = double_sum (double_sum s a) b := by
  simp only [double_sum, List.foldl_append]

theorem iterate_double_add (v : ℚ) (n : Nat) (s : ℚ) :
    (fun s => double_add s v)^[n] s = double_sum s (List.replicate n v) := by
  induction n generalizing s with
  | zero => rfl
  | succ n ih =>
    rw [Function.iterate_succ_apply, ih]
    rfl

theorem accumulate_sum (v : ℚ) (n : Nat) (acc : BWAcc) :
    (accumulate Op.csum v n acc).sum = double_sum acc.sum (List.replicate n v)
      ∧ (accumulate Op.cmean v n acc).sum = double_sum acc.sum (List.replicate n v) := by
  simp only [accumulate, iterate_double_add, and_self]

theorem bases_values_add (ivs : List Interval) (start : Int) (a b : Nat) :
    bases_values ivs start (a + b)
      = bases_values ivs start a ++ bases_values ivs (start + a) b := by
  simp only [bases_values, List.range_add, List.map_append, List.map_map]
  congr 1
  apply List.map_congr_left
  intro k _
  simp only [Function.comp, Nat.cast_add, add_assoc]

theorem bases_values_congr (ivs1 ivs2 : List Interval) (start : Int) (n : Nat)
    (h : ∀ b, start ≤ b → b < start + n → interval_value_at ivs1 b = interval_value_at ivs2 b) :
    bases_values ivs1 start n = bases_values ivs2 start n := by
  simp only [bases_values]
  apply List.map_congr_left
  intro k hk
  have := List.mem_range.mp hk
  apply h <;> omega

theorem bases_values_const (ivs : List Interval) (start : Int) (n : Nat) (v : ℚ)
    (h : ∀ b, start ≤ b → b < start + n → interval_value_at ivs b = v) :
    bases_values ivs start n = List.replicate n v := by
  apply List.ext_getElem
  · simp [bases_values]
  · intro i h1 h2
    simp only [bases_values, List.length_map, List.length_range] at h1
    simp only [bases_values, List.getElem_map, List.getElem_range, List.getElem_replicate]
    apply h <;> omega

theorem interval_value_at_cons_in (iv : Interval) (rest : List Interval) (b : Int)
    (h1 : (iv.start : Int) ≤ b) (h2 : b < iv.stop) :
    interval_value_at (iv :: rest) b = iv.value := by
  simp only [interval_value_at, List.find?_cons, h1, h2, and_self, decide_True]

theorem interval_value_at_cons_out (iv : Interval) (rest : List Interval) (b : Int)
    (h : ¬ ((iv.start : Int) ≤ b ∧ b < iv.stop)) :
    interval_value_at (iv :: rest) b = interval_value_at rest b := by
  simp only [interval_value_at, List.find?_cons, h, decide_False]

/-- The loop over the intervals adds, for every base from `start` up to `stop`, the value of
the interval that contains the base, when the intervals are contiguous, the first one starts
at or before `start`, and the last one ends at or after `stop`. -/
theorem scan_intervals_sum (op : Op) (hop : op = Op.csum ∨ op = Op.cmean) (stop : Int) :
    ∀ (ivs : List Interval) (j : Nat) (start : Int) (acc : BWAcc), contiguous ivs →
      (∀ first, ivs.head? = some first → (first.start : Int) ≤ start) →
      (stop ≤ start ∨ ∃ last, ivs.getLast? = some last ∧ stop ≤ (last.stop : Int)) →
      (scan_intervals op stop ivs j start acc).2.sum
        = double_sum acc.sum (bases_values ivs start (stop - start).toNat) := by
  have hacc : ∀ v n acc, (accumulate op v n acc).sum
      = double_sum acc.sum (List.replicate n v) := by
    intro v n acc
    rcases hop with h | h <;> subst h
    · exact (accumulate_sum v n acc).1
    · exact (accumulate_sum v n acc).2
  intro ivs
  induction ivs with
  | nil =>
    intro j start acc _ _ hl
    rcases hl with hl | ⟨last, hl, _⟩
    · have : (stop - start).toNat = 0 := by omega
      simp [scan_intervals, this, bases_values, double_sum]
    · simp at hl
  | cons iv rest ih =>
    intro j start acc hc hf hl
    have hfs : (iv.start : Int) ≤ start := hf iv rfl
    have hcr : contiguous rest := by
      cases rest with
      | nil => trivial
      | cons b r => exact hc.2
    have hhead : ∀ first, rest.head? = some first → (first.start : Int) = iv.stop := by
      intro first hfirst
      cases rest with
      | nil => simp at hfirst
      | cons b r =>
        simp only [List.head?_cons, Option.some.injEq] at hfirst
        subst hfirst
        have := hc.1
        omega
    have hlast : ∀ s2 : Int, start ≤ s2 → (iv.stop : Int) < stop →
        (stop ≤ s2 ∨ ∃ last, rest.getLast? = some last ∧ stop ≤ (last.stop : Int)) := by
      intro s2 _ hlt
      rcases hl with hl | ⟨last, hl, hs⟩
      · left
        omega
      · cases rest with
        | nil =>
          simp only [List.getLast?_singleton, Option.some.injEq] at hl
          subst hl
          exfalso
          omega
        | cons b r =>
          right
          refine ⟨last, ?_, hs⟩
          rw [List.getLast?_cons_cons] at hl
          exact hl
    simp only [scan_intervals]
    by_cases hin : start < iv.stop
    · rw [if_pos ⟨hfs, hin⟩]
      by_cases hs : stop ≤ start
      · have hn : (stop - start).toNat = 0 := by omega
        have hk : ¬ stop > (iv.stop : Int) := by omega
        have hns : ¬ start < stop := by omega
        simp only [hk, if_false, hn, hns, ge_iff_le, hs, if_true]
        rw [hacc]
        simp [bases_values, double_sum]
      · by_cases hk : stop > (iv.stop : Int)
        · simp only [hk, if_true, hin, ge_iff_le]
          rw [if_neg (by omega)]
          rw [ih (j + 1) iv.stop _ hcr (fun f hf2 => le_of_eq (hhead f hf2))
            (hlast iv.stop (le_of_lt hin) hk), hacc]
          have e : (stop - start).toNat
              = ((iv.stop : Int) - start).toNat + (stop - (iv.stop : Int)).toNat := by omega
          rw [e, bases_values_add, double_sum_append]
          have e2 : start + ((((iv.stop : Int) - start).toNat : Nat) : Int) = iv.stop := by omega
          rw [e2]
          rw [bases_values_const (iv :: rest) start _ iv.value]
          · rw [bases_values_congr (iv :: rest) rest iv.stop]
            intro b hb1 _
            apply interval_value_at_cons_out
            omega
          · intro b hb1 hb2
            apply interval_value_at_cons_in <;> omega
        · simp only [hk, if_false]
          rw [if_pos (by omega)]
          have hlt : start < stop := by omega
          simp only [hlt, if_true, ge_iff_le, le_refl]
          rw [hacc, bases_values_const (iv :: rest) start _ iv.value]
          intro b hb1 hb2
          apply interval_value_at_cons_in <;> omega
    · rw [if_neg (by omega)]
      by_cases hs : stop ≤ start
      · have hn : (stop - start).toNat = 0 := by omega
        rw [ih (j + 1) start acc hcr
          (fun f hf2 => by have := hhead f hf2; omega) (Or.inl hs), hn]
        rfl
      · rw [ih (j + 1) start acc hcr (fun f hf2 => by have := hhead f hf2; omega)
          (hlast start le_rfl (by omega))]
        congr 1
        apply (bases_values_congr (iv :: rest) rest start _ _).symm
        intro b hb1 _
        apply interval_value_at_cons_out
        omega

theorem process_bigwig_contig_single (intervals : List Interval) (r : Region ℚ)
    (first last : Interval) (op : Op) (hop : op = Op.csum ∨ op = Op.cmean) (koi : Int)
    (auc : ℚ) (hc : contiguous intervals) (hf : intervals.head? = some first)
    (hl : intervals.getLast? = some last) (h1 : (first.start : Int) ≤ r.start)
    (h2 : r.stop ≤ (last.stop : Int)) :
    ∃ j, process_bigwig_contig intervals [r] op koi false auc
      = some
        { last_j := j,
          annotations :=
            if koi = -1 then [r]
            else [r.store koi (region_value op ⟨double_sum 0 (region_values intervals r.start r.stop), 0, 0⟩
              r.start r.stop)],
          printed :=
            if koi = -1 then
              [(r.start, r.stop,
                region_value op ⟨double_sum 0 (region_values intervals r.start r.stop), 0, 0⟩ r.start r.stop)]
            else [],
          local_vals := [],
          annotated_auc :=
            if op = Op.csum then
              double_add auc (double_sum 0 (region_values intervals r.start r.stop))
            else auc } := by
  cases intervals with
  | nil => simp at hf
  | cons a tl =>
    simp only [List.head?_cons, Option.some.injEq] at hf
    subst hf
    have hs := scan_intervals_sum op hop r.stop (a :: tl) 0 r.start ⟨0, MAX_INT, 0⟩ hc
      (fun f hf2 => by
        simp only [List.head?_cons, Option.some.injEq] at hf2
        subst hf2
        exact h1)
      (Or.inr ⟨last, hl, h2⟩)
    have hb : back_up (a :: tl) r.start 0 = some 0 := by
      simp only [back_up, List.getElem?_cons_zero, if_neg (not_lt.mpr h1)]
    rcases hsc : scan_intervals op r.stop (a :: tl) 0 r.start ⟨0, MAX_INT, 0⟩ with ⟨j, acc⟩
    rw [hsc] at hs
    have hs2 : acc.sum = double_sum 0 (region_values (a :: tl) r.start r.stop) := hs
    have hv : region_value op acc r.start r.stop
        = region_value op ⟨double_sum 0 (region_values (a :: tl) r.start r.stop), 0, 0⟩
          r.start r.stop := by
      rcases hop with h | h <;> subst h <;> simp only [region_value, hs2]
    simp only [process_bigwig_contig, process_regions, hb, List.drop_zero, hsc, hv,
      Bool.false_eq_true, if_false, List.nil_append]
    by_cases hk : koi = -1
    · simp only [hk, if_true, hs2]
      split_ifs <;> exact ⟨_, rfl⟩
    · simp only [hk, if_false, hs2]
      split_ifs <;> exact ⟨_, rfl⟩

/-! ## Sums of type double that are exact -/

theorem bit_length_zero (fuel : Nat) : bit_length fuel 0 = 0 := by
  cases fuel <;> simp [bit_length]

theorem bit_length_spec (fuel : Nat) :
    ∀ n : Nat, n < 2 ^ fuel → 0 < n →
      2 ^ bit_length fuel n ≤ 2 * n ∧ n < 2 ^ bit_length fuel n := by
  induction fuel with
  | zero => intro n h1 h2; simp at h1; omega
  | succ fuel ih =>
    intro n h1 h2
    have hn : n ≠ 0 := by omega
    simp only [bit_length, hn, if_false]
    by_cases h : n / 2 = 0
    · have h1 : n = 1 := by omega
      subst h1
      simp [bit_length_zero]
    · have hlt : n / 2 < 2 ^ fuel := by
        rw [pow_succ] at h1
        omega
      obtain ⟨g1, g2⟩ := ih (n / 2) hlt (by omega)
      rw [pow_succ]
      constructor <;> omega

theorem mkRat_mul_pow (z : Int) (t : Nat) : mkRat (z * ((2 ^ t : Nat) : Int)) (2 ^ t) = (z : ℚ) := by
  have h : (2 ^ t : Nat) ≠ 0 := by positivity
  rw [Rat.mkRat_eq_div]
  push_cast
  field_simp

/-- An integer of at most 53 binary digits, or 2^53, is a `double`. -/
theorem double_of_frac_int (z : Int) (h : z.natAbs ≤ 2 ^ 53) : double_of_frac z 1 = (z : ℚ) := by
  by_cases hz : z = 0
  · subst hz
    simp [double_of_frac]
  by_cases h53 : z.natAbs = 2 ^ 53
  · rcases Int.natAbs_eq z with h1 | h1
    · rw [h1, h53]
      decide
    · rw [h1, h53]
      decide
  · have ha : z.natAbs < 2 ^ 53 := lt_of_le_of_ne h h53
    have hpos : 0 < z.natAbs := Int.natAbs_pos.mpr hz
    obtain ⟨hb1, hb2⟩ := bit_length_spec z.natAbs z.natAbs (Nat.lt_two_pow _) hpos
    have hone : bit_length 1 1 = 1 := rfl
    generalize hbl : bit_length z.natAbs z.natAbs = bl at hb1 hb2
    have hle : bl ≤ 53 := by
      by_contra hcon
      have : 2 ^ 54 ≤ 2 ^ bl := Nat.pow_le_pow_right (by norm_num) (by omega)
      omega
    obtain ⟨t, ht⟩ : ∃ t : Nat, bl + t = 53 := ⟨53 - bl, by omega⟩
    have hk0 : ((bl : Int) - ((1 : Nat) : Int) - 52) = -(t : Int) := by omega
    have hX : 2 ^ bl * 2 ^ t = 2 ^ 53 := by rw [← pow_add, ht]
    have hge : 2 ^ 52 ≤ z.natAbs * 2 ^ t := by
      have := Nat.mul_le_mul_right (2 ^ t) hb1
      rw [hX, Nat.mul_assoc] at this
      omega
    unfold double_of_frac
    rw [if_neg (by simp [hz])]
    simp only [hbl, hone, hk0, neg_neg, Int.toNat_ofNat]
    have hneg : (-(t : Int)).toNat = 0 := by omega
    simp only [hneg, pow_zero, mul_one, one_mul]
    have hnk : ¬ z.natAbs * 2 ^ t < 2 ^ 52 := by omega
    simp only [hnk, if_false, neg_neg, Int.toNat_ofNat, hneg, pow_zero, mul_one, one_mul,
      Nat.div_one, Nat.mod_one]
    rw [if_neg (by omega)]
    have hs : z.sign * ((z.natAbs * 2 ^ t : Nat) : Int) = z * ((2 ^ t : Nat) : Int) := by
      rw [Nat.cast_mul, ← mul_assoc, Int.sign_mul_natAbs]
    rw [hs]
    exact mkRat_mul_pow z t

theorem double_add_int (a b : Int) (h : (a + b).natAbs ≤ 2 ^ 53) :
    double_add (a : ℚ) (b : ℚ) = ((a + b : Int) : ℚ) := by
  simp only [double_add, Rat.intCast_num, Rat.intCast_den, Nat.cast_one, mul_one]
  exact double_of_frac_int (a + b) h

theorem double_sum_int (zs : List Int) :
    ∀ s : Int, s.natAbs + (zs.map Int.natAbs).sum ≤ 2 ^ 53 →
      double_sum (s : ℚ) (zs.map (fun (z : Int) => (z : ℚ))) = ((s + zs.sum : Int) : ℚ) := by
  induction zs with
  | nil => intro s _; simp [double_sum]
  | cons z zs ih =>
    intro s h
    simp only [List.map_cons, List.sum_cons] at h
    have h1 : (s + z).natAbs ≤ s.natAbs + z.natAbs := Int.natAbs_add_le s z
    have e : double_sum (s : ℚ) ((z :: zs).map (fun (z : Int) => (z : ℚ)))
        = double_sum (double_add (s : ℚ) (z : ℚ)) (zs.map (fun (z : Int) => (z : ℚ))) := rfl
    rw [e, double_add_int s z (by omega), ih (s + z) (by omega)]
    simp only [List.sum_cons, add_assoc]

theorem interval_value_at_int (intervals : List Interval)
    (h : ∀ iv ∈ intervals, ∃ z : Int, iv.value = z) (b : Int) :
    ∃ z : Int, interval_value_at intervals b = z := by
  simp only [interval_value_at]
  cases hfind : intervals.find? (fun iv => decide ((iv.start : Int) ≤ b ∧ b < iv.stop)) with
  | none => exact ⟨0, by simp⟩
  | some iv => exact h iv (List.mem_of_find?_eq_some hfind)

theorem int_values_of_list (vs : List ℚ) (h : ∀ v ∈ vs, ∃ z : Int, v = z) :
    ∃ zs : List Int, vs = zs.map (fun (z : Int) => (z : ℚ)) := by
  induction vs with
  | nil => exact ⟨[], rfl⟩
  | cons v vs ih =>
    obtain ⟨z, hz⟩ := h v (by simp)
    obtain ⟨zs, hzs⟩ := ih (fun w hw => h w (by simp [hw]))
    exact ⟨z :: zs, by simp [hz, hzs]⟩

theorem abs_sum_int (zs : List Int) :
    ((zs.map (fun (z : Int) => (z : ℚ))).map (fun v => |v|)).sum = (((zs.map Int.natAbs).sum : Nat) : ℚ) := by
  induction zs with
  | nil => simp
  | cons z zs ih =>
    simp only [List.map_cons, List.sum_cons, ih, Nat.cast_add]
    congr 1
    rw [← Int.cast_abs, Int.abs_eq_natAbs, Int.cast_natCast]

theorem sum_int (zs : List Int) :
    (zs.map (fun (z : Int) => (z : ℚ))).sum = ((zs.sum : Int) : ℚ) := by
  induction zs with
  | nil => simp
  | cons z zs ih => simp only [List.map_cons, List.sum_cons, ih, Int.cast_add]

/-- Integer values whose absolute values add up to at most 2^53 are added without rounding. -/
theorem double_sum_exact (vs : List ℚ) (h : ∀ v ∈ vs, ∃ z : Int, v = z)
    (hb : (vs.map (fun v => |v|)).sum ≤ 2 ^ 53) : double_sum 0 vs = vs.sum := by
  obtain ⟨zs, rfl⟩ := int_values_of_list vs h
  rw [abs_sum_int] at hb
  have hb2 : (zs.map Int.natAbs).sum ≤ 2 ^ 53 := by exact_mod_cast hb
  have := double_sum_int zs 0 (by simpa using hb2)
  rw [sum_int]
  simpa using this

/-- C39 (as amended): for one region and contiguous intervals of which the first starts at or
before the region and the last ends at or after it, `process_bigwig` prints for the operation
`sum` the values of the bases of the region, each the value of the interval that contains the
base, added one by one in type `double` in ascending order of the bases, and for the operation
`mean` the quotient in type `double` of that sum by the length of the region; with
`--keep-order` the same values are stored in the slot of the region, and `annotated_auc` grows
by the sum, in type `double`.  The sum is the exact sum of the values when the values are
integers whose absolute values add up to at most 2^53 over the region. -/
theorem process_bigwig_contiguous (intervals : List Interval) (r : Region ℚ)
    (first last : Interval) (auc : ℚ) (hc : contiguous intervals)
    (hf : intervals.head? = some first) (hl : intervals.getLast? = some last)
    (h1 : (first.start : Int) ≤ r.start) (h2 : r.stop ≤ (last.stop : Int))
    (h3 : r.start < r.stop) :
    (process_bigwig_contig intervals [r] Op.csum (-1) false auc).map (fun st => st.printed)
        = some [(r.start, r.stop, double_sum 0 (region_values intervals r.start r.stop))]
      ∧ (process_bigwig_contig intervals [r] Op.cmean (-1) false auc).map (fun st => st.printed)
        = some [(r.start, r.stop,
            double_div (double_sum 0 (region_values intervals r.start r.stop))
              ((r.stop - r.start : Int) : ℚ))]
      ∧ (process_bigwig_contig intervals [r] Op.csum 2 false auc).map
          (fun st => st.annotations)
        = some [{ r with sum := (double_sum 0 (region_values intervals r.start r.stop)) }]
      ∧ (process_bigwig_contig intervals [r] Op.cmean 2 false auc).map
          (fun st => st.annotations)
        = some [{ r with sum :=
            (double_div (double_sum 0 (region_values intervals r.start r.stop))
              ((r.stop - r.start : Int) : ℚ)) }]
      ∧ (process_bigwig_contig intervals [r] Op.csum (-1) false auc).map
          (fun st => st.annotated_auc)
        = some (double_add auc (double_sum 0 (region_values intervals r.start r.stop)))
      ∧ ((∀ iv ∈ intervals, ∃ z : Int, iv.value = z) →
          ((region_values intervals r.start r.stop).map (fun v => |v|)).sum ≤ 2 ^ 53 →
          double_sum 0 (region_values intervals r.start r.stop)
            = region_sum intervals r.start r.stop) := by
  have _h3 := h3
  obtain ⟨j1, e1⟩ := process_bigwig_contig_single intervals r first last Op.csum
    (Or.inl rfl) (-1) auc hc hf hl h1 h2
  obtain ⟨j2, e2⟩ := process_bigwig_contig_single intervals r first last Op.cmean
    (Or.inr rfl) (-1) auc hc hf hl h1 h2
  obtain ⟨j3, e3⟩ := process_bigwig_contig_single intervals r first last Op.csum
    (Or.inl rfl) 2 auc hc hf hl h1 h2
  obtain ⟨j4, e4⟩ := process_bigwig_contig_single intervals r first last Op.cmean
    (Or.inr rfl) 2 auc hc hf hl h1 h2
  rw [e1, e2, e3, e4]
  refine ⟨rfl, rfl, rfl, rfl, rfl, ?_⟩
  intro hint hb
  apply double_sum_exact _ _ hb
  intro v hv
  simp only [region_values, bases_values, List.mem_map] at hv
  obtain ⟨k, _, hk⟩ := hv
  rw [← hk]
  exact interval_value_at_int intervals hint _

set_option maxRecDepth 100000 in
theorem process_bigwig_contiguous_witness :
    contiguous three_intervals ∧ (0 : Int) ≤ 5 ∧ (35 : Int) ≤ 40 ∧ (5 : Int) < 35
      ∧ double_sum 0 (region_values three_intervals 5 35) = 95
      ∧ (process_bigwig_contig three_intervals [⟨5, 35, 0, 0⟩] Op.csum (-1) false 0).map
          (fun st => st.printed)
        = some [(5, 35, double_sum 0 (region_values three_intervals 5 35))]
      ∧ contiguous half_intervals
      ∧ double_sum 0 (region_values half_intervals 4 12) = mkRat 7 2
      ∧ (process_bigwig_contig half_intervals [⟨4, 12, 0, 0⟩] Op.csum (-1) false 0).map
          (fun st => st.printed)
        = some [(4, 12, double_sum 0 (region_values half_intervals 4 12))] :=
  ⟨⟨rfl, rfl, trivial⟩, by decide, by decide, by decide, by decide,
    (process_bigwig_contiguous three_intervals ⟨5, 35, 0, 0⟩ ⟨0, 10, 2⟩ ⟨30, 40, 5⟩ 0
      ⟨rfl, rfl, trivial⟩ rfl rfl (by decide) (by decide) (by decide)).1,
    ⟨rfl, trivial⟩, by decide,
    (process_bigwig_contiguous half_intervals ⟨4, 12, 0, 0⟩ ⟨0, 10, mkRat 1 2⟩
      ⟨10, 20, mkRat 1 4⟩ 0 ⟨rfl, trivial⟩ rfl rfl (by decide) (by decide) (by decide)).1⟩

set_option maxRecDepth 100000 in
/-- C39 (counterexample): over the contiguous intervals of the values 2^53 on `[0,1)` and 1 on
`[1,2)`, the region `[0,2)` is reported with the sum 2^53, where the sum of the values of its
two bases is 2^53 + 1; over the intervals of the values 2, 3 and 5 the region `[5,35)`, whose
values add up to 95, is reported with a mean that is the `double` next to 95/30 and not
95/30. -/
theorem process_bigwig_sum_rounded :
    contiguous two_intervals
      ∧ (process_bigwig_contig two_intervals [⟨0, 2, 0, 0⟩] Op.csum (-1) false 0).map
          (fun st => st.printed) = some [(0, 2, 9007199254740992)]
      ∧ region_sum two_intervals 0 2 = 9007199254740993
      ∧ (process_bigwig_contig three_intervals [⟨5, 35, 0, 0⟩] Op.cmean (-1) false 0).map
          (fun st => st.printed)
        = some [(5, 35, mkRat 7130699410003285 2251799813685248)]
      ∧ region_sum three_intervals 5 35 = 95
      ∧ mkRat 7130699410003285 2251799813685248 ≠ mkRat 95 30 := by
  refine ⟨⟨rfl, trivial⟩, by decide, ?_, by decide, ?_, by decide⟩
  · simp [region_sum, region_values, bases_values, interval_value_at, two_intervals,
      List.range_succ]
    norm_num
  · simp [region_sum, region_values, bases_values, interval_value_at, three_intervals,
      List.range_succ]
    norm_num

/-! ## A worker over several BigWig files: the values of a file -/

set_option maxRecDepth 100000 in
/-- C34: a worker with BED-order output that processes a file whose contig `chr1` has no
intervals writes for the region `chr1:10-20` of that file the value left by the file it
processed before (50 after a file with the value 5, 70 after a file with the value 7), not 0;
when the file is the first one of the worker, `print_local` reads through the null pointer
`(*store_local)[c]`.  A file whose contig has intervals gets its own value. -/
theorem process_bigwig_worker_stale_values :
    process_bigwig_worker [bw_five, bw_empty_contig] one_region ["chr1"] 2 Op.csum
        = some [[("chr1", 10, 20, 50)], [("chr1", 10, 20, 50)]]
      ∧ process_bigwig_worker [bw_seven, bw_empty_contig] one_region ["chr1"] 2 Op.csum
        = some [[("chr1", 10, 20, 70)], [("chr1", 10, 20, 70)]]
      ∧ process_bigwig_worker [bw_empty_contig] one_region ["chr1"] 2 Op.csum = none
      ∧ process_bigwig_worker [bw_seven, bw_five] one_region ["chr1"] 2 Op.csum
        = some [[("chr1", 10, 20, 70)], [("chr1", 10, 20, 50)]] :=
  ⟨by decide, by decide, by decide, by decide⟩

end Megadepth
